import Mathlib

/-!
# Bi-criteria route search (`backend/algorithm/multi-objective-astar.cpp`)

A shallow embedding of the backend `solve` and of the functions it calls, followed by
theorems about them.

Conventions of the embedding.

* `double` values are rationals (`ℚ`): arithmetic is exact.  A `double` that may hold
  `+infinity` is an `Option ℚ` whose `none` is the infinity.
* `int` values are `Int`; a `std::vector` is a `List`, read with `nth` where the index is
  kept in range by the caller and with `read2` where the source offers no such guarantee.
* A loop of the source that has no iteration bound takes a `fuel : Nat`; running out of
  fuel is reported as `Fault.no_fuel`, the read outside a vector that `reconstruct_path`
  can be led to as `Fault.out_of_range`.
* `std::priority_queue` leaves open which of several items of equal priority is on top;
  the function `tie` stands for that choice.
* The function-local `static` scales `T_ref` and `D_ref` of `norm_score` outlive a call of
  `solve`; they are the `refs` component threaded through the search and returned.
* The library function `hypot` returns a `double` near the exact hypotenuse; which one is
  up to the platform.  It is the field `hypot` of the search context, a function of which
  nothing is assumed; `HypotSpec` is the accuracy that statements about particular runs ask
  of it, and `hypot_sq` is the instance used to evaluate such runs.
* The search binds `const Label& Lcur` to an element of `labels[u]` and reads it in every
  pass of the loop over `g[u]`.  A `push_back` into `labels[u]` during that loop, which an
  adjacency entry from `u` to `u` causes, may move the elements of the vector, and the
  language does not say when it does: the search state records such a push in `lcur_moved`
  and a later read through `Lcur` in `stale_read`, and `solve` reports
  `Fault.stale_reference` for a run with such a read.
-/

namespace MOAStar

/-! ## Data model -/

/-- Adjacency entry `struct Edge`. -/
structure Edge where
  to_ : Int
  time_cost : ℚ
deriving DecidableEq, Repr

/-- Search label `struct Label`. -/
structure Label where
  time : ℚ := 0
  dark : ℚ := 0
  node : Int := -1
  prev_node : Int := -1
  prev_label_idx : Int := -1
deriving DecidableEq, Repr

/-- Open-set entry `struct PQItem`. -/
structure PQItem where
  f_time : ℚ
  f_dark : ℚ
  node : Int
  label_idx : Int
deriving DecidableEq, Repr

/-- Result record `struct Path` of the header. -/
structure Path where
  name : String
  idx : Int
  path : List Int
  time : ℚ
  dark : ℚ
deriving DecidableEq, Repr

/-- What the embedding reports instead of a value. -/
inductive Fault where
  | out_of_range
  | no_fuel
  | stale_reference
deriving DecidableEq, Repr

/-- The function-local statics `T_ref`, `D_ref`; `none` before their first initialisation. -/
abbrev Refs := Option (ℚ × ℚ)

/-- Vector read `v[i]` at an index the caller keeps in range (`d` is never used then). -/
def nth {α : Type} (v : List α) (i : Int) (d : α) : α := v.getD i.toNat d

/-- Vector write `v[i] = x`. -/
def put {α : Type} (v : List α) (i : Int) (x : α) : List α := v.set i.toNat x

/-- Unguarded read `labels[node][idx]`. -/
def read2 (labels : List (List Label)) (node idx : Int) : Option Label :=
  if 0 ≤ node ∧ 0 ≤ idx then
    match labels[node.toNat]? with
    | none => none
    | some row => row[idx.toNat]?
  else none

/-- The tolerance `1e-12`. -/
def EPS : ℚ := 1 / 1000000000000

/-- The constant `1e9`. -/
def BIG : ℚ := 1000000000

/-- `x > y` for a possibly infinite `x`. -/
def inf_gt (x : Option ℚ) (y : ℚ) : Bool :=
  match x with
  | none => true
  | some a => decide (a > y)

/-! ## `dominates` -/

/-- Pareto dominance with tolerance, `dominates`. -/
def dominates (a b : Label) : Bool :=
  (decide (a.time ≤ b.time + EPS) && decide (a.dark ≤ b.dark + EPS)) &&
    (decide (a.time + EPS < b.time) || decide (a.dark + EPS < b.dark))

/-! ## `reconstruct_path` -/

/-- The `while (node != -1 && idx != -1)` loop of `reconstruct_path`; `path` is in push
order. -/
def reconstruct_walk (labels : List (List Label)) : Nat → Int → Int → List Int →
    Except Fault (List Int)
  | 0, node, idx, path =>
    if node ≠ -1 ∧ idx ≠ -1 then .error .no_fuel else .ok path
  | fuel + 1, node, idx, path =>
    if node ≠ -1 ∧ idx ≠ -1 then
      match read2 labels node idx with
      | none => .error .out_of_range
      | some L => reconstruct_walk labels fuel L.prev_node L.prev_label_idx (path ++ [node])
    else .ok path

/-- Function `reconstruct_path`. -/
def reconstruct_path (fuel : Nat) (t label_idx : Int) (labels : List (List Label)) :
    Except Fault (List Int) :=
  match reconstruct_walk labels fuel t label_idx [] with
  | .error f => .error f
  | .ok path => .ok path.reverse

/-! ## `reverse_dijkstra_lb` -/

/-- Order of `pair<double,int>` used by `greater<P>`: `a < b`. -/
def pair_lt (a b : ℚ × Int) : Bool :=
  decide (a.1 < b.1) || (decide (a.1 = b.1) && decide (a.2 < b.2))

/-- Top of the min-heap of pairs. -/
def pq_top : List (ℚ × Int) → Option (ℚ × Int)
  | [] => none
  | x :: xs => some (xs.foldl (fun m y => if pair_lt y m then y else m) x)

/-- The test `d > dist[u] + 1e-12` on a possibly infinite `dist[u]`. -/
def rd_stale (d : ℚ) (du : Option ℚ) : Bool :=
  match du with
  | none => false
  | some x => decide (d > x + EPS)

/-- Body of `for (const auto& e : g[u])` in `reverse_dijkstra_lb`. -/
def rd_relax (weight : Int → Int → Edge → ℚ) (u : Int)
    (st : List (Option ℚ) × List (ℚ × Int)) (e : Edge) : List (Option ℚ) × List (ℚ × Int) :=
  let v := e.to_
  let w := weight u v e
  match nth st.1 u none with
  | none => st
  | some du =>
    if inf_gt (nth st.1 v none) (du + w + EPS) then
      (put st.1 v (some (du + w)), st.2 ++ [(du + w, v)])
    else st

/-- The `while (!pq.empty())` loop of `reverse_dijkstra_lb`. -/
def rd_loop (g : List (List Edge)) (weight : Int → Int → Edge → ℚ) :
    Nat → List (Option ℚ) → List (ℚ × Int) → Except Fault (List (Option ℚ))
  | 0, dist, pq =>
    match pq_top pq with
    | none => .ok dist
    | some _ => .error .no_fuel
  | fuel + 1, dist, pq =>
    match pq_top pq with
    | none => .ok dist
    | some (d, u) =>
      let pq1 := pq.erase (d, u)
      if rd_stale d (nth dist u none) then rd_loop g weight fuel dist pq1
      else
        let r := (nth g u []).foldl (rd_relax weight u) (dist, pq1)
        rd_loop g weight fuel r.1 r.2

/-- Function `reverse_dijkstra_lb`. -/
def reverse_dijkstra_lb (fuel : Nat) (g : List (List Edge)) (t : Int)
    (weight : Int → Int → Edge → ℚ) : Except Fault (List (Option ℚ)) :=
  rd_loop g weight fuel (put (List.replicate g.length none) t (some 0)) [(0, t)]

/-! ## `simple_dijkstra_path` -/

/-- State of `simple_dijkstra_path`: `dist`, `parent`, `visited`. -/
structure SD where
  dist : List ℚ
  parent : List Int
  visited : List Bool
deriving DecidableEq, Repr

/-- The inner `for (int v = 0; v < N; v++)` selecting the closest unvisited node. -/
def sd_select (N : Int) (st : SD) : Int :=
  (List.range N.toNat).foldl
    (fun u (k : Nat) =>
      let v : Int := k
      if !(nth st.visited v false) && (u == -1 || decide (nth st.dist v 0 < nth st.dist u 0))
      then v else u)
    (-1)

/-- Body of `for (const auto& e : g[u])` in `simple_dijkstra_path`. -/
def sd_relax (u : Int) (st : SD) (e : Edge) : SD :=
  let v := e.to_
  let new_dist := nth st.dist u 0 + e.time_cost
  if new_dist < nth st.dist v 0 then
    { st with dist := put st.dist v new_dist, parent := put st.parent v u }
  else st

/-- The `for (int iter = 0; iter < N; iter++)` loop of `simple_dijkstra_path`. -/
def sd_loop (g : List (List Edge)) (t N : Int) : Nat → SD → SD
  | 0, st => st
  | k + 1, st =>
    let u := sd_select N st
    if u == -1 || nth st.dist u 0 == BIG then st
    else
      let st1 := { st with visited := put st.visited u true }
      if u == t then st1
      else sd_loop g t N k ((nth g u []).foldl (sd_relax u) st1)

/-- The `while (current != -1)` loop; `path` is in push order. -/
def sd_walk (parent : List Int) : Nat → Int → List Int → Except Fault (List Int)
  | 0, current, path => if current ≠ -1 then .error .no_fuel else .ok path
  | fuel + 1, current, path =>
    if current ≠ -1 then sd_walk parent fuel (nth parent current (-1)) (path ++ [current])
    else .ok path

/-- Function `simple_dijkstra_path`. -/
def simple_dijkstra_path (fuel : Nat) (g : List (List Edge)) (s t N : Int) :
    Except Fault (List Int) :=
  let st0 : SD :=
    { dist := put (List.replicate N.toNat BIG) s 0
      parent := List.replicate N.toNat (-1)
      visited := List.replicate N.toNat false }
  let st := sd_loop g t N N.toNat st0
  if nth st.dist t 0 < BIG then
    match sd_walk st.parent fuel t [] with
    | .error f => .error f
    | .ok path => .ok path.reverse
  else .ok []

/-! ## `solve`: graph, bounds and search -/

/-- The set `bad_nodes` of flagged nodes, in increasing order. -/
def bad_nodes (N : Int) (crime : List Int) : List Int :=
  ((List.range N.toNat).map Int.ofNat).filter (fun i => nth crime i 0 == 1)

/-- Body of `for (const auto& e : input)`: one input row `[u, v, time]`. -/
def add_edge (bad : List Int) (g : List (List Edge)) (e : List Int) : List (List Edge) :=
  let u := nth e 0 0
  let v := nth e 1 0
  let tcost : ℚ := ((nth e 2 0 : Int) : ℚ)
  if bad.contains u || bad.contains v then g
  else
    let g1 := put g u (nth g u [] ++ [{ to_ := v, time_cost := tcost }])
    put g1 v (nth g1 v [] ++ [{ to_ := u, time_cost := tcost }])

/-- The adjacency structure `g` built by `solve`. -/
def build_graph (N : Int) (crime : List Int) (input : List (List Int)) : List (List Edge) :=
  input.foldl (add_edge (bad_nodes N crime)) (List.replicate N.toNat [])

/-- The reference light level `Lmax`. -/
def compute_Lmax (light : List ℚ) : ℚ :=
  let m := light.foldl (fun acc L => max acc L) 0
  if m ≤ 0 then 1 else m

/-- The derived darkness `max(0.0, Lmax - 0.5 * (light[u] + light[v]))` of a step. -/
def edge_dark (light : List ℚ) (Lmax : ℚ) (u v : Int) : ℚ :=
  max 0 (Lmax - (1 / 2) * (nth light u 0 + nth light v 0))

/-- The clamp `if (!isfinite(lb[i])) lb[i] = 0.0`. -/
def clamp (lb : List (Option ℚ)) : List ℚ := lb.map (fun x => x.getD 0)

/-- What stays fixed during the search; `hypot` is the library function of that name. -/
structure Ctx where
  g : List (List Edge)
  light : List ℚ
  crime : List Int
  s : Int
  t : Int
  Lmax : ℚ
  lb_time : List ℚ
  lb_dark : List ℚ
  hypot : ℚ → ℚ → ℚ

/-- What the search loop updates.  The last two fields follow the reference `Lcur`:
`lcur_moved` tells that `labels[u]` has been pushed into since `Lcur` was bound to one of
its elements, `stale_read` that `Lcur` has been read after such a push. -/
structure Search where
  labels : List (List Label)
  opn : List PQItem
  curr_fastest : List ℚ
  closed : List Bool
  refs : Refs
  lcur_moved : Bool := false
  stale_read : Bool := false
deriving DecidableEq, Repr

/-- The lambda `is_forbidden`. -/
def is_forbidden (c : Ctx) (node : Int) : Bool :=
  if node = c.s ∨ node = c.t then false else nth c.crime node 0 == 1

/-- `PQItem::operator<`. -/
def PQItem.lt (a o : PQItem) : Bool :=
  if a.f_time ≠ o.f_time then decide (a.f_time > o.f_time) else decide (a.f_dark > o.f_dark)

/-- Positions of the open set holding an item that is not `operator<` any other item. -/
def top_positions (opn : List PQItem) : List Nat :=
  (List.range opn.length).filter
    (fun i => opn.all (fun y => !(PQItem.lt (opn.getD i y) y)))

/-- The pair `open.top(); open.pop()`: `none` on an empty open set. -/
def pop_open (tie : List PQItem → Nat) (opn : List PQItem) : Option (PQItem × List PQItem) :=
  match opn with
  | [] => none
  | x :: xs =>
    let ps := top_positions (x :: xs)
    let p := if ps.length ≤ 1 then ps.headD 0 else ps.getD (tie (x :: xs) % ps.length) 0
    some ((x :: xs).getD p x, (x :: xs).eraseIdx p)

/-- Square of the exact hypotenuse of `x` and `y`.  As a value for the field `hypot` of a
search context it orders the pairs as an exact `hypot` would. -/
def hypot_sq (x y : ℚ) : ℚ := x * x + y * y

/-- Value of the statics `T_ref`, `D_ref` once `norm_score` has been entered. -/
def init_refs (c : Ctx) (refs : Refs) : ℚ × ℚ :=
  match refs with
  | some r => r
  | none => (max (1 / 1000000000) (nth c.lb_time c.s 0), max (1 / 1000000000) (nth c.lb_dark c.s 0))

/-- The lambda `norm_score`, with the statics passed in. -/
def norm_score (c : Ctx) (r : ℚ × ℚ) (L : Label) (node : Int) : ℚ :=
  let fT := L.time + nth c.lb_time node 0
  let fD := L.dark + nth c.lb_dark node 0
  let nT := fT / r.1
  let nD := fD / r.2
  c.hypot nT nD

/-- The loop computing `best_time`, `best_dark`, `best_bal` in the cardinality cap. -/
def cap_select (c : Ctx) (r : ℚ × ℚ) (v : Int) (lv : List Label) : Int × Int × Int :=
  (List.range lv.length).foldl
    (fun b (k : Nat) =>
      let i : Int := k
      let bt := if (nth lv i {}).time < (nth lv b.1 {}).time then i else b.1
      let bd := if (nth lv i {}).dark < (nth lv b.2.1 {}).dark then i else b.2.1
      let bb := if norm_score c r (nth lv i {}) v < norm_score c r (nth lv b.2.2 {}) v
        then i else b.2.2
      (bt, bd, bb))
    (0, 0, 0)

/-- The block `if (v != t && labels[v].size() > K)` with `K = 3`. -/
def cap (c : Ctx) (refs : Refs) (v : Int) (lv : List Label) : List Label × Refs :=
  if v ≠ c.t ∧ (lv.length : Int) > 3 then
    let r := init_refs c refs
    let b := cap_select c r v lv
    let capped := [nth lv b.1 {}]
      ++ (if b.2.1 ≠ b.1 then [nth lv b.2.1 {}] else [])
      ++ (if b.2.2 ≠ b.1 ∧ b.2.2 ≠ b.2.1 then [nth lv b.2.2 {}] else [])
    (capped, some r)
  else (lv, refs)

/-- The in-place Pareto pruning after `labels[v].push_back(cand)`: `old` is `labels[v]`
before the push, `cand` sits at `new_idx`, the last position. -/
def pareto_prune (old : List Label) (cand : Label) : List Label :=
  old.filter (fun L => !(dominates cand L)) ++ [cand]

/-- The loop that looks for the index of `cand` after pruning; `none` is `cand_idx == -1`. -/
def find_cand (lv : List Label) (u label_idx : Int) (cand : Label) : Option Nat :=
  lv.findIdx? (fun L =>
    decide (L.prev_node = u) && decide (L.prev_label_idx = label_idx) &&
      decide (|L.time - cand.time| ≤ EPS) && decide (|L.dark - cand.dark| ≤ EPS))

/-- Body of `for (const auto& e : g[u])` in the search; the flag is `true` on `break`.
`Lcur` is the value that the label bound by reference before the loop had at that moment.
The candidate is built from a read through the reference: when `labels[u]` has been pushed
into since the binding (`lcur_moved`), that read is recorded in `stale_read`, and the pass
goes on with the value `Lcur`.  The push `labels[v].push_back(cand)` sets `lcur_moved` when
`v` is `u`. -/
def expand_edge (c : Ctx) (cur : PQItem) (Lcur : Label) (e : Edge) (st0 : Search) :
    Search × Bool :=
  let u := cur.node
  let v := e.to_
  if is_forbidden c v then (st0, false)
  else
    let st : Search := { st0 with stale_read := st0.stale_read || st0.lcur_moved }
    let cand : Label :=
      { time := Lcur.time + e.time_cost
        dark := Lcur.dark + edge_dark c.light c.Lmax u v
        node := v
        prev_node := u
        prev_label_idx := cur.label_idx }
    if cand.time > 200 + nth st.curr_fastest v 0 then (st, false)
    else if (nth st.labels v []).any (fun ex => dominates ex cand) then (st, false)
    else
      let pruned := pareto_prune (nth st.labels v []) cand
      let cp := cap c st.refs v pruned
      let st1 : Search :=
        { st with labels := put st.labels v cp.1, refs := cp.2
                  lcur_moved := st.lcur_moved || decide (v = u) }
      match find_cand cp.1 u cur.label_idx cand with
      | none => (st1, false)
      | some ci =>
        let cand_idx : Int := ci
        let L := nth cp.1 cand_idx {}
        let fT := L.time + nth c.lb_time v 0
        let fD := L.dark + nth c.lb_dark v 0
        if v ≠ c.t then
          ({ st1 with
              opn := st1.opn ++ [{ f_time := fT, f_dark := fD, node := v,
                                    label_idx := cand_idx }]
              curr_fastest := put st1.curr_fastest v (min (nth st1.curr_fastest v 0) L.time) },
           false)
        else (st1, true)

/-- The loop `for (const auto& e : g[u])` of the search, with its `break`. -/
def expand_edges (c : Ctx) (cur : PQItem) (Lcur : Label) : List Edge → Search → Search
  | [], st => st
  | e :: es, st =>
    match expand_edge c cur Lcur e st with
    | (st1, true) => st1
    | (st1, false) => expand_edges c cur Lcur es st1

/-- The value `best_target_time` computed from the labels at the target. -/
def best_target_time (lt : List Label) : ℚ :=
  lt.foldl (fun b tl => min b tl.time) BIG

/-- One pass through the body of the search loop, for the popped item `cur` and the open
set `rest` left by the pop; the flag is `true` on `break`.  The reference `Lcur` is bound
afresh before the loop over `g[u]`, which clears `lcur_moved`. -/
def search_step (c : Ctx) (cur : PQItem) (st0 : Search) : Search × Bool :=
  if cur.label_idx ≥ ((nth st0.labels cur.node []).length : Int) then (st0, false)
  else if cur.node = c.t then
    if (nth st0.labels c.t []).length ≥ 3 then (st0, true) else (st0, false)
  else
    let Lcur := nth (nth st0.labels cur.node []) cur.label_idx {}
    let u := cur.node
    if nth st0.closed u false && decide (Lcur.time > nth st0.curr_fastest u 0 * (6 / 5)) then
      (st0, false)
    else if !(nth st0.labels c.t []).isEmpty &&
        decide (cur.f_time > best_target_time (nth st0.labels c.t []) * (3 / 2)) then
      (st0, false)
    else
      let st1 := expand_edges c cur Lcur (nth c.g u []) { st0 with lcur_moved := false }
      ({ st1 with closed := put st1.closed u true }, false)

/-- The search loop `while (!open.empty() && iterations < MAX_ITERATIONS)`; the first
argument counts the iterations still allowed. -/
def search_loop (c : Ctx) (tie : List PQItem → Nat) : Nat → Search → Search
  | 0, st => st
  | k + 1, st =>
    match pop_open tie st.opn with
    | none => st
    | some (cur, rest) =>
      match search_step c cur { st with opn := rest } with
      | (st1, true) => st1
      | (st1, false) => search_loop c tie k st1

/-- The constant `MAX_ITERATIONS`. -/
def MAX_ITERATIONS : Nat := 1000000

/-! ## `solve`: fallback and picks -/

/-- The inner loop `for (const auto& e : g[u]) if (e.to == v) ... break` of the fallback:
cost of the first entry of `g[u]` that leads to `v` (nothing is added when there is none). -/
def first_edge_cost (gu : List Edge) (v : Int) : ℚ :=
  match gu.find? (fun e => e.to_ == v) with
  | some e => e.time_cost
  | none => 0

/-- The loop computing `total_time` and `total_dark` along `fallback_path`. -/
def fallback_costs (g : List (List Edge)) (light : List ℚ) (Lmax : ℚ) (path : List Int) :
    ℚ × ℚ :=
  (path.zip path.tail).foldl
    (fun acc uv =>
      (acc.1 + first_edge_cost (nth g uv.1 []) uv.2, acc.2 + edge_dark light Lmax uv.1 uv.2))
    (0, 0)

/-- The three identical records pushed in either fallback branch. -/
def same_picks (path : List Int) (time dark : ℚ) : List Path :=
  [ { name := "fastest", idx := 0, path := path, time := time, dark := dark },
    { name := "best_lit", idx := 0, path := path, time := time, dark := dark },
    { name := "balanced", idx := 0, path := path, time := time, dark := dark } ]

/-- The branch `if (labels[t].empty())` of `solve`. -/
def fallback (fuel : Nat) (g : List (List Edge)) (light : List ℚ) (Lmax : ℚ) (s t N : Int) :
    Except Fault (List Path) :=
  match simple_dijkstra_path fuel g s t N with
  | .error f => .error f
  | .ok fallback_path =>
    if !fallback_path.isEmpty then
      let tc := fallback_costs g light Lmax fallback_path
      .ok (same_picks fallback_path tc.1 tc.2)
    else .ok (same_picks [s, t] 1000 500)

/-- The loop computing `idx_fast`. -/
def idx_fast (lt : List Label) : Int :=
  (List.range' 1 (lt.length - 1)).foldl
    (fun idx (k : Nat) =>
      let i : Int := k
      if (nth lt i {}).time < (nth lt idx {}).time then i else idx)
    0

/-- The loop computing `idx_bright`. -/
def idx_bright (lt : List Label) : Int :=
  (List.range' 1 (lt.length - 1)).foldl
    (fun idx (k : Nat) =>
      let i : Int := k
      if (nth lt i {}).dark < (nth lt idx {}).dark then i else idx)
    0

/-- `min(a, x)` for `a` starting at `+infinity` (`none`). -/
def min_inf (a : Option ℚ) (x : ℚ) : Option ℚ :=
  match a with
  | none => some x
  | some y => some (min y x)

/-- `max(a, x)` for `a` starting at `-infinity` (`none`). -/
def max_ninf (a : Option ℚ) (x : ℚ) : Option ℚ :=
  match a with
  | none => some x
  | some y => some (max y x)

/-- The lambda `norm`; `a` is `none` for `+infinity`, `b` is `none` for `-infinity`. -/
def norm (x : ℚ) (a b : Option ℚ) : ℚ :=
  match a, b with
  | some a, some b => if b - a < EPS then 0 else (x - a) / (b - a)
  | _, _ => 0

/-- The values `tmin`, `tmax`, `dmin`, `dmax`. -/
def ranges (lt : List Label) : (Option ℚ × Option ℚ) × (Option ℚ × Option ℚ) :=
  lt.foldl
    (fun r L => ((min_inf r.1.1 L.time, max_ninf r.1.2 L.time),
                 (min_inf r.2.1 L.dark, max_ninf r.2.2 L.dark)))
    ((none, none), (none, none))

/-- The `score` of the label `L` in the balance loop; `hyp` is the library `hypot`. -/
def bal_score (hyp : ℚ → ℚ → ℚ) (lt : List Label) (L : Label) : ℚ :=
  let r := ranges lt
  hyp (norm L.time r.1.1 r.1.2) (norm L.dark r.2.1 r.2.2)

/-- The loop computing `idx_bal`, with `best_score` starting at `+infinity` (`none`). -/
def idx_bal (hyp : ℚ → ℚ → ℚ) (lt : List Label) : Int :=
  ((List.range lt.length).foldl
    (fun (b : Int × Option ℚ) (k : Nat) =>
      let i : Int := k
      let score := bal_score hyp lt (nth lt i {})
      if inf_gt b.2 score then (i, some score) else b)
    (0, none)).1

/-- One `picks.push_back({name, idx, reconstruct_path(t, idx, labels), time, dark})`. -/
def pick (fuel : Nat) (name : String) (idx t : Int) (labels : List (List Label)) :
    Except Fault Path :=
  match reconstruct_path fuel t idx labels with
  | .error f => .error f
  | .ok p =>
    .ok { name := name, idx := idx, path := p,
          time := (nth (nth labels t []) idx {}).time,
          dark := (nth (nth labels t []) idx {}).dark }

/-- The part of `solve` after the search loop. -/
def finish (fuel : Nat) (c : Ctx) (N : Int) (labels : List (List Label)) :
    Except Fault (List Path) :=
  let lt := nth labels c.t []
  if lt.isEmpty then fallback fuel c.g c.light c.Lmax c.s c.t N
  else
    match pick fuel "fastest" (idx_fast lt) c.t labels with
    | .error f => .error f
    | .ok p1 =>
      match pick fuel "best_lit" (idx_bright lt) c.t labels with
      | .error f => .error f
      | .ok p2 =>
        match pick fuel "balanced" (idx_bal c.hypot lt) c.t labels with
        | .error f => .error f
        | .ok p3 => .ok [p1, p2, p3]

/-- The search context `solve` sets up: graph, `Lmax`, clamped lower bounds; `hyp` is the
library `hypot`. -/
def mk_ctx (hyp : ℚ → ℚ → ℚ) (fuel : Nat) (N : Int) (light : List ℚ) (crime : List Int)
    (input : List (List Int)) (s t : Int) : Except Fault Ctx :=
  let g := build_graph N crime input
  let Lmax := compute_Lmax light
  match reverse_dijkstra_lb fuel g t (fun _ _ e => e.time_cost) with
  | .error f => .error f
  | .ok lb_time =>
    match reverse_dijkstra_lb fuel g t (fun u v _ => edge_dark light Lmax u v) with
    | .error f => .error f
    | .ok lb_dark =>
      .ok { g := g, light := light, crime := crime, s := s, t := t, Lmax := Lmax,
            lb_time := clamp lb_time, lb_dark := clamp lb_dark, hypot := hyp }

/-- The search state before the first iteration: the seed label and its open item. -/
def init_search (c : Ctx) (N : Int) (refs : Refs) : Search :=
  let seed : Label :=
    { time := 0, dark := max 0 (c.Lmax - nth c.light c.s 0), node := c.s,
      prev_node := -1, prev_label_idx := -1 }
  let labels0 : List (List Label) := List.replicate N.toNat []
  let labels := put labels0 c.s (nth labels0 c.s [] ++ [seed])
  let seed_idx : Int := ((nth labels c.s []).length : Int) - 1
  { labels := labels
    opn := [{ f_time := (nth (nth labels c.s []) seed_idx {}).time + nth c.lb_time c.s 0
              f_dark := (nth (nth labels c.s []) seed_idx {}).dark + nth c.lb_dark c.s 0
              node := c.s, label_idx := seed_idx }]
    curr_fastest := List.replicate N.toNat BIG
    closed := List.replicate N.toNat false
    refs := refs
    lcur_moved := false
    stale_read := false }

/-- The labels and statics the search of `solve` ends with. -/
def run_search (hyp : ℚ → ℚ → ℚ) (fuel : Nat) (tie : List PQItem → Nat) (refs : Refs) (N : Int)
    (light : List ℚ) (crime : List Int) (input : List (List Int)) (s t : Int) :
    Except Fault (Ctx × Search) :=
  match mk_ctx hyp fuel N light crime input s t with
  | .error f => .error f
  | .ok c =>
    .ok (c, search_loop c tie MAX_ITERATIONS (init_search c N refs))

set_option linter.unusedVariables false

/-- Function `solve` of the backend; `M` is not used by the source either, and `hyp` is the
library `hypot`.  The result pairs the returned `picks` with the statics left behind for
the next call; a search that has read through a reference into a vector after a push into
that vector is a fault. -/
def solve (hyp : ℚ → ℚ → ℚ) (fuel : Nat) (tie : List PQItem → Nat) (refs : Refs) (N M : Int)
    (light : List ℚ) (crime : List Int) (input : List (List Int)) (s t : Int) :
    Except Fault (List Path × Refs) :=
  match run_search hyp fuel tie refs N light crime input s t with
  | .error f => .error f
  | .ok (c, st) =>
    if st.stale_read then .error .stale_reference
    else
      match finish fuel c N st.labels with
      | .error f => .error f
      | .ok picks => .ok (picks, st.refs)

/-- The label sets `labels` the search of `solve` ends with. -/
def search_labels (hyp : ℚ → ℚ → ℚ) (fuel : Nat) (tie : List PQItem → Nat) (refs : Refs)
    (N : Int) (light : List ℚ) (crime : List Int) (input : List (List Int)) (s t : Int) :
    Except Fault (List (List Label)) :=
  match run_search hyp fuel tie refs N light crime input s t with
  | .error f => .error f
  | .ok (_, st) => .ok st.labels

/-- The labels `labels[t]` the search of `solve` leaves at the target. -/
def target_labels (hyp : ℚ → ℚ → ℚ) (fuel : Nat) (tie : List PQItem → Nat) (refs : Refs)
    (N : Int) (light : List ℚ) (crime : List Int) (input : List (List Int)) (s t : Int) :
    Except Fault (List Label) :=
  match search_labels hyp fuel tie refs N light crime input s t with
  | .error f => .error f
  | .ok labels => .ok (nth labels t [])

/-! ## Vocabulary of the statements -/

deriving instance DecidableEq for Except

/-- Valid inputs: `light` and `crime` have `N` entries, every input row is
`[u, v, time]` with both endpoints in `[0, N)` and a non-negative time, and `s`, `t` are in
`[0, N)`. -/
def ValidInput (N : Int) (light : List ℚ) (crime : List Int) (input : List (List Int))
    (s t : Int) : Prop :=
  (light.length : Int) = N ∧ (crime.length : Int) = N ∧
    (∀ e ∈ input, e.length = 3 ∧ (0 ≤ nth e 0 0 ∧ nth e 0 0 < N) ∧
      (0 ≤ nth e 1 0 ∧ nth e 1 0 < N) ∧ 0 ≤ nth e 2 0) ∧
    (0 ≤ s ∧ s < N) ∧ (0 ≤ t ∧ t < N)

instance (N : Int) (light : List ℚ) (crime : List Int) (input : List (List Int)) (s t : Int) :
    Decidable (ValidInput N light crime input s t) := by
  unfold ValidInput
  infer_instance

/-- The tie-breaking choice used when a statement is evaluated: the first top position. -/
def tie0 : List PQItem → Nat := fun _ => 0

/-- The search state `st` with the statics replaced by `r`. -/
def set_refs (st : Search) (r : Refs) : Search := { st with refs := r }

/-- Whether a run of the search loop from `st` never has to choose between several top
positions of the open set; such a run does not depend on how ties are broken. -/
def unambiguous (c : Ctx) : Nat → Search → Bool
  | 0, _ => true
  | k + 1, st =>
    if (top_positions st.opn).length ≤ 1 then
      match pop_open tie0 st.opn with
      | none => true
      | some (cur, rest) =>
        match search_step c cur { st with opn := rest } with
        | (_, true) => true
        | (st1, false) => unambiguous c k st1
    else false

/-- Whether the search of `solve` on the given input never meets a tie in its open set. -/
def tie_free (hyp : ℚ → ℚ → ℚ) (fuel : Nat) (N : Int) (light : List ℚ) (crime : List Int)
    (input : List (List Int)) (s t : Int) (refs : Refs) : Bool :=
  match mk_ctx hyp fuel N light crime input s t with
  | .error _ => false
  | .ok c => unambiguous c MAX_ITERATIONS (init_search c N refs)

/-- Light values of the sample scenario in `main`. -/
def sample_light : List ℚ := [1, 1, 1, 1 / 2, 1, 1 / 5]

/-- Crime flags of the sample scenario in `main`. -/
def sample_crime : List Int := [0, 1, 0, 0, 0, 0]

/-- Edge rows of the sample scenario in `main`. -/
def sample_input : List (List Int) :=
  [[0, 3, 3], [2, 3, 5], [2, 5, 2], [3, 5, 1], [5, 4, 1], [2, 4, 1]]

/-- Light values of a scenario with two routes from node 0 to node 3: a fast dark one
through node 1 and a slower lit one through node 2. -/
def demo_light : List ℚ := [1, 0, 1, 1]

/-- Edge rows of the two-route scenario. -/
def demo_input : List (List Int) := [[0, 1, 1], [1, 3, 1], [0, 2, 1], [2, 3, 2]]

/-- The two labels the search leaves at the target of the two-route scenario. -/
def demo_target : List Label :=
  [{ time := 2, dark := 1, node := 3, prev_node := 1, prev_label_idx := 0 },
   { time := 3, dark := 0, node := 3, prev_node := 2, prev_label_idx := 0 }]

/-- The picks returned on the two-route scenario. -/
def demo_picks : List Path :=
  [{ name := "fastest", idx := 0, path := [0, 1, 3], time := 2, dark := 1 },
   { name := "best_lit", idx := 1, path := [0, 2, 3], time := 3, dark := 0 },
   { name := "balanced", idx := 0, path := [0, 1, 3], time := 2, dark := 1 }]

/-- A route of the adjacency structure `g`: `es` is a chain of adjacency entries leading
from node `a` to node `b`. -/
def IsRoute (g : List (List Edge)) : Int → List Edge → Int → Prop
  | a, [], b => a = b
  | a, e :: es, b => 0 ≤ a ∧ e ∈ nth g a [] ∧ IsRoute g e.to_ es b

/-- Total time cost of a chain of adjacency entries. -/
def route_time (es : List Edge) : ℚ := (es.map (fun e => e.time_cost)).sum

/-- Total derived darkness of the chain `es` started at node `a`. -/
def route_dark (light : List ℚ) (Lmax : ℚ) : Int → List Edge → ℚ
  | _, [] => 0
  | a, e :: es => edge_dark light Lmax a e.to_ + route_dark light Lmax e.to_ es

/-- Sum, over the consecutive pairs `(a, b)` of a node sequence, of the derived darkness
`max(0, Lmax - (light[a] + light[b]) / 2)`. -/
def seq_dark (light : List ℚ) (Lmax : ℚ) (path : List Int) : ℚ :=
  ((path.zip path.tail).map
    (fun ab => max 0 (Lmax - (nth light ab.1 0 + nth light ab.2 0) / 2))).sum

/-- Sum, over the consecutive pairs `(a, b)` of a node sequence, of the time cost of the
edge `a`-`b`: the first entry of `g[a]` that leads to `b`. -/
def seq_time (g : List (List Edge)) (path : List Int) : ℚ :=
  ((path.zip path.tail).map (fun ab => first_edge_cost (nth g ab.1 []) ab.2)).sum

/-- Node `b` can be reached from node `a` in `g`. -/
def Reachable (g : List (List Edge)) (a b : Int) : Prop := ∃ es, IsRoute g a es b

/-- An input row whose two endpoints are both unflagged: an edge the filter keeps. -/
def KeptRow (crime : List Int) (row : List Int) : Prop :=
  nth crime (nth row 0 0) 0 ≠ 1 ∧ nth crime (nth row 1 0) 0 ≠ 1

instance (crime : List Int) (row : List Int) : Decidable (KeptRow crime row) := by
  unfold KeptRow
  infer_instance

/-- Nodes `a` and `b` are joined by an edge of the filtered graph: some kept input row has
them as its endpoints, in either order. -/
def Linked (crime : List Int) (input : List (List Int)) (a b : Int) : Prop :=
  ∃ row ∈ input, KeptRow crime row ∧
    ((nth row 0 0 = a ∧ nth row 1 0 = b) ∨ (nth row 0 0 = b ∧ nth row 1 0 = a))

/-- Node `b` is reachable from node `a` in the filtered graph: the input edges with a
flagged endpoint removed. -/
def Connected (crime : List Int) (input : List (List Int)) (a b : Int) : Prop :=
  Relation.ReflTransGen (Linked crime input) a b

/-- The normalisation the specification describes for the balanced pick: min-max scaling
of `x` over the range `[lo, hi]`, with a range below `1e-12` sending every value to `0`. -/
def minmax_norm (x lo hi : ℚ) : ℚ := if hi - lo < EPS then 0 else (x - lo) / (hi - lo)

/-! ## Invariants used in the proofs -/

/-- What every adjacency entry `e` stored under node `k` satisfies on a valid input. -/
def EdgeOK (N : Int) (crime : List Int) (k : Nat) (e : Edge) : Prop :=
  (0 ≤ e.to_ ∧ e.to_ < N) ∧ nth crime e.to_ 0 ≠ 1 ∧ 0 ≤ e.time_cost ∧
    (k : Int) < N ∧ nth crime (k : Int) 0 ≠ 1

/-- A number of iterations that suffices for the loop of `reverse_dijkstra_lb` on `g` when
no weight is negative. -/
def rd_fuel (g : List (List Edge)) : Nat := 1 + ((g.map List.length).sum + 1) * g.length

/-- Graphs on which `reverse_dijkstra_lb` is run: entries point to nodes in range and carry
a non-negative weight. -/
def RDGraph (g : List (List Edge)) (weight : Int → Int → Edge → ℚ) : Prop :=
  ∀ (k : Nat), k < g.length → ∀ e ∈ g.getD k [],
    (0 ≤ e.to_ ∧ e.to_ < (g.length : Int)) ∧ 0 ≤ weight (k : Int) e.to_ e

instance (g : List (List Edge)) (weight : Int → Int → Edge → ℚ) :
    Decidable (RDGraph g weight) := by
  unfold RDGraph
  infer_instance

/-- Invariant of the loop of `reverse_dijkstra_lb`: `S` is the set of nodes expanded so far
and `m` the last key popped. -/
structure RDInv (g : List (List Edge)) (weight : Int → Int → Edge → ℚ) (t : Int)
    (S : Finset ℕ) (m : ℚ) (dist : List (Option ℚ)) (pq : List (ℚ × Int)) : Prop where
  len : dist.length = g.length
  pq_ok : ∀ p ∈ pq, m ≤ p.1 ∧ 0 ≤ p.2 ∧ p.2.toNat < g.length ∧
    ∃ x, dist.getD p.2.toNat none = some x ∧ (x = p.1 ∨ x + EPS < p.1)
  settled : ∀ k ∈ S, k < g.length ∧ ∃ x, dist.getD k none = some x ∧ x ≤ m ∧
    ∀ e ∈ g.getD k [], ∃ y, dist.getD e.to_.toNat none = some y ∧
      y ≤ x + weight (k : Int) e.to_ e + EPS
  target : dist.getD t.toNat none = some 0
  nonneg : ∀ (k : Nat) (x : ℚ), dist.getD k none = some x → 0 ≤ x

/-- The entry `e` of node `u` needs no further relaxation: the distance of its head is within
the tolerance of `d + weight`, where `d` is the distance of `u`. -/
def Relaxed (weight : Int → Int → Edge → ℚ) (u : Int) (d : ℚ) (dist : List (Option ℚ))
    (e : Edge) : Prop :=
  ∃ y, dist.getD e.to_.toNat none = some y ∧ y ≤ d + weight u e.to_ e + EPS

/-- Every label stored at a node satisfies `LP` for that node. -/
def LabelsOK (LP : Int → Label → Prop) (labels : List (List Label)) : Prop :=
  ∀ (k : Nat) (L : Label), L ∈ labels.getD k [] → LP (k : Int) L

/-- Every open item names a node and a label index that are not negative. -/
def OpenOK (opn : List PQItem) : Prop :=
  ∀ it ∈ opn, 0 ≤ it.node ∧ 0 ≤ it.label_idx

/-- The label property `LP` is kept by the creation of a candidate: if it holds of the
expanded label at `u`, it holds of the candidate built along an entry of `g[u]` whose head
is not forbidden. -/
structure StepOK (c : Ctx) (LP : Int → Label → Prop) : Prop where
  graph : ∀ (k : Nat) (e : Edge), e ∈ c.g.getD k [] → 0 ≤ e.to_
  step : ∀ (u : Int) (Lcur : Label) (e : Edge) (idx : Int), 0 ≤ u → 0 ≤ idx → LP u Lcur →
    e ∈ nth c.g u [] → is_forbidden c e.to_ = false →
    LP e.to_ { time := Lcur.time + e.time_cost
               dark := Lcur.dark + edge_dark c.light c.Lmax u e.to_
               node := e.to_
               prev_node := u
               prev_label_idx := idx }

/-- The seed label `solve` stores at the source. -/
def seed_label (c : Ctx) : Label :=
  { time := 0, dark := max 0 (c.Lmax - nth c.light c.s 0), node := c.s,
    prev_node := -1, prev_label_idx := -1 }

/-- Label property: the costs of `L` are those of a route of `g` from the source to `v`,
the darkness starting from the darkness of the seed label. -/
def RouteLP (c : Ctx) (v : Int) (L : Label) : Prop :=
  ∃ es, IsRoute c.g c.s es v ∧ L.time = route_time es ∧
    L.dark = max 0 (c.Lmax - nth c.light c.s 0) + route_dark c.light c.Lmax c.s es

/-- Node `x` is unflagged, or is the source or the target. -/
def okNode (crime : List Int) (s t : Int) (x : Int) : Prop :=
  nth crime x 0 ≠ 1 ∨ x = s ∨ x = t

/-- Label property: the node of the label and the node of its predecessor (when there is
one) are unflagged or an end of the query. -/
def NodeLP (c : Ctx) (v : Int) (L : Label) : Prop :=
  okNode c.crime c.s c.t v ∧ (L.prev_node = -1 ∨ okNode c.crime c.s c.t L.prev_node)

/-- Invariant of `simple_dijkstra_path` for a node property `Q`: every node whose distance
has left its initial value `1e9`, and every recorded parent, satisfies `Q`. -/
structure SDInv (Q : Int → Prop) (st : SD) : Prop where
  dist_ok : ∀ k : Nat, k < st.dist.length → st.dist.getD k 0 ≠ BIG → Q (k : Int)
  parent_ok : ∀ k : Nat, st.parent.getD k (-1) ≠ -1 → Q (st.parent.getD k (-1))

/-! ## Vocabulary of the statements on the graph and on the lower bounds -/

/-- The adjacency entries that one input row `[u, v, c]` contributes to node `k`, as the
specification describes the construction: none when an endpoint is flagged; otherwise the
entry `(v, c)` when `k` is `u`, followed by the entry `(u, c)` when `k` is `v`. -/
def row_entries (crime : List Int) (k : Int) (row : List Int) : List Edge :=
  if nth crime (nth row 0 0) 0 = 1 ∨ nth crime (nth row 1 0) 0 = 1 then []
  else
    (if nth row 0 0 = k
      then [{ to_ := nth row 1 0, time_cost := ((nth row 2 0 : Int) : ℚ) }] else []) ++
    (if nth row 1 0 = k
      then [{ to_ := nth row 0 0, time_cost := ((nth row 2 0 : Int) : ℚ) }] else [])

/-- The adjacency list of node `k` as the specification describes it: the contributions of
the input rows, in input order. -/
def adj_spec (crime : List Int) (input : List (List Int)) (k : Int) : List Edge :=
  input.flatMap (row_entries crime k)

/-- Total weight of the chain `es` started at node `a`, for a weight function of the kind
handed to `reverse_dijkstra_lb`. -/
def route_w (weight : Int → Int → Edge → ℚ) : Int → List Edge → ℚ
  | _, [] => 0
  | a, e :: es => weight a e.to_ e + route_w weight e.to_ es

/-- The two clamped tables `lb_time` and `lb_dark` that `solve` computes. -/
def lower_bounds (fuel : Nat) (N : Int) (light : List ℚ) (crime : List Int)
    (input : List (List Int)) (s t : Int) : Except Fault (List ℚ × List ℚ) :=
  let g := build_graph N crime input
  let Lmax := compute_Lmax light
  match reverse_dijkstra_lb fuel g t (fun _ _ e => e.time_cost) with
  | .error f => .error f
  | .ok lb_time =>
    match reverse_dijkstra_lb fuel g t (fun u v _ => edge_dark light Lmax u v) with
    | .error f => .error f
    | .ok lb_dark => .ok (clamp lb_time, clamp lb_dark)

/-- Second invariant of the loop of `reverse_dijkstra_lb`: a node with a finite distance is
expanded or has an item carrying that distance in the heap, and a finite distance is the
weight of a route from the target. -/
structure RDLive (g : List (List Edge)) (weight : Int → Int → Edge → ℚ) (t : Int)
    (S : Finset ℕ) (dist : List (Option ℚ)) (pq : List (ℚ × Int)) : Prop where
  live : ∀ (k : Nat) (x : ℚ), dist.getD k none = some x → k ∈ S ∨ (x, (k : Int)) ∈ pq
  path : ∀ (k : Nat) (x : ℚ), dist.getD k none = some x →
    ∃ es, IsRoute g t es (k : Int) ∧ x = route_w weight t es

/-! ## Further vocabulary -/

/-- Whether `es` is a route from `a` to `b` can be computed. -/
def decIsRoute (g : List (List Edge)) : ∀ (a : Int) (es : List Edge) (b : Int),
    Decidable (IsRoute g a es b)
  | a, [], b => inferInstanceAs (Decidable (a = b))
  | a, e :: es, b =>
    have := decIsRoute g e.to_ es b
    inferInstanceAs (Decidable (0 ≤ a ∧ e ∈ nth g a [] ∧ IsRoute g e.to_ es b))

instance (g : List (List Edge)) (a : Int) (es : List Edge) (b : Int) :
    Decidable (IsRoute g a es b) := decIsRoute g a es b

/-- The nodes a chain of adjacency entries visits, starting from `a`. -/
def route_nodes (a : Int) (es : List Edge) : List Int := a :: es.map (fun e => e.to_)

/-- A route recorded by a state of `simple_dijkstra_path`: every entry leaves a visited
node, which is the recorded parent of the head of the entry, and the distance of the head is
the distance of that node plus the cost of the entry. -/
def TreeRoute (g : List (List Edge)) (st : SD) : Int → List Edge → Int → Prop
  | a, [], b => a = b
  | a, e :: es, b =>
    0 ≤ a ∧ e ∈ nth g a [] ∧ nth st.visited a false = true ∧ nth st.parent e.to_ (-1) = a ∧
      nth st.dist e.to_ 0 = nth st.dist a 0 + e.time_cost ∧ TreeRoute g st e.to_ es b

/-- Invariant of the loop of `simple_dijkstra_path`; `x` is the node whose adjacency entries
are being relaxed (`-1` between two iterations). -/
structure SDFull (g : List (List Edge)) (s t N : Int) (x : Int) (st : SD) : Prop where
  len_d : st.dist.length = N.toNat
  len_p : st.parent.length = N.toNat
  len_v : st.visited.length = N.toNat
  dist_s : nth st.dist s 0 = 0
  par_s : nth st.parent s (-1) = -1
  nonneg : ∀ v : Int, 0 ≤ v → v < N → 0 ≤ nth st.dist v 0
  tree : ∀ v : Int, 0 ≤ v → v < N → nth st.dist v 0 ≠ BIG →
    ∃ es, TreeRoute g st s es v ∧ (route_nodes s es).Nodup
  opt : ∀ v : Int, 0 ≤ v → v < N → nth st.visited v false = true →
    ∀ es, IsRoute g s es v → nth st.dist v 0 ≤ route_time es
  relaxed : ∀ v : Int, 0 ≤ v → v < N → nth st.visited v false = true → v ≠ x →
    ∀ e ∈ nth g v [], nth st.dist e.to_ 0 ≤ nth st.dist v 0 + e.time_cost
  order : ∀ u v : Int, 0 ≤ u → u < N → 0 ≤ v → v < N → nth st.visited u false = true →
    nth st.visited v false = false → nth st.dist u 0 ≤ nth st.dist v 0
  vis_ne : ∀ v : Int, 0 ≤ v → v < N → nth st.visited v false = true → nth st.dist v 0 ≠ BIG
  t_unvisited : nth st.visited t false = false

/-- Graphs on which `simple_dijkstra_path` is run: entries point to nodes in `[0, N)` and
carry a non-negative time cost. -/
def SDGraph (g : List (List Edge)) (N : Int) : Prop :=
  ∀ (k : Nat) (e : Edge), e ∈ g.getD k [] → (0 ≤ e.to_ ∧ e.to_ < N) ∧ 0 ≤ e.time_cost

/-- Every path of `g`, a route that visits no node twice, costs less than `1e9`. -/
def PathsBelowBig (g : List (List Edge)) : Prop :=
  ∀ (a : Int) (es : List Edge) (b : Int), IsRoute g a es b → (route_nodes a es).Nodup →
    route_time es < BIG

/-- No label of the list dominates a label at another position of the list. -/
def Frontier (lv : List Label) : Prop :=
  ∀ i j : Nat, i < lv.length → j < lv.length → i ≠ j →
    dominates (lv.getD i {}) (lv.getD j {}) = false

/-- The frontier invariant: the labels of every node form a `Frontier`. -/
def FrontierOK (labels : List (List Label)) : Prop := ∀ v : Int, Frontier (nth labels v [])

/-- Neither of two labels dominates the other. -/
def Incomparable (a b : Label) : Prop := dominates a b = false ∧ dominates b a = false

/-- Every node other than the target holds at most `K = 3` labels. -/
def CapOK (c : Ctx) (labels : List (List Label)) : Prop :=
  ∀ v : Int, 0 ≤ v → v ≠ c.t → (nth labels v []).length ≤ 3

/-- Position `i` is the first position of `lv` at which the key `f` is least. -/
def FirstMin (f : Label → ℚ) (lv : List Label) (i : Nat) : Prop :=
  i < lv.length ∧ (∀ j, j < lv.length → f (lv.getD i {}) ≤ f (lv.getD j {})) ∧
    ∀ j, j < i → f (lv.getD i {}) < f (lv.getD j {})

/-- The search context of the sample scenario: its graph and its two tables of lower
bounds, with `hypot_sq` for `hypot`. -/
def sample_ctx : Ctx :=
  { g := build_graph 6 sample_crime sample_input
    light := sample_light
    crime := sample_crime
    s := 0
    t := 4
    Lmax := 1
    lb_time := [5, 0, 1, 2, 0, 1]
    lb_dark := [1 / 2, 0, 0, 1 / 4, 0, 2 / 5]
    hypot := hypot_sq }

/-- The state of the search of `solve` after at most `k` passes through its loop. -/
def search_state (hyp : ℚ → ℚ → ℚ) (fuel : Nat) (tie : List PQItem → Nat) (refs : Refs)
    (N : Int) (light : List ℚ) (crime : List Int) (input : List (List Int)) (s t : Int)
    (k : Nat) : Except Fault Search :=
  match mk_ctx hyp fuel N light crime input s t with
  | .error f => .error f
  | .ok c => .ok (search_loop c tie k (init_search c N refs))

/-- Open-set consistency: every open item whose label index is within the bounds of the
labels of its node carries the costs of that label plus the lower bounds of the node. -/
def OpenConsistent (lb_time lb_dark : List ℚ) (st : Search) : Prop :=
  ∀ it ∈ st.opn, 0 ≤ it.label_idx →
    it.label_idx < ((nth st.labels it.node []).length : Int) →
    it.f_time = (nth (nth st.labels it.node []) it.label_idx {}).time + nth lb_time it.node 0 ∧
    it.f_dark = (nth (nth st.labels it.node []) it.label_idx {}).dark + nth lb_dark it.node 0

instance (lb_time lb_dark : List ℚ) (st : Search) :
    Decidable (OpenConsistent lb_time lb_dark st) := by
  unfold OpenConsistent
  infer_instance

/-- Predecessor integrity of the label `L` stored at node `v`: unless `L` is a seed label,
its predecessor index is within the bounds of the labels of its predecessor node, and the
label `P` found there gives the costs of `L` along an entry from that node to `v`. -/
def PredOK (g : List (List Edge)) (light : List ℚ) (Lmax : ℚ) (labels : List (List Label))
    (v : Int) (L : Label) : Prop :=
  L.prev_node = -1 ∨
    (0 ≤ L.prev_label_idx ∧
      L.prev_label_idx < ((nth labels L.prev_node []).length : Int) ∧
      (∃ e ∈ nth g L.prev_node [], e.to_ = v ∧
        L.time = (nth (nth labels L.prev_node []) L.prev_label_idx {}).time + e.time_cost) ∧
      L.dark = (nth (nth labels L.prev_node []) L.prev_label_idx {}).dark +
        edge_dark light Lmax L.prev_node v)

instance (g : List (List Edge)) (light : List ℚ) (Lmax : ℚ) (labels : List (List Label))
    (v : Int) (L : Label) : Decidable (PredOK g light Lmax labels v L) := by
  unfold PredOK
  infer_instance

/-- Predecessor integrity of all labels. -/
def PredAll (g : List (List Edge)) (light : List ℚ) (Lmax : ℚ) (labels : List (List Label)) :
    Prop :=
  ∀ k ∈ List.range labels.length, ∀ L ∈ labels.getD k [], PredOK g light Lmax labels (k : Int) L

instance (g : List (List Edge)) (light : List ℚ) (Lmax : ℚ) (labels : List (List Label)) :
    Decidable (PredAll g light Lmax labels) := by
  unfold PredAll
  infer_instance

instance (crime : List Int) (input : List (List Int)) (a b : Int) :
    Decidable (Linked crime input a b) := by
  unfold Linked
  infer_instance

/-- Label property: the label at `v` is a seed label stored at the source, or it names a
predecessor node that has an adjacency entry leading to `v`, with an index that is not
negative. -/
def LinkLP (c : Ctx) (v : Int) (L : Label) : Prop :=
  (L.prev_node = -1 ∧ L.prev_label_idx = -1 ∧ v = c.s) ∨
    (0 ≤ L.prev_node ∧ 0 ≤ L.prev_label_idx ∧ ∃ e ∈ nth c.g L.prev_node [], e.to_ = v)

/-- The open item `solve` pushes for the seed label before the search loop. -/
def seed_item (c : Ctx) : PQItem :=
  { f_time := (seed_label c).time + nth c.lb_time c.s 0
    f_dark := (seed_label c).dark + nth c.lb_dark c.s 0
    node := c.s, label_idx := 0 }

/-! ## Vocabulary of the statements on `hypot` and on the reference `Lcur` -/

/-- What the statements about particular runs ask of the library `hypot`: it returns the
same value for `(x, y)` and `(y, x)`, and of two pairs whose exact squared hypotenuses
differ by more than one part in `10^9`, the pair with the smaller one gets the smaller
value.  A `hypot` whose relative error is below `2 * 10^-10` has the second property. -/
def HypotSpec (hyp : ℚ → ℚ → ℚ) : Prop :=
  (∀ a b : ℚ, hyp a b = hyp b a) ∧
    ∀ a b c d : ℚ, hypot_sq a b * (1 + 1 / 1000000000) < hypot_sq c d → hyp a b < hyp c d

/-- A function with the properties `HypotSpec` that is not exact: the pair `(17/64, 13/16)`
and its mirror image get a value one part in `10^15` above that of the other pairs of the
same exact hypotenuse, in the way the `hypot` of the GNU C library returns for
`(0.265625, 0.8125)` a `double` one unit in the last place above the one it returns for
`(0.4375, 0.734375)`, both pairs having the hypotenuse `sqrt(2993) / 64`.  Only the order
of the values of `hypot` matters to `solve`, so squares stand for hypotenuses. -/
def hypot_ulp (x y : ℚ) : ℚ :=
  if (x = 17 / 64 ∧ y = 13 / 16) ∨ (x = 13 / 16 ∧ y = 17 / 64) then
    hypot_sq x y * (1 + 1 / 1000000000000000)
  else hypot_sq x y

/-- Light values of the four-route scenario: source 0, target 5, and four routes through
the nodes 1 to 4. -/
def four_light : List ℚ := [1, 0, 3 / 16, 17 / 64, 1, 1]

/-- Edges of the four-route scenario: the routes cost 130, 147, 158 and 194. -/
def four_input : List (List Int) :=
  [[0, 1, 129], [0, 2, 146], [0, 3, 157], [0, 4, 193],
   [1, 5, 1], [2, 5, 1], [3, 5, 1], [4, 5, 1]]

/-- The labels the search leaves at the target in the four-route scenario. -/
def four_target : List Label :=
  [{ time := 130, dark := 1, node := 5, prev_node := 1, prev_label_idx := 0 },
   { time := 147, dark := 13 / 16, node := 5, prev_node := 2, prev_label_idx := 0 },
   { time := 158, dark := 47 / 64, node := 5, prev_node := 3, prev_label_idx := 0 },
   { time := 194, dark := 0, node := 5, prev_node := 4, prev_label_idx := 0 }]

/-- The picks `solve` returns in the four-route scenario when `hypot` is `hypot_ulp`. -/
def four_picks : List Path :=
  [{ name := "fastest", idx := 0, path := [0, 1, 5], time := 130, dark := 1 },
   { name := "best_lit", idx := 3, path := [0, 4, 5], time := 194, dark := 0 },
   { name := "balanced", idx := 2, path := [0, 3, 5], time := 158, dark := 47 / 64 }]

/-- The search context `c` with `h` for the library `hypot`. -/
def set_hypot (c : Ctx) (h : ℚ → ℚ → ℚ) : Ctx := { c with hypot := h }

/-- The pair `(nT, nD)` that `norm_score` hands to `hypot`. -/
def score_args (c : Ctx) (r : ℚ × ℚ) (L : Label) (node : Int) : ℚ × ℚ :=
  ((L.time + nth c.lb_time node 0) / r.1, (L.dark + nth c.lb_dark node 0) / r.2)

/-- The pair `(nt, nd)` that the balance loop hands to `hypot` for the label `L`. -/
def bal_args (lt : List Label) (L : Label) : ℚ × ℚ :=
  (norm L.time (ranges lt).1.1 (ranges lt).1.2, norm L.dark (ranges lt).2.1 (ranges lt).2.2)

/-- The order in which `hypot` puts the two pairs is settled by `HypotSpec`: one pair is the
mirror image of the other, or their exact squared hypotenuses differ by more than one part
in `10^9`. -/
def settled (x y : ℚ × ℚ) : Bool :=
  decide (x = (y.2, y.1)) ||
    (decide (hypot_sq x.1 x.2 * (1 + 1 / 1000000000) < hypot_sq y.1 y.2) ||
      decide (hypot_sq y.1 y.2 * (1 + 1 / 1000000000) < hypot_sq x.1 x.2))

/-- The relation on pairs that holds of no two pairs. -/
def never (_ _ : ℚ × ℚ) : Bool := false

/-- The two functions order every two pairs related by `P` in the same way. -/
def Agree (P : ℚ × ℚ → ℚ × ℚ → Bool) (h1 h2 : ℚ → ℚ → ℚ) : Prop :=
  ∀ x y : ℚ × ℚ, P x y = true → (h1 x.1 x.2 < h1 y.1 y.2 ↔ h2 x.1 x.2 < h2 y.1 y.2)

/-- Any two different pairs of the list are related by `P`. -/
def pairs_ok (P : ℚ × ℚ → ℚ × ℚ → Bool) (xs : List (ℚ × ℚ)) : Bool :=
  xs.all (fun x => xs.all (fun y => decide (x = y) || P x y))

/-- When the cardinality cap fires on `lv`, the pairs it hands to `hypot` are related by
`P`. -/
def cap_ok (P : ℚ × ℚ → ℚ × ℚ → Bool) (c : Ctx) (refs : Refs) (v : Int) (lv : List Label) :
    Bool :=
  if v ≠ c.t ∧ (lv.length : Int) > 3 then
    pairs_ok P (lv.map (fun L => score_args c (init_refs c refs) L v))
  else true

/-- The pass `expand_edge` hands to `hypot` only pairs related by `P`. -/
def expand_edge_ok (P : ℚ × ℚ → ℚ × ℚ → Bool) (c : Ctx) (cur : PQItem) (Lcur : Label)
    (e : Edge) (st : Search) : Bool :=
  let u := cur.node
  let v := e.to_
  if is_forbidden c v then true
  else
    let cand : Label :=
      { time := Lcur.time + e.time_cost
        dark := Lcur.dark + edge_dark c.light c.Lmax u v
        node := v
        prev_node := u
        prev_label_idx := cur.label_idx }
    if cand.time > 200 + nth st.curr_fastest v 0 then true
    else if (nth st.labels v []).any (fun ex => dominates ex cand) then true
    else cap_ok P c st.refs v (pareto_prune (nth st.labels v []) cand)

/-- The loop `expand_edges` hands to `hypot` only pairs related by `P`. -/
def expand_edges_ok (P : ℚ × ℚ → ℚ × ℚ → Bool) (c : Ctx) (cur : PQItem) (Lcur : Label) :
    List Edge → Search → Bool
  | [], _ => true
  | e :: es, st =>
    expand_edge_ok P c cur Lcur e st &&
      match expand_edge c cur Lcur e st with
      | (_, true) => true
      | (st1, false) => expand_edges_ok P c cur Lcur es st1

/-- The pass `search_step` hands to `hypot` only pairs related by `P`. -/
def search_step_ok (P : ℚ × ℚ → ℚ × ℚ → Bool) (c : Ctx) (cur : PQItem) (st0 : Search) :
    Bool :=
  if cur.label_idx ≥ ((nth st0.labels cur.node []).length : Int) then true
  else if cur.node = c.t then true
  else
    let Lcur := nth (nth st0.labels cur.node []) cur.label_idx {}
    let u := cur.node
    if nth st0.closed u false && decide (Lcur.time > nth st0.curr_fastest u 0 * (6 / 5)) then
      true
    else if !(nth st0.labels c.t []).isEmpty &&
        decide (cur.f_time > best_target_time (nth st0.labels c.t []) * (3 / 2)) then
      true
    else expand_edges_ok P c cur Lcur (nth c.g u []) { st0 with lcur_moved := false }

/-- The search loop hands to `hypot` only pairs related by `P`. -/
def search_loop_ok (P : ℚ × ℚ → ℚ × ℚ → Bool) (c : Ctx) (tie : List PQItem → Nat) :
    Nat → Search → Bool
  | 0, _ => true
  | k + 1, st =>
    match pop_open tie st.opn with
    | none => true
    | some (cur, rest) =>
      search_step_ok P c cur { st with opn := rest } &&
        match search_step c cur { st with opn := rest } with
        | (_, true) => true
        | (st1, false) => search_loop_ok P c tie k st1

/-- The balance loop hands to `hypot` only pairs related by `P`. -/
def finish_ok (P : ℚ × ℚ → ℚ × ℚ → Bool) (lt : List Label) : Bool :=
  pairs_ok P (lt.map (bal_args lt))

/-- The run of `solve` with `hyp` for `hypot` hands to `hypot`, for comparison, only pairs
related by `P`. -/
def hypot_ok (P : ℚ × ℚ → ℚ × ℚ → Bool) (hyp : ℚ → ℚ → ℚ) (fuel : Nat)
    (tie : List PQItem → Nat) (refs : Refs) (N : Int) (light : List ℚ) (crime : List Int)
    (input : List (List Int)) (s t : Int) : Bool :=
  match run_search hyp fuel tie refs N light crime input s t with
  | .error _ => true
  | .ok (c, st) =>
    search_loop_ok P c tie MAX_ITERATIONS (init_search c N refs) && finish_ok P (nth st.labels t [])

/-- The first `k` passes of the search of `solve` with `hyp` for `hypot` hand to `hypot`,
for comparison, only pairs related by `P`. -/
def state_ok (P : ℚ × ℚ → ℚ × ℚ → Bool) (hyp : ℚ → ℚ → ℚ) (fuel : Nat)
    (tie : List PQItem → Nat) (refs : Refs) (N : Int) (light : List ℚ) (crime : List Int)
    (input : List (List Int)) (s t : Int) (k : Nat) : Bool :=
  match mk_ctx hyp fuel N light crime input s t with
  | .error _ => true
  | .ok c => search_loop_ok P c tie k (init_search c N refs)

/-- In the adjacency structure `g` no entry stored under a node leads to that node, and
every entry leads to a node that is not negative. -/
def NoSelfEntry (g : List (List Edge)) : Prop :=
  ∀ (k : Nat) (e : Edge), e ∈ g.getD k [] → 0 ≤ e.to_ ∧ e.to_ ≠ (k : Int)

/-- No input row joins a node to itself. -/
def NoSelfLoop (input : List (List Int)) : Prop :=
  ∀ row ∈ input, nth row 0 0 ≠ nth row 1 0

instance (input : List (List Int)) : Decidable (NoSelfLoop input) := by
  unfold NoSelfLoop
  infer_instance

/-- The search context of the input with two nodes of light 1 and the one row `[0, 0, 0]`,
from 0 to 1, with `hypot_sq` for `hypot`: node 0 has no lower bound to the target, which the
clamp stores as 0. -/
def self_loop_ctx : Ctx :=
  { g := build_graph 2 [0, 0] [[0, 0, 0]], light := [1, 1], crime := [0, 0], s := 0, t := 1,
    Lmax := 1, lb_time := [0, 0], lb_dark := [0, 0], hypot := hypot_sq }

/-! ## Basic facts on vector reads and writes -/

theorem nth_natCast {α : Type} (v : List α) (k : Nat) (d : α) :
    nth v (k : Int) d = v.getD k d := by
  simp [nth]

theorem nth_mem {α : Type} (v : List α) (i : Int) (d : α) (h : i.toNat < v.length) :
    nth v i d ∈ v := by
  unfold nth
  rw [List.getD_eq_getElem _ _ h]
  exact List.getElem_mem _

theorem nth_put_same {α : Type} (v : List α) (i : Int) (x d : α) (h : i.toNat < v.length) :
    nth (put v i x) i d = x := by
  simp [nth, put, List.getD_eq_getElem?_getD, List.getElem?_set, h]

theorem nth_put_other {α : Type} (v : List α) (i j : Int) (x d : α) (h : i.toNat ≠ j.toNat) :
    nth (put v i x) j d = nth v j d := by
  simp [nth, put, List.getD_eq_getElem?_getD, List.getElem?_set, h]

theorem length_put {α : Type} (v : List α) (i : Int) (x : α) :
    (put v i x).length = v.length := by
  simp [put]

theorem nth_replicate {α : Type} (n : Nat) (i : Int) (x d : α) (h : i.toNat < n) :
    nth (List.replicate n x) i d = x := by
  simp [nth, List.getD_eq_getElem?_getD, List.getElem?_replicate, h]

theorem nth_default {α : Type} (v : List α) (i : Int) (d : α) (h : v.length ≤ i.toNat) :
    nth v i d = d := by
  simp [nth, List.getD_eq_getElem?_getD, List.getElem?_eq_none h]

theorem toNat_ne_of_ne {i j : Int} (hi : 0 ≤ i) (hj : 0 ≤ j) (h : i ≠ j) :
    i.toNat ≠ j.toNat := by
  intro e
  apply h
  omega

theorem toNat_lt_of_lt {i N : Int} (h0 : 0 ≤ i) (h : i < N) : i.toNat < N.toNat := by
  omega

theorem mk_ctx_fields {hyp : ℚ → ℚ → ℚ} {fuel : Nat} {N : Int} {light : List ℚ} {crime : List Int}
    {input : List (List Int)} {s t : Int} {c : Ctx}
    (h : mk_ctx hyp fuel N light crime input s t = .ok c) :
    c.g = build_graph N crime input ∧ c.light = light ∧ c.crime = crime ∧ c.s = s ∧ c.t = t ∧
      c.Lmax = compute_Lmax light ∧
      (∃ lb, reverse_dijkstra_lb fuel c.g t (fun _ _ e => e.time_cost) = .ok lb ∧
        c.lb_time = clamp lb) ∧
      (∃ lb, reverse_dijkstra_lb fuel c.g t (fun u v _ => edge_dark light c.Lmax u v) = .ok lb ∧
        c.lb_dark = clamp lb) := by
  unfold mk_ctx at h
  simp only at h
  split at h
  · exact absurd h (by simp)
  · rename_i lb1 h1
    split at h
    · exact absurd h (by simp)
    · rename_i lb2 h2
      injection h with h
      subst h
      exact ⟨rfl, rfl, rfl, rfl, rfl, rfl, ⟨lb1, h1, rfl⟩, ⟨lb2, h2, rfl⟩⟩

theorem mk_ctx_hypot {hyp : ℚ → ℚ → ℚ} {fuel : Nat} {N : Int} {light : List ℚ}
    {crime : List Int} {input : List (List Int)} {s t : Int} {c : Ctx}
    (h : mk_ctx hyp fuel N light crime input s t = .ok c) : c.hypot = hyp := by
  unfold mk_ctx at h
  simp only at h
  split at h
  · exact absurd h (by simp)
  · split at h
    · exact absurd h (by simp)
    · injection h with h
      subst h
      rfl

theorem run_search_eq {hyp : ℚ → ℚ → ℚ}
    {fuel : Nat} {tie : List PQItem → Nat} {refs : Refs} {N : Int}
    {light : List ℚ} {crime : List Int} {input : List (List Int)} {s t : Int} {c : Ctx}
    {st : Search} (h : run_search hyp fuel tie refs N light crime input s t = .ok (c, st)) :
    mk_ctx hyp fuel N light crime input s t = .ok c ∧
      st = search_loop c tie MAX_ITERATIONS (init_search c N refs) := by
  unfold run_search at h
  split at h
  · exact absurd h (by simp)
  · rename_i c0 h0
    injection h with h
    injection h with h1 h2
    subst h1
    exact ⟨h0, h2.symm⟩

theorem solve_eq {hyp : ℚ → ℚ → ℚ} {fuel : Nat} {tie : List PQItem → Nat} {refs : Refs}
    {N M : Int}
    {light : List ℚ} {crime : List Int} {input : List (List Int)} {s t : Int}
    {picks : List Path} {refs1 : Refs}
    (h : solve hyp fuel tie refs N M light crime input s t = .ok (picks, refs1)) :
    ∃ c st, run_search hyp fuel tie refs N light crime input s t = .ok (c, st) ∧
      finish fuel c N st.labels = .ok picks ∧ refs1 = st.refs := by
  unfold solve at h
  split at h
  · exact absurd h (by simp)
  · rename_i c st h0
    split at h
    · exact absurd h (by simp)
    · split at h
      · exact absurd h (by simp)
      · rename_i pk h1
        injection h with h
        injection h with h2 h3
        subst h2
        exact ⟨c, st, h0, h1, h3.symm⟩

theorem solve_eq_live {hyp : ℚ → ℚ → ℚ} {fuel : Nat} {tie : List PQItem → Nat} {refs : Refs}
    {N M : Int} {light : List ℚ} {crime : List Int} {input : List (List Int)} {s t : Int}
    {picks : List Path} {refs1 : Refs} {c : Ctx} {st : Search}
    (h : solve hyp fuel tie refs N M light crime input s t = .ok (picks, refs1))
    (hrun : run_search hyp fuel tie refs N light crime input s t = .ok (c, st)) :
    st.stale_read = false := by
  unfold solve at h
  rw [hrun] at h
  simp only at h
  split at h
  · exact absurd h (by simp)
  · rename_i hs
    simpa using hs

theorem solve_of_run {hyp : ℚ → ℚ → ℚ} {fuel : Nat} {tie : List PQItem → Nat} {refs : Refs}
    {N : Int} {light : List ℚ} {crime : List Int} {input : List (List Int)} {s t : Int}
    {c : Ctx} {st : Search}
    (hrun : run_search hyp fuel tie refs N light crime input s t = .ok (c, st))
    (hlive : st.stale_read = false) (M : Int) :
    solve hyp fuel tie refs N M light crime input s t =
      match finish fuel c N st.labels with
      | .error f => .error f
      | .ok picks => .ok (picks, st.refs) := by
  unfold solve
  rw [hrun]
  simp only
  rw [hlive]
  rfl

theorem pick_eq {fuel : Nat} {name : String} {idx t : Int} {labels : List (List Label)}
    {p : Path} (h : pick fuel name idx t labels = .ok p) :
    reconstruct_path fuel t idx labels = .ok p.path ∧ p.name = name ∧ p.idx = idx ∧
      p.time = (nth (nth labels t []) idx {}).time ∧
      p.dark = (nth (nth labels t []) idx {}).dark := by
  unfold pick at h
  split at h
  · exact absurd h (by simp)
  · rename_i q hq
    injection h with h
    subst h
    exact ⟨hq, rfl, rfl, rfl, rfl⟩

theorem finish_search_eq {fuel : Nat} {c : Ctx} {N : Int} {labels : List (List Label)}
    {picks : List Path} (hne : nth labels c.t [] ≠ [])
    (h : finish fuel c N labels = .ok picks) :
    ∃ p1 p2 p3, picks = [p1, p2, p3] ∧
      pick fuel "fastest" (idx_fast (nth labels c.t [])) c.t labels = .ok p1 ∧
      pick fuel "best_lit" (idx_bright (nth labels c.t [])) c.t labels = .ok p2 ∧
      pick fuel "balanced" (idx_bal c.hypot (nth labels c.t [])) c.t labels = .ok p3 := by
  unfold finish at h
  simp only at h
  rw [if_neg (by simpa [List.isEmpty_iff] using hne)] at h
  split at h
  · exact absurd h (by simp)
  · rename_i p1 h1
    split at h
    · exact absurd h (by simp)
    · rename_i p2 h2
      split at h
      · exact absurd h (by simp)
      · rename_i p3 h3
        injection h with h
        exact ⟨p1, p2, p3, h.symm, h1, h2, h3⟩

/-- Invariant of the loops `idx_fast` and `idx_bright`: scanning positions `a, a+1, ...`
keeps the first position of least key among those seen. -/
theorem argmin_fold (lt : List Label) (f : Label → ℚ) :
    ∀ (len a n : Nat), n < a → a + len ≤ lt.length →
      (∀ j, j < a → f (lt.getD n {}) ≤ f (lt.getD j {})) →
      (∀ j, j < n → f (lt.getD n {}) < f (lt.getD j {})) →
      ∃ m : Nat,
        (List.range' a len).foldl
          (fun (idx : Int) (k : Nat) =>
            let i : Int := k
            if f (nth lt i {}) < f (nth lt idx {}) then i else idx) (n : Int) = (m : Int) ∧
        m < a + len ∧
        (∀ j, j < a + len → f (lt.getD m {}) ≤ f (lt.getD j {})) ∧
        (∀ j, j < m → f (lt.getD m {}) < f (lt.getD j {})) := by
  intro len
  induction len with
  | zero =>
    intro a n hn _ h1 h2
    exact ⟨n, by simp, by omega, by simpa using h1, h2⟩
  | succ len ih =>
    intro a n hn hlen h1 h2
    rw [List.range'_succ, List.foldl_cons]
    simp only [nth_natCast]
    by_cases hlt : f (lt.getD a {}) < f (lt.getD n {})
    · rw [if_pos hlt]
      obtain ⟨m, hm, hb, hmin, hfirst⟩ := ih (a + 1) a (by omega) (by omega)
        (by
          intro j hj
          rcases Nat.lt_succ_iff_lt_or_eq.mp hj with h | h
          · exact le_of_lt (lt_of_lt_of_le hlt (h1 j h))
          · subst h; exact le_refl _)
        (by
          intro j hj
          exact lt_of_lt_of_le hlt (h1 j hj))
      exact ⟨m, hm, by omega, by simpa [Nat.add_assoc, Nat.add_comm 1 len] using hmin, hfirst⟩
    · rw [if_neg hlt]
      obtain ⟨m, hm, hb, hmin, hfirst⟩ := ih (a + 1) n (by omega) (by omega)
        (by
          intro j hj
          rcases Nat.lt_succ_iff_lt_or_eq.mp hj with h | h
          · exact h1 j h
          · subst h; exact not_lt.mp hlt)
        h2
      exact ⟨m, hm, by omega, by simpa [Nat.add_assoc, Nat.add_comm 1 len] using hmin, hfirst⟩

/-! ## The pick selector -/

theorem idx_fast_spec (lt : List Label) (hne : lt ≠ []) :
    ∃ m : Nat, idx_fast lt = (m : Int) ∧ m < lt.length ∧
      (∀ j, j < lt.length → (lt.getD m {}).time ≤ (lt.getD j {}).time) ∧
      (∀ j, j < m → (lt.getD m {}).time < (lt.getD j {}).time) := by
  have hlen : 0 < lt.length := List.length_pos.mpr hne
  obtain ⟨m, hm, hb, hmin, hfirst⟩ :=
    argmin_fold lt (fun L => L.time) (lt.length - 1) 1 0 (by omega) (by omega)
      (by intro j hj; have : j = 0 := by omega
          subst this; exact le_refl _)
      (by intro j hj; omega)
  refine ⟨m, hm, by omega, ?_, hfirst⟩
  intro j hj
  exact hmin j (by omega)

theorem idx_bright_spec (lt : List Label) (hne : lt ≠ []) :
    ∃ m : Nat, idx_bright lt = (m : Int) ∧ m < lt.length ∧
      (∀ j, j < lt.length → (lt.getD m {}).dark ≤ (lt.getD j {}).dark) ∧
      (∀ j, j < m → (lt.getD m {}).dark < (lt.getD j {}).dark) := by
  have hlen : 0 < lt.length := List.length_pos.mpr hne
  obtain ⟨m, hm, hb, hmin, hfirst⟩ :=
    argmin_fold lt (fun L => L.dark) (lt.length - 1) 1 0 (by omega) (by omega)
      (by intro j hj; have : j = 0 := by omega
          subst this; exact le_refl _)
      (by intro j hj; omega)
  refine ⟨m, hm, by omega, ?_, hfirst⟩
  intro j hj
  exact hmin j (by omega)

/-- What `solve` returns when the search has left a label at the target: the three picks,
each built from the index its selection loop computes. -/
theorem solve_search_picks {hyp : ℚ → ℚ → ℚ}
    {fuel : Nat} {tie : List PQItem → Nat} {refs : Refs} {N M : Int}
    {light : List ℚ} {crime : List Int} {input : List (List Int)} {s t : Int} {c : Ctx}
    {st : Search} {picks : List Path} {refs1 : Refs}
    (hrun : run_search hyp fuel tie refs N light crime input s t = .ok (c, st))
    (hne : nth st.labels t [] ≠ [])
    (hsolve : solve hyp fuel tie refs N M light crime input s t = .ok (picks, refs1)) :
    ∃ p1 p2 p3, picks = [p1, p2, p3] ∧
      pick fuel "fastest" (idx_fast (nth st.labels t [])) t st.labels = .ok p1 ∧
      pick fuel "best_lit" (idx_bright (nth st.labels t [])) t st.labels = .ok p2 ∧
      pick fuel "balanced" (idx_bal hyp (nth st.labels t [])) t st.labels = .ok p3 := by
  obtain ⟨c1, st1, hrun1, hfin, _⟩ := solve_eq hsolve
  rw [hrun] at hrun1
  injection hrun1 with hrun1
  injection hrun1 with hc hst
  subst hc
  subst hst
  have ht : c.t = t := (mk_ctx_fields (run_search_eq hrun).1).2.2.2.2.1
  have hh : c.hypot = hyp := mk_ctx_hypot (run_search_eq hrun).1
  have := finish_search_eq (by rw [ht]; exact hne) hfin
  rw [ht, hh] at this
  exact this

theorem search_labels_eq {hyp : ℚ → ℚ → ℚ}
    {fuel : Nat} {tie : List PQItem → Nat} {refs : Refs} {N : Int}
    {light : List ℚ} {crime : List Int} {input : List (List Int)} {s t : Int}
    {labels : List (List Label)}
    (h : search_labels hyp fuel tie refs N light crime input s t = .ok labels) :
    ∃ c st, run_search hyp fuel tie refs N light crime input s t = .ok (c, st) ∧
      st.labels = labels := by
  unfold search_labels at h
  split at h
  · exact absurd h (by simp)
  · rename_i c st h0
    injection h with h
    exact ⟨c, st, h0, h⟩

theorem target_labels_eq {hyp : ℚ → ℚ → ℚ}
    {fuel : Nat} {tie : List PQItem → Nat} {refs : Refs} {N : Int}
    {light : List ℚ} {crime : List Int} {input : List (List Int)} {s t : Int}
    {lt : List Label}
    (h : target_labels hyp fuel tie refs N light crime input s t = .ok lt) :
    ∃ c st, run_search hyp fuel tie refs N light crime input s t = .ok (c, st) ∧
      nth st.labels t [] = lt := by
  unfold target_labels at h
  split at h
  · exact absurd h (by simp)
  · rename_i labels h0
    injection h with h
    obtain ⟨c, st, h1, h2⟩ := search_labels_eq h0
    exact ⟨c, st, h1, by rw [h2]; exact h⟩

theorem getD_mem_forall {lt : List Label} {P : Label → Prop}
    (h : ∀ j, j < lt.length → P (lt.getD j {})) : ∀ L ∈ lt, P L := by
  intro L hL
  obtain ⟨j, hj, rfl⟩ := List.mem_iff_getElem.mp hL
  have := h j hj
  rwa [List.getD_eq_getElem _ _ hj] at this

/-- C8: when the search leaves a label at the target, the "fastest" pick carries the first
index of `labels[t]` of least time (no label at the target is faster, every earlier one is
strictly slower), and the "best_lit" pick the first index of least darkness. -/
theorem C8_fastest_and_best_lit (hyp : ℚ → ℚ → ℚ)
    (fuel : Nat) (tie : List PQItem → Nat) (refs : Refs)
    (N M : Int) (light : List ℚ) (crime : List Int) (input : List (List Int)) (s t : Int)
    (lt : List Label) (picks : List Path) (refs1 : Refs)
    (hlt : target_labels hyp fuel tie refs N light crime input s t = .ok lt)
    (hne : lt ≠ [])
    (hsolve : solve hyp fuel tie refs N M light crime input s t = .ok (picks, refs1)) :
    ∃ (p1 p2 p3 : Path) (m1 m2 : Nat), picks = [p1, p2, p3] ∧
      (p1.name = "fastest" ∧ p1.idx = (m1 : Int) ∧ m1 < lt.length ∧
        p1.time = (lt.getD m1 {}).time ∧
        (∀ L ∈ lt, p1.time ≤ L.time) ∧
        (∀ j, j < m1 → p1.time < (lt.getD j {}).time)) ∧
      (p2.name = "best_lit" ∧ p2.idx = (m2 : Int) ∧ m2 < lt.length ∧
        p2.dark = (lt.getD m2 {}).dark ∧
        (∀ L ∈ lt, p2.dark ≤ L.dark) ∧
        (∀ j, j < m2 → p2.dark < (lt.getD j {}).dark)) := by
  obtain ⟨c, st, hrun, hst⟩ := target_labels_eq hlt
  subst hst
  obtain ⟨p1, p2, p3, hp, h1, h2, _⟩ := solve_search_picks hrun hne hsolve
  obtain ⟨m1, e1, b1, min1, first1⟩ := idx_fast_spec _ hne
  obtain ⟨m2, e2, b2, min2, first2⟩ := idx_bright_spec _ hne
  obtain ⟨_, n1, i1, t1, _⟩ := pick_eq h1
  obtain ⟨_, n2, i2, _, d2⟩ := pick_eq h2
  rw [e1, nth_natCast] at t1
  rw [e2, nth_natCast] at d2
  refine ⟨p1, p2, p3, m1, m2, hp, ⟨n1, by rw [i1, e1], b1, t1, ?_, ?_⟩,
    ⟨n2, by rw [i2, e2], b2, d2, ?_, ?_⟩⟩
  · rw [t1]
    exact getD_mem_forall (P := fun L => (_ : ℚ) ≤ L.time) min1
  · rw [t1]
    exact first1
  · rw [d2]
    exact getD_mem_forall (P := fun L => (_ : ℚ) ≤ L.dark) min2
  · rw [d2]
    exact first2

/-- The hypotheses of C8 hold on the two-route scenario, where two labels reach the target:
the faster one comes first, the better lit one second. -/
theorem C8_fastest_and_best_lit_witness :
    ∃ (p1 p2 p3 : Path) (m1 m2 : Nat), demo_picks = [p1, p2, p3] ∧
      (p1.name = "fastest" ∧ p1.idx = (m1 : Int) ∧ m1 < demo_target.length ∧
        p1.time = (demo_target.getD m1 {}).time ∧
        (∀ L ∈ demo_target, p1.time ≤ L.time) ∧
        (∀ j, j < m1 → p1.time < (demo_target.getD j {}).time)) ∧
      (p2.name = "best_lit" ∧ p2.idx = (m2 : Int) ∧ m2 < demo_target.length ∧
        p2.dark = (demo_target.getD m2 {}).dark ∧
        (∀ L ∈ demo_target, p2.dark ≤ L.dark) ∧
        (∀ j, j < m2 → p2.dark < (demo_target.getD j {}).dark)) :=
  C8_fastest_and_best_lit hypot_sq 100 tie0 none 4 4 demo_light [0, 0, 0, 0] demo_input 0 3
    demo_target demo_picks none (by decide!) (by decide) (by decide!)

/-! ## The balanced pick -/

theorem min_inf_fold (f : Label → ℚ) :
    ∀ (lt : List Label) (x : ℚ), ∃ m : ℚ,
      lt.foldl (fun a L => min_inf a (f L)) (some x) = some m ∧ m ≤ x ∧
        (∀ L ∈ lt, m ≤ f L) ∧ (m = x ∨ ∃ L ∈ lt, f L = m) := by
  intro lt
  induction lt with
  | nil => intro x; exact ⟨x, rfl, le_refl _, by simp, Or.inl rfl⟩
  | cons L rest ih =>
    intro x
    obtain ⟨m, hm, hle, hall, hex⟩ := ih (min x (f L))
    refine ⟨m, by simpa [List.foldl_cons, min_inf] using hm, le_trans hle (min_le_left _ _), ?_, ?_⟩
    · intro L1 hL1
      rcases List.mem_cons.mp hL1 with h | h
      · subst h; exact le_trans hle (min_le_right _ _)
      · exact hall L1 h
    · rcases hex with h | ⟨L1, hL1, h⟩
      · rcases min_choice x (f L) with h1 | h1
        · left; rw [h, h1]
        · right; exact ⟨L, List.mem_cons_self _ _, by rw [h, h1]⟩
      · right; exact ⟨L1, List.mem_cons_of_mem _ hL1, h⟩

theorem max_ninf_fold (f : Label → ℚ) :
    ∀ (lt : List Label) (x : ℚ), ∃ m : ℚ,
      lt.foldl (fun a L => max_ninf a (f L)) (some x) = some m ∧ x ≤ m ∧
        (∀ L ∈ lt, f L ≤ m) ∧ (m = x ∨ ∃ L ∈ lt, f L = m) := by
  intro lt
  induction lt with
  | nil => intro x; exact ⟨x, rfl, le_refl _, by simp, Or.inl rfl⟩
  | cons L rest ih =>
    intro x
    obtain ⟨m, hm, hle, hall, hex⟩ := ih (max x (f L))
    refine ⟨m, by simpa [List.foldl_cons, max_ninf] using hm, le_trans (le_max_left _ _) hle, ?_, ?_⟩
    · intro L1 hL1
      rcases List.mem_cons.mp hL1 with h | h
      · subst h; exact le_trans (le_max_right _ _) hle
      · exact hall L1 h
    · rcases hex with h | ⟨L1, hL1, h⟩
      · rcases max_choice x (f L) with h1 | h1
        · left; rw [h, h1]
        · right; exact ⟨L, List.mem_cons_self _ _, by rw [h, h1]⟩
      · right; exact ⟨L1, List.mem_cons_of_mem _ hL1, h⟩

theorem min_inf_fold_none (f : Label → ℚ) (lt : List Label) (hne : lt ≠ []) :
    ∃ m : ℚ, lt.foldl (fun a L => min_inf a (f L)) none = some m ∧
      (∀ L ∈ lt, m ≤ f L) ∧ (∃ L ∈ lt, f L = m) := by
  cases lt with
  | nil => exact absurd rfl hne
  | cons L rest =>
    obtain ⟨m, hm, hle, hall, hex⟩ := min_inf_fold f rest (f L)
    refine ⟨m, by simpa [List.foldl_cons, min_inf] using hm, ?_, ?_⟩
    · intro L1 hL1
      rcases List.mem_cons.mp hL1 with h | h
      · subst h; exact hle
      · exact hall L1 h
    · rcases hex with h | ⟨L1, hL1, h⟩
      · exact ⟨L, List.mem_cons_self _ _, h.symm⟩
      · exact ⟨L1, List.mem_cons_of_mem _ hL1, h⟩

theorem max_ninf_fold_none (f : Label → ℚ) (lt : List Label) (hne : lt ≠ []) :
    ∃ m : ℚ, lt.foldl (fun a L => max_ninf a (f L)) none = some m ∧
      (∀ L ∈ lt, f L ≤ m) ∧ (∃ L ∈ lt, f L = m) := by
  cases lt with
  | nil => exact absurd rfl hne
  | cons L rest =>
    obtain ⟨m, hm, hle, hall, hex⟩ := max_ninf_fold f rest (f L)
    refine ⟨m, by simpa [List.foldl_cons, max_ninf] using hm, ?_, ?_⟩
    · intro L1 hL1
      rcases List.mem_cons.mp hL1 with h | h
      · subst h; exact hle
      · exact hall L1 h
    · rcases hex with h | ⟨L1, hL1, h⟩
      · exact ⟨L, List.mem_cons_self _ _, h.symm⟩
      · exact ⟨L1, List.mem_cons_of_mem _ hL1, h⟩

theorem ranges_fold (lt : List Label) :
    ∀ r : (Option ℚ × Option ℚ) × (Option ℚ × Option ℚ),
      lt.foldl
        (fun r L => ((min_inf r.1.1 L.time, max_ninf r.1.2 L.time),
                     (min_inf r.2.1 L.dark, max_ninf r.2.2 L.dark))) r =
      ((lt.foldl (fun a L => min_inf a L.time) r.1.1,
        lt.foldl (fun a L => max_ninf a L.time) r.1.2),
       (lt.foldl (fun a L => min_inf a L.dark) r.2.1,
        lt.foldl (fun a L => max_ninf a L.dark) r.2.2)) := by
  induction lt with
  | nil => intro r; rfl
  | cons L rest ih => intro r; simp only [List.foldl_cons]; rw [ih]

/-- The values `tmin`, `tmax`, `dmin`, `dmax` are the least and greatest time and darkness
among the labels. -/
theorem ranges_spec (lt : List Label) (hne : lt ≠ []) :
    ∃ tmin tmax dmin dmax : ℚ,
      ranges lt = ((some tmin, some tmax), (some dmin, some dmax)) ∧
      ((∀ L ∈ lt, tmin ≤ L.time) ∧ ∃ L ∈ lt, L.time = tmin) ∧
      ((∀ L ∈ lt, L.time ≤ tmax) ∧ ∃ L ∈ lt, L.time = tmax) ∧
      ((∀ L ∈ lt, dmin ≤ L.dark) ∧ ∃ L ∈ lt, L.dark = dmin) ∧
      ((∀ L ∈ lt, L.dark ≤ dmax) ∧ ∃ L ∈ lt, L.dark = dmax) := by
  obtain ⟨tmin, e1, a1, b1⟩ := min_inf_fold_none (fun L => L.time) lt hne
  obtain ⟨tmax, e2, a2, b2⟩ := max_ninf_fold_none (fun L => L.time) lt hne
  obtain ⟨dmin, e3, a3, b3⟩ := min_inf_fold_none (fun L => L.dark) lt hne
  obtain ⟨dmax, e4, a4, b4⟩ := max_ninf_fold_none (fun L => L.dark) lt hne
  refine ⟨tmin, tmax, dmin, dmax, ?_, ⟨a1, b1⟩, ⟨a2, b2⟩, ⟨a3, b3⟩, ⟨a4, b4⟩⟩
  unfold ranges
  rw [ranges_fold, e1, e2, e3, e4]

/-- Invariant of the loop `idx_bal`: after positions `0 .. a-1` the pair holds the first
position of least score and that score. -/
theorem bal_fold (lt : List Label) (sc : Label → ℚ) :
    ∀ a : Nat, a ≤ lt.length →
      (a = 0 ∧
        (List.range a).foldl
          (fun (b : Int × Option ℚ) (k : Nat) =>
            let i : Int := k
            let score := sc (nth lt i {})
            if inf_gt b.2 score then (i, some score) else b) (0, none) = (0, none)) ∨
      (∃ m : Nat, m < a ∧
        (List.range a).foldl
          (fun (b : Int × Option ℚ) (k : Nat) =>
            let i : Int := k
            let score := sc (nth lt i {})
            if inf_gt b.2 score then (i, some score) else b) (0, none)
          = ((m : Int), some (sc (lt.getD m {}))) ∧
        (∀ j, j < a → sc (lt.getD m {}) ≤ sc (lt.getD j {})) ∧
        (∀ j, j < m → sc (lt.getD m {}) < sc (lt.getD j {}))) := by
  intro a
  induction a with
  | zero => intro _; left; exact ⟨rfl, rfl⟩
  | succ a ih =>
    intro ha
    right
    rw [List.range_succ, List.foldl_append]
    rcases ih (by omega) with ⟨h0, hz⟩ | ⟨m, hm, hf, hmin, hfirst⟩
    · subst h0
      rw [hz]
      refine ⟨0, by omega, by simp [inf_gt, nth], ?_, ?_⟩
      · intro j hj
        have : j = 0 := by omega
        subst this; exact le_refl _
      · intro j hj; omega
    · rw [hf]
      simp only [List.foldl_cons, List.foldl_nil, nth_natCast, inf_gt, decide_eq_true_eq]
      by_cases hlt : sc (lt.getD m {}) > sc (lt.getD a {})
      · refine ⟨a, by omega, by rw [if_pos hlt], ?_, ?_⟩
        · intro j hj
          rcases Nat.lt_succ_iff_lt_or_eq.mp hj with h | h
          · exact le_of_lt (lt_of_lt_of_le hlt (hmin j h))
          · subst h; exact le_refl _
        · intro j hj
          exact lt_of_lt_of_le hlt (hmin j hj)
      · refine ⟨m, by omega, by rw [if_neg hlt], ?_, hfirst⟩
        intro j hj
        rcases Nat.lt_succ_iff_lt_or_eq.mp hj with h | h
        · exact hmin j h
        · subst h; exact not_lt.mp hlt

theorem idx_bal_spec (hyp : ℚ → ℚ → ℚ) (lt : List Label) (hne : lt ≠ []) :
    ∃ m : Nat, idx_bal hyp lt = (m : Int) ∧ m < lt.length ∧
      (∀ j, j < lt.length →
        bal_score hyp lt (lt.getD m {}) ≤ bal_score hyp lt (lt.getD j {})) ∧
      (∀ j, j < m → bal_score hyp lt (lt.getD m {}) < bal_score hyp lt (lt.getD j {})) := by
  have hlen : 0 < lt.length := List.length_pos.mpr hne
  rcases bal_fold lt (bal_score hyp lt) lt.length (le_refl _) with
    ⟨h0, _⟩ | ⟨m, hm, hf, hmin, hfirst⟩
  · omega
  · refine ⟨m, ?_, hm, hmin, hfirst⟩
    unfold idx_bal
    rw [hf]

theorem bal_score_eq (hyp : ℚ → ℚ → ℚ) (lt : List Label) (L : Label)
    (tmin tmax dmin dmax : ℚ)
    (h : ranges lt = ((some tmin, some tmax), (some dmin, some dmax))) :
    bal_score hyp lt L =
      hyp (minmax_norm L.time tmin tmax) (minmax_norm L.dark dmin dmax) := by
  unfold bal_score
  simp only [h, norm, minmax_norm]

theorem hypot_sq_nonneg (a b : ℚ) : 0 ≤ hypot_sq a b := by
  unfold hypot_sq
  nlinarith [mul_self_nonneg a, mul_self_nonneg b]

/-- A `hypot` of the accuracy `HypotSpec` that ranks one pair no higher than another: the
exact squared hypotenuse of the first exceeds that of the second by at most one part in
`10^9`. -/
theorem hypot_spec_le {hyp : ℚ → ℚ → ℚ} (hh : HypotSpec hyp) {a b c d : ℚ}
    (h : hyp a b ≤ hyp c d) : hypot_sq a b ≤ hypot_sq c d * (1 + 1 / 1000000000) := by
  by_contra hlt
  exact absurd (hh.2 c d a b (not_le.mp hlt)) (not_lt.mpr h)

theorem hypot_spec_sq : HypotSpec hypot_sq := by
  refine ⟨fun a b => by unfold hypot_sq; ring, ?_⟩
  intro a b c d h
  have := hypot_sq_nonneg a b
  linarith

theorem hypot_spec_ulp : HypotSpec hypot_ulp := by
  refine ⟨?_, ?_⟩
  · intro a b
    have hs : hypot_sq a b = hypot_sq b a := by unfold hypot_sq; ring
    unfold hypot_ulp
    rw [hs]
    have hiff : ((b = 17 / 64 ∧ a = 13 / 16) ∨ (b = 13 / 16 ∧ a = 17 / 64)) ↔
        ((a = 17 / 64 ∧ b = 13 / 16) ∨ (a = 13 / 16 ∧ b = 17 / 64)) := by tauto
    by_cases hc : (a = 17 / 64 ∧ b = 13 / 16) ∨ (a = 13 / 16 ∧ b = 17 / 64)
    · rw [if_pos hc, if_pos (hiff.mpr hc)]
    · rw [if_neg hc, if_neg (fun k => hc (hiff.mp k))]
  intro a b c d h
  have h1 := hypot_sq_nonneg a b
  have h2 := hypot_sq_nonneg c d
  have hl : hypot_ulp a b ≤ hypot_sq a b * (1 + 1 / 1000000000000000) := by
    unfold hypot_ulp
    split <;> linarith
  have hr : hypot_sq c d ≤ hypot_ulp c d := by
    unfold hypot_ulp
    split <;> linarith
  linarith

/-- C9 fails on the rounding of `hypot`: in the four-route scenario four labels reach the
target, and the second and the third are at the same exact normalised distance
`sqrt(2993) / 64`, less than that of the others, so the second label is the first one
minimising `sqrt(nt^2 + nd^2)`.  With a `hypot` of the accuracy `HypotSpec` that returns a
value larger by one part in `10^15` for the pair of the second label than for the pair of
the third, the "balanced" pick of `solve` is the third label. -/
theorem C9_counterexample :
    ValidInput 6 four_light [0, 0, 0, 0, 0, 0] four_input 0 5 ∧ HypotSpec hypot_ulp ∧
      target_labels hypot_ulp 100 tie0 none 6 four_light [0, 0, 0, 0, 0, 0] four_input 0 5 =
        .ok [{ time := 130, dark := 1, node := 5, prev_node := 1, prev_label_idx := 0 },
             { time := 147, dark := 13 / 16, node := 5, prev_node := 2, prev_label_idx := 0 },
             { time := 158, dark := 47 / 64, node := 5, prev_node := 3, prev_label_idx := 0 },
             { time := 194, dark := 0, node := 5, prev_node := 4, prev_label_idx := 0 }] ∧
      solve hypot_ulp 100 tie0 none 6 8 four_light [0, 0, 0, 0, 0, 0] four_input 0 5 =
        .ok ([{ name := "fastest", idx := 0, path := [0, 1, 5], time := 130, dark := 1 },
              { name := "best_lit", idx := 3, path := [0, 4, 5], time := 194, dark := 0 },
              { name := "balanced", idx := 2, path := [0, 3, 5], time := 158,
                dark := 47 / 64 }], none) ∧
      hypot_sq (minmax_norm 147 130 194) (minmax_norm (13 / 16) 0 1) = 2993 / 4096 ∧
      hypot_sq (minmax_norm 158 130 194) (minmax_norm (47 / 64) 0 1) = 2993 / 4096 ∧
      hypot_sq (minmax_norm 130 130 194) (minmax_norm 1 0 1) = 1 ∧
      hypot_sq (minmax_norm 194 130 194) (minmax_norm 0 0 1) = 1 :=
  ⟨by decide, hypot_spec_ulp, by decide!, by decide!, by decide!, by decide!, by decide!,
    by decide!⟩

/-- C9, amended: when the search leaves a label at the target, the "balanced" pick carries
the first index of `labels[t]` that minimises the value `hypot(nt, nd)` returns, where `nt`
and `nd` are the time and darkness of a label min-max normalised between the least and
greatest time (darkness) among the target labels, a range below `1e-12` sending every value
to `0`: `hypot` returns no smaller value for another target label and a larger one for every
earlier label.  For a `hypot` of the accuracy `HypotSpec`, the exact squared distance
`nt^2 + nd^2` of the pick exceeds that of no target label by more than one part in `10^9`. -/
theorem C9_balanced_pick (hyp : ℚ → ℚ → ℚ) (fuel : Nat) (tie : List PQItem → Nat)
    (refs : Refs) (N M : Int) (light : List ℚ) (crime : List Int) (input : List (List Int))
    (s t : Int) (lt : List Label) (picks : List Path) (refs1 : Refs)
    (hlt : target_labels hyp fuel tie refs N light crime input s t = .ok lt)
    (hne : lt ≠ [])
    (hsolve : solve hyp fuel tie refs N M light crime input s t = .ok (picks, refs1)) :
    ∃ (p1 p2 p3 : Path) (m : Nat) (tmin tmax dmin dmax : ℚ), picks = [p1, p2, p3] ∧
      p3.name = "balanced" ∧ p3.idx = (m : Int) ∧ m < lt.length ∧
      p3.time = (lt.getD m {}).time ∧ p3.dark = (lt.getD m {}).dark ∧
      ((∀ L ∈ lt, tmin ≤ L.time) ∧ ∃ L ∈ lt, L.time = tmin) ∧
      ((∀ L ∈ lt, L.time ≤ tmax) ∧ ∃ L ∈ lt, L.time = tmax) ∧
      ((∀ L ∈ lt, dmin ≤ L.dark) ∧ ∃ L ∈ lt, L.dark = dmin) ∧
      ((∀ L ∈ lt, L.dark ≤ dmax) ∧ ∃ L ∈ lt, L.dark = dmax) ∧
      (∀ L ∈ lt,
        hyp (minmax_norm p3.time tmin tmax) (minmax_norm p3.dark dmin dmax) ≤
          hyp (minmax_norm L.time tmin tmax) (minmax_norm L.dark dmin dmax)) ∧
      (∀ j, j < m →
        hyp (minmax_norm p3.time tmin tmax) (minmax_norm p3.dark dmin dmax) <
          hyp (minmax_norm (lt.getD j {}).time tmin tmax)
            (minmax_norm (lt.getD j {}).dark dmin dmax)) ∧
      (HypotSpec hyp → ∀ L ∈ lt,
        hypot_sq (minmax_norm p3.time tmin tmax) (minmax_norm p3.dark dmin dmax) ≤
          hypot_sq (minmax_norm L.time tmin tmax) (minmax_norm L.dark dmin dmax) *
            (1 + 1 / 1000000000)) := by
  obtain ⟨c, st, hrun, hst⟩ := target_labels_eq hlt
  subst hst
  obtain ⟨p1, p2, p3, hp, _, _, h3⟩ := solve_search_picks hrun hne hsolve
  obtain ⟨m, e, b, hmin, hfirst⟩ := idx_bal_spec hyp _ hne
  obtain ⟨tmin, tmax, dmin, dmax, hr, r1, r2, r3, r4⟩ := ranges_spec _ hne
  obtain ⟨_, n3, i3, t3, d3⟩ := pick_eq h3
  rw [e, nth_natCast] at t3 d3
  have hall : ∀ L ∈ nth st.labels t [],
      hyp (minmax_norm p3.time tmin tmax) (minmax_norm p3.dark dmin dmax) ≤
        hyp (minmax_norm L.time tmin tmax) (minmax_norm L.dark dmin dmax) := by
    rw [t3, d3]
    apply getD_mem_forall
      (P := fun L => (_ : ℚ) ≤
        hyp (minmax_norm L.time tmin tmax) (minmax_norm L.dark dmin dmax))
    intro j hj
    have := hmin j hj
    rwa [bal_score_eq _ _ _ _ _ _ _ hr, bal_score_eq _ _ _ _ _ _ _ hr] at this
  refine ⟨p1, p2, p3, m, tmin, tmax, dmin, dmax, hp, n3, by rw [i3, e], b, t3, d3,
    r1, r2, r3, r4, hall, ?_, ?_⟩
  · intro j hj
    rw [t3, d3]
    have := hfirst j hj
    rwa [bal_score_eq _ _ _ _ _ _ _ hr, bal_score_eq _ _ _ _ _ _ _ hr] at this
  · intro hh L hL
    exact hypot_spec_le hh (hall L hL)

/-- The hypotheses of the amended C9 hold on the four-route scenario with the function
`hypot_ulp`, which has the accuracy `HypotSpec`; four labels reach the target. -/
theorem C9_balanced_pick_witness :
    HypotSpec hypot_ulp ∧
    ∃ (p1 p2 p3 : Path) (m : Nat) (tmin tmax dmin dmax : ℚ), four_picks = [p1, p2, p3] ∧
      p3.name = "balanced" ∧ p3.idx = (m : Int) ∧ m < four_target.length ∧
      p3.time = (four_target.getD m {}).time ∧ p3.dark = (four_target.getD m {}).dark ∧
      ((∀ L ∈ four_target, tmin ≤ L.time) ∧ ∃ L ∈ four_target, L.time = tmin) ∧
      ((∀ L ∈ four_target, L.time ≤ tmax) ∧ ∃ L ∈ four_target, L.time = tmax) ∧
      ((∀ L ∈ four_target, dmin ≤ L.dark) ∧ ∃ L ∈ four_target, L.dark = dmin) ∧
      ((∀ L ∈ four_target, L.dark ≤ dmax) ∧ ∃ L ∈ four_target, L.dark = dmax) ∧
      (∀ L ∈ four_target,
        hypot_ulp (minmax_norm p3.time tmin tmax) (minmax_norm p3.dark dmin dmax) ≤
          hypot_ulp (minmax_norm L.time tmin tmax) (minmax_norm L.dark dmin dmax)) ∧
      (∀ j, j < m →
        hypot_ulp (minmax_norm p3.time tmin tmax) (minmax_norm p3.dark dmin dmax) <
          hypot_ulp (minmax_norm (four_target.getD j {}).time tmin tmax)
            (minmax_norm (four_target.getD j {}).dark dmin dmax)) ∧
      (HypotSpec hypot_ulp → ∀ L ∈ four_target,
        hypot_sq (minmax_norm p3.time tmin tmax) (minmax_norm p3.dark dmin dmax) ≤
          hypot_sq (minmax_norm L.time tmin tmax) (minmax_norm L.dark dmin dmax) *
            (1 + 1 / 1000000000)) :=
  ⟨hypot_spec_ulp,
    C9_balanced_pick hypot_ulp 100 tie0 none 6 8 four_light [0, 0, 0, 0, 0, 0] four_input 0 5
      four_target four_picks none (by decide!) (by decide) (by decide!)⟩

/-! ## Fuel and tie-breaking do not matter once they suffice -/

theorem rd_loop_mono (g : List (List Edge)) (weight : Int → Int → Edge → ℚ) :
    ∀ (k : Nat) (dist : List (Option ℚ)) (pq : List (ℚ × Int)) (r : List (Option ℚ)),
      rd_loop g weight k dist pq = .ok r → rd_loop g weight (k + 1) dist pq = .ok r := by
  intro k
  induction k with
  | zero =>
    intro dist pq r h
    unfold rd_loop at h
    unfold rd_loop
    split at h
    · rename_i h0; rw [h0]; exact h
    · exact absurd h (by simp)
  | succ k ih =>
    intro dist pq r h
    rw [rd_loop] at h
    rw [rd_loop]
    split
    · rename_i h0; rw [h0] at h; exact h
    · rename_i d u h0
      rw [h0] at h
      simp only at h ⊢
      split
      · rename_i hs; rw [if_pos hs] at h; exact ih _ _ _ h
      · rename_i hs; rw [if_neg hs] at h; exact ih _ _ _ h

theorem rd_loop_mono_le (g : List (List Edge)) (weight : Int → Int → Edge → ℚ)
    (k k1 : Nat) (hk : k ≤ k1) (dist : List (Option ℚ)) (pq : List (ℚ × Int))
    (r : List (Option ℚ)) (h : rd_loop g weight k dist pq = .ok r) :
    rd_loop g weight k1 dist pq = .ok r := by
  induction hk with
  | refl => exact h
  | step _ ih => exact rd_loop_mono g weight _ _ _ _ ih

theorem reconstruct_walk_mono (labels : List (List Label)) :
    ∀ (k : Nat) (node idx : Int) (path : List Int) (r : Except Fault (List Int)),
      reconstruct_walk labels k node idx path = r → r ≠ .error .no_fuel →
      reconstruct_walk labels (k + 1) node idx path = r := by
  intro k
  induction k with
  | zero =>
    intro node idx path r h hr
    unfold reconstruct_walk at h
    unfold reconstruct_walk
    by_cases hc : node ≠ -1 ∧ idx ≠ -1
    · rw [if_pos hc] at h; exact absurd h.symm hr
    · rw [if_neg hc] at h; rw [if_neg hc]; exact h
  | succ k ih =>
    intro node idx path r h hr
    rw [reconstruct_walk] at h
    rw [reconstruct_walk]
    by_cases hc : node ≠ -1 ∧ idx ≠ -1
    · rw [if_pos hc] at h
      rw [if_pos hc]
      split
      · rename_i h0; rw [h0] at h; exact h
      · rename_i L h0; rw [h0] at h; exact ih _ _ _ _ h hr
    · rw [if_neg hc] at h; rw [if_neg hc]; exact h

theorem sd_walk_mono (parent : List Int) :
    ∀ (k : Nat) (current : Int) (path : List Int) (r : Except Fault (List Int)),
      sd_walk parent k current path = r → r ≠ .error .no_fuel →
      sd_walk parent (k + 1) current path = r := by
  intro k
  induction k with
  | zero =>
    intro current path r h hr
    unfold sd_walk at h
    unfold sd_walk
    by_cases hc : current ≠ -1
    · rw [if_pos hc] at h; exact absurd h.symm hr
    · rw [if_neg hc] at h; rw [if_neg hc]; exact h
  | succ k ih =>
    intro current path r h hr
    rw [sd_walk] at h
    rw [sd_walk]
    by_cases hc : current ≠ -1
    · rw [if_pos hc] at h
      rw [if_pos hc]
      exact ih _ _ _ h hr
    · rw [if_neg hc] at h; rw [if_neg hc]; exact h

theorem rd_loop_fault (g : List (List Edge)) (weight : Int → Int → Edge → ℚ) :
    ∀ (k : Nat) (dist : List (Option ℚ)) (pq : List (ℚ × Int)) (f : Fault),
      rd_loop g weight k dist pq = .error f → f = .no_fuel := by
  intro k
  induction k with
  | zero =>
    intro dist pq f h
    unfold rd_loop at h
    split at h
    · exact absurd h (by simp)
    · injection h with h; exact h.symm
  | succ k ih =>
    intro dist pq f h
    rw [rd_loop] at h
    split at h
    · exact absurd h (by simp)
    · simp only at h
      split at h
      · exact ih _ _ _ h
      · exact ih _ _ _ h

theorem mk_ctx_mono {hyp : ℚ → ℚ → ℚ} {k : Nat} {N : Int} {light : List ℚ} {crime : List Int}
    {input : List (List Int)} {s t : Int} {c : Ctx}
    (h : mk_ctx hyp k N light crime input s t = .ok c) :
    mk_ctx hyp (k + 1) N light crime input s t = .ok c := by
  unfold mk_ctx at h ⊢
  simp only at h ⊢
  split at h
  · exact absurd h (by simp)
  · rename_i lb1 h1
    split at h
    · exact absurd h (by simp)
    · rename_i lb2 h2
      unfold reverse_dijkstra_lb at h1 h2 ⊢
      rw [rd_loop_mono _ _ _ _ _ _ h1, rd_loop_mono _ _ _ _ _ _ h2]
      exact h

theorem mk_ctx_fault {hyp : ℚ → ℚ → ℚ} {k : Nat} {N : Int} {light : List ℚ} {crime : List Int}
    {input : List (List Int)} {s t : Int} {f : Fault}
    (h : mk_ctx hyp k N light crime input s t = .error f) : f = .no_fuel := by
  unfold mk_ctx at h
  simp only at h
  split at h
  · rename_i f1 h1
    injection h with h
    subst h
    exact rd_loop_fault _ _ _ _ _ _ h1
  · split at h
    · rename_i f2 h2
      injection h with h
      subst h
      exact rd_loop_fault _ _ _ _ _ _ h2
    · exact absurd h (by simp)

theorem reconstruct_path_mono {k : Nat} {t idx : Int} {labels : List (List Label)}
    {r : Except Fault (List Int)} (h : reconstruct_path k t idx labels = r)
    (hr : r ≠ .error .no_fuel) : reconstruct_path (k + 1) t idx labels = r := by
  unfold reconstruct_path at h ⊢
  cases hw : reconstruct_walk labels k t idx [] with
  | error f =>
    rw [hw] at h
    have hf : f ≠ .no_fuel := by
      intro e; subst e; exact hr h.symm
    rw [reconstruct_walk_mono labels k t idx [] _ hw (by simpa using hf)]
    exact h
  | ok p =>
    rw [hw] at h
    rw [reconstruct_walk_mono labels k t idx [] _ hw (by simp)]
    exact h

theorem pick_mono {k : Nat} {name : String} {idx t : Int} {labels : List (List Label)}
    {r : Except Fault Path} (h : pick k name idx t labels = r)
    (hr : r ≠ .error .no_fuel) : pick (k + 1) name idx t labels = r := by
  unfold pick at h ⊢
  cases hw : reconstruct_path k t idx labels with
  | error f =>
    rw [hw] at h
    have hf : f ≠ .no_fuel := by
      intro e; subst e; exact hr h.symm
    rw [reconstruct_path_mono hw (by simpa using hf)]
    exact h
  | ok p =>
    rw [hw] at h
    rw [reconstruct_path_mono hw (by simp)]
    exact h

theorem simple_dijkstra_path_mono {k : Nat} {g : List (List Edge)} {s t N : Int}
    {r : Except Fault (List Int)} (h : simple_dijkstra_path k g s t N = r)
    (hr : r ≠ .error .no_fuel) : simple_dijkstra_path (k + 1) g s t N = r := by
  unfold simple_dijkstra_path at h ⊢
  simp only at h ⊢
  split
  · rename_i hlt
    rw [if_pos hlt] at h
    cases hw : sd_walk _ k t [] with
    | error f =>
      rw [hw] at h
      have hf : f ≠ .no_fuel := by
        intro e; subst e; exact hr h.symm
      rw [sd_walk_mono _ k t [] _ hw (by simpa using hf)]
      exact h
    | ok p =>
      rw [hw] at h
      rw [sd_walk_mono _ k t [] _ hw (by simp)]
      exact h
  · rename_i hlt
    rw [if_neg hlt] at h
    exact h

theorem fallback_mono {k : Nat} {g : List (List Edge)} {light : List ℚ} {Lmax : ℚ}
    {s t N : Int} {r : Except Fault (List Path)} (h : fallback k g light Lmax s t N = r)
    (hr : r ≠ .error .no_fuel) : fallback (k + 1) g light Lmax s t N = r := by
  unfold fallback at h ⊢
  cases hw : simple_dijkstra_path k g s t N with
  | error f =>
    rw [hw] at h
    have hf : f ≠ .no_fuel := by
      intro e; subst e; exact hr h.symm
    rw [simple_dijkstra_path_mono hw (by simpa using hf)]
    exact h
  | ok p =>
    rw [hw] at h
    rw [simple_dijkstra_path_mono hw (by simp)]
    exact h

theorem finish_mono {k : Nat} {c : Ctx} {N : Int} {labels : List (List Label)}
    {r : Except Fault (List Path)} (h : finish k c N labels = r)
    (hr : r ≠ .error .no_fuel) : finish (k + 1) c N labels = r := by
  unfold finish at h ⊢
  simp only at h ⊢
  split
  · rename_i he
    rw [if_pos he] at h
    exact fallback_mono h hr
  · rename_i he
    rw [if_neg he] at h
    cases h1 : pick k "fastest" (idx_fast (nth labels c.t [])) c.t labels with
    | error f =>
      rw [h1] at h
      have hf : f ≠ .no_fuel := by
        intro e; subst e; exact hr h.symm
      rw [pick_mono h1 (by simpa using hf)]
      exact h
    | ok p1 =>
      rw [h1] at h
      rw [pick_mono h1 (by simp)]
      simp only at h ⊢
      cases h2 : pick k "best_lit" (idx_bright (nth labels c.t [])) c.t labels with
      | error f =>
        rw [h2] at h
        have hf : f ≠ .no_fuel := by
          intro e; subst e; exact hr h.symm
        rw [pick_mono h2 (by simpa using hf)]
        exact h
      | ok p2 =>
        rw [h2] at h
        rw [pick_mono h2 (by simp)]
        simp only at h ⊢
        cases h3 : pick k "balanced" (idx_bal c.hypot (nth labels c.t [])) c.t labels with
        | error f =>
          rw [h3] at h
          have hf : f ≠ .no_fuel := by
            intro e; subst e; exact hr h.symm
          rw [pick_mono h3 (by simpa using hf)]
          exact h
        | ok p3 =>
          rw [h3] at h
          rw [pick_mono h3 (by simp)]
          exact h

/-- More fuel does not change what `solve` returns, unless it had run out of fuel. -/
theorem solve_mono {hyp : ℚ → ℚ → ℚ} {k : Nat} {tie : List PQItem → Nat} {refs : Refs} {N M : Int}
    {light : List ℚ} {crime : List Int} {input : List (List Int)} {s t : Int}
    {r : Except Fault (List Path × Refs)}
    (h : solve hyp k tie refs N M light crime input s t = r) (hr : r ≠ .error .no_fuel) :
    solve hyp (k + 1) tie refs N M light crime input s t = r := by
  unfold solve run_search at h ⊢
  cases hc : mk_ctx hyp k N light crime input s t with
  | error f =>
    rw [hc] at h
    have := mk_ctx_fault hc
    subst this
    exact absurd h.symm hr
  | ok c =>
    rw [hc] at h
    rw [mk_ctx_mono hc]
    simp only at h ⊢
    cases hsr : (search_loop c tie MAX_ITERATIONS (init_search c N refs)).stale_read with
    | true =>
      rw [hsr] at h
      exact h
    | false =>
      rw [hsr] at h
      simp only [Bool.false_eq_true, if_false] at h ⊢
      cases hf : finish k c N
          (search_loop c tie MAX_ITERATIONS (init_search c N refs)).labels with
      | error f =>
        rw [hf] at h
        have hne : f ≠ .no_fuel := by
          intro e; subst e; exact hr h.symm
        rw [finish_mono hf (by simpa using hne)]
        exact h
      | ok p =>
        rw [hf] at h
        rw [finish_mono hf (by simp)]
        exact h

theorem solve_mono_add {hyp : ℚ → ℚ → ℚ}
    {k : Nat} {tie : List PQItem → Nat} {refs : Refs} {N M : Int}
    {light : List ℚ} {crime : List Int} {input : List (List Int)} {s t : Int}
    {r : Except Fault (List Path × Refs)}
    (h : solve hyp k tie refs N M light crime input s t = r) (hr : r ≠ .error .no_fuel)
    (j : Nat) : solve hyp (j + k) tie refs N M light crime input s t = r := by
  induction j with
  | zero => simpa using h
  | succ j ih =>
    have := solve_mono ih hr
    rwa [Nat.add_right_comm] at this

theorem pop_open_unambiguous (tie : List PQItem → Nat) (opn : List PQItem)
    (h : (top_positions opn).length ≤ 1) : pop_open tie opn = pop_open tie0 opn := by
  unfold pop_open
  cases opn with
  | nil => rfl
  | cons x xs => simp only [if_pos h]

theorem search_loop_tie (c : Ctx) (tie : List PQItem → Nat) :
    ∀ (k : Nat) (st : Search), unambiguous c k st = true →
      search_loop c tie k st = search_loop c tie0 k st := by
  intro k
  induction k with
  | zero => intro st _; rfl
  | succ k ih =>
    intro st h
    rw [unambiguous] at h
    by_cases hu : (top_positions st.opn).length ≤ 1
    · rw [if_pos hu] at h
      rw [search_loop, search_loop, pop_open_unambiguous tie _ hu]
      cases hp : pop_open tie0 st.opn with
      | none => rfl
      | some p =>
        obtain ⟨cur, rest⟩ := p
        rw [hp] at h
        simp only at h ⊢
        cases hs : search_step c cur { st with opn := rest } with
        | mk st1 b =>
          rw [hs] at h
          cases b with
          | true => rfl
          | false => exact ih st1 h
    · rw [if_neg hu] at h
      exact absurd h (by simp)

/-- On an input whose search never meets a tie, `solve` returns the same whatever the
tie-breaking rule of the priority queue. -/
theorem solve_tie {hyp : ℚ → ℚ → ℚ} {fuel : Nat} {N : Int} {light : List ℚ} {crime : List Int}
    {input : List (List Int)} {s t : Int} {refs : Refs}
    (h : tie_free hyp fuel N light crime input s t refs = true) (tie : List PQItem → Nat)
    (M : Int) :
    solve hyp fuel tie refs N M light crime input s t =
      solve hyp fuel tie0 refs N M light crime input s t := by
  unfold tie_free at h
  unfold solve run_search
  cases hc : mk_ctx hyp fuel N light crime input s t with
  | error f => rfl
  | ok c =>
    rw [hc] at h
    simp only at h ⊢
    rw [search_loop_tie c tie _ _ h]

theorem tie_free_mono {hyp : ℚ → ℚ → ℚ} {k : Nat} {N : Int} {light : List ℚ} {crime : List Int}
    {input : List (List Int)} {s t : Int} {refs : Refs}
    (h : tie_free hyp k N light crime input s t refs = true) :
    tie_free hyp (k + 1) N light crime input s t refs = true := by
  unfold tie_free at h ⊢
  cases hc : mk_ctx hyp k N light crime input s t with
  | error f => rw [hc] at h; exact absurd h (by simp)
  | ok c =>
    rw [hc] at h
    rw [mk_ctx_mono hc]
    exact h

theorem tie_free_mono_add {hyp : ℚ → ℚ → ℚ} {k : Nat} {N : Int} {light : List ℚ} {crime : List Int}
    {input : List (List Int)} {s t : Int} {refs : Refs}
    (h : tie_free hyp k N light crime input s t refs = true) (j : Nat) :
    tie_free hyp (j + k) N light crime input s t refs = true := by
  induction j with
  | zero => simpa using h
  | succ j ih =>
    have := tie_free_mono ih
    rwa [Nat.add_right_comm] at this

/-! ## The adjacency structure built by `solve` -/

theorem getD_put {α : Type} (g : List (List α)) (i : Int) (x : List α) (k : Nat) :
    (put g i x).getD k [] = if i.toNat = k ∧ k < g.length then x else g.getD k [] := by
  unfold put
  simp only [List.getD_eq_getElem?_getD, List.getElem?_set]
  by_cases h1 : i.toNat = k
  · by_cases h2 : k < g.length
    · simp [h1, h2]
    · simp [h1, h2, List.getElem?_eq_none (not_lt.mp h2)]
  · simp [h1]

theorem mem_getD_put {α : Type} {g : List (List α)} {i : Int} {x : List α} {k : Nat} {a : α}
    (h : a ∈ (put g i x).getD k []) : (i.toNat = k ∧ a ∈ x) ∨ a ∈ g.getD k [] := by
  rw [getD_put] at h
  split at h
  · rename_i hc; exact Or.inl ⟨hc.1, h⟩
  · exact Or.inr h

theorem not_bad_of_not_contains {N : Int} {crime : List Int} {u : Int}
    (h0 : 0 ≤ u) (h1 : u < N) (h : (bad_nodes N crime).contains u = false) :
    nth crime u 0 ≠ 1 := by
  intro hc
  have hmem : u ∈ bad_nodes N crime := by
    unfold bad_nodes
    rw [List.mem_filter]
    refine ⟨?_, by simpa using hc⟩
    rw [List.mem_map]
    refine ⟨u.toNat, List.mem_range.mpr (by omega), ?_⟩
    simp only [Int.ofNat_eq_coe]
    omega
  have : (bad_nodes N crime).contains u = true := by
    simpa using hmem
  rw [h] at this
  exact absurd this (by simp)

theorem add_pair_ok {N : Int} {crime : List Int} {g : List (List Edge)} (u v : Int) (c : ℚ)
    (hu0 : 0 ≤ u) (hu1 : u < N) (hv0 : 0 ≤ v) (hv1 : v < N) (hcost : 0 ≤ c)
    (cu : nth crime u 0 ≠ 1) (cv : nth crime v 0 ≠ 1)
    (hg : ∀ (k : Nat) (x : Edge), x ∈ g.getD k [] → EdgeOK N crime k x) :
    ∀ (k : Nat) (x : Edge),
      x ∈ (put (put g u (nth g u [] ++ [{ to_ := v, time_cost := c }])) v
            (nth (put g u (nth g u [] ++ [{ to_ := v, time_cost := c }])) v [] ++
              [{ to_ := u, time_cost := c }])).getD k [] →
      EdgeOK N crime k x := by
  have hfirst : ∀ (k : Nat) (x : Edge),
      x ∈ (put g u (nth g u [] ++ [{ to_ := v, time_cost := c }])).getD k [] →
      EdgeOK N crime k x := by
    intro k x hx
    rcases mem_getD_put hx with ⟨hk, hx1⟩ | hx1
    · rcases List.mem_append.mp hx1 with hx2 | hx2
      · exact hg _ _ (by rw [← hk]; exact hx2)
      · rw [List.mem_singleton] at hx2
        subst hx2
        have hku : (k : Int) = u := by omega
        exact ⟨⟨hv0, hv1⟩, cv, hcost, by omega, by rw [hku]; exact cu⟩
    · exact hg _ _ hx1
  intro k x hx
  rcases mem_getD_put hx with ⟨hk, hx1⟩ | hx1
  · rcases List.mem_append.mp hx1 with hx2 | hx2
    · exact hfirst _ _ (by rw [← hk]; exact hx2)
    · rw [List.mem_singleton] at hx2
      subst hx2
      have hkv : (k : Int) = v := by omega
      exact ⟨⟨hu0, hu1⟩, cu, hcost, by omega, by rw [hkv]; exact cv⟩
  · exact hfirst _ _ hx1

theorem add_edge_ok {N : Int} {crime : List Int} {g : List (List Edge)} {e : List Int}
    (he : (0 ≤ nth e 0 0 ∧ nth e 0 0 < N) ∧ (0 ≤ nth e 1 0 ∧ nth e 1 0 < N) ∧ 0 ≤ nth e 2 0)
    (hlen : g.length = N.toNat)
    (hg : ∀ (k : Nat) (x : Edge), x ∈ g.getD k [] → EdgeOK N crime k x) :
    (add_edge (bad_nodes N crime) g e).length = N.toNat ∧
      ∀ (k : Nat) (x : Edge), x ∈ (add_edge (bad_nodes N crime) g e).getD k [] →
        EdgeOK N crime k x := by
  obtain ⟨⟨hu0, hu1⟩, ⟨hv0, hv1⟩, hc⟩ := he
  unfold add_edge
  simp only
  by_cases hb : ((bad_nodes N crime).contains (nth e 0 0) ||
      (bad_nodes N crime).contains (nth e 1 0)) = true
  · rw [if_pos hb]; exact ⟨hlen, hg⟩
  · rw [if_neg hb]
    have hb1 : (bad_nodes N crime).contains (nth e 0 0) = false := by
      cases h : (bad_nodes N crime).contains (nth e 0 0) with
      | false => rfl
      | true => rw [h] at hb; simp at hb
    have hb2 : (bad_nodes N crime).contains (nth e 1 0) = false := by
      cases h : (bad_nodes N crime).contains (nth e 1 0) with
      | false => rfl
      | true => rw [h] at hb; simp at hb
    have cu := not_bad_of_not_contains hu0 hu1 hb1
    have cv := not_bad_of_not_contains hv0 hv1 hb2
    have hcost : (0 : ℚ) ≤ ((nth e 2 0 : Int) : ℚ) := by exact_mod_cast hc
    exact ⟨by simp [length_put, hlen],
      add_pair_ok _ _ _ hu0 hu1 hv0 hv1 hcost cu cv hg⟩

theorem foldl_add_edge_ok {N : Int} {crime : List Int} :
    ∀ (input : List (List Int)) (g : List (List Edge)),
      (∀ e ∈ input, (0 ≤ nth e 0 0 ∧ nth e 0 0 < N) ∧ (0 ≤ nth e 1 0 ∧ nth e 1 0 < N) ∧
        0 ≤ nth e 2 0) →
      g.length = N.toNat →
      (∀ (k : Nat) (x : Edge), x ∈ g.getD k [] → EdgeOK N crime k x) →
      (input.foldl (add_edge (bad_nodes N crime)) g).length = N.toNat ∧
        ∀ (k : Nat) (x : Edge),
          x ∈ (input.foldl (add_edge (bad_nodes N crime)) g).getD k [] → EdgeOK N crime k x := by
  intro input
  induction input with
  | nil => intro g _ hlen hg; exact ⟨hlen, hg⟩
  | cons e rest ih =>
    intro g he hlen hg
    rw [List.foldl_cons]
    obtain ⟨h1, h2⟩ := add_edge_ok (he e (List.mem_cons_self _ _)) hlen hg
    exact ih _ (fun x hx => he x (List.mem_cons_of_mem _ hx)) h1 h2

/-- On a valid input the adjacency structure has `N` rows and every entry it stores joins
two unflagged nodes in range with a non-negative time cost. -/
theorem build_graph_ok {N : Int} {light : List ℚ} {crime : List Int}
    {input : List (List Int)} {s t : Int} (hv : ValidInput N light crime input s t) :
    (build_graph N crime input).length = N.toNat ∧
      ∀ (k : Nat) (x : Edge), x ∈ (build_graph N crime input).getD k [] → EdgeOK N crime k x := by
  unfold build_graph
  apply foldl_add_edge_ok
  · intro e he
    obtain ⟨_, h1, h2, h3⟩ := hv.2.2.1 e he
    exact ⟨h1, h2, h3⟩
  · simp
  · intro k x hx
    simp [List.getD_eq_getElem?_getD, List.getElem?_replicate] at hx
    split at hx <;> simp at hx

theorem add_pair_linked {crime : List Int} {input : List (List Int)} {g : List (List Edge)}
    (u v : Int) (c : ℚ) (hu0 : 0 ≤ u) (hv0 : 0 ≤ v) (hl : Linked crime input u v)
    (hg : ∀ (k : Nat) (x : Edge), x ∈ g.getD k [] → Linked crime input (k : Int) x.to_) :
    ∀ (k : Nat) (x : Edge),
      x ∈ (put (put g u (nth g u [] ++ [{ to_ := v, time_cost := c }])) v
            (nth (put g u (nth g u [] ++ [{ to_ := v, time_cost := c }])) v [] ++
              [{ to_ := u, time_cost := c }])).getD k [] →
      Linked crime input (k : Int) x.to_ := by
  have hsymm : Linked crime input v u := by
    obtain ⟨row, h1, h2, h3⟩ := hl
    exact ⟨row, h1, h2, h3.symm⟩
  have hfirst : ∀ (k : Nat) (x : Edge),
      x ∈ (put g u (nth g u [] ++ [{ to_ := v, time_cost := c }])).getD k [] →
      Linked crime input (k : Int) x.to_ := by
    intro k x hx
    rcases mem_getD_put hx with ⟨hk, hx1⟩ | hx1
    · rcases List.mem_append.mp hx1 with hx2 | hx2
      · exact hg _ _ (by rw [← hk]; exact hx2)
      · rw [List.mem_singleton] at hx2
        subst hx2
        have hku : (k : Int) = u := by omega
        rw [hku]; exact hl
    · exact hg _ _ hx1
  intro k x hx
  rcases mem_getD_put hx with ⟨hk, hx1⟩ | hx1
  · rcases List.mem_append.mp hx1 with hx2 | hx2
    · exact hfirst _ _ (by rw [← hk]; exact hx2)
    · rw [List.mem_singleton] at hx2
      subst hx2
      have hkv : (k : Int) = v := by omega
      rw [hkv]; exact hsymm
  · exact hfirst _ _ hx1

theorem foldl_add_edge_linked {N : Int} {crime : List Int} {full : List (List Int)} :
    ∀ (input : List (List Int)) (g : List (List Edge)),
      (∀ e ∈ input, e ∈ full ∧ (0 ≤ nth e 0 0 ∧ nth e 0 0 < N) ∧
        (0 ≤ nth e 1 0 ∧ nth e 1 0 < N)) →
      (∀ (k : Nat) (x : Edge), x ∈ g.getD k [] → Linked crime full (k : Int) x.to_) →
      ∀ (k : Nat) (x : Edge),
        x ∈ (input.foldl (add_edge (bad_nodes N crime)) g).getD k [] →
        Linked crime full (k : Int) x.to_ := by
  intro input
  induction input with
  | nil => intro g _ hg; exact hg
  | cons e rest ih =>
    intro g he hg
    rw [List.foldl_cons]
    apply ih _ (fun x hx => he x (List.mem_cons_of_mem _ hx))
    obtain ⟨hfull, ⟨hu0, hu1⟩, ⟨hv0, hv1⟩⟩ := he e (List.mem_cons_self _ _)
    unfold add_edge
    simp only
    by_cases hb : ((bad_nodes N crime).contains (nth e 0 0) ||
        (bad_nodes N crime).contains (nth e 1 0)) = true
    · rw [if_pos hb]; exact hg
    · rw [if_neg hb]
      have hb1 : (bad_nodes N crime).contains (nth e 0 0) = false := by
        cases h : (bad_nodes N crime).contains (nth e 0 0) with
        | false => rfl
        | true => rw [h] at hb; simp at hb
      have hb2 : (bad_nodes N crime).contains (nth e 1 0) = false := by
        cases h : (bad_nodes N crime).contains (nth e 1 0) with
        | false => rfl
        | true => rw [h] at hb; simp at hb
      have cu := not_bad_of_not_contains hu0 hu1 hb1
      have cv := not_bad_of_not_contains hv0 hv1 hb2
      exact add_pair_linked _ _ _ hu0 hv0 ⟨e, hfull, ⟨cu, cv⟩, Or.inl ⟨rfl, rfl⟩⟩ hg

/-- On a valid input every adjacency entry comes from an input row that the filter keeps. -/
theorem build_graph_linked {N : Int} {light : List ℚ} {crime : List Int}
    {input : List (List Int)} {s t : Int} (hv : ValidInput N light crime input s t) :
    ∀ (k : Nat) (x : Edge), x ∈ (build_graph N crime input).getD k [] →
      Linked crime input (k : Int) x.to_ := by
  unfold build_graph
  apply foldl_add_edge_linked
  · intro e he
    obtain ⟨_, h1, h2, _⟩ := hv.2.2.1 e he
    exact ⟨he, h1, h2⟩
  · intro k x hx
    simp [List.getD_eq_getElem?_getD, List.getElem?_replicate] at hx
    split at hx <;> simp at hx

/-- A route of the adjacency structure built on a valid input is a path of the filtered
graph. -/
theorem connected_of_route {N : Int} {light : List ℚ} {crime : List Int}
    {input : List (List Int)} {s t : Int} (hv : ValidInput N light crime input s t) :
    ∀ (es : List Edge) (a b : Int), IsRoute (build_graph N crime input) a es b →
      Connected crime input a b := by
  intro es
  induction es with
  | nil =>
    intro a b h
    unfold IsRoute at h
    subst h
    exact Relation.ReflTransGen.refl
  | cons e rest ih =>
    intro a b h
    obtain ⟨ha, he, hr⟩ := h
    have hl := build_graph_linked hv a.toNat e he
    rw [Int.toNat_of_nonneg ha] at hl
    exact Relation.ReflTransGen.head hl (ih _ _ hr)

/-! ## `reverse_dijkstra_lb`: termination and the bounds at the target -/

theorem EPS_pos : 0 < EPS := by
  unfold EPS
  norm_num

theorem pair_lt_le {a b : ℚ × Int} (h : pair_lt a b = true) : a.1 ≤ b.1 := by
  unfold pair_lt at h
  simp only [Bool.or_eq_true, Bool.and_eq_true, decide_eq_true_eq] at h
  rcases h with h | ⟨h, _⟩
  · exact le_of_lt h
  · exact le_of_eq h

theorem not_pair_lt_le {a b : ℚ × Int} (h : ¬ pair_lt a b = true) : b.1 ≤ a.1 := by
  unfold pair_lt at h
  simp only [Bool.or_eq_true, Bool.and_eq_true, decide_eq_true_eq, not_or] at h
  exact not_lt.mp h.1

theorem pq_fold_min :
    ∀ (xs : List (ℚ × Int)) (a : ℚ × Int),
      (xs.foldl (fun m y => if pair_lt y m then y else m) a = a ∨
        xs.foldl (fun m y => if pair_lt y m then y else m) a ∈ xs) ∧
      (xs.foldl (fun m y => if pair_lt y m then y else m) a).1 ≤ a.1 ∧
      ∀ y ∈ xs, (xs.foldl (fun m y => if pair_lt y m then y else m) a).1 ≤ y.1 := by
  intro xs
  induction xs with
  | nil => intro a; exact ⟨Or.inl rfl, le_refl _, by simp⟩
  | cons x rest ih =>
    intro a
    rw [List.foldl_cons]
    by_cases h : pair_lt x a = true
    · rw [if_pos h]
      obtain ⟨h1, h2, h3⟩ := ih x
      refine ⟨Or.inr ?_, le_trans h2 (pair_lt_le h), ?_⟩
      · rcases h1 with h1 | h1
        · rw [h1]; exact List.mem_cons_self _ _
        · exact List.mem_cons_of_mem _ h1
      · intro y hy
        rcases List.mem_cons.mp hy with e | e
        · subst e; exact h2
        · exact h3 y e
    · rw [if_neg h]
      obtain ⟨h1, h2, h3⟩ := ih a
      refine ⟨?_, h2, ?_⟩
      · rcases h1 with h1 | h1
        · exact Or.inl h1
        · exact Or.inr (List.mem_cons_of_mem _ h1)
      · intro y hy
        rcases List.mem_cons.mp hy with e | e
        · subst e; exact le_trans h2 (not_pair_lt_le h)
        · exact h3 y e

/-- The top of the heap is one of its items and no item has a smaller key. -/
theorem pq_top_spec {pq : List (ℚ × Int)} {p : ℚ × Int} (h : pq_top pq = some p) :
    p ∈ pq ∧ ∀ y ∈ pq, p.1 ≤ y.1 := by
  cases pq with
  | nil => exact absurd h (by simp [pq_top])
  | cons x xs =>
    unfold pq_top at h
    injection h with h
    obtain ⟨h1, h2, h3⟩ := pq_fold_min xs x
    rw [h] at h1 h2 h3
    refine ⟨?_, ?_⟩
    · rcases h1 with h1 | h1
      · rw [h1]; exact List.mem_cons_self _ _
      · exact List.mem_cons_of_mem _ h1
    · intro y hy
      rcases List.mem_cons.mp hy with e | e
      · subst e; exact h2
      · exact h3 y e

theorem pq_top_none {pq : List (ℚ × Int)} (h : pq_top pq = none) : pq = [] := by
  cases pq with
  | nil => rfl
  | cons x xs => exact absurd h (by simp [pq_top])

theorem getD_put_opt (dist : List (Option ℚ)) (i : Int) (x : Option ℚ) (k : Nat) :
    (put dist i x).getD k none = if i.toNat = k ∧ k < dist.length then x else dist.getD k none := by
  unfold put
  simp only [List.getD_eq_getElem?_getD, List.getElem?_set]
  by_cases h1 : i.toNat = k
  · by_cases h2 : k < dist.length
    · simp [h1, h2]
    · simp [h1, h2, List.getElem?_eq_none (not_lt.mp h2)]
  · simp [h1]

theorem rd_relax_keep {weight : Int → Int → Edge → ℚ} {u : Int} {d : ℚ}
    {dist : List (Option ℚ)} {pq : List (ℚ × Int)} {e : Edge}
    (hu : dist.getD u.toNat none = some d) (he : Relaxed weight u d dist e) :
    rd_relax weight u (dist, pq) e = (dist, pq) := by
  obtain ⟨y, hy, hle⟩ := he
  unfold rd_relax
  simp only [nth, hu, hy, inf_gt]
  rw [if_neg]
  simpa using hle

theorem rd_relax_step {g : List (List Edge)} {weight : Int → Int → Edge → ℚ} {t : Int}
    {S : Finset ℕ} {d : ℚ} {dist : List (Option ℚ)} {pq : List (ℚ × Int)} {u : Int} {e : Edge}
    (hinv : RDInv g weight t S d dist pq) (hu : dist.getD u.toNat none = some d)
    (he : (0 ≤ e.to_ ∧ e.to_.toNat < g.length) ∧ 0 ≤ weight u e.to_ e) :
    RDInv g weight t S d (rd_relax weight u (dist, pq) e).1 (rd_relax weight u (dist, pq) e).2 ∧
      (rd_relax weight u (dist, pq) e).1.getD u.toNat none = some d ∧
      (∀ e1, Relaxed weight u d dist e1 →
        Relaxed weight u d (rd_relax weight u (dist, pq) e).1 e1) ∧
      Relaxed weight u d (rd_relax weight u (dist, pq) e).1 e ∧
      (rd_relax weight u (dist, pq) e).2.length ≤ pq.length + 1 := by
  obtain ⟨⟨hv0, hvn⟩, hw⟩ := he
  have hd0 : 0 ≤ d := hinv.nonneg _ _ hu
  have hE := EPS_pos
  by_cases hb : inf_gt (dist.getD e.to_.toNat none) (d + weight u e.to_ e + EPS) = true
  · -- the entry is relaxed: `dist[v]` drops to `d + w` and `(d + w, v)` is pushed
    have hF : ∀ y, dist.getD e.to_.toNat none = some y → d + weight u e.to_ e + EPS < y := by
      intro y hy
      rw [hy] at hb
      simpa [inf_gt] using hb
    have hvu : e.to_.toNat ≠ u.toNat := by
      intro h
      have := hF d (by rw [h]; exact hu)
      linarith
    have hvt : e.to_.toNat ≠ t.toNat := by
      intro h
      have := hF 0 (by rw [h]; exact hinv.target)
      linarith
    have hvS : e.to_.toNat ∉ S := by
      intro h
      obtain ⟨_, x, hx, hxm, _⟩ := hinv.settled _ h
      have := hF x hx
      linarith
    have hr : rd_relax weight u (dist, pq) e =
        (put dist e.to_ (some (d + weight u e.to_ e)),
          pq ++ [(d + weight u e.to_ e, e.to_)]) := by
      unfold rd_relax
      simp only [nth, hu]
      rw [if_pos hb]
    rw [hr]
    have hlen : e.to_.toNat < dist.length := by rw [hinv.len]; exact hvn
    have hget : ∀ k : Nat, (put dist e.to_ (some (d + weight u e.to_ e))).getD k none =
        if e.to_.toNat = k then some (d + weight u e.to_ e) else dist.getD k none := by
      intro k
      rw [getD_put_opt]
      by_cases hk : e.to_.toNat = k
      · have : k < dist.length := by omega
        simp [hk, this]
      · simp [hk]
    have hrel : ∀ e1, Relaxed weight u d dist e1 →
        Relaxed weight u d (put dist e.to_ (some (d + weight u e.to_ e))) e1 := by
      intro e1 ⟨y, hy, hle⟩
      unfold Relaxed
      rw [hget]
      by_cases hk : e.to_.toNat = e1.to_.toNat
      · rw [if_pos hk]
        have := hF y (by rw [hk]; exact hy)
        exact ⟨_, rfl, by linarith⟩
      · rw [if_neg hk]
        exact ⟨y, hy, hle⟩
    refine ⟨?_, ?_, hrel, ?_, by simp⟩
    · constructor
      · rw [length_put]; exact hinv.len
      · intro p hp
        rcases List.mem_append.mp hp with hp | hp
        · obtain ⟨h1, h2, h3, x, hx, hx1⟩ := hinv.pq_ok p hp
          refine ⟨h1, h2, h3, ?_⟩
          rw [hget]
          by_cases hk : e.to_.toNat = p.2.toNat
          · rw [if_pos hk]
            have := hF x (by rw [hk]; exact hx)
            refine ⟨_, rfl, Or.inr ?_⟩
            rcases hx1 with hx1 | hx1
            · linarith
            · linarith
          · rw [if_neg hk]
            exact ⟨x, hx, hx1⟩
        · rw [List.mem_singleton] at hp
          subst hp
          refine ⟨by simp only; linarith, hv0, hvn, ?_⟩
          rw [hget]
          simp
      · intro k hk
        obtain ⟨h1, x, hx, hxm, hedges⟩ := hinv.settled k hk
        have hkv : e.to_.toNat ≠ k := by
          intro h; rw [h] at hvS; exact hvS hk
        refine ⟨h1, x, by rw [hget, if_neg hkv]; exact hx, hxm, ?_⟩
        intro e1 he1
        obtain ⟨y, hy, hle⟩ := hedges e1 he1
        rw [hget]
        by_cases hk1 : e.to_.toNat = e1.to_.toNat
        · rw [if_pos hk1]
          have := hF y (by rw [hk1]; exact hy)
          exact ⟨_, rfl, by linarith⟩
        · rw [if_neg hk1]
          exact ⟨y, hy, hle⟩
      · rw [hget, if_neg hvt]; exact hinv.target
      · intro k x hx
        rw [hget] at hx
        by_cases hk : e.to_.toNat = k
        · rw [if_pos hk] at hx
          injection hx with hx
          rw [← hx]; linarith
        · rw [if_neg hk] at hx
          exact hinv.nonneg k x hx
    · rw [hget, if_neg hvu]; exact hu
    · unfold Relaxed
      rw [hget, if_pos rfl]
      exact ⟨_, rfl, by linarith⟩
  · -- nothing changes
    have hrelax : Relaxed weight u d dist e := by
      cases hv : dist.getD e.to_.toNat none with
      | none => rw [hv] at hb; simp [inf_gt] at hb
      | some y =>
        rw [hv] at hb
        refine ⟨y, hv, ?_⟩
        simpa [inf_gt] using hb
    rw [rd_relax_keep hu hrelax]
    exact ⟨hinv, hu, fun _ h => h, hrelax, by simp⟩

theorem rd_relax_fold {g : List (List Edge)} {weight : Int → Int → Edge → ℚ} {t : Int}
    {S : Finset ℕ} {d : ℚ} {u : Int} :
    ∀ (es : List Edge) (dist : List (Option ℚ)) (pq : List (ℚ × Int)),
      (∀ e ∈ es, (0 ≤ e.to_ ∧ e.to_.toNat < g.length) ∧ 0 ≤ weight u e.to_ e) →
      RDInv g weight t S d dist pq → dist.getD u.toNat none = some d →
      RDInv g weight t S d (es.foldl (rd_relax weight u) (dist, pq)).1
          (es.foldl (rd_relax weight u) (dist, pq)).2 ∧
        (es.foldl (rd_relax weight u) (dist, pq)).1.getD u.toNat none = some d ∧
        (∀ e1, Relaxed weight u d dist e1 →
          Relaxed weight u d (es.foldl (rd_relax weight u) (dist, pq)).1 e1) ∧
        (∀ e ∈ es, Relaxed weight u d (es.foldl (rd_relax weight u) (dist, pq)).1 e) ∧
        (es.foldl (rd_relax weight u) (dist, pq)).2.length ≤ pq.length + es.length := by
  intro es
  induction es with
  | nil =>
    intro dist pq _ hinv hu
    exact ⟨hinv, hu, fun _ h => h, by simp, by simp⟩
  | cons e rest ih =>
    intro dist pq hes hinv hu
    rw [List.foldl_cons]
    obtain ⟨h1, h2, h3, h4, h5⟩ := rd_relax_step hinv hu (hes e (List.mem_cons_self _ _))
    have hpair : rd_relax weight u (dist, pq) e =
        ((rd_relax weight u (dist, pq) e).1, (rd_relax weight u (dist, pq) e).2) := rfl
    rw [hpair]
    obtain ⟨k1, k2, k3, k4, k5⟩ :=
      ih _ _ (fun x hx => hes x (List.mem_cons_of_mem _ hx)) h1 h2
    refine ⟨k1, k2, fun e1 he1 => k3 e1 (h3 e1 he1), ?_, ?_⟩
    · intro x hx
      rcases List.mem_cons.mp hx with hx | hx
      · subst hx; exact k3 _ h4
      · exact k4 x hx
    · simp only [List.length_cons]
      omega

theorem rd_fold_keep {weight : Int → Int → Edge → ℚ} {u : Int} {d : ℚ} :
    ∀ (es : List Edge) (dist : List (Option ℚ)) (pq : List (ℚ × Int)),
      dist.getD u.toNat none = some d → (∀ e ∈ es, Relaxed weight u d dist e) →
      es.foldl (rd_relax weight u) (dist, pq) = (dist, pq) := by
  intro es
  induction es with
  | nil => intro dist pq _ _; rfl
  | cons e rest ih =>
    intro dist pq hu hes
    rw [List.foldl_cons, rd_relax_keep hu (hes e (List.mem_cons_self _ _))]
    exact ih dist pq hu (fun x hx => hes x (List.mem_cons_of_mem _ hx))

theorem RDInv.raise {g : List (List Edge)} {weight : Int → Int → Edge → ℚ} {t : Int}
    {S : Finset ℕ} {m m1 : ℚ} {dist : List (Option ℚ)} {pq pq1 : List (ℚ × Int)}
    (h : RDInv g weight t S m dist pq) (hm : m ≤ m1) (hsub : ∀ p ∈ pq1, p ∈ pq)
    (hmin : ∀ p ∈ pq1, m1 ≤ p.1) : RDInv g weight t S m1 dist pq1 := by
  constructor
  · exact h.len
  · intro p hp
    obtain ⟨_, h2, h3, h4⟩ := h.pq_ok p (hsub p hp)
    exact ⟨hmin p hp, h2, h3, h4⟩
  · intro k hk
    obtain ⟨h1, x, hx, hxm, he⟩ := h.settled k hk
    exact ⟨h1, x, hx, le_trans hxm hm, he⟩
  · exact h.target
  · exact h.nonneg

theorem card_lt_of_not_mem {S : Finset ℕ} {n k : Nat} (hS : ∀ j ∈ S, j < n) (hk : k < n)
    (hkS : k ∉ S) : S.card + 1 ≤ n := by
  have hsub : insert k S ⊆ Finset.range n := by
    intro j hj
    rcases Finset.mem_insert.mp hj with e | e
    · subst e; exact Finset.mem_range.mpr hk
    · exact Finset.mem_range.mpr (hS j e)
  have := Finset.card_le_card hsub
  rwa [Finset.card_insert_of_not_mem hkS, Finset.card_range] at this

/-- With enough fuel the loop of `reverse_dijkstra_lb` ends, and it ends with distance `0`
at the target and no negative distance. -/
theorem rd_loop_ok {g : List (List Edge)} {weight : Int → Int → Edge → ℚ} {t : Int}
    (hg : RDGraph g weight) (D : Nat) (hD : ∀ k, (g.getD k []).length ≤ D) :
    ∀ (fuel : Nat) (S : Finset ℕ) (m : ℚ) (dist : List (Option ℚ)) (pq : List (ℚ × Int)),
      RDInv g weight t S m dist pq →
      pq.length + (D + 1) * (g.length - S.card) ≤ fuel →
      ∃ r, rd_loop g weight fuel dist pq = .ok r ∧ r.length = g.length ∧
        r.getD t.toNat none = some 0 ∧ ∀ (k : Nat) (x : ℚ), r.getD k none = some x → 0 ≤ x := by
  intro fuel
  induction fuel with
  | zero =>
    intro S m dist pq hinv hmu
    have hpq : pq = [] := List.length_eq_zero.mp (by omega)
    subst hpq
    exact ⟨dist, by simp [rd_loop, pq_top], hinv.len, hinv.target, hinv.nonneg⟩
  | succ fuel ih =>
    intro S m dist pq hinv hmu
    rw [rd_loop]
    cases htop : pq_top pq with
    | none => exact ⟨dist, rfl, hinv.len, hinv.target, hinv.nonneg⟩
    | some p =>
      obtain ⟨d, u⟩ := p
      obtain ⟨hmem, hmin⟩ := pq_top_spec htop
      obtain ⟨hmd, hu0, hun, x, hx, hxd⟩ := hinv.pq_ok _ hmem
      simp only at hmd hu0 hun hx hxd ⊢
      have hlen1 : (pq.erase (d, u)).length = pq.length - 1 := List.length_erase_of_mem hmem
      have hpos : 0 < pq.length := List.length_pos_of_mem hmem
      have hinv1 : RDInv g weight t S d dist (pq.erase (d, u)) :=
        hinv.raise hmd (fun p hp => List.mem_of_mem_erase hp)
          (fun p hp => hmin p (List.mem_of_mem_erase hp))
      by_cases hs : rd_stale d (nth dist u none) = true
      · rw [if_pos hs]
        exact ih S d dist _ hinv1 (by omega)
      · rw [if_neg hs]
        have hxeq : x = d := by
          rcases hxd with h | h
          · exact h
          · exfalso
            apply hs
            simp only [nth, hx, rd_stale, decide_eq_true_eq]
            linarith
        subst hxeq
        have huu : ((u.toNat : Nat) : Int) = u := Int.toNat_of_nonneg hu0
        by_cases huS : u.toNat ∈ S
        · -- expanded before: the pass changes nothing
          obtain ⟨_, x1, hx1, _, hedges⟩ := hinv.settled _ huS
          rw [hx] at hx1
          injection hx1 with hx1
          subst hx1
          have hkeep : (nth g u []).foldl (rd_relax weight u) (dist, pq.erase (x, u)) =
              (dist, pq.erase (x, u)) :=
            rd_fold_keep (nth g u []) dist (pq.erase (x, u)) hx
            (by
              intro e he
              have := hedges e he
              rw [huu] at this
              exact this)
          rw [hkeep]
          dsimp only
          exact ih S x dist _ hinv1 (by omega)
        · -- first expansion of `u`
          have hes : ∀ e ∈ nth g u [],
              (0 ≤ e.to_ ∧ e.to_.toNat < g.length) ∧ 0 ≤ weight u e.to_ e := by
            intro e he
            obtain ⟨⟨h1, h2⟩, h3⟩ := hg u.toNat hun e he
            rw [huu] at h3
            exact ⟨⟨h1, by omega⟩, h3⟩
          obtain ⟨k1, k2, _, k4, k5⟩ := rd_relax_fold (nth g u []) dist _ hes hinv1 hx
          have hcard := card_lt_of_not_mem (fun j hj => (hinv.settled j hj).1) hun huS
          have hinv2 : RDInv g weight t (insert u.toNat S) x
              ((nth g u []).foldl (rd_relax weight u) (dist, pq.erase (x, u))).1
              ((nth g u []).foldl (rd_relax weight u) (dist, pq.erase (x, u))).2 := by
            constructor
            · exact k1.len
            · exact k1.pq_ok
            · intro k hk
              rcases Finset.mem_insert.mp hk with e | e
              · subst e
                refine ⟨hun, x, k2, le_refl _, ?_⟩
                intro e he
                have := k4 e he
                unfold Relaxed at this
                rw [huu]
                exact this
              · exact k1.settled k e
            · exact k1.target
            · exact k1.nonneg
          apply ih _ _ _ _ hinv2
          rw [Finset.card_insert_of_not_mem huS]
          have hdeg : (nth g u []).length ≤ D := hD u.toNat
          have hsplit : g.length - S.card = (g.length - (S.card + 1)) + 1 := by omega
          rw [hsplit, Nat.mul_add, Nat.mul_one] at hmu
          generalize (D + 1) * (g.length - (S.card + 1)) = Q at hmu ⊢
          omega

theorem row_length_le (g : List (List Edge)) (k : Nat) :
    (g.getD k []).length ≤ (g.map List.length).sum := by
  by_cases hk : k < g.length
  · rw [List.getD_eq_getElem _ _ hk]
    exact List.le_sum_of_mem (List.mem_map_of_mem _ (List.getElem_mem _))
  · rw [List.getD_eq_default _ _ (not_lt.mp hk)]
    simp

theorem rd_init_inv (g : List (List Edge)) (weight : Int → Int → Edge → ℚ) (t : Int)
    (ht : 0 ≤ t ∧ t < (g.length : Int)) :
    RDInv g weight t ∅ 0 (put (List.replicate g.length none) t (some 0)) [(0, t)] := by
  have htn : t.toNat < g.length := by omega
  have hget : ∀ k : Nat, (put (List.replicate g.length (none : Option ℚ)) t (some 0)).getD k none =
      if t.toNat = k then some 0 else none := by
    intro k
    rw [getD_put_opt]
    by_cases hk : t.toNat = k
    · have : k < g.length := by omega
      simp [hk, this]
    · simp only [hk, false_and, if_false, List.getD_eq_getElem?_getD, List.getElem?_replicate]
      split <;> rfl
  constructor
  · simp [length_put]
  · intro p hp
    rw [List.mem_singleton] at hp
    subst hp
    exact ⟨le_refl _, ht.1, htn, 0, by rw [hget]; simp, Or.inl rfl⟩
  · intro k hk
    exact absurd hk (Finset.not_mem_empty k)
  · rw [hget]; simp
  · intro k x hx
    rw [hget] at hx
    split at hx
    · injection hx with hx; rw [← hx]
    · exact absurd hx (by simp)

/-- With `rd_fuel g` iterations `reverse_dijkstra_lb` returns, and its table holds `0` at
the target and no negative entry. -/
theorem reverse_dijkstra_lb_ok {g : List (List Edge)} {weight : Int → Int → Edge → ℚ}
    {t : Int} (hg : RDGraph g weight) (ht : 0 ≤ t ∧ t < (g.length : Int)) {fuel : Nat}
    (hfuel : rd_fuel g ≤ fuel) :
    ∃ lb, reverse_dijkstra_lb fuel g t weight = .ok lb ∧ lb.length = g.length ∧
      lb.getD t.toNat none = some 0 ∧ ∀ (k : Nat) (x : ℚ), lb.getD k none = some x → 0 ≤ x := by
  unfold reverse_dijkstra_lb
  apply rd_loop_ok hg _ (row_length_le g) fuel ∅ 0 _ _ (rd_init_inv g weight t ht)
  unfold rd_fuel at hfuel
  simp only [List.length_singleton, Finset.card_empty, Nat.sub_zero]
  omega

theorem clamp_getD (lb : List (Option ℚ)) (i : Int) :
    nth (clamp lb) i 0 = (lb.getD i.toNat none).getD 0 := by
  unfold nth clamp
  simp only [List.getD_eq_getElem?_getD, List.getElem?_map]
  cases lb[i.toNat]? <;> rfl

/-- C10: on a graph whose entries stay in range and carry non-negative weights, and for a
target in range, `reverse_dijkstra_lb` followed by the infinity-to-zero clamp returns (given
`rd_fuel g` iterations) a table that holds exactly `0` at the target and no negative entry.
The weight function is arbitrary, so this covers both `lb_time` and `lb_dark`. -/
theorem C10_lower_bounds (g : List (List Edge)) (weight : Int → Int → Edge → ℚ) (t : Int)
    (fuel : Nat) (hg : RDGraph g weight) (ht : 0 ≤ t ∧ t < (g.length : Int))
    (hfuel : rd_fuel g ≤ fuel) :
    ∃ lb, reverse_dijkstra_lb fuel g t weight = .ok lb ∧
      nth (clamp lb) t 0 = 0 ∧ ∀ i : Int, 0 ≤ nth (clamp lb) i 0 := by
  obtain ⟨lb, h1, _, h3, h4⟩ := reverse_dijkstra_lb_ok hg ht hfuel
  refine ⟨lb, h1, ?_, ?_⟩
  · rw [clamp_getD, h3]; rfl
  · intro i
    rw [clamp_getD]
    cases h : lb.getD i.toNat none with
    | none => simp
    | some x => simpa using h4 _ _ h

/-- The hypotheses of C10 hold for the graph of the sample scenario with the time weights
and the target 4. -/
theorem C10_lower_bounds_witness :
    ∃ lb, reverse_dijkstra_lb 100 (build_graph 6 sample_crime sample_input) 4
        (fun _ _ e => e.time_cost) = .ok lb ∧
      nth (clamp lb) 4 0 = 0 ∧ ∀ i : Int, 0 ≤ nth (clamp lb) i 0 :=
  C10_lower_bounds (build_graph 6 sample_crime sample_input) (fun _ _ e => e.time_cost) 4 100
    (by decide!) (by decide!) (by decide!)

/-! ## A label property kept by the search -/

theorem pareto_prune_subset {old : List Label} {cand L : Label}
    (h : L ∈ pareto_prune old cand) : L ∈ old ∨ L = cand := by
  unfold pareto_prune at h
  rcases List.mem_append.mp h with h | h
  · exact Or.inl (List.mem_filter.mp h).1
  · exact Or.inr (List.mem_singleton.mp h)

theorem cap_select_range (c : Ctx) (r : ℚ × ℚ) (v : Int) (lv : List Label) :
    ∀ n : Nat, ∃ a b d : Nat,
      (List.range n).foldl
        (fun b (k : Nat) =>
          let i : Int := k
          let bt := if (nth lv i {}).time < (nth lv b.1 {}).time then i else b.1
          let bd := if (nth lv i {}).dark < (nth lv b.2.1 {}).dark then i else b.2.1
          let bb := if norm_score c r (nth lv i {}) v < norm_score c r (nth lv b.2.2 {}) v
            then i else b.2.2
          (bt, bd, bb))
        ((0 : Int), (0 : Int), (0 : Int)) = ((a : Int), (b : Int), (d : Int)) ∧
      a < max n 1 ∧ b < max n 1 ∧ d < max n 1 := by
  intro n
  induction n with
  | zero => exact ⟨0, 0, 0, rfl, by simp, by simp, by simp⟩
  | succ n ih =>
    obtain ⟨a, b, d, hf, ha, hb, hd⟩ := ih
    rw [List.range_succ, List.foldl_append, hf]
    simp only [List.foldl_cons, List.foldl_nil]
    refine ⟨if (nth lv (n : Int) {}).time < (nth lv (a : Int) {}).time then n else a,
      if (nth lv (n : Int) {}).dark < (nth lv (b : Int) {}).dark then n else b,
      if norm_score c r (nth lv (n : Int) {}) v < norm_score c r (nth lv (d : Int) {}) v
        then n else d, ?_, ?_, ?_, ?_⟩
    · congr 1
      · split <;> rfl
      · congr 1
        · split <;> rfl
        · split <;> rfl
    · split <;> omega
    · split <;> omega
    · split <;> omega

theorem cap_subset (c : Ctx) (refs : Refs) (v : Int) (lv : List Label) :
    ∀ L ∈ (cap c refs v lv).1, L ∈ lv := by
  intro L hL
  unfold cap at hL
  by_cases hc : v ≠ c.t ∧ (lv.length : Int) > 3
  · rw [if_pos hc] at hL
    simp only at hL
    obtain ⟨a, b, d, hf, ha, hb, hd⟩ := cap_select_range c (init_refs c refs) v lv lv.length
    have hsel : cap_select c (init_refs c refs) v lv = ((a : Int), (b : Int), (d : Int)) := hf
    rw [hsel] at hL
    have hlen : 3 < lv.length := by omega
    have hmax : max lv.length 1 = lv.length := by omega
    rw [hmax] at ha hb hd
    simp only [List.mem_append, List.mem_singleton] at hL
    rcases hL with (hL | hL) | hL
    · rw [hL]; exact nth_mem _ _ _ (by simpa using ha)
    · split at hL
      · rw [List.mem_singleton] at hL
        rw [hL]; exact nth_mem _ _ _ (by simpa using hb)
      · exact absurd hL (List.not_mem_nil _)
    · split at hL
      · rw [List.mem_singleton] at hL
        rw [hL]; exact nth_mem _ _ _ (by simpa using hd)
      · exact absurd hL (List.not_mem_nil _)
  · rw [if_neg hc] at hL
    exact hL

theorem labels_put_ok {LP : Int → Label → Prop} {labels : List (List Label)} {v : Int}
    {row : List Label} (hv : 0 ≤ v) (hlab : LabelsOK LP labels)
    (hrow : ∀ L ∈ row, LP v L) : LabelsOK LP (put labels v row) := by
  intro k L hL
  rcases mem_getD_put hL with ⟨hk, hL1⟩ | hL1
  · have : (k : Int) = v := by omega
    rw [this]; exact hrow L hL1
  · exact hlab k L hL1

theorem expand_edge_inv {c : Ctx} {LP : Int → Label → Prop} (h : StepOK c LP)
    {cur : PQItem} {Lcur : Label} {e : Edge} {st : Search}
    (hlab : LabelsOK LP st.labels) (hopn : OpenOK st.opn)
    (hu : 0 ≤ cur.node) (hi : 0 ≤ cur.label_idx) (hL : LP cur.node Lcur)
    (he : e ∈ nth c.g cur.node []) :
    LabelsOK LP (expand_edge c cur Lcur e st).1.labels ∧
      OpenOK (expand_edge c cur Lcur e st).1.opn := by
  have hv : 0 ≤ e.to_ := h.graph _ _ he
  unfold expand_edge
  simp only
  by_cases hf : is_forbidden c e.to_ = true
  · rw [if_pos hf]; exact ⟨hlab, hopn⟩
  · rw [if_neg hf]
    have hf1 : is_forbidden c e.to_ = false := by
      cases hx : is_forbidden c e.to_ with
      | false => rfl
      | true => exact absurd hx hf
    split
    · exact ⟨hlab, hopn⟩
    · split
      · exact ⟨hlab, hopn⟩
      · have hcand := h.step cur.node Lcur e cur.label_idx hu hi hL he hf1
        have hrow : ∀ L ∈ (cap c st.refs e.to_
            (pareto_prune (nth st.labels e.to_ [])
              { time := Lcur.time + e.time_cost
                dark := Lcur.dark + edge_dark c.light c.Lmax cur.node e.to_
                node := e.to_
                prev_node := cur.node
                prev_label_idx := cur.label_idx })).1, LP e.to_ L := by
          intro L hL1
          rcases pareto_prune_subset (cap_subset _ _ _ _ L hL1) with h1 | h1
          · have := hlab e.to_.toNat L h1
            rwa [Int.toNat_of_nonneg hv] at this
          · rw [h1]; exact hcand
        have hlab1 := labels_put_ok hv hlab hrow
        split
        · exact ⟨hlab1, hopn⟩
        · split
          · refine ⟨hlab1, ?_⟩
            intro it hit
            rcases List.mem_append.mp hit with hit | hit
            · exact hopn it hit
            · rw [List.mem_singleton] at hit
              subst hit
              exact ⟨hv, Int.natCast_nonneg _⟩
          · exact ⟨hlab1, hopn⟩

theorem expand_edges_inv {c : Ctx} {LP : Int → Label → Prop} (h : StepOK c LP)
    {cur : PQItem} {Lcur : Label} (hu : 0 ≤ cur.node) (hi : 0 ≤ cur.label_idx)
    (hL : LP cur.node Lcur) :
    ∀ (es : List Edge) (st : Search), (∀ e ∈ es, e ∈ nth c.g cur.node []) →
      LabelsOK LP st.labels → OpenOK st.opn →
      LabelsOK LP (expand_edges c cur Lcur es st).labels ∧
        OpenOK (expand_edges c cur Lcur es st).opn := by
  intro es
  induction es with
  | nil => intro st _ hlab hopn; exact ⟨hlab, hopn⟩
  | cons e rest ih =>
    intro st hes hlab hopn
    rw [expand_edges]
    obtain ⟨h1, h2⟩ :=
      expand_edge_inv h hlab hopn hu hi hL (hes e (List.mem_cons_self _ _))
    cases hx : expand_edge c cur Lcur e st with
    | mk st1 b =>
      rw [hx] at h1 h2
      cases b with
      | true => exact ⟨h1, h2⟩
      | false => exact ih st1 (fun x hx => hes x (List.mem_cons_of_mem _ hx)) h1 h2

theorem search_step_inv {c : Ctx} {LP : Int → Label → Prop} (h : StepOK c LP)
    {cur : PQItem} {st : Search} (hu : 0 ≤ cur.node) (hi : 0 ≤ cur.label_idx)
    (hlab : LabelsOK LP st.labels) (hopn : OpenOK st.opn) :
    LabelsOK LP (search_step c cur st).1.labels ∧ OpenOK (search_step c cur st).1.opn := by
  unfold search_step
  simp only
  split
  · exact ⟨hlab, hopn⟩
  · rename_i hrange
    split
    · split <;> exact ⟨hlab, hopn⟩
    · split
      · exact ⟨hlab, hopn⟩
      · split
        · exact ⟨hlab, hopn⟩
        · have hlt : cur.label_idx.toNat < (nth st.labels cur.node []).length := by
            have := not_le.mp hrange
            omega
          have hmem := nth_mem (nth st.labels cur.node []) cur.label_idx {} hlt
          have hLP : LP cur.node (nth (nth st.labels cur.node []) cur.label_idx {}) := by
            have := hlab cur.node.toNat _ hmem
            rwa [Int.toNat_of_nonneg hu] at this
          exact expand_edges_inv h hu hi hLP _ { st with lcur_moved := false }
            (fun e he => he) hlab hopn

theorem getD_mem_of_mem {α : Type} (l : List α) (p : Nat) (d : α) (hd : d ∈ l) :
    l.getD p d ∈ l := by
  by_cases hp : p < l.length
  · rw [List.getD_eq_getElem _ _ hp]
    exact List.getElem_mem _
  · rw [List.getD_eq_default _ _ (not_lt.mp hp)]
    exact hd

theorem pop_open_mem {tie : List PQItem → Nat} {opn : List PQItem} {cur : PQItem}
    {rest : List PQItem} (h : pop_open tie opn = some (cur, rest)) :
    cur ∈ opn ∧ ∀ it ∈ rest, it ∈ opn := by
  unfold pop_open at h
  cases opn with
  | nil => exact absurd h (by simp)
  | cons x xs =>
    simp only at h
    injection h with h
    injection h with h1 h2
    refine ⟨?_, ?_⟩
    · rw [← h1]
      exact getD_mem_of_mem _ _ _ (List.mem_cons_self _ _)
    · intro it hit
      rw [← h2] at hit
      exact List.mem_of_mem_eraseIdx hit

theorem search_loop_inv {c : Ctx} {LP : Int → Label → Prop} (h : StepOK c LP)
    (tie : List PQItem → Nat) :
    ∀ (k : Nat) (st : Search), LabelsOK LP st.labels → OpenOK st.opn →
      LabelsOK LP (search_loop c tie k st).labels ∧ OpenOK (search_loop c tie k st).opn := by
  intro k
  induction k with
  | zero => intro st hlab hopn; exact ⟨hlab, hopn⟩
  | succ k ih =>
    intro st hlab hopn
    rw [search_loop]
    cases hp : pop_open tie st.opn with
    | none => exact ⟨hlab, hopn⟩
    | some p =>
      obtain ⟨cur, rest⟩ := p
      obtain ⟨hcur, hrest⟩ := pop_open_mem hp
      obtain ⟨hu, hi⟩ := hopn cur hcur
      have hopn1 : OpenOK ({ st with opn := rest } : Search).opn :=
        fun it hit => hopn it (hrest it hit)
      obtain ⟨h1, h2⟩ :=
        @search_step_inv c LP h cur { st with opn := rest } hu hi hlab hopn1
      simp only
      cases hx : search_step c cur { st with opn := rest } with
      | mk st1 b =>
        rw [hx] at h1 h2
        cases b with
        | true => exact ⟨h1, h2⟩
        | false => exact ih st1 h1 h2

theorem init_search_labels (c : Ctx) (N : Int) (refs : Refs) (hs : 0 ≤ c.s ∧ c.s < N) :
    (init_search c N refs).labels = put (List.replicate N.toNat []) c.s [seed_label c] ∧
      (init_search c N refs).opn =
        [{ f_time := (seed_label c).time + nth c.lb_time c.s 0
           f_dark := (seed_label c).dark + nth c.lb_dark c.s 0
           node := c.s, label_idx := 0 }] := by
  have hsn : c.s.toNat < N.toNat := by omega
  have h0 : nth (List.replicate N.toNat ([] : List Label)) c.s [] = [] :=
    nth_replicate _ _ _ _ hsn
  have h1 : nth (put (List.replicate N.toNat ([] : List Label)) c.s [seed_label c]) c.s [] =
      [seed_label c] := nth_put_same _ _ _ _ (by simpa using hsn)
  unfold init_search
  simp only [h0, List.nil_append]
  refine ⟨rfl, ?_⟩
  have h2 : nth (put (List.replicate N.toNat ([] : List Label)) c.s
      [({ time := 0, dark := max 0 (c.Lmax - nth c.light c.s 0), node := c.s,
          prev_node := -1, prev_label_idx := -1 } : Label)]) c.s [] = [seed_label c] := h1
  rw [h2]
  simp [nth, seed_label]

theorem init_search_inv {c : Ctx} {LP : Int → Label → Prop} {N : Int} (refs : Refs)
    (hs : 0 ≤ c.s ∧ c.s < N) (hseed : LP c.s (seed_label c)) :
    LabelsOK LP (init_search c N refs).labels ∧ OpenOK (init_search c N refs).opn := by
  obtain ⟨h1, h2⟩ := init_search_labels c N refs hs
  rw [h1, h2]
  refine ⟨?_, ?_⟩
  · refine labels_put_ok hs.1 ?_ ?_
    · intro k L hL
      simp [List.getD_eq_getElem?_getD, List.getElem?_replicate] at hL
      split at hL <;> simp at hL
    · intro L hL
      rw [List.mem_singleton] at hL
      rw [hL]; exact hseed
  · intro it hit
    rw [List.mem_singleton] at hit
    subst hit
    exact ⟨hs.1, le_refl _⟩

/-- A label property that holds of the seed label and is kept by the creation of candidates
holds of every label the search of `solve` ends with. -/
theorem run_search_labels_ok {hyp : ℚ → ℚ → ℚ}
    {fuel : Nat} {tie : List PQItem → Nat} {refs : Refs} {N : Int}
    {light : List ℚ} {crime : List Int} {input : List (List Int)} {s t : Int} {c : Ctx}
    {st : Search} {LP : Int → Label → Prop}
    (hv : ValidInput N light crime input s t)
    (hrun : run_search hyp fuel tie refs N light crime input s t = .ok (c, st))
    (hstep : StepOK c LP) (hseed : LP c.s (seed_label c)) : LabelsOK LP st.labels := by
  obtain ⟨hc, hst⟩ := run_search_eq hrun
  obtain ⟨_, _, _, hs, _⟩ := mk_ctx_fields hc
  rw [hst]
  obtain ⟨h1, h2⟩ := @init_search_inv c LP N refs
    (show 0 ≤ c.s ∧ c.s < N by rw [hs]; exact hv.2.2.2.1) hseed
  exact (search_loop_inv hstep tie _ _ h1 h2).1

theorem ctx_graph_ok {hyp : ℚ → ℚ → ℚ} {fuel : Nat} {N : Int} {light : List ℚ} {crime : List Int}
    {input : List (List Int)} {s t : Int} {c : Ctx}
    (hv : ValidInput N light crime input s t)
    (hc : mk_ctx hyp fuel N light crime input s t = .ok c) :
    c.g.length = N.toNat ∧ ∀ (k : Nat) (x : Edge), x ∈ c.g.getD k [] → EdgeOK N crime k x := by
  rw [(mk_ctx_fields hc).1]
  exact build_graph_ok hv

/-! ## Nodes of the returned sequences -/

theorem getD_put_gen {α : Type} (l : List α) (i : Int) (x d : α) (k : Nat) :
    (put l i x).getD k d = if i.toNat = k ∧ k < l.length then x else l.getD k d := by
  unfold put
  simp only [List.getD_eq_getElem?_getD, List.getElem?_set]
  by_cases h1 : i.toNat = k
  · by_cases h2 : k < l.length
    · simp [h1, h2]
    · simp [h1, h2, List.getElem?_eq_none (not_lt.mp h2)]
  · simp [h1]

theorem read2_mem {labels : List (List Label)} {node idx : Int} {L : Label}
    (h : read2 labels node idx = some L) : L ∈ labels.getD node.toNat [] := by
  unfold read2 at h
  split at h
  · split at h
    · exact absurd h (by simp)
    · rename_i row hrow
      rw [List.getD_eq_getElem?_getD, hrow]
      exact List.getElem?_mem h
  · exact absurd h (by simp)

theorem reconstruct_walk_nodes {labels : List (List Label)} {Q : Int → Prop}
    (hlab : ∀ (k : Nat) (L : Label), L ∈ labels.getD k [] → L.prev_node ≠ -1 → Q L.prev_node) :
    ∀ (fuel : Nat) (node idx : Int) (acc path : List Int),
      reconstruct_walk labels fuel node idx acc = .ok path →
      (∀ x ∈ acc, Q x) → (node ≠ -1 → Q node) → ∀ x ∈ path, Q x := by
  intro fuel
  induction fuel with
  | zero =>
    intro node idx acc path h hacc _
    unfold reconstruct_walk at h
    split at h
    · exact absurd h (by simp)
    · injection h with h; rw [← h]; exact hacc
  | succ fuel ih =>
    intro node idx acc path h hacc hnode
    rw [reconstruct_walk] at h
    split at h
    · rename_i hc
      split at h
      · exact absurd h (by simp)
      · rename_i L hL
        apply ih _ _ _ _ h
        · intro x hx
          rcases List.mem_append.mp hx with hx | hx
          · exact hacc x hx
          · rw [List.mem_singleton] at hx
            rw [hx]; exact hnode hc.1
        · exact hlab _ L (read2_mem hL)
    · injection h with h; rw [← h]; exact hacc

theorem reconstruct_path_nodes {labels : List (List Label)} {Q : Int → Prop}
    (hlab : ∀ (k : Nat) (L : Label), L ∈ labels.getD k [] → L.prev_node ≠ -1 → Q L.prev_node)
    {fuel : Nat} {t idx : Int} {path : List Int}
    (h : reconstruct_path fuel t idx labels = .ok path) (ht : Q t) : ∀ x ∈ path, Q x := by
  unfold reconstruct_path at h
  split at h
  · exact absurd h (by simp)
  · rename_i p hp
    injection h with h
    intro x hx
    rw [← h, List.mem_reverse] at hx
    exact reconstruct_walk_nodes hlab _ _ _ _ _ hp (by simp) (fun _ => ht) x hx

theorem sd_walk_nodes {parent : List Int} {Q : Int → Prop}
    (hpar : ∀ k : Nat, parent.getD k (-1) ≠ -1 → Q (parent.getD k (-1))) :
    ∀ (fuel : Nat) (current : Int) (acc path : List Int),
      sd_walk parent fuel current acc = .ok path →
      (∀ x ∈ acc, Q x) → (current ≠ -1 → Q current) → ∀ x ∈ path, Q x := by
  intro fuel
  induction fuel with
  | zero =>
    intro current acc path h hacc _
    unfold sd_walk at h
    split at h
    · exact absurd h (by simp)
    · injection h with h; rw [← h]; exact hacc
  | succ fuel ih =>
    intro current acc path h hacc hcur
    rw [sd_walk] at h
    split at h
    · rename_i hc
      apply ih _ _ _ h
      · intro x hx
        rcases List.mem_append.mp hx with hx | hx
        · exact hacc x hx
        · rw [List.mem_singleton] at hx
          rw [hx]; exact hcur hc
      · exact hpar current.toNat
    · injection h with h; rw [← h]; exact hacc

theorem sd_select_range (N : Int) (st : SD) :
    sd_select N st = -1 ∨ ∃ k : Nat, k < N.toNat ∧ sd_select N st = (k : Int) := by
  unfold sd_select
  suffices h : ∀ (l : List Nat) (u : Int), (∀ k ∈ l, k < N.toNat) →
      (u = -1 ∨ ∃ k : Nat, k < N.toNat ∧ u = (k : Int)) →
      (l.foldl (fun u (k : Nat) =>
        let v : Int := k
        if !(nth st.visited v false) && (u == -1 || decide (nth st.dist v 0 < nth st.dist u 0))
        then v else u) u = -1 ∨
      ∃ k : Nat, k < N.toNat ∧ l.foldl (fun u (k : Nat) =>
        let v : Int := k
        if !(nth st.visited v false) && (u == -1 || decide (nth st.dist v 0 < nth st.dist u 0))
        then v else u) u = (k : Int)) from
    h (List.range N.toNat) (-1) (fun k hk => List.mem_range.mp hk) (Or.inl rfl)
  intro l
  induction l with
  | nil => intro u _ hu; exact hu
  | cons k rest ih =>
    intro u hl hu
    rw [List.foldl_cons]
    apply ih _ (fun x hx => hl x (List.mem_cons_of_mem _ hx))
    simp only
    split
    · exact Or.inr ⟨k, hl k (List.mem_cons_self _ _), rfl⟩
    · exact hu

theorem sd_relax_inv {Q : Int → Prop} {u : Int} {st : SD} {e : Edge}
    (hQu : Q u) (hQe : Q e.to_) (he0 : 0 ≤ e.to_) (hinv : SDInv Q st) :
    SDInv Q (sd_relax u st e) ∧ (sd_relax u st e).dist.length = st.dist.length := by
  unfold sd_relax
  simp only
  split
  · refine ⟨⟨?_, ?_⟩, by simp [length_put]⟩
    · intro k hk hne
      simp only at hk hne
      rw [getD_put_gen] at hne
      by_cases hc : e.to_.toNat = k ∧ k < st.dist.length
      · have : (k : Int) = e.to_ := by omega
        rw [this]; exact hQe
      · rw [if_neg hc] at hne
        rw [length_put] at hk
        exact hinv.dist_ok k hk hne
    · intro k hne
      simp only at hne ⊢
      rw [getD_put_gen] at hne ⊢
      by_cases hc : e.to_.toNat = k ∧ k < st.parent.length
      · rw [if_pos hc]; exact hQu
      · rw [if_neg hc] at hne ⊢
        exact hinv.parent_ok k hne
  · exact ⟨hinv, rfl⟩

theorem sd_relax_fold_inv {Q : Int → Prop} {u : Int} (hQu : Q u) :
    ∀ (es : List Edge) (st : SD), (∀ e ∈ es, Q e.to_ ∧ 0 ≤ e.to_) → SDInv Q st →
      SDInv Q (es.foldl (sd_relax u) st) ∧
        (es.foldl (sd_relax u) st).dist.length = st.dist.length := by
  intro es
  induction es with
  | nil => intro st _ hinv; exact ⟨hinv, rfl⟩
  | cons e rest ih =>
    intro st hes hinv
    rw [List.foldl_cons]
    obtain ⟨h1, h2⟩ := sd_relax_inv hQu (hes e (List.mem_cons_self _ _)).1
      (hes e (List.mem_cons_self _ _)).2 hinv
    obtain ⟨k1, k2⟩ := ih _ (fun x hx => hes x (List.mem_cons_of_mem _ hx)) h1
    exact ⟨k1, by rw [k2, h2]⟩

/-- A node property that holds at the source and travels along the entries of `g` holds of
every node `simple_dijkstra_path` has reached and of every parent it has recorded. -/
theorem sd_loop_inv {g : List (List Edge)} {Q : Int → Prop} {t N : Int}
    (hQ : ∀ (u : Int) (e : Edge), 0 ≤ u → Q u → e ∈ nth g u [] → Q e.to_ ∧ 0 ≤ e.to_) :
    ∀ (k : Nat) (st : SD), SDInv Q st → st.dist.length = N.toNat →
      SDInv Q (sd_loop g t N k st) ∧ (sd_loop g t N k st).dist.length = N.toNat := by
  intro k
  induction k with
  | zero => intro st hinv hlen; exact ⟨hinv, hlen⟩
  | succ k ih =>
    intro st hinv hlen
    rw [sd_loop]
    simp only
    split
    · exact ⟨hinv, hlen⟩
    · rename_i hsel
      simp only [Bool.or_eq_true, beq_iff_eq, not_or] at hsel
      obtain ⟨hne, hbig⟩ := hsel
      rcases sd_select_range N st with h | ⟨j, hj, h⟩
      · exact absurd h hne
      · have hQu : Q (sd_select N st) := by
          rw [h]
          apply hinv.dist_ok j (by omega)
          have : nth st.dist (sd_select N st) 0 = st.dist.getD j 0 := by
            rw [h]; exact nth_natCast _ _ _
          rw [← this]; exact hbig
        have hu0 : 0 ≤ sd_select N st := by rw [h]; exact Int.natCast_nonneg _
        have hinv1 : SDInv Q { st with visited := put st.visited (sd_select N st) true } :=
          ⟨hinv.dist_ok, hinv.parent_ok⟩
        split
        · exact ⟨hinv1, hlen⟩
        · obtain ⟨k1, k2⟩ := sd_relax_fold_inv hQu (nth g (sd_select N st) [])
            { st with visited := put st.visited (sd_select N st) true }
            (fun e he => hQ _ e hu0 hQu he) hinv1
          exact ih _ k1 (by rw [k2]; exact hlen)

theorem sd_init_inv {Q : Int → Prop} {s N : Int} (hs : 0 ≤ s) (hQs : Q s) :
    SDInv Q { dist := put (List.replicate N.toNat BIG) s 0
              parent := List.replicate N.toNat (-1)
              visited := List.replicate N.toNat false } := by
  constructor
  · intro k hk hne
    simp only at hk hne
    rw [getD_put_gen] at hne
    by_cases hc : s.toNat = k ∧ k < (List.replicate N.toNat BIG).length
    · have : (k : Int) = s := by omega
      rw [this]; exact hQs
    · rw [if_neg hc] at hne
      rw [length_put, List.length_replicate] at hk
      exfalso
      apply hne
      simp [List.getD_eq_getElem?_getD, List.getElem?_replicate, hk]
  · intro k hne
    exfalso
    apply hne
    simp only [List.getD_eq_getElem?_getD, List.getElem?_replicate]
    split <;> rfl

theorem simple_dijkstra_path_nodes {g : List (List Edge)} {Q : Int → Prop} {s t N : Int}
    (hQ : ∀ (u : Int) (e : Edge), 0 ≤ u → Q u → e ∈ nth g u [] → Q e.to_ ∧ 0 ≤ e.to_)
    (hs : 0 ≤ s) (hQs : Q s) (hQt : Q t) {fuel : Nat} {path : List Int}
    (h : simple_dijkstra_path fuel g s t N = .ok path) : ∀ x ∈ path, Q x := by
  unfold simple_dijkstra_path at h
  simp only at h
  obtain ⟨hinv, _⟩ := sd_loop_inv (t := t) (N := N) hQ N.toNat _ (sd_init_inv (N := N) hs hQs)
    (by simp [length_put])
  split at h
  · split at h
    · exact absurd h (by simp)
    · rename_i p hp
      injection h with h
      intro x hx
      rw [← h, List.mem_reverse] at hx
      exact sd_walk_nodes hinv.parent_ok _ _ _ _ hp (by simp) (fun _ => hQt) x hx
  · injection h with h
    rw [← h]
    simp

theorem simple_dijkstra_path_empty {g : List (List Edge)} {Q : Int → Prop} {s t N : Int}
    (hQ : ∀ (u : Int) (e : Edge), 0 ≤ u → Q u → e ∈ nth g u [] → Q e.to_ ∧ 0 ≤ e.to_)
    (hs : 0 ≤ s) (hQs : Q s) (ht : 0 ≤ t ∧ t < N) (hQt : ¬ Q t) (fuel : Nat) :
    simple_dijkstra_path fuel g s t N = .ok [] := by
  unfold simple_dijkstra_path
  simp only
  obtain ⟨hinv, hlen⟩ := sd_loop_inv (t := t) (N := N) hQ N.toNat _
    (sd_init_inv (N := N) hs hQs) (by simp [length_put])
  rw [if_neg]
  intro hlt
  apply hQt
  have := hinv.dist_ok t.toNat (by rw [hlen]; omega) (ne_of_lt hlt)
  rwa [Int.toNat_of_nonneg ht.1] at this

theorem okNode_of_not_forbidden {c : Ctx} {v : Int} (h : is_forbidden c v = false) :
    okNode c.crime c.s c.t v := by
  unfold is_forbidden at h
  unfold okNode
  by_cases hc : v = c.s ∨ v = c.t
  · exact Or.inr hc
  · rw [if_neg hc] at h
    left
    simpa using h

theorem node_step_ok (c : Ctx) (hgraph : ∀ (k : Nat) (e : Edge), e ∈ c.g.getD k [] → 0 ≤ e.to_) :
    StepOK c (NodeLP c) := by
  constructor
  · exact hgraph
  · intro u Lcur e idx _ _ hL _ hf
    exact ⟨okNode_of_not_forbidden hf, Or.inr hL.1⟩

theorem same_picks_path {path : List Int} {a b : ℚ} {p : Path}
    (h : p ∈ same_picks path a b) : p.path = path ∧ p.time = a ∧ p.dark = b ∧ p.idx = 0 := by
  unfold same_picks at h
  simp only [List.mem_cons, List.mem_singleton, List.not_mem_nil, or_false] at h
  rcases h with h | h | h <;> subst h <;> exact ⟨rfl, rfl, rfl, rfl⟩

theorem fallback_eq {fuel : Nat} {g : List (List Edge)} {light : List ℚ} {Lmax : ℚ}
    {s t N : Int} {picks : List Path} (h : fallback fuel g light Lmax s t N = .ok picks) :
    (∃ path, simple_dijkstra_path fuel g s t N = .ok path ∧ path ≠ [] ∧
        picks = same_picks path (fallback_costs g light Lmax path).1
          (fallback_costs g light Lmax path).2) ∨
      (simple_dijkstra_path fuel g s t N = .ok [] ∧ picks = same_picks [s, t] 1000 500) := by
  unfold fallback at h
  split at h
  · exact absurd h (by simp)
  · rename_i path hp
    by_cases he : path = []
    · subst he
      simp only [List.isEmpty_nil, Bool.not_true] at h
      injection h with h
      exact Or.inr ⟨hp, h.symm⟩
    · have : (!path.isEmpty) = true := by
        cases path with
        | nil => exact absurd rfl he
        | cons x xs => rfl
      rw [if_pos this] at h
      injection h with h
      exact Or.inl ⟨path, hp, he, h.symm⟩

/-- C3: on a valid input every node of every node sequence `solve` returns is unflagged
(`crime != 1`) or is the source or the target. -/
theorem C3_no_forbidden_node (hyp : ℚ → ℚ → ℚ) (fuel : Nat) (tie : List PQItem → Nat) (refs : Refs)
    (N M : Int) (light : List ℚ) (crime : List Int) (input : List (List Int)) (s t : Int)
    (picks : List Path) (refs1 : Refs)
    (hv : ValidInput N light crime input s t)
    (h : solve hyp fuel tie refs N M light crime input s t = .ok (picks, refs1)) :
    ∀ p ∈ picks, ∀ x ∈ p.path, nth crime x 0 ≠ 1 ∨ x = s ∨ x = t := by
  obtain ⟨c, st, hrun, hfin, _⟩ := solve_eq h
  obtain ⟨hc, _⟩ := run_search_eq hrun
  obtain ⟨hg, _, hcr, hs, ht, _⟩ := mk_ctx_fields hc
  obtain ⟨_, hedges⟩ := ctx_graph_ok hv hc
  have hgraph : ∀ (k : Nat) (e : Edge), e ∈ c.g.getD k [] → 0 ≤ e.to_ :=
    fun k e he => (hedges k e he).1.1
  have hlab : LabelsOK (NodeLP c) st.labels :=
    run_search_labels_ok hv hrun (node_step_ok c hgraph) ⟨Or.inr (Or.inl rfl), Or.inl rfl⟩
  have hQ : ∀ x, okNode c.crime c.s c.t x → nth crime x 0 ≠ 1 ∨ x = s ∨ x = t := by
    intro x hx
    rw [hcr, hs, ht] at hx
    exact hx
  intro p hp x hx
  apply hQ
  by_cases hne : nth st.labels c.t [] = []
  · -- fallback branch
    unfold finish at hfin
    simp only at hfin
    rw [if_pos (by rw [hne]; rfl)] at hfin
    rcases fallback_eq hfin with ⟨path, hpath, _, hpk⟩ | ⟨_, hpk⟩
    · rw [hpk] at hp
      rw [(same_picks_path hp).1] at hx
      refine simple_dijkstra_path_nodes (Q := okNode c.crime c.s c.t) ?_ ?_
        (Or.inr (Or.inl rfl)) (Or.inr (Or.inr rfl)) hpath x hx
      · intro u e hu _ he
        have := hedges u.toNat e he
        refine ⟨Or.inl ?_, this.1.1⟩
        rw [hcr]; exact this.2.1
      · rw [hs]; exact hv.2.2.2.1.1
    · rw [hpk] at hp
      rw [(same_picks_path hp).1] at hx
      simp only [List.mem_cons, List.mem_singleton, List.not_mem_nil, or_false] at hx
      rcases hx with hx | hx
      · exact Or.inr (Or.inl hx)
      · exact Or.inr (Or.inr hx)
  · -- the picks come from labels at the target
    obtain ⟨p1, p2, p3, hpk, h1, h2, h3⟩ := finish_search_eq hne hfin
    have hprev : ∀ (k : Nat) (L : Label), L ∈ st.labels.getD k [] → L.prev_node ≠ -1 →
        okNode c.crime c.s c.t L.prev_node := by
      intro k L hL hne1
      rcases (hlab k L hL).2 with h0 | h0
      · exact absurd h0 hne1
      · exact h0
    rw [hpk] at hp
    simp only [List.mem_cons, List.mem_singleton, List.not_mem_nil, or_false] at hp
    rcases hp with hp | hp | hp
    · subst hp
      exact reconstruct_path_nodes hprev (pick_eq h1).1 (Or.inr (Or.inr rfl)) x hx
    · subst hp
      exact reconstruct_path_nodes hprev (pick_eq h2).1 (Or.inr (Or.inr rfl)) x hx
    · subst hp
      exact reconstruct_path_nodes hprev (pick_eq h3).1 (Or.inr (Or.inr rfl)) x hx

/-- The hypotheses of C3 hold on the sample scenario, whose node 1 is flagged. -/
theorem C3_no_forbidden_node_witness :
    ValidInput 6 sample_light sample_crime sample_input 0 4 ∧
      ∀ p ∈ same_picks [0, 3, 5, 4] 5 (13 / 10), ∀ x ∈ p.path,
        nth sample_crime x 0 ≠ 1 ∨ x = 0 ∨ x = 4 :=
  ⟨by decide,
    C3_no_forbidden_node hypot_sq 100 tie0 none 6 6 sample_light sample_crime sample_input 0 4
      (same_picks [0, 3, 5, 4] 5 (13 / 10)) none (by decide) (by decide!)⟩

/-! ## The reference `Lcur`: runs that read it after a push, runs that do not -/

theorem expand_edge_live {c : Ctx} {cur : PQItem} {Lcur : Label} {e : Edge} {st : Search}
    (he : e.to_ ≠ cur.node) (hm : st.lcur_moved = false) (hs : st.stale_read = false) :
    (expand_edge c cur Lcur e st).1.lcur_moved = false ∧
      (expand_edge c cur Lcur e st).1.stale_read = false := by
  unfold expand_edge
  simp only [hm, hs, Bool.or_self, Bool.false_or, decide_eq_false he]
  split
  · exact ⟨hm, hs⟩
  · split
    · exact ⟨rfl, rfl⟩
    · split
      · exact ⟨rfl, rfl⟩
      · split
        · exact ⟨rfl, rfl⟩
        · split <;> exact ⟨rfl, rfl⟩

theorem expand_edges_live {c : Ctx} {cur : PQItem} {Lcur : Label} :
    ∀ (es : List Edge) (st : Search), (∀ e ∈ es, e.to_ ≠ cur.node) →
      st.lcur_moved = false → st.stale_read = false →
      (expand_edges c cur Lcur es st).stale_read = false := by
  intro es
  induction es with
  | nil => intro st _ _ hs; exact hs
  | cons e rest ih =>
    intro st hes hm hs
    rw [expand_edges]
    obtain ⟨h1, h2⟩ := @expand_edge_live c cur Lcur e st (hes e (List.mem_cons_self _ _)) hm hs
    cases hx : expand_edge c cur Lcur e st with
    | mk st1 b =>
      rw [hx] at h1 h2
      cases b with
      | true => exact h2
      | false => exact ih st1 (fun x hx => hes x (List.mem_cons_of_mem _ hx)) h1 h2

theorem search_step_live {c : Ctx} (hg : NoSelfEntry c.g) (cur : PQItem) (st : Search)
    (hs : st.stale_read = false) : (search_step c cur st).1.stale_read = false := by
  unfold search_step
  simp only
  split
  · exact hs
  · split
    · split <;> exact hs
    · split
      · exact hs
      · split
        · exact hs
        · apply expand_edges_live
          · intro e he
            obtain ⟨h0, hne⟩ := hg _ _ he
            intro heq
            by_cases hn : 0 ≤ cur.node
            · rw [Int.toNat_of_nonneg hn] at hne
              exact hne heq
            · omega
          · rfl
          · exact hs

theorem search_loop_live {c : Ctx} (hg : NoSelfEntry c.g) (tie : List PQItem → Nat) :
    ∀ (k : Nat) (st : Search), st.stale_read = false →
      (search_loop c tie k st).stale_read = false := by
  intro k
  induction k with
  | zero => intro st hs; exact hs
  | succ k ih =>
    intro st hs
    unfold search_loop
    cases hp : pop_open tie st.opn with
    | none => exact hs
    | some x =>
      obtain ⟨cur, rest⟩ := x
      simp only
      have h1 := search_step_live hg cur { st with opn := rest } hs
      cases hx : search_step c cur { st with opn := rest } with
      | mk st1 b =>
        rw [hx] at h1
        cases b with
        | true => exact h1
        | false => exact ih st1 h1

theorem expand_edge_stale (c : Ctx) (cur : PQItem) (Lcur : Label) (e : Edge) (st : Search)
    (hs : st.stale_read = true) : (expand_edge c cur Lcur e st).1.stale_read = true := by
  unfold expand_edge
  simp only [hs, Bool.true_or]
  split
  · exact hs
  · split
    · rfl
    · split
      · rfl
      · split
        · rfl
        · split <;> rfl

theorem expand_edges_stale (c : Ctx) (cur : PQItem) (Lcur : Label) :
    ∀ (es : List Edge) (st : Search), st.stale_read = true →
      (expand_edges c cur Lcur es st).stale_read = true := by
  intro es
  induction es with
  | nil => intro st hs; exact hs
  | cons e rest ih =>
    intro st hs
    rw [expand_edges]
    have h1 := expand_edge_stale c cur Lcur e st hs
    cases hx : expand_edge c cur Lcur e st with
    | mk st1 b =>
      rw [hx] at h1
      cases b with
      | true => exact h1
      | false => exact ih st1 h1

theorem search_step_stale (c : Ctx) (cur : PQItem) (st : Search)
    (hs : st.stale_read = true) : (search_step c cur st).1.stale_read = true := by
  unfold search_step
  simp only
  split
  · exact hs
  · split
    · split <;> exact hs
    · split
      · exact hs
      · split
        · exact hs
        · exact expand_edges_stale c cur _ _ _ hs

/-- Once the reference has been read after a push, the search state keeps the record. -/
theorem search_loop_stale (c : Ctx) (tie : List PQItem → Nat) :
    ∀ (k : Nat) (st : Search), st.stale_read = true →
      (search_loop c tie k st).stale_read = true := by
  intro k
  induction k with
  | zero => intro st hs; exact hs
  | succ k ih =>
    intro st hs
    unfold search_loop
    cases hp : pop_open tie st.opn with
    | none => exact hs
    | some x =>
      obtain ⟨cur, rest⟩ := x
      simp only
      have h1 := search_step_stale c cur { st with opn := rest } hs
      cases hx : search_step c cur { st with opn := rest } with
      | mk st1 b =>
        rw [hx] at h1
        cases b with
        | true => exact h1
        | false => exact ih st1 h1

/-- On a valid input without a row that joins a node to itself, the adjacency structure has
no entry that leads back to the node it is stored under. -/
theorem build_graph_no_self {N : Int} {light : List ℚ} {crime : List Int}
    {input : List (List Int)} {s t : Int} (hv : ValidInput N light crime input s t)
    (hns : NoSelfLoop input) : NoSelfEntry (build_graph N crime input) := by
  intro k e he
  refine ⟨((build_graph_ok hv).2 k e he).1.1, ?_⟩
  obtain ⟨row, hrow, _, h | h⟩ := build_graph_linked hv k e he
  · intro heq
    exact hns row hrow (by rw [h.1, h.2, heq])
  · intro heq
    exact hns row hrow (by rw [h.1, h.2, heq])

/-- The search of `solve` on a valid input without a row that joins a node to itself never
reads the reference `Lcur` after a push into the vector it points into. -/
theorem run_search_live {hyp : ℚ → ℚ → ℚ} {fuel : Nat} {tie : List PQItem → Nat}
    {refs : Refs} {N : Int} {light : List ℚ} {crime : List Int} {input : List (List Int)}
    {s t : Int} {c : Ctx} {st : Search} (hv : ValidInput N light crime input s t)
    (hns : NoSelfLoop input)
    (hrun : run_search hyp fuel tie refs N light crime input s t = .ok (c, st)) :
    st.stale_read = false := by
  obtain ⟨hc, hst⟩ := run_search_eq hrun
  obtain ⟨hg, _⟩ := mk_ctx_fields hc
  rw [hst]
  apply search_loop_live
  · rw [hg]; exact build_graph_no_self hv hns
  · rfl

/-! ## Labels carry the costs of routes -/

theorem IsRoute_snoc {g : List (List Edge)} :
    ∀ (es : List Edge) (a b : Int) (e : Edge), IsRoute g a es b → 0 ≤ b → e ∈ nth g b [] →
      IsRoute g a (es ++ [e]) e.to_ := by
  intro es
  induction es with
  | nil =>
    intro a b e h hb he
    unfold IsRoute at h
    subst h
    exact ⟨hb, he, rfl⟩
  | cons x rest ih =>
    intro a b e h hb he
    obtain ⟨h1, h2, h3⟩ := h
    exact ⟨h1, h2, ih _ _ _ h3 hb he⟩

theorem route_time_snoc (es : List Edge) (e : Edge) :
    route_time (es ++ [e]) = route_time es + e.time_cost := by
  unfold route_time
  simp

theorem route_dark_snoc {g : List (List Edge)} (light : List ℚ) (Lmax : ℚ) :
    ∀ (es : List Edge) (a b : Int) (e : Edge), IsRoute g a es b →
      route_dark light Lmax a (es ++ [e]) =
        route_dark light Lmax a es + edge_dark light Lmax b e.to_ := by
  intro es
  induction es with
  | nil =>
    intro a b e h
    unfold IsRoute at h
    subst h
    simp [route_dark]
  | cons x rest ih =>
    intro a b e h
    obtain ⟨_, _, h3⟩ := h
    change edge_dark light Lmax a x.to_ + route_dark light Lmax x.to_ (rest ++ [e]) =
      edge_dark light Lmax a x.to_ + route_dark light Lmax x.to_ rest +
        edge_dark light Lmax b e.to_
    rw [ih _ _ _ h3]
    ring

theorem route_step_ok (c : Ctx)
    (hgraph : ∀ (k : Nat) (e : Edge), e ∈ c.g.getD k [] → 0 ≤ e.to_) : StepOK c (RouteLP c) := by
  constructor
  · exact hgraph
  · intro u Lcur e idx hu _ hL he _
    obtain ⟨es, hr, ht, hd⟩ := hL
    refine ⟨es ++ [e], IsRoute_snoc es _ _ e hr hu he, ?_, ?_⟩
    · simp only
      rw [route_time_snoc, ht]
    · simp only
      rw [route_dark_snoc c.light c.Lmax es _ _ e hr, hd]
      ring

theorem route_seed_ok (c : Ctx) : RouteLP c c.s (seed_label c) :=
  ⟨[], rfl, rfl, by simp [seed_label, route_dark]⟩

/-- On a valid input every label the search ends with carries the time of a route of the
filtered graph from the source to the node of the label, and the darkness of that route
added to the darkness of the seed label. -/
theorem run_search_routes {hyp : ℚ → ℚ → ℚ}
    {fuel : Nat} {tie : List PQItem → Nat} {refs : Refs} {N : Int}
    {light : List ℚ} {crime : List Int} {input : List (List Int)} {s t : Int} {c : Ctx}
    {st : Search} (hv : ValidInput N light crime input s t)
    (hrun : run_search hyp fuel tie refs N light crime input s t = .ok (c, st)) :
    LabelsOK (RouteLP c) st.labels := by
  obtain ⟨hc, _⟩ := run_search_eq hrun
  obtain ⟨_, hedges⟩ := ctx_graph_ok hv hc
  exact run_search_labels_ok hv hrun
    (route_step_ok c (fun k e he => (hedges k e he).1.1)) (route_seed_ok c)

theorem reachable_step {g : List (List Edge)} {s : Int} {u : Int} {e : Edge}
    (hu : 0 ≤ u) (h : Reachable g s u) (he : e ∈ nth g u []) : Reachable g s e.to_ := by
  obtain ⟨es, hes⟩ := h
  exact ⟨es ++ [e], IsRoute_snoc es _ _ e hes hu he⟩

/-! ## The placeholder when the target cannot be reached -/

theorem edge_dark_nonneg (light : List ℚ) (Lmax : ℚ) (u v : Int) :
    0 ≤ edge_dark light Lmax u v := by
  unfold edge_dark
  exact le_max_left _ _

/-- On a valid input the set-up of `solve` returns once the fuel reaches `rd_fuel`. -/
theorem mk_ctx_ok {hyp : ℚ → ℚ → ℚ}
    {N : Int} {light : List ℚ} {crime : List Int} {input : List (List Int)}
    {s t : Int} (hv : ValidInput N light crime input s t) {fuel : Nat}
    (hfuel : rd_fuel (build_graph N crime input) ≤ fuel) :
    ∃ c, mk_ctx hyp fuel N light crime input s t = .ok c := by
  obtain ⟨hlen, hedges⟩ := build_graph_ok hv
  have hN : ((build_graph N crime input).length : Int) = N := by
    rw [hlen]
    have := hv.2.2.2.1
    omega
  have ht : 0 ≤ t ∧ t < ((build_graph N crime input).length : Int) := by
    rw [hN]; exact hv.2.2.2.2
  have hg1 : RDGraph (build_graph N crime input) (fun _ _ e => e.time_cost) := by
    intro k _ e he
    have := hedges k e he
    exact ⟨⟨this.1.1, by rw [hN]; exact this.1.2⟩, this.2.2.1⟩
  have hg2 : RDGraph (build_graph N crime input)
      (fun u v _ => edge_dark light (compute_Lmax light) u v) := by
    intro k _ e he
    have := hedges k e he
    exact ⟨⟨this.1.1, by rw [hN]; exact this.1.2⟩, edge_dark_nonneg _ _ _ _⟩
  obtain ⟨lb1, h1, _⟩ := reverse_dijkstra_lb_ok hg1 ht hfuel
  obtain ⟨lb2, h2, _⟩ := reverse_dijkstra_lb_ok hg2 ht hfuel
  unfold mk_ctx
  simp only
  rw [h1, h2]
  exact ⟨_, rfl⟩

/-- On a valid input without a row that joins a node to itself, whose target cannot be
reached from a different source in the filtered graph, `solve` returns the placeholder three
times. -/
theorem solve_unreachable {hyp : ℚ → ℚ → ℚ} {N : Int} {light : List ℚ} {crime : List Int}
    {input : List (List Int)} {s t : Int} (hv : ValidInput N light crime input s t)
    (hns : NoSelfLoop input)
    (hnr : ¬ Reachable (build_graph N crime input) s t) {fuel : Nat}
    (hfuel : rd_fuel (build_graph N crime input) ≤ fuel) (tie : List PQItem → Nat)
    (refs : Refs) (M : Int) :
    ∃ refs1, solve hyp fuel tie refs N M light crime input s t =
      .ok (same_picks [s, t] 1000 500, refs1) := by
  obtain ⟨c, hc⟩ := mk_ctx_ok hv hfuel
  obtain ⟨hg, hl, _, hs, ht, hLm, _⟩ := mk_ctx_fields hc
  obtain ⟨_, hedges⟩ := ctx_graph_ok hv hc
  have hrun : run_search hyp fuel tie refs N light crime input s t =
      .ok (c, search_loop c tie MAX_ITERATIONS (init_search c N refs)) := by
    unfold run_search
    rw [hc]
  have hlab := run_search_routes hv hrun
  have hnr1 : ¬ Reachable c.g c.s c.t := by rw [hg, hs, ht]; exact hnr
  have hempty :
      nth (search_loop c tie MAX_ITERATIONS (init_search c N refs)).labels c.t [] = [] := by
    apply List.eq_nil_iff_forall_not_mem.mpr
    intro L hL
    apply hnr1
    have := hlab c.t.toNat L hL
    rw [Int.toNat_of_nonneg (by rw [ht]; exact hv.2.2.2.2.1)] at this
    obtain ⟨es, hes, _⟩ := this
    exact ⟨es, hes⟩
  have hsd : simple_dijkstra_path fuel c.g c.s c.t N = .ok [] := by
    refine simple_dijkstra_path_empty (Q := Reachable c.g c.s) ?_ ?_ ⟨[], rfl⟩ ?_ hnr1 fuel
    · intro u e hu hQ he
      exact ⟨reachable_step hu hQ he, (hedges u.toNat e he).1.1⟩
    · rw [hs]; exact hv.2.2.2.1.1
    · rw [ht]; exact hv.2.2.2.2
  have hfin : finish fuel c N (search_loop c tie MAX_ITERATIONS (init_search c N refs)).labels =
      .ok (same_picks [s, t] 1000 500) := by
    unfold finish
    simp only
    rw [if_pos (by rw [hempty]; rfl)]
    unfold fallback
    rw [hsd, hs, ht]
    rfl
  refine ⟨(search_loop c tie MAX_ITERATIONS (init_search c N refs)).refs, ?_⟩
  rw [solve_of_run hrun (run_search_live hv hns hrun) M, hfin]

theorem not_reachable_of_no_entry {g : List (List Edge)} {s t : Int} (hst : s ≠ t)
    (h : nth g s [] = []) : ¬ Reachable g s t := by
  intro ⟨es, hes⟩
  cases es with
  | nil => exact hst hes
  | cons e rest =>
    obtain ⟨_, he, _⟩ := hes
    rw [h] at he
    exact absurd he (List.not_mem_nil _)

/-- When the filter keeps no input row, distinct nodes are not connected. -/
theorem not_connected_of_no_kept {crime : List Int} {input : List (List Int)} {s t : Int}
    (hst : s ≠ t) (h : ∀ row ∈ input, ¬ KeptRow crime row) : ¬ Connected crime input s t := by
  intro hc
  rcases Relation.ReflTransGen.cases_tail hc with heq | ⟨b, _, hl⟩
  · exact hst heq.symm
  · obtain ⟨row, hrow, hk, _⟩ := hl
    exact h row hrow hk

/-- On a valid input with `s != t` without a row that joins a node to itself, whose target
cannot be reached from the source in the filtered graph (the input edges with a flagged
endpoint removed), `solve` returns (once the fuel reaches `rd_fuel`) three Paths that each
have the node sequence `[s, t]`, `total_time = 1000`, `total_dark = 500` and label index
0. -/
theorem unreachable_placeholder (hyp : ℚ → ℚ → ℚ) (fuel : Nat) (tie : List PQItem → Nat)
    (refs : Refs) (N M : Int) (light : List ℚ) (crime : List Int) (input : List (List Int))
    (s t : Int) (hv : ValidInput N light crime input s t) (hns : NoSelfLoop input)
    (hnr : ¬ Connected crime input s t)
    (hfuel : rd_fuel (build_graph N crime input) ≤ fuel) :
    ∃ refs1, solve hyp fuel tie refs N M light crime input s t =
      .ok ([{ name := "fastest", idx := 0, path := [s, t], time := 1000, dark := 500 },
            { name := "best_lit", idx := 0, path := [s, t], time := 1000, dark := 500 },
            { name := "balanced", idx := 0, path := [s, t], time := 1000, dark := 500 }],
           refs1) :=
  solve_unreachable hv hns
    (fun h => hnr (h.elim fun es hes => connected_of_route hv es s t hes)) hfuel tie refs M

/-- The hypotheses of `unreachable_placeholder` hold on three nodes where the only way from
0 to 1 leads through the flagged node 2. -/
theorem unreachable_placeholder_witness :
    ∃ refs1, solve hypot_sq 4 tie0 none 3 2 [1, 1, 1] [0, 0, 1] [[0, 2, 1], [2, 1, 1]] 0 1 =
      .ok ([{ name := "fastest", idx := 0, path := [0, 1], time := 1000, dark := 500 },
            { name := "best_lit", idx := 0, path := [0, 1], time := 1000, dark := 500 },
            { name := "balanced", idx := 0, path := [0, 1], time := 1000, dark := 500 }],
           refs1) :=
  unreachable_placeholder hypot_sq 4 tie0 none 3 2 [1, 1, 1] [0, 0, 1] [[0, 2, 1], [2, 1, 1]]
    0 1 (by decide) (by decide) (not_connected_of_no_kept (by decide) (by decide))
    (by decide!)

/-! ## Runs that do not depend on the rounding of `hypot` -/

theorem pairs_ok_mem {P : ℚ × ℚ → ℚ × ℚ → Bool} {xs : List (ℚ × ℚ)} {x y : ℚ × ℚ}
    (h : pairs_ok P xs = true) (hx : x ∈ xs) (hy : y ∈ xs) : x = y ∨ P x y = true := by
  unfold pairs_ok at h
  rw [List.all_eq_true] at h
  have h1 := h x hx
  rw [List.all_eq_true] at h1
  have h2 := h1 y hy
  simpa using h2

theorem agree_lt {P : ℚ × ℚ → ℚ × ℚ → Bool} {h1 h2 : ℚ → ℚ → ℚ} (ha : Agree P h1 h2)
    {x y : ℚ × ℚ} (h : x = y ∨ P x y = true) :
    h1 x.1 x.2 < h1 y.1 y.2 ↔ h2 x.1 x.2 < h2 y.1 y.2 := by
  rcases h with h | h
  · subst h
    exact ⟨fun k => absurd k (lt_irrefl _), fun k => absurd k (lt_irrefl _)⟩
  · exact ha x y h

/-- Two functions with the properties `HypotSpec` order in the same way every two pairs
that are `settled`. -/
theorem agree_settled {h1 h2 : ℚ → ℚ → ℚ} (s1 : HypotSpec h1) (s2 : HypotSpec h2) :
    Agree settled h1 h2 := by
  intro x y h
  unfold settled at h
  rw [Bool.or_eq_true, Bool.or_eq_true, decide_eq_true_eq, decide_eq_true_eq,
    decide_eq_true_eq] at h
  rcases h with h | h | h
  · rw [h]
    simp only
    rw [s1.1 y.2 y.1, s2.1 y.2 y.1]
    exact ⟨fun k => absurd k (lt_irrefl _), fun k => absurd k (lt_irrefl _)⟩
  · exact ⟨fun _ => s2.2 _ _ _ _ h, fun _ => s1.2 _ _ _ _ h⟩
  · exact ⟨fun k => absurd k (not_lt.mpr (le_of_lt (s1.2 _ _ _ _ h))),
      fun k => absurd k (not_lt.mpr (le_of_lt (s2.2 _ _ _ _ h)))⟩

theorem agree_never (h1 h2 : ℚ → ℚ → ℚ) : Agree never h1 h2 := by
  intro x y h
  exact absurd h (by simp [never])

theorem cap_select_hypot {P : ℚ × ℚ → ℚ × ℚ → Bool} {c : Ctx} {h : ℚ → ℚ → ℚ}
    (ha : Agree P c.hypot h) (r : ℚ × ℚ) (v : Int) (lv : List Label)
    (hok : pairs_ok P (lv.map (fun L => score_args c r L v)) = true) :
    cap_select (set_hypot c h) r v lv = cap_select c r v lv := by
  have key : ∀ n : Nat, n ≤ lv.length →
      (List.range n).foldl
        (fun b (k : Nat) =>
          let i : Int := k
          let bt := if (nth lv i {}).time < (nth lv b.1 {}).time then i else b.1
          let bd := if (nth lv i {}).dark < (nth lv b.2.1 {}).dark then i else b.2.1
          let bb := if norm_score (set_hypot c h) r (nth lv i {}) v <
              norm_score (set_hypot c h) r (nth lv b.2.2 {}) v
            then i else b.2.2
          (bt, bd, bb))
        ((0 : Int), (0 : Int), (0 : Int)) =
      (List.range n).foldl
        (fun b (k : Nat) =>
          let i : Int := k
          let bt := if (nth lv i {}).time < (nth lv b.1 {}).time then i else b.1
          let bd := if (nth lv i {}).dark < (nth lv b.2.1 {}).dark then i else b.2.1
          let bb := if norm_score c r (nth lv i {}) v < norm_score c r (nth lv b.2.2 {}) v
            then i else b.2.2
          (bt, bd, bb))
        ((0 : Int), (0 : Int), (0 : Int)) := by
    intro n
    induction n with
    | zero => intro _; rfl
    | succ n ih =>
      intro hn
      rw [List.range_succ, List.foldl_append, List.foldl_append, ih (by omega)]
      obtain ⟨a, b, d, hf, _, _, hd⟩ := cap_select_range c r v lv n
      rw [hf]
      simp only [List.foldl_cons, List.foldl_nil]
      have hn1 : n < lv.length := by omega
      have hd1 : d < lv.length := by omega
      have hmem : ∀ j : Nat, j < lv.length →
          score_args c r (nth lv (j : Int) {}) v ∈ lv.map (fun L => score_args c r L v) := by
        intro j hj
        exact List.mem_map.mpr ⟨_, nth_mem lv (j : Int) {} (by simpa using hj), rfl⟩
      have hiff := agree_lt ha (pairs_ok_mem hok (hmem n hn1) (hmem d hd1))
      have hiff1 : norm_score (set_hypot c h) r (nth lv (n : Int) {}) v <
            norm_score (set_hypot c h) r (nth lv (d : Int) {}) v ↔
          norm_score c r (nth lv (n : Int) {}) v < norm_score c r (nth lv (d : Int) {}) v :=
        hiff.symm
      by_cases hlt : norm_score c r (nth lv (n : Int) {}) v <
          norm_score c r (nth lv (d : Int) {}) v
      · rw [if_pos hlt, if_pos (hiff1.mpr hlt)]
      · rw [if_neg hlt, if_neg (fun k => hlt (hiff1.mp k))]
  exact key lv.length (le_refl _)

theorem cap_hypot {P : ℚ × ℚ → ℚ × ℚ → Bool} {c : Ctx} {h : ℚ → ℚ → ℚ}
    (ha : Agree P c.hypot h) (refs : Refs) (v : Int) (lv : List Label)
    (hok : cap_ok P c refs v lv = true) :
    cap (set_hypot c h) refs v lv = cap c refs v lv := by
  unfold cap_ok at hok
  unfold cap
  by_cases hc : v ≠ c.t ∧ (lv.length : Int) > 3
  · rw [if_pos hc] at hok
    have hc1 : v ≠ (set_hypot c h).t ∧ (lv.length : Int) > 3 := hc
    rw [if_pos hc, if_pos hc1]
    have hr : init_refs (set_hypot c h) refs = init_refs c refs := rfl
    simp only [hr, cap_select_hypot ha _ v lv hok]
  · have hc1 : ¬ (v ≠ (set_hypot c h).t ∧ (lv.length : Int) > 3) := hc
    rw [if_neg hc, if_neg hc1]

theorem expand_edge_hypot {P : ℚ × ℚ → ℚ × ℚ → Bool} {c : Ctx} {h : ℚ → ℚ → ℚ}
    (ha : Agree P c.hypot h) (cur : PQItem) (Lcur : Label) (e : Edge) (st : Search)
    (hok : expand_edge_ok P c cur Lcur e st = true) :
    expand_edge (set_hypot c h) cur Lcur e st = expand_edge c cur Lcur e st := by
  unfold expand_edge_ok at hok
  simp only at hok
  unfold expand_edge
  have hf : is_forbidden (set_hypot c h) e.to_ = is_forbidden c e.to_ := rfl
  have hl : (set_hypot c h).light = c.light := rfl
  have hL : (set_hypot c h).Lmax = c.Lmax := rfl
  have ht : (set_hypot c h).t = c.t := rfl
  have h1 : (set_hypot c h).lb_time = c.lb_time := rfl
  have h2 : (set_hypot c h).lb_dark = c.lb_dark := rfl
  simp only [hf, hl, hL, ht, h1, h2]
  by_cases c1 : is_forbidden c e.to_ = true
  · rw [if_pos c1, if_pos c1]
  · rw [if_neg c1] at hok
    rw [if_neg c1, if_neg c1]
    by_cases c2 : Lcur.time + e.time_cost > 200 + nth st.curr_fastest e.to_ 0
    · rw [if_pos c2, if_pos c2]
    · rw [if_neg c2] at hok
      rw [if_neg c2, if_neg c2]
      by_cases c3 : ((nth st.labels e.to_ []).any (fun ex => dominates ex
          { time := Lcur.time + e.time_cost
            dark := Lcur.dark + edge_dark c.light c.Lmax cur.node e.to_
            node := e.to_
            prev_node := cur.node
            prev_label_idx := cur.label_idx })) = true
      · rw [if_pos c3, if_pos c3]
      · rw [if_neg c3] at hok
        rw [if_neg c3, if_neg c3]
        rw [cap_hypot ha _ _ _ hok]

theorem expand_edges_hypot {P : ℚ × ℚ → ℚ × ℚ → Bool} {c : Ctx} {h : ℚ → ℚ → ℚ}
    (ha : Agree P c.hypot h) (cur : PQItem) (Lcur : Label) :
    ∀ (es : List Edge) (st : Search), expand_edges_ok P c cur Lcur es st = true →
      expand_edges (set_hypot c h) cur Lcur es st = expand_edges c cur Lcur es st := by
  intro es
  induction es with
  | nil => intro st _; rfl
  | cons e rest ih =>
    intro st hok
    rw [expand_edges_ok, Bool.and_eq_true] at hok
    rw [expand_edges, expand_edges, expand_edge_hypot ha cur Lcur e st hok.1]
    cases hx : expand_edge c cur Lcur e st with
    | mk st1 b =>
      have h2 := hok.2
      rw [hx] at h2
      cases b with
      | true => rfl
      | false => exact ih st1 h2

theorem search_step_hypot {P : ℚ × ℚ → ℚ × ℚ → Bool} {c : Ctx} {h : ℚ → ℚ → ℚ}
    (ha : Agree P c.hypot h) (cur : PQItem) (st0 : Search)
    (hok : search_step_ok P c cur st0 = true) :
    search_step (set_hypot c h) cur st0 = search_step c cur st0 := by
  unfold search_step_ok at hok
  simp only at hok
  unfold search_step
  have ht : (set_hypot c h).t = c.t := rfl
  have hg : (set_hypot c h).g = c.g := rfl
  simp only [ht, hg]
  by_cases c1 : cur.label_idx ≥ ((nth st0.labels cur.node []).length : Int)
  · rw [if_pos c1, if_pos c1]
  · rw [if_neg c1] at hok
    rw [if_neg c1, if_neg c1]
    by_cases c2 : cur.node = c.t
    · rw [if_pos c2, if_pos c2]
    · rw [if_neg c2] at hok
      rw [if_neg c2, if_neg c2]
      split
      · rfl
      · rename_i c3
        rw [if_neg c3] at hok
        split
        · rfl
        · rename_i c4
          rw [if_neg c4] at hok
          rw [expand_edges_hypot ha cur _ _ _ hok]

theorem search_loop_hypot {P : ℚ × ℚ → ℚ × ℚ → Bool} {c : Ctx} {h : ℚ → ℚ → ℚ}
    (ha : Agree P c.hypot h) (tie : List PQItem → Nat) :
    ∀ (k : Nat) (st : Search), search_loop_ok P c tie k st = true →
      search_loop (set_hypot c h) tie k st = search_loop c tie k st := by
  intro k
  induction k with
  | zero => intro st _; rfl
  | succ k ih =>
    intro st hok
    rw [search_loop_ok] at hok
    rw [search_loop, search_loop]
    cases hp : pop_open tie st.opn with
    | none => rfl
    | some x =>
      obtain ⟨cur, rest⟩ := x
      rw [hp] at hok
      simp only [Bool.and_eq_true] at hok ⊢
      rw [search_step_hypot ha cur _ hok.1]
      cases hx : search_step c cur { st with opn := rest } with
      | mk st1 b =>
        have h2 := hok.2
        rw [hx] at h2
        cases b with
        | true => rfl
        | false => exact ih st1 h2

theorem unambiguous_hypot {P : ℚ × ℚ → ℚ × ℚ → Bool} {c : Ctx} {h : ℚ → ℚ → ℚ}
    (ha : Agree P c.hypot h) :
    ∀ (k : Nat) (st : Search), search_loop_ok P c tie0 k st = true →
      unambiguous (set_hypot c h) k st = unambiguous c k st := by
  intro k
  induction k with
  | zero => intro st _; rfl
  | succ k ih =>
    intro st hok
    rw [search_loop_ok] at hok
    rw [unambiguous, unambiguous]
    by_cases hu : (top_positions st.opn).length ≤ 1
    · rw [if_pos hu, if_pos hu]
      cases hp : pop_open tie0 st.opn with
      | none => rfl
      | some x =>
        obtain ⟨cur, rest⟩ := x
        rw [hp] at hok
        simp only [Bool.and_eq_true] at hok ⊢
        rw [search_step_hypot ha cur _ hok.1]
        cases hx : search_step c cur { st with opn := rest } with
        | mk st1 b =>
          have h2 := hok.2
          rw [hx] at h2
          cases b with
          | true => rfl
          | false => exact ih st1 h2
    · rw [if_neg hu, if_neg hu]

theorem bal_score_args (hyp : ℚ → ℚ → ℚ) (lt : List Label) (L : Label) :
    bal_score hyp lt L = hyp (bal_args lt L).1 (bal_args lt L).2 := rfl

theorem idx_bal_hypot {P : ℚ × ℚ → ℚ × ℚ → Bool} {h1 h2 : ℚ → ℚ → ℚ} (ha : Agree P h1 h2)
    (lt : List Label) (hok : finish_ok P lt = true) : idx_bal h2 lt = idx_bal h1 lt := by
  by_cases hne : lt = []
  · subst hne; rfl
  · obtain ⟨m1, e1, b1, min1, first1⟩ := idx_bal_spec h1 lt hne
    obtain ⟨m2, e2, b2, min2, first2⟩ := idx_bal_spec h2 lt hne
    rw [e1, e2]
    unfold finish_ok at hok
    have hmem : ∀ j : Nat, j < lt.length → bal_args lt (lt.getD j {}) ∈ lt.map (bal_args lt) := by
      intro j hj
      refine List.mem_map.mpr ⟨_, ?_, rfl⟩
      rw [List.getD_eq_getElem _ _ hj]
      exact List.getElem_mem _
    have hiff : ∀ i j : Nat, i < lt.length → j < lt.length →
        (bal_score h1 lt (lt.getD i {}) < bal_score h1 lt (lt.getD j {}) ↔
          bal_score h2 lt (lt.getD i {}) < bal_score h2 lt (lt.getD j {})) := by
      intro i j hi hj
      rw [bal_score_args, bal_score_args, bal_score_args, bal_score_args]
      exact agree_lt ha (pairs_ok_mem hok (hmem i hi) (hmem j hj))
    have : m2 = m1 := by
      rcases Nat.lt_trichotomy m1 m2 with hlt | heq | hgt
      · have k1 := first2 m1 hlt
        have k2 := min1 m2 b2
        exact absurd ((hiff m2 m1 b2 b1).mpr k1) (not_lt.mpr k2)
      · exact heq.symm
      · have k1 := first1 m2 hgt
        have k2 := min2 m1 b1
        exact absurd ((hiff m1 m2 b1 b2).mp k1) (not_lt.mpr k2)
    rw [this]

theorem finish_hypot {P : ℚ × ℚ → ℚ × ℚ → Bool} {c : Ctx} {h : ℚ → ℚ → ℚ}
    (ha : Agree P c.hypot h) (fuel : Nat) (N : Int) (labels : List (List Label))
    (hok : finish_ok P (nth labels c.t []) = true) :
    finish fuel (set_hypot c h) N labels = finish fuel c N labels := by
  unfold finish
  have ht : (set_hypot c h).t = c.t := rfl
  have hg : (set_hypot c h).g = c.g := rfl
  have hl : (set_hypot c h).light = c.light := rfl
  have hL : (set_hypot c h).Lmax = c.Lmax := rfl
  have hs : (set_hypot c h).s = c.s := rfl
  have hh : (set_hypot c h).hypot = h := rfl
  simp only [ht, hg, hl, hL, hs, hh, idx_bal_hypot ha _ hok]

theorem mk_ctx_set_hypot {h1 : ℚ → ℚ → ℚ} (h2 : ℚ → ℚ → ℚ) {fuel : Nat} {N : Int}
    {light : List ℚ} {crime : List Int} {input : List (List Int)} {s t : Int} :
    mk_ctx h2 fuel N light crime input s t =
      match mk_ctx h1 fuel N light crime input s t with
      | .error f => .error f
      | .ok c => .ok (set_hypot c h2) := by
  unfold mk_ctx
  simp only
  split
  · rfl
  · split <;> rfl

theorem run_search_hypot {P : ℚ × ℚ → ℚ × ℚ → Bool} {h1 h2 : ℚ → ℚ → ℚ}
    (ha : Agree P h1 h2) {fuel : Nat} {tie : List PQItem → Nat} {refs : Refs} {N : Int}
    {light : List ℚ} {crime : List Int} {input : List (List Int)} {s t : Int} {c : Ctx}
    {st : Search}
    (hrun : run_search h1 fuel tie refs N light crime input s t = .ok (c, st))
    (hok : search_loop_ok P c tie MAX_ITERATIONS (init_search c N refs) = true) :
    run_search h2 fuel tie refs N light crime input s t = .ok (set_hypot c h2, st) := by
  obtain ⟨hc, hst⟩ := run_search_eq hrun
  have hh : c.hypot = h1 := mk_ctx_hypot hc
  unfold run_search
  rw [@mk_ctx_set_hypot h1 h2, hc]
  simp only
  have hi : init_search (set_hypot c h2) N refs = init_search c N refs := rfl
  rw [hi, search_loop_hypot (by rw [hh]; exact ha) tie _ _ hok, hst]

theorem run_search_fault {h1 : ℚ → ℚ → ℚ} (h2 : ℚ → ℚ → ℚ) {fuel : Nat}
    {tie : List PQItem → Nat} {refs : Refs} {N : Int} {light : List ℚ} {crime : List Int}
    {input : List (List Int)} {s t : Int} {f : Fault}
    (hrun : run_search h1 fuel tie refs N light crime input s t = .error f) :
    run_search h2 fuel tie refs N light crime input s t = .error f := by
  unfold run_search at hrun ⊢
  rw [@mk_ctx_set_hypot h1 h2]
  cases hc : mk_ctx h1 fuel N light crime input s t with
  | error g => rw [hc] at hrun; exact hrun
  | ok c => rw [hc] at hrun; exact absurd hrun (by simp)

/-- A run of `solve` that hands to `hypot`, for comparison, only pairs related by `P` returns
the same with any other `hypot` that orders the pairs related by `P` in the same way. -/
theorem solve_hypot {P : ℚ × ℚ → ℚ × ℚ → Bool} {h1 h2 : ℚ → ℚ → ℚ} (ha : Agree P h1 h2)
    {fuel : Nat} {tie : List PQItem → Nat} {refs : Refs} {N : Int} {light : List ℚ}
    {crime : List Int} {input : List (List Int)} {s t : Int}
    (hok : hypot_ok P h1 fuel tie refs N light crime input s t = true) (M : Int) :
    solve h2 fuel tie refs N M light crime input s t =
      solve h1 fuel tie refs N M light crime input s t := by
  unfold hypot_ok at hok
  cases hrun : run_search h1 fuel tie refs N light crime input s t with
  | error f =>
    unfold solve
    rw [hrun, run_search_fault h2 hrun]
  | ok x =>
    obtain ⟨c, st⟩ := x
    rw [hrun] at hok
    simp only [Bool.and_eq_true] at hok
    have hc := (run_search_eq hrun).1
    have hh : c.hypot = h1 := mk_ctx_hypot hc
    have ht : c.t = t := (mk_ctx_fields hc).2.2.2.2.1
    unfold solve
    rw [hrun, run_search_hypot ha hrun hok.1]
    simp only
    rw [finish_hypot (by rw [hh]; exact ha) fuel N st.labels (by rw [ht]; exact hok.2)]

theorem tie_free_hypot {P : ℚ × ℚ → ℚ × ℚ → Bool} {h1 h2 : ℚ → ℚ → ℚ} (ha : Agree P h1 h2)
    {fuel : Nat} {refs : Refs} {N : Int} {light : List ℚ}
    {crime : List Int} {input : List (List Int)} {s t : Int}
    (hok : hypot_ok P h1 fuel tie0 refs N light crime input s t = true) :
    tie_free h2 fuel N light crime input s t refs =
      tie_free h1 fuel N light crime input s t refs := by
  unfold hypot_ok run_search at hok
  unfold tie_free
  rw [@mk_ctx_set_hypot h1 h2]
  cases hc : mk_ctx h1 fuel N light crime input s t with
  | error f => rfl
  | ok c =>
    rw [hc] at hok
    simp only [Bool.and_eq_true] at hok ⊢
    have hh : c.hypot = h1 := mk_ctx_hypot hc
    have hi : init_search (set_hypot c h2) N refs = init_search c N refs := rfl
    rw [hi, unambiguous_hypot (by rw [hh]; exact ha) _ _ hok.1]

/-- From one evaluated run to all runs: a run of `solve` with `tie0` and `h1` that meets no
tie in its open set and hands to `hypot`, for comparison, only pairs related by `P`, gives
the result of every run with more fuel, any tie-breaking rule and any `hypot` that orders
the pairs related by `P` as `h1` does. -/
theorem solve_of_eval {P : ℚ × ℚ → ℚ × ℚ → Bool} {h1 h2 : ℚ → ℚ → ℚ} (ha : Agree P h1 h2)
    {k : Nat} {refs : Refs} {N M : Int} {light : List ℚ} {crime : List Int}
    {input : List (List Int)} {s t : Int} {r : Except Fault (List Path × Refs)}
    (hok : hypot_ok P h1 k tie0 refs N light crime input s t = true)
    (htf : tie_free h1 k N light crime input s t refs = true)
    (hev : solve h1 k tie0 refs N M light crime input s t = r) (hr : r ≠ .error .no_fuel)
    (j : Nat) (tie : List PQItem → Nat) :
    solve h2 (j + k) tie refs N M light crime input s t = r := by
  have htf2 : tie_free h2 k N light crime input s t refs = true := by
    rw [tie_free_hypot ha hok]; exact htf
  rw [solve_tie (tie_free_mono_add htf2 j) tie M]
  exact solve_mono_add ((solve_hypot ha hok M).trans hev) hr j

theorem search_labels_hypot {P : ℚ × ℚ → ℚ × ℚ → Bool} {h1 h2 : ℚ → ℚ → ℚ}
    (ha : Agree P h1 h2) {fuel : Nat} {tie : List PQItem → Nat} {refs : Refs} {N : Int}
    {light : List ℚ} {crime : List Int} {input : List (List Int)} {s t : Int}
    (hok : hypot_ok P h1 fuel tie refs N light crime input s t = true) :
    search_labels h2 fuel tie refs N light crime input s t =
      search_labels h1 fuel tie refs N light crime input s t := by
  unfold hypot_ok at hok
  unfold search_labels
  cases hrun : run_search h1 fuel tie refs N light crime input s t with
  | error f => rw [run_search_fault h2 hrun]
  | ok x =>
    obtain ⟨c, st⟩ := x
    rw [hrun] at hok
    simp only [Bool.and_eq_true] at hok
    rw [run_search_hypot ha hrun hok.1]

theorem target_labels_hypot {P : ℚ × ℚ → ℚ × ℚ → Bool} {h1 h2 : ℚ → ℚ → ℚ}
    (ha : Agree P h1 h2) {fuel : Nat} {tie : List PQItem → Nat} {refs : Refs} {N : Int}
    {light : List ℚ} {crime : List Int} {input : List (List Int)} {s t : Int}
    (hok : hypot_ok P h1 fuel tie refs N light crime input s t = true) :
    target_labels h2 fuel tie refs N light crime input s t =
      target_labels h1 fuel tie refs N light crime input s t := by
  unfold target_labels
  rw [search_labels_hypot ha hok]

theorem search_state_hypot {P : ℚ × ℚ → ℚ × ℚ → Bool} {h1 h2 : ℚ → ℚ → ℚ}
    (ha : Agree P h1 h2) {fuel : Nat} {tie : List PQItem → Nat} {refs : Refs} {N : Int}
    {light : List ℚ} {crime : List Int} {input : List (List Int)} {s t : Int} {k : Nat}
    (hok : state_ok P h1 fuel tie refs N light crime input s t k = true) :
    search_state h2 fuel tie refs N light crime input s t k =
      search_state h1 fuel tie refs N light crime input s t k := by
  unfold state_ok at hok
  unfold search_state
  rw [@mk_ctx_set_hypot h1 h2]
  cases hc : mk_ctx h1 fuel N light crime input s t with
  | error f => rfl
  | ok c =>
    rw [hc] at hok
    simp only
    have hh : c.hypot = h1 := mk_ctx_hypot hc
    have hi : init_search (set_hypot c h2) N refs = init_search c N refs := rfl
    rw [hi, search_loop_hypot (by rw [hh]; exact ha) tie _ _ hok]

/-! ## A row that joins a node to itself -/

theorem pop_open_single (tie : List PQItem → Nat) (x : PQItem) :
    pop_open tie [x] = some (x, []) := by
  have hlt : PQItem.lt x x = false := by
    unfold PQItem.lt
    simp
  have hps : top_positions [x] = [0] := by
    unfold top_positions
    simp [List.range_succ, hlt]
  unfold pop_open
  simp only [hps]
  rfl

/-- A pass of the loop that reads through the moved reference leaves the search marked,
whatever the later passes do. -/
theorem search_loop_stale_step (c : Ctx) (tie : List PQItem → Nat) (k : Nat) (st : Search)
    (cur : PQItem) (rest : List PQItem) (hp : pop_open tie st.opn = some (cur, rest))
    (hs : (search_step c cur { st with opn := rest }).1.stale_read = true) :
    (search_loop c tie (k + 1) st).stale_read = true := by
  rw [search_loop, hp]
  simp only
  cases hx : search_step c cur { st with opn := rest } with
  | mk st1 b =>
    rw [hx] at hs
    cases b with
    | true => exact hs
    | false => exact search_loop_stale c tie k st1 hs

/-- The search context of the input with two nodes of light 1 and the one row `[0, 0, 0]`,
from 0 to 1. -/
theorem mk_ctx_self_loop (hyp : ℚ → ℚ → ℚ) :
    mk_ctx hyp 10 2 [1, 1] [0, 0] [[0, 0, 0]] 0 1 = .ok (set_hypot self_loop_ctx hyp) := by
  have h1 : reverse_dijkstra_lb 10 (build_graph 2 [0, 0] [[0, 0, 0]]) 1
      (fun _ _ e => e.time_cost) = .ok [none, some 0] := by decide!
  have hL : compute_Lmax [1, 1] = 1 := by decide!
  have h2 : reverse_dijkstra_lb 10 (build_graph 2 [0, 0] [[0, 0, 0]]) 1
      (fun u v _ => edge_dark [1, 1] 1 u v) = .ok [none, some 0] := by decide!
  unfold mk_ctx
  simp only
  rw [hL, h1, h2]
  rfl

/-- The first pass of the search on that input hands nothing to `hypot` and reads through
the moved reference. -/
theorem self_loop_step :
    (init_search self_loop_ctx 2 none).opn = [seed_item self_loop_ctx] ∧
      search_step_ok never self_loop_ctx (seed_item self_loop_ctx)
        { init_search self_loop_ctx 2 none with opn := [] } = true ∧
      (search_step self_loop_ctx (seed_item self_loop_ctx)
        { init_search self_loop_ctx 2 none with opn := [] }).1.stale_read = true := by
  decide!

/-- C5: on the valid input with two nodes of light 1 and the one row `[0, 0, 0]`, from 0 to
1, the target cannot be reached, and the search does not get as far as the placeholder
results: the first pass through the loop pushes a label onto the labels of node 0 while the
reference `Lcur` points into them, and reads `Lcur` again for the second adjacency entry.
This holds whatever the library `hypot`, the order of the open set among equal keys and the
fuel from 10 on, in a process whose statics are not yet set. -/
theorem C5_stale_reference (hyp : ℚ → ℚ → ℚ) (fuel : Nat) (tie : List PQItem → Nat)
    (M : Int) :
    ValidInput 2 [1, 1] [0, 0] [[0, 0, 0]] 0 1 ∧ (0 : Int) ≠ 1 ∧
      ¬ Connected [0, 0] [[0, 0, 0]] 0 1 ∧
      solve hyp (fuel + 10) tie none 2 M [1, 1] [0, 0] [[0, 0, 0]] 0 1 =
        .error .stale_reference := by
  refine ⟨by decide, by decide, ?_, ?_⟩
  · intro hc
    rcases Relation.ReflTransGen.cases_tail hc with heq | ⟨b, _, hl⟩
    · exact absurd heq (by decide)
    · obtain ⟨row, hrow, _, hends⟩ := hl
      simp only [List.mem_singleton] at hrow
      subst hrow
      rcases hends with ⟨_, h⟩ | ⟨h, _⟩ <;> exact absurd h (by decide)
  · obtain ⟨hopn, hok, hstale⟩ := self_loop_step
    have hrun : solve hyp 10 tie none 2 M [1, 1] [0, 0] [[0, 0, 0]] 0 1 =
        .error .stale_reference := by
      unfold solve run_search
      rw [mk_ctx_self_loop hyp]
      simp only
      rw [if_pos]
      rw [show MAX_ITERATIONS = 999999 + 1 from rfl]
      apply search_loop_stale_step (set_hypot self_loop_ctx hyp) tie 999999
        (init_search self_loop_ctx 2 none) (seed_item self_loop_ctx) []
      · rw [hopn]
        exact pop_open_single tie _
      · rw [search_step_hypot (agree_never hypot_sq hyp) _ _ hok]
        exact hstale
    exact solve_mono_add hrun (by simp) fuel

/-! ## Statements at concrete inputs, and the general forms that hold -/

/-- C1: the input is valid - four nodes, none flagged, six edges of which two pairs are
parallel - and `solve` does not return three Paths on it: building the "fastest" pick,
`reconstruct_path` follows the predecessor link `(2, 2)` of the target label and reads
`labels[2][2]` although the cardinality cap has cut `labels[2]` down to two labels.  This
holds with every library `hypot` that has the properties `HypotSpec`: the scores the cap
compares are equal or far apart. -/
theorem C1_out_of_range_read (hyp : ℚ → ℚ → ℚ) (hh : HypotSpec hyp) (fuel : Nat) :
    ValidInput 4 [0, 0, 0, 0] [0, 0, 0, 0]
        [[0, 2, 4], [0, 2, 4], [0, 1, 2], [0, 1, 1], [1, 2, 1], [2, 3, 1]] 0 3 ∧
      solve hyp (fuel + 20) tie0 none 4 6 [0, 0, 0, 0] [0, 0, 0, 0]
        [[0, 2, 4], [0, 2, 4], [0, 1, 2], [0, 1, 1], [1, 2, 1], [2, 3, 1]] 0 3 =
        .error .out_of_range :=
  ⟨by decide,
    solve_mono_add
      ((solve_hypot (agree_settled hypot_spec_sq hh) (by decide!) 6).trans (by decide!))
      (by simp) fuel⟩

/-- The hypothesis of C1 holds of the exact `hypot_sq`. -/
theorem C1_out_of_range_read_witness :
    HypotSpec hypot_sq ∧
      ValidInput 4 [0, 0, 0, 0] [0, 0, 0, 0]
        [[0, 2, 4], [0, 2, 4], [0, 1, 2], [0, 1, 1], [1, 2, 1], [2, 3, 1]] 0 3 ∧
      solve hypot_sq (0 + 20) tie0 none 4 6 [0, 0, 0, 0] [0, 0, 0, 0]
        [[0, 2, 4], [0, 2, 4], [0, 1, 2], [0, 1, 1], [1, 2, 1], [2, 3, 1]] 0 3 =
        .error .out_of_range :=
  ⟨hypot_spec_sq, C1_out_of_range_read hypot_sq hypot_spec_sq 0⟩

/-- C4: with the source flagged, the one edge of the input, which joins source and target
with time cost 1, is dropped by the graph construction, and `solve` returns the placeholder
of total time 1000 instead of a route of time at most 1. -/
theorem C4_flagged_source_edge_dropped (hyp : ℚ → ℚ → ℚ)
    (fuel : Nat) (tie : List PQItem → Nat) (refs : Refs) :
    ValidInput 2 [1, 1] [1, 0] [[0, 1, 1]] 0 1 ∧
      ∃ refs1, solve hyp (fuel + 3) tie refs 2 1 [1, 1] [1, 0] [[0, 1, 1]] 0 1 =
        .ok ([{ name := "fastest", idx := 0, path := [0, 1], time := 1000, dark := 500 },
              { name := "best_lit", idx := 0, path := [0, 1], time := 1000, dark := 500 },
              { name := "balanced", idx := 0, path := [0, 1], time := 1000, dark := 500 }],
             refs1) :=
  ⟨by decide,
    solve_unreachable (by decide) (by decide)
      (not_reachable_of_no_entry (by decide) (by decide!))
      (Nat.le_trans (by decide!) (Nat.le_add_left 3 fuel)) tie refs 1⟩

/-- C6 fails when source and target coincide: with one node and no edge, `solve` returns
the one-node route of total time 0 and darkness 0, not the placeholder. -/
theorem C6_counterexample :
    ValidInput 1 [1] [0] [] 0 0 ∧
      ∀ hyp : ℚ → ℚ → ℚ, solve hyp 100 tie0 none 1 0 [1] [0] [] 0 0 =
        .ok ([{ name := "fastest", idx := 0, path := [0], time := 0, dark := 0 },
              { name := "best_lit", idx := 0, path := [0], time := 0, dark := 0 },
              { name := "balanced", idx := 0, path := [0], time := 0, dark := 0 }], none) :=
  ⟨by decide,
    fun hyp => (solve_hypot (agree_never hypot_sq hyp) (by decide!) 0).trans (by decide!)⟩

theorem build_graph_nil (N : Int) (crime : List Int) :
    build_graph N crime [] = List.replicate N.toNat [] := rfl

theorem rd_fuel_replicate (n : Nat) : rd_fuel (List.replicate n ([] : List Edge)) = n + 1 := by
  unfold rd_fuel
  have : ((List.replicate n ([] : List Edge)).map List.length).sum = 0 := by
    induction n with
    | zero => rfl
    | succ n ih => simp [List.replicate_succ]
  rw [this]
  simp
  omega

/-- C6, amended: on a valid input whose edge list is empty and whose source and target
differ, `solve` returns (once the fuel reaches `N + 1`) exactly the three placeholder
Paths: node sequence `[s, t]`, `total_time = 1000`, `total_dark = 500`. -/
theorem C6_no_edges_placeholder (hyp : ℚ → ℚ → ℚ)
    (fuel : Nat) (tie : List PQItem → Nat) (refs : Refs)
    (N M : Int) (light : List ℚ) (crime : List Int) (s t : Int)
    (hv : ValidInput N light crime [] s t) (hst : s ≠ t) (hfuel : N.toNat + 1 ≤ fuel) :
    ∃ refs1, solve hyp fuel tie refs N M light crime [] s t =
      .ok ([{ name := "fastest", idx := 0, path := [s, t], time := 1000, dark := 500 },
            { name := "best_lit", idx := 0, path := [s, t], time := 1000, dark := 500 },
            { name := "balanced", idx := 0, path := [s, t], time := 1000, dark := 500 }],
           refs1) := by
  apply solve_unreachable hv _ _ _ tie refs M
  · intro row hrow
    exact absurd hrow (List.not_mem_nil _)
  · apply not_reachable_of_no_entry hst
    rw [build_graph_nil]
    exact nth_replicate _ _ _ _ (by have := hv.2.2.2.1; omega)
  · rw [build_graph_nil, rd_fuel_replicate]
    exact hfuel

/-- The hypotheses of the amended C6 hold for two nodes without edges. -/
theorem C6_no_edges_placeholder_witness :
    ∃ refs1, solve hypot_sq 3 tie0 none 2 0 [1, 1] [0, 0] [] 0 1 =
      .ok ([{ name := "fastest", idx := 0, path := [0, 1], time := 1000, dark := 500 },
            { name := "best_lit", idx := 0, path := [0, 1], time := 1000, dark := 500 },
            { name := "balanced", idx := 0, path := [0, 1], time := 1000, dark := 500 }],
           refs1) :=
  C6_no_edges_placeholder hypot_sq 3 tie0 none 2 0 [1, 1] [0, 0] 0 1
    (by decide) (by decide) (by decide)

/-- C7 fails for the darkness of a label route: on the single edge 0 - 1 of time 1 with
light 0 at the source and 1 at the target, the returned node sequence `[0, 1]` sums to the
darkness `1 / 2` of its one pair, yet the Path carries `3 / 2`: the seed label at the source
starts with the darkness `max(0, Lmax - light[s]) = 1`. -/
theorem C7_counterexample :
    ValidInput 2 [0, 1] [0, 0] [[0, 1, 1]] 0 1 ∧
      (∀ hyp : ℚ → ℚ → ℚ, solve hyp 100 tie0 none 2 1 [0, 1] [0, 0] [[0, 1, 1]] 0 1 =
        .ok ([{ name := "fastest", idx := 0, path := [0, 1], time := 1, dark := 3 / 2 },
              { name := "best_lit", idx := 0, path := [0, 1], time := 1, dark := 3 / 2 },
              { name := "balanced", idx := 0, path := [0, 1], time := 1, dark := 3 / 2 }],
             none)) ∧
      seq_time (build_graph 2 [0, 0] [[0, 1, 1]]) [0, 1] = 1 ∧
      seq_dark [0, 1] (compute_Lmax [0, 1]) [0, 1] = 1 / 2 ∧
      |seq_dark [0, 1] (compute_Lmax [0, 1]) [0, 1] - 3 / 2| > 1 / 1000000 :=
  ⟨by decide,
    fun hyp => (solve_hypot (agree_never hypot_sq hyp) (by decide!) 1).trans (by decide!),
    by decide!, by decide!, by decide!⟩

theorem fold_pair_sum {α : Type} (f h : α → ℚ) :
    ∀ (l : List α) (acc : ℚ × ℚ),
      l.foldl (fun acc x => (acc.1 + f x, acc.2 + h x)) acc =
        (acc.1 + (l.map f).sum, acc.2 + (l.map h).sum) := by
  intro l
  induction l with
  | nil => intro acc; simp
  | cons x rest ih =>
    intro acc
    rw [List.foldl_cons, ih]
    simp only [List.map_cons, List.sum_cons]
    refine Prod.ext ?_ ?_ <;> simp only <;> ring

/-- The totals of the fallback are the sums along the fallback path. -/
theorem fallback_costs_eq (g : List (List Edge)) (light : List ℚ) (Lmax : ℚ)
    (path : List Int) :
    fallback_costs g light Lmax path = (seq_time g path, seq_dark light Lmax path) := by
  unfold fallback_costs seq_time seq_dark
  rw [fold_pair_sum (fun uv : Int × Int => first_edge_cost (nth g uv.1 []) uv.2)
    (fun uv : Int × Int => edge_dark light Lmax uv.1 uv.2)]
  simp only [zero_add]
  refine Prod.ext rfl ?_
  simp only
  congr 1
  apply List.map_congr_left
  intro uv _
  unfold edge_dark
  congr 2
  ring

/-- C7, amended: on a valid input each Path `solve` returns is of one of three kinds.
It is the placeholder (`[s, t]`, 1000, 500); or it comes from the fallback and its totals
are the sums, over the consecutive pairs of its node sequence, of the time cost of the edge
and of the derived darkness; or it comes from a label at the target and its totals are the
time of a route of the filtered graph from `s` to `t` and the darkness of that route added
to `max(0, Lmax - light[s])`, the darkness of the seed label. -/
theorem C7_costs_of_routes (hyp : ℚ → ℚ → ℚ) (fuel : Nat) (tie : List PQItem → Nat)
    (refs : Refs) (N M : Int) (light : List ℚ) (crime : List Int) (input : List (List Int))
    (s t : Int) (picks : List Path) (refs1 : Refs)
    (hv : ValidInput N light crime input s t)
    (h : solve hyp fuel tie refs N M light crime input s t = .ok (picks, refs1)) :
    ∀ p ∈ picks,
      (p.path = [s, t] ∧ p.time = 1000 ∧ p.dark = 500) ∨
      (p.time = seq_time (build_graph N crime input) p.path ∧
        p.dark = seq_dark light (compute_Lmax light) p.path) ∨
      (∃ es, IsRoute (build_graph N crime input) s es t ∧ p.time = route_time es ∧
        p.dark = max 0 (compute_Lmax light - nth light s 0) +
          route_dark light (compute_Lmax light) s es) := by
  obtain ⟨c, st, hrun, hfin, _⟩ := solve_eq h
  obtain ⟨hc, _⟩ := run_search_eq hrun
  obtain ⟨hg, hl, _, hs, ht, hLm, _⟩ := mk_ctx_fields hc
  have hlab := run_search_routes hv hrun
  intro p hp
  by_cases hne : nth st.labels c.t [] = []
  · unfold finish at hfin
    simp only at hfin
    rw [if_pos (by rw [hne]; rfl)] at hfin
    rcases fallback_eq hfin with ⟨path, _, _, hpk⟩ | ⟨_, hpk⟩
    · right; left
      rw [hpk] at hp
      obtain ⟨h1, h2, h3, _⟩ := same_picks_path hp
      rw [fallback_costs_eq] at h2 h3
      rw [h1, h2, h3, hg, hl, hLm]
      exact ⟨rfl, rfl⟩
    · left
      rw [hpk] at hp
      obtain ⟨h1, h2, h3, _⟩ := same_picks_path hp
      rw [hs, ht] at h1
      exact ⟨h1, h2, h3⟩
  · right; right
    obtain ⟨p1, p2, p3, hpk, h1, h2, h3⟩ := finish_search_eq hne hfin
    have ht0 : 0 ≤ c.t := by rw [ht]; exact hv.2.2.2.2.1
    have hroute : ∀ (idx : Int) (q : Path),
        q.time = (nth (nth st.labels c.t []) idx {}).time →
        q.dark = (nth (nth st.labels c.t []) idx {}).dark →
        idx.toNat < (nth st.labels c.t []).length →
        ∃ es, IsRoute (build_graph N crime input) s es t ∧ q.time = route_time es ∧
          q.dark = max 0 (compute_Lmax light - nth light s 0) +
            route_dark light (compute_Lmax light) s es := by
      intro idx q hqt hqd hidx
      have hmem := nth_mem (nth st.labels c.t []) idx {} hidx
      have := hlab c.t.toNat _ hmem
      rw [Int.toNat_of_nonneg ht0] at this
      obtain ⟨es, hes, het, hed⟩ := this
      rw [hg, hs, ht] at hes
      rw [hl, hs, hLm] at hed
      exact ⟨es, hes, by rw [hqt, het], by rw [hqd, hed]⟩
    rw [hpk] at hp
    simp only [List.mem_cons, List.mem_singleton, List.not_mem_nil, or_false] at hp
    obtain ⟨m1, e1, b1, _⟩ := idx_fast_spec _ hne
    obtain ⟨m2, e2, b2, _⟩ := idx_bright_spec _ hne
    obtain ⟨m3, e3, b3, _⟩ := idx_bal_spec c.hypot _ hne
    rcases hp with hp | hp | hp
    · subst hp
      obtain ⟨_, _, _, k1, k2⟩ := pick_eq h1
      exact hroute _ _ k1 k2 (by rw [e1]; simpa using b1)
    · subst hp
      obtain ⟨_, _, _, k1, k2⟩ := pick_eq h2
      exact hroute _ _ k1 k2 (by rw [e2]; simpa using b2)
    · subst hp
      obtain ⟨_, _, _, k1, k2⟩ := pick_eq h3
      exact hroute _ _ k1 k2 (by rw [e3]; simpa using b3)

/-- The hypotheses of the amended C7 hold on the two-route scenario. -/
theorem C7_costs_of_routes_witness :
    ValidInput 4 demo_light [0, 0, 0, 0] demo_input 0 3 ∧
      ∀ p ∈ demo_picks,
        (p.path = [0, 3] ∧ p.time = 1000 ∧ p.dark = 500) ∨
        (p.time = seq_time (build_graph 4 [0, 0, 0, 0] demo_input) p.path ∧
          p.dark = seq_dark demo_light (compute_Lmax demo_light) p.path) ∨
        (∃ es, IsRoute (build_graph 4 [0, 0, 0, 0] demo_input) 0 es 3 ∧
          p.time = route_time es ∧
          p.dark = max 0 (compute_Lmax demo_light - nth demo_light 0 0) +
            route_dark demo_light (compute_Lmax demo_light) 0 es) :=
  ⟨by decide,
    C7_costs_of_routes hypot_sq 100 tie0 none 4 4 demo_light [0, 0, 0, 0] demo_input 0 3
      demo_picks none (by decide) (by decide!)⟩

/-! ## The statics do not matter while the cardinality cap stays idle -/

theorem cap_refs_idle {c : Ctx} {v : Int} {lv : List Label}
    (h : (cap c none v lv).2 = none) (r : Refs) : cap c r v lv = ((cap c none v lv).1, r) := by
  unfold cap at h ⊢
  by_cases hc : v ≠ c.t ∧ (lv.length : Int) > 3
  · rw [if_pos hc] at h
    exact absurd h (by simp)
  · rw [if_neg hc, if_neg hc]

theorem cap_refs_kept {c : Ctx} {v : Int} {lv : List Label} {r : Refs} (h : r ≠ none) :
    (cap c r v lv).2 ≠ none := by
  unfold cap
  split
  · simp
  · exact h

theorem expand_edge_refs_kept {c : Ctx} {cur : PQItem} {Lcur : Label} {e : Edge} {st : Search}
    (h : st.refs ≠ none) : (expand_edge c cur Lcur e st).1.refs ≠ none := by
  unfold expand_edge
  simp only
  split
  · exact h
  · split
    · exact h
    · split
      · exact h
      · split
        · exact cap_refs_kept h
        · split
          · exact cap_refs_kept h
          · exact cap_refs_kept h

theorem expand_edges_refs_kept {c : Ctx} {cur : PQItem} {Lcur : Label} :
    ∀ (es : List Edge) (st : Search), st.refs ≠ none →
      (expand_edges c cur Lcur es st).refs ≠ none := by
  intro es
  induction es with
  | nil => intro st h; exact h
  | cons e rest ih =>
    intro st h
    rw [expand_edges]
    have h1 := @expand_edge_refs_kept c cur Lcur e st h
    cases hx : expand_edge c cur Lcur e st with
    | mk st1 b =>
      rw [hx] at h1
      cases b with
      | true => exact h1
      | false => exact ih st1 h1

theorem expand_edge_refs_idle {c : Ctx} {cur : PQItem} {Lcur : Label} {e : Edge} {st : Search}
    (h : (expand_edge c cur Lcur e (set_refs st none)).1.refs = none) (r : Refs) :
    expand_edge c cur Lcur e (set_refs st r) =
      (set_refs (expand_edge c cur Lcur e (set_refs st none)).1 r,
        (expand_edge c cur Lcur e (set_refs st none)).2) := by
  unfold expand_edge at h ⊢
  simp only [set_refs] at h ⊢
  split
  · rfl
  · split
    · rfl
    · split
      · rfl
      · rename_i h1 h2 h3
        rw [if_neg h1, if_neg h2, if_neg h3] at h
        have hcap : (cap c none e.to_ (pareto_prune (nth st.labels e.to_ [])
            { time := Lcur.time + e.time_cost
              dark := Lcur.dark + edge_dark c.light c.Lmax cur.node e.to_
              node := e.to_
              prev_node := cur.node
              prev_label_idx := cur.label_idx })).2 = none := by
          split at h
          · exact h
          · split at h
            · exact h
            · exact h
        rw [cap_refs_idle hcap r]
        simp only
        split
        · rfl
        · split
          · rfl
          · rfl

theorem set_refs_self {st : Search} {r : Refs} (h : st.refs = r) : set_refs st r = st := by
  cases st
  simp only at h
  subst h
  rfl

theorem expand_edges_refs_idle {c : Ctx} {cur : PQItem} {Lcur : Label} :
    ∀ (es : List Edge) (st : Search),
      (expand_edges c cur Lcur es (set_refs st none)).refs = none → ∀ r : Refs,
      expand_edges c cur Lcur es (set_refs st r) =
        set_refs (expand_edges c cur Lcur es (set_refs st none)) r := by
  intro es
  induction es with
  | nil => intro st _ r; rfl
  | cons e rest ih =>
    intro st h r
    rw [expand_edges] at h
    rw [expand_edges, expand_edges]
    cases hx : expand_edge c cur Lcur e (set_refs st none) with
    | mk st1 b =>
      rw [hx] at h
      have hst1 : st1.refs = none := by
        by_contra hne
        cases b with
        | true => exact hne h
        | false => exact expand_edges_refs_kept rest st1 hne h
      have hidle := @expand_edge_refs_idle c cur Lcur e st (by rw [hx]; exact hst1) r
      rw [hx] at hidle
      rw [hidle]
      cases b with
      | true => rfl
      | false =>
        simp only at h ⊢
        have hself : set_refs st1 none = st1 := set_refs_self hst1
        have := ih st1 (by rw [hself]; exact h) r
        rw [hself] at this
        exact this

theorem search_step_refs_kept {c : Ctx} {cur : PQItem} {st : Search} (h : st.refs ≠ none) :
    (search_step c cur st).1.refs ≠ none := by
  unfold search_step
  simp only
  split
  · exact h
  · split
    · split <;> exact h
    · split
      · exact h
      · split
        · exact h
        · exact expand_edges_refs_kept _ { st with lcur_moved := false } h

theorem search_step_refs_idle {c : Ctx} {cur : PQItem} {st : Search}
    (h : (search_step c cur (set_refs st none)).1.refs = none) (r : Refs) :
    search_step c cur (set_refs st r) =
      (set_refs (search_step c cur (set_refs st none)).1 r,
        (search_step c cur (set_refs st none)).2) := by
  unfold search_step at h ⊢
  simp only [set_refs] at h ⊢
  split
  · rfl
  · split
    · split <;> rfl
    · split
      · rfl
      · split
        · rfl
        · rename_i h1 h2 h3 h4
          rw [if_neg h1, if_neg h2, if_neg h3, if_neg h4] at h
          simp only at h
          have := @expand_edges_refs_idle c cur
            (nth (nth st.labels cur.node []) cur.label_idx {}) (nth c.g cur.node [])
            { st with lcur_moved := false } h r
          simp only [set_refs] at this
          rw [this]

theorem search_loop_refs_kept {c : Ctx} {tie : List PQItem → Nat} :
    ∀ (k : Nat) (st : Search), st.refs ≠ none → (search_loop c tie k st).refs ≠ none := by
  intro k
  induction k with
  | zero => intro st h; exact h
  | succ k ih =>
    intro st h
    rw [search_loop]
    cases hp : pop_open tie st.opn with
    | none => exact h
    | some p =>
      obtain ⟨cur, rest⟩ := p
      simp only
      have h1 := @search_step_refs_kept c cur { st with opn := rest } h
      cases hx : search_step c cur { st with opn := rest } with
      | mk st1 b =>
        rw [hx] at h1
        cases b with
        | true => exact h1
        | false => exact ih st1 h1

theorem search_loop_refs_idle {c : Ctx} {tie : List PQItem → Nat} :
    ∀ (k : Nat) (st : Search), (search_loop c tie k (set_refs st none)).refs = none →
      ∀ r : Refs, search_loop c tie k (set_refs st r) =
        set_refs (search_loop c tie k (set_refs st none)) r := by
  intro k
  induction k with
  | zero => intro st _ r; rfl
  | succ k ih =>
    intro st h r
    rw [search_loop] at h
    rw [search_loop, search_loop]
    have hopn : ∀ x : Refs, (set_refs st x).opn = st.opn := fun _ => rfl
    rw [hopn] at h ⊢
    rw [hopn]
    cases hp : pop_open tie st.opn with
    | none => rfl
    | some p =>
      obtain ⟨cur, rest⟩ := p
      rw [hp] at h
      simp only at h ⊢
      have hupd : ∀ x : Refs, ({ set_refs st x with opn := rest } : Search) =
          set_refs { st with opn := rest } x := fun _ => rfl
      rw [hupd] at h ⊢
      rw [hupd]
      cases hx : search_step c cur (set_refs { st with opn := rest } none) with
      | mk st1 b =>
        rw [hx] at h
        have hst1 : st1.refs = none := by
          by_contra hne
          cases b with
          | true => exact hne h
          | false => exact search_loop_refs_kept k st1 hne h
        have hidle := @search_step_refs_idle c cur { st with opn := rest }
          (by rw [hx]; exact hst1) r
        rw [hx] at hidle
        rw [hidle]
        cases b with
        | true => rfl
        | false =>
          simp only at h ⊢
          have hself : set_refs st1 none = st1 := set_refs_self hst1
          have := ih st1 (by rw [hself]; exact h) r
          rw [hself] at this
          exact this

/-- If a call of `solve` that starts with uninitialised statics ends with them still
uninitialised, the cap never ran, and the call returns the same Paths whatever values the
statics hold at its start. -/
theorem solve_refs_idle {hyp : ℚ → ℚ → ℚ}
    {fuel : Nat} {tie : List PQItem → Nat} {N M : Int} {light : List ℚ}
    {crime : List Int} {input : List (List Int)} {s t : Int} {picks : List Path}
    (h : solve hyp fuel tie none N M light crime input s t = .ok (picks, none)) (r : Refs) :
    solve hyp fuel tie r N M light crime input s t = .ok (picks, r) := by
  obtain ⟨c, st, hrun, hfin, hrefs⟩ := solve_eq h
  obtain ⟨hc, hst⟩ := run_search_eq hrun
  have hinit : ∀ x : Refs, init_search c N x = set_refs (init_search c N none) x := fun _ => rfl
  have hnone : (search_loop c tie MAX_ITERATIONS (set_refs (init_search c N none) none)).refs =
      none := by
    rw [← hinit, ← hst]; exact hrefs.symm
  have hloop := search_loop_refs_idle MAX_ITERATIONS (init_search c N none) hnone r
  rw [← hinit, ← hinit, ← hst] at hloop
  have hlive := solve_eq_live h hrun
  have hrun1 : run_search hyp fuel tie r N light crime input s t = .ok (c, set_refs st r) := by
    unfold run_search
    rw [hc]
    simp only
    rw [hloop]
  rw [solve_of_run hrun1 hlive M]
  have hl : (set_refs st r).labels = st.labels := rfl
  rw [hl, hfin]
  rfl

/-- C2: on the sample scenario of `main` (6 nodes, node 1 flagged, source 0, target 4)
`solve` returns a "fastest" pick of total time 5 along the nodes 0, 3, 5, 4 (the other two
picks are the same route), for every sufficient fuel, every tie-breaking rule, every value
the statics are left with by earlier calls and every library `hypot`. -/
theorem C2_sample_scenario (hyp : ℚ → ℚ → ℚ) (fuel : Nat) (tie : List PQItem → Nat)
    (refs : Refs) :
    solve hyp (fuel + 16) tie refs 6 6 sample_light sample_crime sample_input 0 4 =
      .ok ([{ name := "fastest", idx := 0, path := [0, 3, 5, 4], time := 5, dark := 13 / 10 },
            { name := "best_lit", idx := 0, path := [0, 3, 5, 4], time := 5, dark := 13 / 10 },
            { name := "balanced", idx := 0, path := [0, 3, 5, 4], time := 5, dark := 13 / 10 }],
           refs) := by
  apply solve_refs_idle
  exact solve_of_eval (agree_never hypot_sq hyp) (by decide!) (by decide!) (by decide!)
    (by simp) fuel tie

/-! ## The adjacency structure against its description -/

theorem contains_bad_iff {N : Int} {crime : List Int} {u : Int} (h0 : 0 ≤ u) (h1 : u < N) :
    (bad_nodes N crime).contains u = true ↔ nth crime u 0 = 1 := by
  constructor
  · intro h
    have hmem : u ∈ bad_nodes N crime := by simpa using h
    unfold bad_nodes at hmem
    rw [List.mem_filter] at hmem
    simpa using hmem.2
  · intro h
    by_contra hc
    have hf : (bad_nodes N crime).contains u = false := by
      cases hx : (bad_nodes N crime).contains u with
      | false => rfl
      | true => exact absurd hx hc
    exact not_bad_of_not_contains h0 h1 hf h

theorem nth_put_eq {α : Type} (g : List (List α)) (i k : Int) (x : List α)
    (hi : 0 ≤ i) (hk : 0 ≤ k) (hlen : k.toNat < g.length) :
    nth (put g i x) k [] = if i = k then x else nth g k [] := by
  unfold nth
  rw [getD_put]
  by_cases h : i = k
  · subst h
    simp [hlen]
  · have : i.toNat ≠ k.toNat := toNat_ne_of_ne hi hk h
    simp [h, this]

/-- One pass of the graph-building loop appends to `g[k]` the entries the row contributes
to `k`. -/
theorem add_edge_nth {N : Int} {crime : List Int} {g : List (List Edge)} {e : List Int}
    (he : (0 ≤ nth e 0 0 ∧ nth e 0 0 < N) ∧ (0 ≤ nth e 1 0 ∧ nth e 1 0 < N))
    (hlen : g.length = N.toNat) {k : Int} (hk0 : 0 ≤ k) (hk1 : k < N) :
    nth (add_edge (bad_nodes N crime) g e) k [] = nth g k [] ++ row_entries crime k e := by
  obtain ⟨⟨hu0, hu1⟩, ⟨hv0, hv1⟩⟩ := he
  have hkl : k.toNat < g.length := by omega
  unfold add_edge row_entries
  simp only
  by_cases hb : ((bad_nodes N crime).contains (nth e 0 0) ||
      (bad_nodes N crime).contains (nth e 1 0)) = true
  · rw [if_pos hb]
    have hc : nth crime (nth e 0 0) 0 = 1 ∨ nth crime (nth e 1 0) 0 = 1 := by
      rcases Bool.or_eq_true _ _ ▸ hb with h | h
      · exact Or.inl ((contains_bad_iff hu0 hu1).mp h)
      · exact Or.inr ((contains_bad_iff hv0 hv1).mp h)
    rw [if_pos hc]
    simp
  · rw [if_neg hb]
    have hc : ¬ (nth crime (nth e 0 0) 0 = 1 ∨ nth crime (nth e 1 0) 0 = 1) := by
      intro h
      apply hb
      rcases h with h | h
      · rw [(contains_bad_iff hu0 hu1).mpr h]; rfl
      · rw [(contains_bad_iff hv0 hv1).mpr h]; simp
    rw [if_neg hc]
    have hkl1 : k.toNat < (put g (nth e 0 0)
        (nth g (nth e 0 0) [] ++ [{ to_ := nth e 1 0, time_cost := ((nth e 2 0 : Int) : ℚ) }])).length := by
      rw [length_put]; exact hkl
    have hvl : (nth e 1 0).toNat < g.length := by omega
    rw [nth_put_eq _ _ _ _ hv0 hk0 hkl1, nth_put_eq _ _ _ _ hu0 hk0 hkl,
      nth_put_eq _ _ _ _ hu0 hv0 hvl]
    by_cases h1 : nth e 0 0 = k
    · by_cases h2 : nth e 1 0 = k
      · have h3 : nth e 0 0 = nth e 1 0 := by rw [h1, h2]
        simp [h1, h2]
      · have h3 : ¬ nth e 0 0 = nth e 1 0 := by rw [h1]; exact fun h => h2 h.symm
        simp [h1, h2]
    · by_cases h2 : nth e 1 0 = k
      · have h3 : ¬ nth e 0 0 = nth e 1 0 := by rw [h2]; exact h1
        simp [h1, h2, h3]
      · simp [h1, h2]

theorem add_edge_length (bad : List Int) (g : List (List Edge)) (e : List Int) :
    (add_edge bad g e).length = g.length := by
  unfold add_edge
  simp only
  split
  · rfl
  · simp [length_put]

theorem foldl_add_edge_nth {N : Int} {crime : List Int} {k : Int} (hk0 : 0 ≤ k) (hk1 : k < N) :
    ∀ (input : List (List Int)) (g : List (List Edge)),
      (∀ e ∈ input, (0 ≤ nth e 0 0 ∧ nth e 0 0 < N) ∧ (0 ≤ nth e 1 0 ∧ nth e 1 0 < N)) →
      g.length = N.toNat →
      nth (input.foldl (add_edge (bad_nodes N crime)) g) k [] =
        nth g k [] ++ adj_spec crime input k := by
  intro input
  induction input with
  | nil => intro g _ _; simp [adj_spec]
  | cons e rest ih =>
    intro g he hlen
    rw [List.foldl_cons,
      ih _ (fun x hx => he x (List.mem_cons_of_mem _ hx)) (by rw [add_edge_length]; exact hlen),
      add_edge_nth (he e (List.mem_cons_self _ _)) hlen hk0 hk1]
    simp [adj_spec, List.flatMap_cons]

/-- On a valid input the adjacency list of every node is the one the specification
describes. -/
theorem build_graph_nth {N : Int} {light : List ℚ} {crime : List Int}
    {input : List (List Int)} {s t : Int} (hv : ValidInput N light crime input s t)
    {k : Int} (hk0 : 0 ≤ k) (hk1 : k < N) :
    nth (build_graph N crime input) k [] = adj_spec crime input k := by
  unfold build_graph
  rw [foldl_add_edge_nth hk0 hk1 input _
    (fun e he => ⟨(hv.2.2.1 e he).2.1, (hv.2.2.1 e he).2.2.1⟩) (by simp)]
  rw [nth_replicate _ _ _ _ (by omega)]
  simp

theorem count_ite_single (p : Prop) [Decidable p] (a b : Edge) :
    (if p then [a] else []).count b = if p ∧ a = b then 1 else 0 := by
  by_cases hp : p
  · by_cases hab : a = b
    · simp [hp, hab]
    · simp [hp, hab, List.count_cons]
  · simp [hp]

theorem count_row_entries (crime : List Int) (x w : Int) (c : ℚ) (row : List Int) :
    (row_entries crime x row).count { to_ := w, time_cost := c } =
      (row_entries crime w row).count { to_ := x, time_cost := c } := by
  unfold row_entries
  split
  · rfl
  · rw [List.count_append, List.count_append, count_ite_single, count_ite_single,
      count_ite_single, count_ite_single, add_comm]
    simp only [Edge.mk.injEq]
    congr 1
    · apply if_congr _ rfl rfl
      constructor
      · rintro ⟨h1, h2, h3⟩; exact ⟨h2, h1, h3⟩
      · rintro ⟨h1, h2, h3⟩; exact ⟨h2, h1, h3⟩
    · apply if_congr _ rfl rfl
      constructor
      · rintro ⟨h1, h2, h3⟩; exact ⟨h2, h1, h3⟩
      · rintro ⟨h1, h2, h3⟩; exact ⟨h2, h1, h3⟩

theorem count_adj_spec (crime : List Int) (input : List (List Int)) (x w : Int) (c : ℚ) :
    (adj_spec crime input x).count { to_ := w, time_cost := c } =
      (adj_spec crime input w).count { to_ := x, time_cost := c } := by
  unfold adj_spec
  induction input with
  | nil => rfl
  | cons row rest ih =>
    rw [List.flatMap_cons, List.flatMap_cons, List.count_append, List.count_append, ih,
      count_row_entries]

/-- C12: on a valid input the adjacency structure `g` built by `solve` has `N` rows, and
the row of every node `k` is exactly what the input rows contribute to `k`, in input order:
a row `[u, v, c]` with `crime[u] = 1` or `crime[v] = 1` contributes nothing, every other
row contributes `(v, c)` to `g[u]` and `(u, c)` to `g[v]`.  So `w` is listed under `x` with
cost `c` as often as `x` is listed under `w` with cost `c`. -/
theorem C12_graph_construction (N : Int) (light : List ℚ) (crime : List Int)
    (input : List (List Int)) (s t : Int) (hv : ValidInput N light crime input s t) :
    (build_graph N crime input).length = N.toNat ∧
      (∀ k : Int, 0 ≤ k → k < N →
        nth (build_graph N crime input) k [] = input.flatMap (row_entries crime k)) ∧
      (∀ (x w : Int) (c : ℚ), 0 ≤ x → x < N → 0 ≤ w → w < N →
        (nth (build_graph N crime input) x []).count { to_ := w, time_cost := c } =
          (nth (build_graph N crime input) w []).count { to_ := x, time_cost := c }) := by
  refine ⟨(build_graph_ok hv).1, fun k hk0 hk1 => build_graph_nth hv hk0 hk1, ?_⟩
  intro x w c hx0 hx1 hw0 hw1
  rw [build_graph_nth hv hx0 hx1, build_graph_nth hv hw0 hw1]
  exact count_adj_spec crime input x w c

/-- The hypothesis of C12 holds for the sample scenario, whose rows `[2, 3, 5]`, `[2, 5, 2]`
and `[2, 4, 1]` stay, node 2 being unflagged, while node 1 has no row. -/
theorem C12_graph_construction_witness :
    ValidInput 6 sample_light sample_crime sample_input 0 4 ∧
      (build_graph 6 sample_crime sample_input).length = (6 : Int).toNat ∧
      (∀ k : Int, 0 ≤ k → k < 6 →
        nth (build_graph 6 sample_crime sample_input) k [] =
          sample_input.flatMap (row_entries sample_crime k)) ∧
      (∀ (x w : Int) (c : ℚ), 0 ≤ x → x < 6 → 0 ≤ w → w < 6 →
        (nth (build_graph 6 sample_crime sample_input) x []).count { to_ := w, time_cost := c } =
          (nth (build_graph 6 sample_crime sample_input) w []).count
            { to_ := x, time_cost := c }) :=
  ⟨by decide, C12_graph_construction 6 sample_light sample_crime sample_input 0 4 (by decide)⟩

/-! ## `reverse_dijkstra_lb`: the distances it returns -/

theorem route_w_snoc {g : List (List Edge)} (weight : Int → Int → Edge → ℚ) :
    ∀ (es : List Edge) (a b : Int) (e : Edge), IsRoute g a es b →
      route_w weight a (es ++ [e]) = route_w weight a es + weight b e.to_ e := by
  intro es
  induction es with
  | nil =>
    intro a b e h
    unfold IsRoute at h
    subst h
    simp [route_w]
  | cons x rest ih =>
    intro a b e h
    obtain ⟨_, _, h3⟩ := h
    change weight a x.to_ x + route_w weight x.to_ (rest ++ [e]) =
      weight a x.to_ x + route_w weight x.to_ rest + weight b e.to_ e
    rw [ih _ _ _ h3]
    ring

theorem route_w_time : ∀ (es : List Edge) (a : Int),
    route_w (fun _ _ e => e.time_cost) a es = route_time es := by
  intro es
  induction es with
  | nil => intro a; simp [route_w, route_time]
  | cons x rest ih =>
    intro a
    change x.time_cost + route_w (fun _ _ e => e.time_cost) x.to_ rest = route_time (x :: rest)
    rw [ih]
    simp [route_time]

theorem route_w_dark (light : List ℚ) (Lmax : ℚ) : ∀ (es : List Edge) (a : Int),
    route_w (fun u v _ => edge_dark light Lmax u v) a es = route_dark light Lmax a es := by
  intro es
  induction es with
  | nil => intro a; rfl
  | cons x rest ih =>
    intro a
    change edge_dark light Lmax a x.to_ +
      route_w (fun u v _ => edge_dark light Lmax u v) x.to_ rest = _
    rw [ih]
    rfl

theorem rd_live_relax {g : List (List Edge)} {weight : Int → Int → Edge → ℚ} {t : Int}
    {S : Finset ℕ} {dist : List (Option ℚ)} {pq : List (ℚ × Int)} {u : Int} {e : Edge}
    (h : RDLive g weight t S dist pq) (hu : 0 ≤ u) (he : e ∈ nth g u []) (hv : 0 ≤ e.to_) :
    RDLive g weight t S (rd_relax weight u (dist, pq) e).1 (rd_relax weight u (dist, pq) e).2 := by
  unfold rd_relax
  simp only
  cases hdu : nth dist u none with
  | none => exact h
  | some du =>
    simp only
    split
    · have hroute : ∃ es, IsRoute g t es e.to_ ∧ du + weight u e.to_ e = route_w weight t es := by
        obtain ⟨es, hes, hx⟩ := h.path u.toNat du hdu
        rw [Int.toNat_of_nonneg hu] at hes
        exact ⟨es ++ [e], IsRoute_snoc es _ _ e hes hu he, by
          rw [route_w_snoc weight es _ _ e hes, hx]⟩
      constructor
      · intro k x hx
        rw [getD_put_opt] at hx
        split at hx
        · rename_i hk
          injection hx with hx
          right
          apply List.mem_append_right
          rw [List.mem_singleton, ← hx]
          congr 1
          omega
        · rcases h.live k x hx with h1 | h1
          · exact Or.inl h1
          · exact Or.inr (List.mem_append_left _ h1)
      · intro k x hx
        rw [getD_put_opt] at hx
        split at hx
        · rename_i hk
          injection hx with hx
          have hkv : (k : Int) = e.to_ := by omega
          rw [hkv, ← hx]
          exact hroute
        · exact h.path k x hx
    · exact h

theorem rd_live_fold {g : List (List Edge)} {weight : Int → Int → Edge → ℚ} {t : Int}
    {S : Finset ℕ} {u : Int} (hu : 0 ≤ u) :
    ∀ (es : List Edge) (dist : List (Option ℚ)) (pq : List (ℚ × Int)),
      (∀ e ∈ es, e ∈ nth g u [] ∧ 0 ≤ e.to_) → RDLive g weight t S dist pq →
      RDLive g weight t S (es.foldl (rd_relax weight u) (dist, pq)).1
        (es.foldl (rd_relax weight u) (dist, pq)).2 := by
  intro es
  induction es with
  | nil => intro dist pq _ h; exact h
  | cons e rest ih =>
    intro dist pq hes h
    rw [List.foldl_cons]
    have h1 := rd_live_relax h hu (hes e (List.mem_cons_self _ _)).1
      (hes e (List.mem_cons_self _ _)).2
    exact ih _ _ (fun x hx => hes x (List.mem_cons_of_mem _ hx)) h1

theorem rd_live_erase {g : List (List Edge)} {weight : Int → Int → Edge → ℚ} {t : Int}
    {S : Finset ℕ} {dist : List (Option ℚ)} {pq : List (ℚ × Int)} {d : ℚ} {u : Int}
    (h : RDLive g weight t S dist pq)
    (hex : ∀ (k : Nat), dist.getD k none = some d → (k : Int) = u → k ∈ S) :
    RDLive g weight t S dist (pq.erase (d, u)) := by
  constructor
  · intro k x hx
    rcases h.live k x hx with h1 | h1
    · exact Or.inl h1
    · by_cases heq : (x, (k : Int)) = (d, u)
      · injection heq with e1 e2
        subst e1
        exact Or.inl (hex k hx e2)
      · exact Or.inr ((List.mem_erase_of_ne heq).mpr h1)
  · exact h.path

theorem rd_live_mono {g : List (List Edge)} {weight : Int → Int → Edge → ℚ} {t : Int}
    {S S1 : Finset ℕ} {dist : List (Option ℚ)} {pq : List (ℚ × Int)}
    (h : RDLive g weight t S dist pq) (hS : S ⊆ S1) : RDLive g weight t S1 dist pq :=
  ⟨fun k x hx => (h.live k x hx).imp (fun h1 => hS h1) id, h.path⟩

/-- When the loop of `reverse_dijkstra_lb` returns, both invariants hold of the table it
returns, with an empty heap. -/
theorem rd_loop_final {g : List (List Edge)} {weight : Int → Int → Edge → ℚ} {t : Int}
    (hg : RDGraph g weight) :
    ∀ (fuel : Nat) (S : Finset ℕ) (m : ℚ) (dist : List (Option ℚ)) (pq : List (ℚ × Int)),
      RDInv g weight t S m dist pq → RDLive g weight t S dist pq →
      ∀ r, rd_loop g weight fuel dist pq = .ok r →
        ∃ S1 m1, RDInv g weight t S1 m1 r [] ∧ RDLive g weight t S1 r [] := by
  intro fuel
  induction fuel with
  | zero =>
    intro S m dist pq hinv hlive r hr
    rw [rd_loop] at hr
    cases htop : pq_top pq with
    | none =>
      rw [htop] at hr
      injection hr with hr
      subst hr
      have := pq_top_none htop
      subst this
      exact ⟨S, m, hinv, hlive⟩
    | some p =>
      rw [htop] at hr
      exact absurd hr (by simp)
  | succ fuel ih =>
    intro S m dist pq hinv hlive r hr
    rw [rd_loop] at hr
    cases htop : pq_top pq with
    | none =>
      rw [htop] at hr
      injection hr with hr
      subst hr
      have := pq_top_none htop
      subst this
      exact ⟨S, m, hinv, hlive⟩
    | some p =>
      obtain ⟨d, u⟩ := p
      rw [htop] at hr
      simp only at hr
      obtain ⟨hmem, hmin⟩ := pq_top_spec htop
      obtain ⟨hmd, hu0, hun, x, hx, hxd⟩ := hinv.pq_ok _ hmem
      simp only at hmd hu0 hun hx hxd
      have hinv1 : RDInv g weight t S d dist (pq.erase (d, u)) :=
        hinv.raise hmd (fun p hp => List.mem_of_mem_erase hp)
          (fun p hp => hmin p (List.mem_of_mem_erase hp))
      have huu : ((u.toNat : Nat) : Int) = u := Int.toNat_of_nonneg hu0
      by_cases hs : rd_stale d (nth dist u none) = true
      · rw [if_pos hs] at hr
        refine ih S d dist _ hinv1 (rd_live_erase hlive ?_) r hr
        intro k hk hku
        exfalso
        have hkn : u.toNat = k := by omega
        have : nth dist u none = some d := by unfold nth; rw [hkn]; exact hk
        rw [this] at hs
        simp only [rd_stale, decide_eq_true_eq] at hs
        have := EPS_pos
        linarith
      · rw [if_neg hs] at hr
        have hxeq : x = d := by
          rcases hxd with h | h
          · exact h
          · exfalso
            apply hs
            simp only [nth, hx, rd_stale, decide_eq_true_eq]
            linarith
        subst hxeq
        by_cases huS : u.toNat ∈ S
        · obtain ⟨_, x1, hx1, _, hedges⟩ := hinv.settled _ huS
          rw [hx] at hx1
          injection hx1 with hx1
          subst hx1
          have hkeep : (nth g u []).foldl (rd_relax weight u) (dist, pq.erase (x, u)) =
              (dist, pq.erase (x, u)) :=
            rd_fold_keep (nth g u []) dist (pq.erase (x, u)) hx
            (by
              intro e he
              have := hedges e he
              rw [huu] at this
              exact this)
          rw [hkeep] at hr
          refine ih S x dist _ hinv1 (rd_live_erase hlive ?_) r hr
          intro k _ hku
          have hkn : u.toNat = k := by omega
          rw [← hkn]; exact huS
        · have hes : ∀ e ∈ nth g u [],
              (0 ≤ e.to_ ∧ e.to_.toNat < g.length) ∧ 0 ≤ weight u e.to_ e := by
            intro e he
            obtain ⟨⟨h1, h2⟩, h3⟩ := hg u.toNat hun e he
            rw [huu] at h3
            exact ⟨⟨h1, by omega⟩, h3⟩
          obtain ⟨k1, k2, _, k4, _⟩ := rd_relax_fold (nth g u []) dist _ hes hinv1 hx
          have hinv2 : RDInv g weight t (insert u.toNat S) x
              ((nth g u []).foldl (rd_relax weight u) (dist, pq.erase (x, u))).1
              ((nth g u []).foldl (rd_relax weight u) (dist, pq.erase (x, u))).2 := by
            constructor
            · exact k1.len
            · exact k1.pq_ok
            · intro k hk
              rcases Finset.mem_insert.mp hk with e | e
              · subst e
                refine ⟨hun, x, k2, le_refl _, ?_⟩
                intro e he
                have := k4 e he
                unfold Relaxed at this
                rw [huu]
                exact this
              · exact k1.settled k e
            · exact k1.target
            · exact k1.nonneg
          have hlive1 : RDLive g weight t (insert u.toNat S) dist (pq.erase (x, u)) := by
            refine rd_live_erase (rd_live_mono hlive (Finset.subset_insert _ _)) ?_
            intro k _ hku
            have hkn : u.toNat = k := by omega
            rw [← hkn]; exact Finset.mem_insert_self _ _
          have hlive2 := rd_live_fold hu0 (nth g u []) dist (pq.erase (x, u))
            (fun e he => ⟨he, (hes e he).1.1⟩) hlive1
          exact ih _ _ _ _ hinv2 hlive2 r hr

theorem rd_init_live (g : List (List Edge)) (weight : Int → Int → Edge → ℚ) (t : Int)
    (ht : 0 ≤ t ∧ t < (g.length : Int)) :
    RDLive g weight t ∅ (put (List.replicate g.length none) t (some 0)) [(0, t)] := by
  have hget : ∀ (k : Nat) (x : ℚ),
      (put (List.replicate g.length (none : Option ℚ)) t (some 0)).getD k none = some x →
      t.toNat = k ∧ x = 0 := by
    intro k x hx
    rw [getD_put_opt] at hx
    split at hx
    · rename_i hk
      injection hx with hx
      exact ⟨hk.1, hx.symm⟩
    · simp only [List.getD_eq_getElem?_getD, List.getElem?_replicate] at hx
      split at hx <;> simp at hx
  constructor
  · intro k x hx
    obtain ⟨hk, hx0⟩ := hget k x hx
    right
    rw [List.mem_singleton, hx0]
    congr 1
    omega
  · intro k x hx
    obtain ⟨hk, hx0⟩ := hget k x hx
    refine ⟨[], ?_, by rw [hx0]; rfl⟩
    unfold IsRoute
    omega

/-- What the table returned by `reverse_dijkstra_lb` satisfies: every finite entry is the
weight of a route from the target, and no adjacency entry of a node with a finite entry can
lower the entry of its head by more than the tolerance. -/
theorem reverse_dijkstra_lb_final {g : List (List Edge)} {weight : Int → Int → Edge → ℚ}
    {t : Int} (hg : RDGraph g weight) (ht : 0 ≤ t ∧ t < (g.length : Int)) {fuel : Nat}
    {lb : List (Option ℚ)} (h : reverse_dijkstra_lb fuel g t weight = .ok lb) :
    lb.getD t.toNat none = some 0 ∧
      ∀ (k : Nat) (x : ℚ), lb.getD k none = some x →
        k < g.length ∧ (∃ es, IsRoute g t es (k : Int) ∧ x = route_w weight t es) ∧
        ∀ e ∈ g.getD k [], ∃ y, lb.getD e.to_.toNat none = some y ∧
          y ≤ x + weight (k : Int) e.to_ e + EPS := by
  unfold reverse_dijkstra_lb at h
  obtain ⟨S1, m1, hinv, hlive⟩ :=
    rd_loop_final hg fuel ∅ 0 _ _ (rd_init_inv g weight t ht) (rd_init_live g weight t ht) lb h
  refine ⟨hinv.target, ?_⟩
  intro k x hx
  have hk : k ∈ S1 := by
    rcases hlive.live k x hx with h1 | h1
    · exact h1
    · exact absurd h1 (List.not_mem_nil _)
  obtain ⟨h1, x1, hx1, _, hedges⟩ := hinv.settled k hk
  rw [hx] at hx1
  injection hx1 with hx1
  subst hx1
  exact ⟨h1, hlive.path k x hx, hedges⟩

/-! ## The lower bounds of `solve` against the routes of the graph -/

/-- Along a route, the table of `reverse_dijkstra_lb` grows by at most the weight of the
route, up to the slack `δ` that each relaxation leaves. -/
theorem rd_chain {g : List (List Edge)} {weight : Int → Int → Edge → ℚ}
    {lb : List (Option ℚ)} {δ : ℚ}
    (hrel : ∀ (k : Nat) (x : ℚ), lb.getD k none = some x → ∀ e ∈ g.getD k [],
      ∃ y, lb.getD e.to_.toNat none = some y ∧ y ≤ x + weight (k : Int) e.to_ e + δ) :
    ∀ (es : List Edge) (a b : Int) (x : ℚ), lb.getD a.toNat none = some x → IsRoute g a es b →
      ∃ y, lb.getD b.toNat none = some y ∧ y ≤ x + route_w weight a es + es.length * δ := by
  intro es
  induction es with
  | nil =>
    intro a b x hx h
    unfold IsRoute at h
    subst h
    exact ⟨x, hx, by simp [route_w]⟩
  | cons e rest ih =>
    intro a b x hx h
    obtain ⟨ha, he, hr⟩ := h
    obtain ⟨y1, hy1, hle1⟩ := hrel a.toNat x hx e he
    rw [Int.toNat_of_nonneg ha] at hle1
    obtain ⟨y, hy, hle⟩ := ih _ _ y1 hy1 hr
    refine ⟨y, hy, ?_⟩
    change y ≤ x + (weight a e.to_ e + route_w weight e.to_ rest) +
      ((rest.length + 1 : Nat) : ℚ) * δ
    push_cast
    linarith

theorem int_tol {a b : Int} (h : (a : ℚ) ≤ b + EPS) : (a : ℚ) ≤ b := by
  by_contra hc
  have hlt : b < a := by exact_mod_cast not_le.mp hc
  have h1 : b + 1 ≤ a := hlt
  have h2 : ((b + 1 : Int) : ℚ) ≤ a := by exact_mod_cast h1
  push_cast at h2
  have h3 : EPS < 1 := by unfold EPS; norm_num
  linarith

theorem route_time_int {g : List (List Edge)}
    (hint : ∀ (k : Nat) (e : Edge), e ∈ g.getD k [] → ∃ n : Int, e.time_cost = (n : ℚ)) :
    ∀ (es : List Edge) (a b : Int), IsRoute g a es b → ∃ n : Int, route_time es = (n : ℚ) := by
  intro es
  induction es with
  | nil => intro a b _; exact ⟨0, by simp [route_time]⟩
  | cons e rest ih =>
    intro a b h
    obtain ⟨_, he, hr⟩ := h
    obtain ⟨n1, hn1⟩ := hint _ e he
    obtain ⟨n2, hn2⟩ := ih _ _ hr
    refine ⟨n1 + n2, ?_⟩
    have : route_time (e :: rest) = e.time_cost + route_time rest := by simp [route_time]
    rw [this, hn1, hn2]
    push_cast
    rfl

theorem mem_row_entries {crime : List Int} {k : Int} {row : List Int} {e : Edge}
    (h : e ∈ row_entries crime k row) :
    KeptRow crime row ∧ e.time_cost = ((nth row 2 0 : Int) : ℚ) ∧
      ((nth row 0 0 = k ∧ e.to_ = nth row 1 0) ∨ (nth row 1 0 = k ∧ e.to_ = nth row 0 0)) := by
  unfold row_entries at h
  split at h
  · exact absurd h (List.not_mem_nil _)
  · rename_i hc
    have hk : KeptRow crime row := by
      unfold KeptRow
      exact ⟨fun h1 => hc (Or.inl h1), fun h1 => hc (Or.inr h1)⟩
    rcases List.mem_append.mp h with h1 | h1
    · split at h1
      · rename_i hu
        rw [List.mem_singleton] at h1
        subst h1
        exact ⟨hk, rfl, Or.inl ⟨hu, rfl⟩⟩
      · exact absurd h1 (List.not_mem_nil _)
    · split at h1
      · rename_i hu
        rw [List.mem_singleton] at h1
        subst h1
        exact ⟨hk, rfl, Or.inr ⟨hu, rfl⟩⟩
      · exact absurd h1 (List.not_mem_nil _)

theorem row_entries_fst {crime : List Int} {row : List Int} (hk : KeptRow crime row) :
    ({ to_ := nth row 1 0, time_cost := ((nth row 2 0 : Int) : ℚ) } : Edge) ∈
      row_entries crime (nth row 0 0) row := by
  unfold row_entries
  rw [if_neg (by unfold KeptRow at hk; tauto)]
  simp

theorem row_entries_snd {crime : List Int} {row : List Int} (hk : KeptRow crime row) :
    ({ to_ := nth row 0 0, time_cost := ((nth row 2 0 : Int) : ℚ) } : Edge) ∈
      row_entries crime (nth row 1 0) row := by
  unfold row_entries
  rw [if_neg (by unfold KeptRow at hk; tauto)]
  simp

theorem mem_adj_spec {crime : List Int} {input : List (List Int)} {k : Int} {e : Edge} :
    e ∈ adj_spec crime input k ↔ ∃ row ∈ input, e ∈ row_entries crime k row := by
  unfold adj_spec
  exact List.mem_flatMap

/-- The adjacency structure is symmetric: an entry of node `a` leading to `b` has a twin of
the same cost under `b` leading to `a`. -/
theorem build_graph_symm {N : Int} {light : List ℚ} {crime : List Int}
    {input : List (List Int)} {s t : Int} (hv : ValidInput N light crime input s t)
    {a : Int} {e : Edge} (ha : 0 ≤ a) (he : e ∈ nth (build_graph N crime input) a []) :
    ({ to_ := a, time_cost := e.time_cost } : Edge) ∈ nth (build_graph N crime input) e.to_ [] := by
  obtain ⟨hlen, hedges⟩ := build_graph_ok hv
  have hok := hedges a.toNat e he
  have haN : a < N := by
    have := hok.2.2.2.1
    omega
  rw [build_graph_nth hv ha haN, mem_adj_spec] at he
  obtain ⟨row, hrow, hmem⟩ := he
  obtain ⟨hk, hc, hends⟩ := mem_row_entries hmem
  rw [build_graph_nth hv hok.1.1 hok.1.2, mem_adj_spec]
  refine ⟨row, hrow, ?_⟩
  rw [hc]
  rcases hends with ⟨h1, h2⟩ | ⟨h1, h2⟩
  · rw [h2, ← h1]; exact row_entries_snd hk
  · rw [h2, ← h1]; exact row_entries_fst hk

theorem edge_dark_comm (light : List ℚ) (Lmax : ℚ) (u v : Int) :
    edge_dark light Lmax u v = edge_dark light Lmax v u := by
  unfold edge_dark
  rw [add_comm]

/-- A route of the adjacency structure can be walked backwards, at the same costs. -/
theorem route_reverse {N : Int} {light : List ℚ} {crime : List Int}
    {input : List (List Int)} {s t : Int} (hv : ValidInput N light crime input s t) :
    ∀ (es : List Edge) (a b : Int), IsRoute (build_graph N crime input) a es b →
      ∃ es1, IsRoute (build_graph N crime input) b es1 a ∧ es1.length = es.length ∧
        route_time es1 = route_time es ∧
        route_dark light (compute_Lmax light) b es1 =
          route_dark light (compute_Lmax light) a es := by
  intro es
  induction es with
  | nil =>
    intro a b h
    unfold IsRoute at h
    subst h
    exact ⟨[], rfl, rfl, rfl, rfl⟩
  | cons e rest ih =>
    intro a b h
    obtain ⟨ha, he, hr⟩ := h
    obtain ⟨es1, h1, h2, h3, h4⟩ := ih _ _ hr
    have hto : 0 ≤ e.to_ := ((build_graph_ok hv).2 a.toNat e he).1.1
    have hback := build_graph_symm hv ha he
    refine ⟨es1 ++ [{ to_ := a, time_cost := e.time_cost }],
      IsRoute_snoc es1 _ _ _ h1 hto hback, by simp [h2], ?_, ?_⟩
    · rw [route_time_snoc, h3]
      simp [route_time, add_comm]
    · rw [route_dark_snoc light _ es1 _ _ _ h1, h4]
      change route_dark light (compute_Lmax light) e.to_ rest +
          edge_dark light (compute_Lmax light) e.to_ a =
        edge_dark light (compute_Lmax light) a e.to_ +
          route_dark light (compute_Lmax light) e.to_ rest
      rw [edge_dark_comm light _ e.to_ a]
      ring

theorem linked_entry {N : Int} {light : List ℚ} {crime : List Int}
    {input : List (List Int)} {s t : Int} (hv : ValidInput N light crime input s t)
    {a b : Int} (h : Linked crime input a b) :
    0 ≤ a ∧ ∃ e ∈ nth (build_graph N crime input) a [], e.to_ = b := by
  obtain ⟨row, hrow, hk, hends⟩ := h
  obtain ⟨_, ⟨hu0, hu1⟩, ⟨hv0, hv1⟩, _⟩ := hv.2.2.1 row hrow
  rcases hends with ⟨h1, h2⟩ | ⟨h1, h2⟩
  · refine ⟨by rw [← h1]; exact hu0,
      { to_ := nth row 1 0, time_cost := ((nth row 2 0 : Int) : ℚ) }, ?_, h2⟩
    rw [build_graph_nth hv (by rw [← h1]; exact hu0) (by rw [← h1]; exact hu1), mem_adj_spec]
    exact ⟨row, hrow, by rw [← h1]; exact row_entries_fst hk⟩
  · refine ⟨by rw [← h2]; exact hv0,
      { to_ := nth row 0 0, time_cost := ((nth row 2 0 : Int) : ℚ) }, ?_, h1⟩
    rw [build_graph_nth hv (by rw [← h2]; exact hv0) (by rw [← h2]; exact hv1), mem_adj_spec]
    exact ⟨row, hrow, by rw [← h2]; exact row_entries_snd hk⟩

/-- A path of the filtered graph is a route of the adjacency structure. -/
theorem route_of_connected {N : Int} {light : List ℚ} {crime : List Int}
    {input : List (List Int)} {s t : Int} (hv : ValidInput N light crime input s t)
    {a b : Int} (h : Connected crime input a b) :
    Reachable (build_graph N crime input) a b := by
  unfold Connected at h
  induction h using Relation.ReflTransGen.head_induction_on with
  | refl => exact ⟨[], rfl⟩
  | head hl _ ih =>
    obtain ⟨es, hes⟩ := ih
    obtain ⟨ha, e, he, hto⟩ := linked_entry hv hl
    exact ⟨e :: es, ha, he, by rw [hto]; exact hes⟩

theorem build_graph_int {N : Int} {light : List ℚ} {crime : List Int}
    {input : List (List Int)} {s t : Int} (hv : ValidInput N light crime input s t) :
    ∀ (k : Nat) (e : Edge), e ∈ (build_graph N crime input).getD k [] →
      ∃ n : Int, e.time_cost = (n : ℚ) := by
  intro k e he
  have hok := (build_graph_ok hv).2 k e he
  have he1 : e ∈ nth (build_graph N crime input) (k : Int) [] := by
    rw [nth_natCast]; exact he
  rw [build_graph_nth hv (Int.natCast_nonneg k) hok.2.2.2.1, mem_adj_spec] at he1
  obtain ⟨row, _, hmem⟩ := he1
  exact ⟨_, (mem_row_entries hmem).2.1⟩

/-! ## C11: the lower bounds are the distances to the target, up to the tolerance -/

theorem build_graph_rd {N : Int} {light : List ℚ} {crime : List Int}
    {input : List (List Int)} {s t : Int} (hv : ValidInput N light crime input s t)
    (weight : Int → Int → Edge → ℚ)
    (hw : ∀ (k : Nat) (e : Edge), e ∈ (build_graph N crime input).getD k [] →
      0 ≤ weight (k : Int) e.to_ e) :
    RDGraph (build_graph N crime input) weight ∧
      (0 ≤ t ∧ t < ((build_graph N crime input).length : Int)) := by
  obtain ⟨hlen, hedges⟩ := build_graph_ok hv
  have hN : ((build_graph N crime input).length : Int) = N := by
    rw [hlen]
    have := hv.2.2.2.1
    omega
  refine ⟨?_, by rw [hN]; exact hv.2.2.2.2⟩
  intro k _ e he
  have := hedges k e he
  exact ⟨⟨this.1.1, by rw [hN]; exact this.1.2⟩, hw k e he⟩

/-- What a table of `reverse_dijkstra_lb` says about the routes to the target, for a cost of
routes that agrees with the weight function and is the same in both directions. -/
theorem lb_spec {N : Int} {light : List ℚ} {crime : List Int} {input : List (List Int)}
    {s t : Int} (hv : ValidInput N light crime input s t)
    {weight : Int → Int → Edge → ℚ} {cost : Int → List Edge → ℚ} {δ : ℚ}
    {lb : List (Option ℚ)}
    (hcost : ∀ (a : Int) (es : List Edge), route_w weight a es = cost a es)
    (hrev : ∀ (es : List Edge) (a b : Int), IsRoute (build_graph N crime input) a es b →
      ∃ es1, IsRoute (build_graph N crime input) b es1 a ∧ es1.length = es.length ∧
        cost b es1 = cost a es)
    (h0 : lb.getD t.toNat none = some 0)
    (hpath : ∀ (k : Nat) (x : ℚ), lb.getD k none = some x →
      ∃ es, IsRoute (build_graph N crime input) t es (k : Int) ∧ x = cost t es)
    (hrel : ∀ (k : Nat) (x : ℚ), lb.getD k none = some x →
      ∀ e ∈ (build_graph N crime input).getD k [],
        ∃ y, lb.getD e.to_.toNat none = some y ∧ y ≤ x + weight (k : Int) e.to_ e + δ)
    {i : Int} (hi : 0 ≤ i) :
    (Connected crime input i t →
      ∃ y, lb.getD i.toNat none = some y ∧
        (∃ es, IsRoute (build_graph N crime input) i es t ∧ y = cost i es) ∧
        ∀ es, IsRoute (build_graph N crime input) i es t → y ≤ cost i es + es.length * δ) ∧
    (¬ Connected crime input i t → lb.getD i.toNat none = none) := by
  have hback : ∀ (y : ℚ), lb.getD i.toNat none = some y →
      ∃ es, IsRoute (build_graph N crime input) i es t ∧ y = cost i es := by
    intro y hy
    obtain ⟨es, hes, hx⟩ := hpath i.toNat y hy
    rw [Int.toNat_of_nonneg hi] at hes
    obtain ⟨es1, h1, _, h3⟩ := hrev es _ _ hes
    exact ⟨es1, h1, by rw [hx, h3]⟩
  have hup : ∀ es, IsRoute (build_graph N crime input) i es t →
      ∃ y, lb.getD i.toNat none = some y ∧ y ≤ cost i es + es.length * δ := by
    intro es hes
    obtain ⟨es1, h1, h2, h3⟩ := hrev es _ _ hes
    obtain ⟨y, hy, hle⟩ := rd_chain hrel es1 t i 0 h0 h1
    rw [hcost, h3, h2] at hle
    exact ⟨y, hy, by linarith⟩
  constructor
  · intro hc
    obtain ⟨es0, hes0⟩ := route_of_connected hv hc
    obtain ⟨y, hy, _⟩ := hup es0 hes0
    refine ⟨y, hy, hback y hy, ?_⟩
    intro es hes
    obtain ⟨y1, hy1, hle⟩ := hup es hes
    rw [hy] at hy1
    injection hy1 with hy1
    rw [hy1]; exact hle
  · intro hnc
    cases hx : lb.getD i.toNat none with
    | none => rfl
    | some y =>
      obtain ⟨es, hes, _⟩ := hback y hx
      exact absurd (connected_of_route hv es i t hes) hnc

/-- C11: the darkness table is not a table of lower bounds, although the comment of
`reverse_dijkstra_lb` announces "admissible, consistent lower bounds".  On the graph with
the two routes 4 - 3 - 0 and 4 - 2 - 1 - 0 to the target 0, where the light of node 3 lies
`1e-13` below that of node 1, the table holds `lb_dark[4] = 1/2 + 1e-13` although the route
through nodes 2 and 1 has the darkness `1/2`: when that route reaches node 4 its gain is
below the tolerance `1e-12` of the relaxation test, so the entry stays above the true
remaining darkness. -/
theorem C11_dark_bound_not_admissible :
    ValidInput 5 [1, 1 / 2, 1, 1 / 2 - 1 / 10000000000000, 1] [0, 0, 0, 0, 0]
        [[0, 3, 1], [0, 1, 1], [1, 2, 1], [3, 4, 1], [2, 4, 1]] 4 0 ∧
      lower_bounds 100 5 [1, 1 / 2, 1, 1 / 2 - 1 / 10000000000000, 1] [0, 0, 0, 0, 0]
          [[0, 3, 1], [0, 1, 1], [1, 2, 1], [3, 4, 1], [2, 4, 1]] 4 0 =
        .ok ([0, 1, 2, 1, 2],
          [0, 1 / 4, 1 / 2, 1 / 4 + 1 / 20000000000000, 1 / 2 + 1 / 10000000000000]) ∧
      IsRoute
        (build_graph 5 [0, 0, 0, 0, 0] [[0, 3, 1], [0, 1, 1], [1, 2, 1], [3, 4, 1], [2, 4, 1]])
        4
        [{ to_ := 2, time_cost := 1 }, { to_ := 1, time_cost := 1 },
          { to_ := 0, time_cost := 1 }]
        0 ∧
      route_dark [1, 1 / 2, 1, 1 / 2 - 1 / 10000000000000, 1]
        (compute_Lmax [1, 1 / 2, 1, 1 / 2 - 1 / 10000000000000, 1]) 4
        [{ to_ := 2, time_cost := 1 }, { to_ := 1, time_cost := 1 },
          { to_ := 0, time_cost := 1 }] = 1 / 2 :=
  ⟨by decide, by decide!, by decide!, by decide!⟩

/-- What does hold of the two tables: on a valid input `solve` computes (given `rd_fuel`
iterations) tables `lb_time` and `lb_dark` such that, for every node `i` connected to `t` in
the filtered graph, `lb_time[i]` is the least total time of a route from `i` to `t`, and
`lb_dark[i]` is the total darkness of some route from `i` to `t` and exceeds the total
darkness of no route from `i` to `t` by more than the tolerance `1e-12` for each edge of that
route; for every node that is not connected to `t` both entries are `0`. -/
theorem lower_bounds_within_tolerance (fuel : Nat) (N : Int) (light : List ℚ)
    (crime : List Int) (input : List (List Int)) (s t : Int)
    (hv : ValidInput N light crime input s t)
    (hfuel : rd_fuel (build_graph N crime input) ≤ fuel) :
    ∃ lb_time lb_dark, lower_bounds fuel N light crime input s t = .ok (lb_time, lb_dark) ∧
      ∀ i : Int, 0 ≤ i → i < N →
        (Connected crime input i t →
          (∃ es, IsRoute (build_graph N crime input) i es t ∧ nth lb_time i 0 = route_time es) ∧
          (∀ es, IsRoute (build_graph N crime input) i es t → nth lb_time i 0 ≤ route_time es) ∧
          (∃ es, IsRoute (build_graph N crime input) i es t ∧
            nth lb_dark i 0 = route_dark light (compute_Lmax light) i es) ∧
          (∀ es, IsRoute (build_graph N crime input) i es t →
            nth lb_dark i 0 ≤ route_dark light (compute_Lmax light) i es + es.length * EPS)) ∧
        (¬ Connected crime input i t → nth lb_time i 0 = 0 ∧ nth lb_dark i 0 = 0) := by
  obtain ⟨c, hc⟩ : ∃ c, mk_ctx hypot_sq fuel N light crime input s t = .ok c :=
    mk_ctx_ok hv hfuel
  obtain ⟨hg, _, _, _, _, hLm, ⟨lb1, h1, _⟩, ⟨lb2, h2, _⟩⟩ := mk_ctx_fields hc
  rw [hg] at h1 h2
  rw [hLm] at h2
  have hedges := (build_graph_ok hv).2
  obtain ⟨hg1, ht⟩ := build_graph_rd hv (fun _ _ e => e.time_cost)
    (fun k e he => (hedges k e he).2.2.1)
  obtain ⟨hg2, _⟩ := build_graph_rd hv (fun u v _ => edge_dark light (compute_Lmax light) u v)
    (fun k e _ => edge_dark_nonneg _ _ _ _)
  obtain ⟨t1, f1⟩ := reverse_dijkstra_lb_final hg1 ht h1
  obtain ⟨t2, f2⟩ := reverse_dijkstra_lb_final hg2 ht h2
  have hint := build_graph_int hv
  -- integer time costs make the tolerance of the relaxation test vanish
  have hrel1 : ∀ (k : Nat) (x : ℚ), lb1.getD k none = some x →
      ∀ e ∈ (build_graph N crime input).getD k [],
        ∃ y, lb1.getD e.to_.toNat none = some y ∧ y ≤ x + e.time_cost + 0 := by
    intro k x hx e he
    obtain ⟨_, ⟨es, hes, hxe⟩, hr⟩ := f1 k x hx
    obtain ⟨y, hy, hle⟩ := hr e he
    obtain ⟨_, ⟨es1, hes1, hye⟩, _⟩ := f1 _ y hy
    rw [route_w_time] at hxe hye
    obtain ⟨n1, hn1⟩ := route_time_int hint es _ _ hes
    obtain ⟨n2, hn2⟩ := route_time_int hint es1 _ _ hes1
    obtain ⟨n3, hn3⟩ := hint k e he
    refine ⟨y, hy, ?_⟩
    have hle : y ≤ x + e.time_cost + EPS := hle
    rw [hxe, hye, hn1, hn2, hn3] at hle ⊢
    have : ((n2 : Int) : ℚ) ≤ ((n1 + n3 : Int) : ℚ) + EPS := by push_cast; linarith
    have := int_tol this
    push_cast at this
    linarith
  have hrev1 : ∀ (es : List Edge) (a b : Int), IsRoute (build_graph N crime input) a es b →
      ∃ es1, IsRoute (build_graph N crime input) b es1 a ∧ es1.length = es.length ∧
        (fun (_ : Int) (l : List Edge) => route_time l) b es1 =
          (fun (_ : Int) (l : List Edge) => route_time l) a es := by
    intro es a b h
    obtain ⟨es1, k1, k2, k3, _⟩ := @route_reverse N light crime input s t hv es a b h
    exact ⟨es1, k1, k2, k3⟩
  have hrev2 : ∀ (es : List Edge) (a b : Int), IsRoute (build_graph N crime input) a es b →
      ∃ es1, IsRoute (build_graph N crime input) b es1 a ∧ es1.length = es.length ∧
        route_dark light (compute_Lmax light) b es1 =
          route_dark light (compute_Lmax light) a es := by
    intro es a b h
    obtain ⟨es1, k1, k2, _, k4⟩ := @route_reverse N light crime input s t hv es a b h
    exact ⟨es1, k1, k2, k4⟩
  have hp1 : ∀ (k : Nat) (x : ℚ), lb1.getD k none = some x →
      ∃ es, IsRoute (build_graph N crime input) t es (k : Int) ∧
        x = (fun (_ : Int) (l : List Edge) => route_time l) t es := by
    intro k x hx
    obtain ⟨_, ⟨es, hes, hxe⟩, _⟩ := f1 k x hx
    exact ⟨es, hes, by rw [hxe, route_w_time]⟩
  have hp2 : ∀ (k : Nat) (x : ℚ), lb2.getD k none = some x →
      ∃ es, IsRoute (build_graph N crime input) t es (k : Int) ∧
        x = route_dark light (compute_Lmax light) t es := by
    intro k x hx
    obtain ⟨_, ⟨es, hes, hxe⟩, _⟩ := f2 k x hx
    exact ⟨es, hes, by rw [hxe, route_w_dark]⟩
  refine ⟨clamp lb1, clamp lb2, by unfold lower_bounds; simp only; rw [h1, h2], ?_⟩
  intro i hi0 _
  obtain ⟨a1, b1⟩ := lb_spec hv (fun a es => route_w_time es a) hrev1 t1 hp1 hrel1 hi0
  obtain ⟨a2, b2⟩ := lb_spec hv (fun a es => route_w_dark light (compute_Lmax light) es a)
    hrev2 t2 hp2 (fun k x hx => (f2 k x hx).2.2) hi0
  rw [clamp_getD, clamp_getD]
  constructor
  · intro hcon
    obtain ⟨y1, hy1, ⟨es1, hes1, he1⟩, hmin1⟩ := a1 hcon
    obtain ⟨y2, hy2, ⟨es2, hes2, he2⟩, hmin2⟩ := a2 hcon
    rw [hy1, hy2]
    refine ⟨⟨es1, hes1, he1⟩, ?_, ⟨es2, hes2, he2⟩, ?_⟩
    · intro es hes
      have := hmin1 es hes
      simp only [mul_zero, add_zero] at this
      exact this
    · intro es hes
      exact hmin2 es hes
  · intro hnc
    rw [b1 hnc, b2 hnc]
    exact ⟨rfl, rfl⟩

/-- The hypotheses of `lower_bounds_within_tolerance` hold on the sample scenario. -/
theorem lower_bounds_within_tolerance_witness :
    ∃ lb_time lb_dark,
      lower_bounds 100 6 sample_light sample_crime sample_input 0 4 = .ok (lb_time, lb_dark) ∧
      ∀ i : Int, 0 ≤ i → i < 6 →
        (Connected sample_crime sample_input i 4 →
          (∃ es, IsRoute (build_graph 6 sample_crime sample_input) i es 4 ∧
            nth lb_time i 0 = route_time es) ∧
          (∀ es, IsRoute (build_graph 6 sample_crime sample_input) i es 4 →
            nth lb_time i 0 ≤ route_time es) ∧
          (∃ es, IsRoute (build_graph 6 sample_crime sample_input) i es 4 ∧
            nth lb_dark i 0 = route_dark sample_light (compute_Lmax sample_light) i es) ∧
          (∀ es, IsRoute (build_graph 6 sample_crime sample_input) i es 4 →
            nth lb_dark i 0 ≤
              route_dark sample_light (compute_Lmax sample_light) i es + es.length * EPS)) ∧
        (¬ Connected sample_crime sample_input i 4 → nth lb_time i 0 = 0 ∧ nth lb_dark i 0 = 0) :=
  lower_bounds_within_tolerance 100 6 sample_light sample_crime sample_input 0 4
    (by decide) (by decide!)

/-! ## `simple_dijkstra_path`: selection, recorded routes -/

theorem nth_put {α : Type} (l : List α) (i k : Int) (x d : α) (hi : 0 ≤ i) (hk : 0 ≤ k)
    (hlen : k.toNat < l.length) :
    nth (put l i x) k d = if i = k then x else nth l k d := by
  unfold nth
  rw [getD_put_gen]
  by_cases h : i = k
  · subst h
    simp [hlen]
  · have : i.toNat ≠ k.toNat := toNat_ne_of_ne hi hk h
    simp [h, this]

/-- What the selection loop of `simple_dijkstra_path` returns: `-1` when every node is
visited, else an unvisited node of least distance. -/
theorem sd_select_spec (N : Int) (st : SD) :
    (sd_select N st = -1 ∧ ∀ v : Int, 0 ≤ v → v < N → nth st.visited v false = true) ∨
    (0 ≤ sd_select N st ∧ sd_select N st < N ∧
      nth st.visited (sd_select N st) false = false ∧
      ∀ v : Int, 0 ≤ v → v < N → nth st.visited v false = false →
        nth st.dist (sd_select N st) 0 ≤ nth st.dist v 0) := by
  unfold sd_select
  suffices h : ∀ n : Nat,
      ((List.range n).foldl (fun u (k : Nat) =>
          let v : Int := k
          if !(nth st.visited v false) && (u == -1 || decide (nth st.dist v 0 < nth st.dist u 0))
          then v else u) (-1) = -1 ∧
        ∀ v : Int, 0 ≤ v → v < (n : Int) → nth st.visited v false = true) ∨
      (0 ≤ (List.range n).foldl (fun u (k : Nat) =>
          let v : Int := k
          if !(nth st.visited v false) && (u == -1 || decide (nth st.dist v 0 < nth st.dist u 0))
          then v else u) (-1) ∧
        (List.range n).foldl (fun u (k : Nat) =>
          let v : Int := k
          if !(nth st.visited v false) && (u == -1 || decide (nth st.dist v 0 < nth st.dist u 0))
          then v else u) (-1) < (n : Int) ∧
        nth st.visited ((List.range n).foldl (fun u (k : Nat) =>
          let v : Int := k
          if !(nth st.visited v false) && (u == -1 || decide (nth st.dist v 0 < nth st.dist u 0))
          then v else u) (-1)) false = false ∧
        ∀ v : Int, 0 ≤ v → v < (n : Int) → nth st.visited v false = false →
          nth st.dist ((List.range n).foldl (fun u (k : Nat) =>
            let v : Int := k
            if !(nth st.visited v false) && (u == -1 || decide (nth st.dist v 0 < nth st.dist u 0))
            then v else u) (-1)) 0 ≤ nth st.dist v 0) by
    by_cases hN : 0 ≤ N
    · have := h N.toNat
      rw [Int.toNat_of_nonneg hN] at this
      exact this
    · have hz : N.toNat = 0 := by omega
      rw [hz]
      left
      exact ⟨rfl, fun v h0 h1 => by omega⟩
  intro n
  induction n with
  | zero =>
    left
    exact ⟨rfl, fun v h0 h1 => by simp at h1; omega⟩
  | succ n ih =>
    rw [List.range_succ, List.foldl_append]
    simp only [List.foldl_cons, List.foldl_nil]
    generalize (List.range n).foldl (fun u (k : Nat) =>
          let v : Int := k
          if !(nth st.visited v false) && (u == -1 || decide (nth st.dist v 0 < nth st.dist u 0))
          then v else u) (-1) = r at ih ⊢
    have hcast : ((n + 1 : Nat) : Int) = (n : Int) + 1 := by push_cast; rfl
    rw [hcast]
    cases hvis : nth st.visited (n : Int) false with
    | true =>
      simp only [Bool.not_true, Bool.false_and, Bool.false_eq_true, if_false]
      rcases ih with ⟨h1, h2⟩ | ⟨h1, h2, h3, h4⟩
      · left
        refine ⟨h1, ?_⟩
        intro v h0 hv
        by_cases hvn : v = (n : Int)
        · rw [hvn]; exact hvis
        · exact h2 v h0 (by omega)
      · right
        refine ⟨h1, by omega, h3, ?_⟩
        intro v h0 hv hun
        by_cases hvn : v = (n : Int)
        · rw [hvn, hvis] at hun
          exact absurd hun (by simp)
        · exact h4 v h0 (by omega) hun
    | false =>
      simp only [Bool.not_false, Bool.true_and]
      right
      rcases ih with ⟨h1, h2⟩ | ⟨h1, h2, h3, h4⟩
      · rw [h1]
        simp only [beq_self_eq_true, Bool.true_or, if_true]
        refine ⟨Int.natCast_nonneg _, by omega, hvis, ?_⟩
        intro v h0 hv hun
        by_cases hvn : v = (n : Int)
        · rw [hvn]
        · have := h2 v h0 (by omega)
          rw [this] at hun
          exact absurd hun (by simp)
      · have hr : (r == -1) = false := by
          simp only [beq_eq_false_iff_ne, ne_eq]
          omega
        rw [hr]
        simp only [Bool.false_or, decide_eq_true_eq]
        by_cases hlt : nth st.dist (n : Int) 0 < nth st.dist r 0
        · rw [if_pos hlt]
          refine ⟨Int.natCast_nonneg _, by omega, hvis, ?_⟩
          intro v h0 hv hun
          by_cases hvn : v = (n : Int)
          · rw [hvn]
          · exact le_trans (le_of_lt hlt) (h4 v h0 (by omega) hun)
        · rw [if_neg hlt]
          refine ⟨h1, by omega, h3, ?_⟩
          intro v h0 hv hun
          by_cases hvn : v = (n : Int)
          · rw [hvn]; exact not_lt.mp hlt
          · exact h4 v h0 (by omega) hun

theorem count_set_true : ∀ (l : List Bool) (i : Nat), l.getD i true = false →
    (l.set i true).count false + 1 = l.count false := by
  intro l
  induction l with
  | nil => intro i h; simp at h
  | cons b rest ih =>
    intro i h
    cases i with
    | zero =>
      simp only [List.getD_cons_zero] at h
      subst h
      simp [List.count_cons]
    | succ j =>
      simp only [List.getD_cons_succ] at h
      have := ih j h
      simp only [List.set_cons_succ, List.count_cons]
      omega

theorem count_false_pos {l : List Bool} {i : Nat} (h : l.getD i true = false) :
    0 < l.count false := by
  have := count_set_true l i h
  omega

theorem tree_route_is_route {g : List (List Edge)} {st : SD} :
    ∀ (es : List Edge) (a b : Int), TreeRoute g st a es b →
      IsRoute g a es b ∧ nth st.dist b 0 = nth st.dist a 0 + route_time es := by
  intro es
  induction es with
  | nil =>
    intro a b h
    unfold TreeRoute at h
    subst h
    exact ⟨rfl, by simp [route_time]⟩
  | cons e rest ih =>
    intro a b h
    obtain ⟨h1, h2, _, _, h5, h6⟩ := h
    obtain ⟨k1, k2⟩ := ih _ _ h6
    refine ⟨⟨h1, h2, k1⟩, ?_⟩
    rw [k2, h5]
    simp [route_time]
    ring

theorem tree_route_snoc {g : List (List Edge)} {st : SD} :
    ∀ (es : List Edge) (a m : Int) (e : Edge), TreeRoute g st a es m → 0 ≤ m →
      e ∈ nth g m [] → nth st.visited m false = true → nth st.parent e.to_ (-1) = m →
      nth st.dist e.to_ 0 = nth st.dist m 0 + e.time_cost →
      TreeRoute g st a (es ++ [e]) e.to_ := by
  intro es
  induction es with
  | nil =>
    intro a m e h hm he hv hp hd
    unfold TreeRoute at h
    subst h
    exact ⟨hm, he, hv, hp, hd, rfl⟩
  | cons x rest ih =>
    intro a m e h hm he hv hp hd
    obtain ⟨h1, h2, h3, h4, h5, h6⟩ := h
    exact ⟨h1, h2, h3, h4, h5, ih _ _ _ h6 hm he hv hp hd⟩

theorem tree_route_unsnoc {g : List (List Edge)} {st : SD} :
    ∀ (es : List Edge) (a b : Int) (e : Edge), TreeRoute g st a (es ++ [e]) b →
      ∃ m, TreeRoute g st a es m ∧ 0 ≤ m ∧ e ∈ nth g m [] ∧ nth st.parent b (-1) = m ∧
        e.to_ = b := by
  intro es
  induction es with
  | nil =>
    intro a b e h
    obtain ⟨h1, h2, _, h4, _, h6⟩ := h
    unfold TreeRoute at h6
    subst h6
    exact ⟨a, rfl, h1, h2, h4, rfl⟩
  | cons x rest ih =>
    intro a b e h
    obtain ⟨h1, h2, h3, h4, h5, h6⟩ := h
    obtain ⟨m, k1, k2⟩ := ih _ _ _ h6
    exact ⟨m, ⟨h1, h2, h3, h4, h5, k1⟩, k2⟩

/-- The nodes of a recorded route that ends at a visited node are all visited. -/
theorem tree_route_visited {g : List (List Edge)} {st : SD} :
    ∀ (es : List Edge) (a b : Int), TreeRoute g st a es b → nth st.visited b false = true →
      ∀ x ∈ route_nodes a es, nth st.visited x false = true := by
  intro es
  induction es with
  | nil =>
    intro a b h hb x hx
    unfold TreeRoute at h
    subst h
    simp only [route_nodes, List.map_nil, List.mem_singleton] at hx
    rw [hx]; exact hb
  | cons e rest ih =>
    intro a b h hb x hx
    obtain ⟨_, _, h3, _, _, h6⟩ := h
    simp only [route_nodes, List.map_cons, List.mem_cons] at hx
    rcases hx with hx | hx
    · rw [hx]; exact h3
    · exact ih _ _ h6 hb x (by simpa [route_nodes] using hx)

/-- A recorded route survives a change of the state that leaves the visited nodes visited
and keeps the parents and distances of the nodes of the route. -/
theorem tree_route_keep {g : List (List Edge)} {N : Int} {st st1 : SD} {v : Int}
    (hg : SDGraph g N)
    (hvis : ∀ x : Int, nth st.visited x false = true → nth st1.visited x false = true)
    (hv : nth st.visited v false = false)
    (hpar : ∀ x : Int, 0 ≤ x → x ≠ v → nth st1.parent x (-1) = nth st.parent x (-1))
    (hdist : ∀ x : Int, 0 ≤ x → x ≠ v → nth st1.dist x 0 = nth st.dist x 0) :
    ∀ (es : List Edge) (a b : Int), TreeRoute g st a es b → a ≠ v → b ≠ v →
      TreeRoute g st1 a es b := by
  intro es
  induction es with
  | nil => intro a b h _ _; exact h
  | cons e rest ih =>
    intro a b h ha hb
    obtain ⟨h1, h2, h3, h4, h5, h6⟩ := h
    have he0 : 0 ≤ e.to_ := (hg _ e h2).1.1
    have hev : e.to_ ≠ v := by
      cases rest with
      | nil =>
        unfold TreeRoute at h6
        rw [h6]; exact hb
      | cons e2 rest2 =>
        obtain ⟨_, _, k3, _⟩ := h6
        intro heq
        rw [heq, hv] at k3
        exact absurd k3 (by simp)
    exact ⟨h1, h2, hvis _ h3, by rw [hpar _ he0 hev]; exact h4,
      by rw [hdist _ he0 hev, hdist _ h1 ha]; exact h5, ih _ _ h6 hev hb⟩

theorem route_nodes_snoc (a : Int) (es : List Edge) (e : Edge) :
    route_nodes a (es ++ [e]) = route_nodes a es ++ [e.to_] := by
  simp [route_nodes]

theorem route_time_nonneg {g : List (List Edge)} {N : Int} (hg : SDGraph g N) :
    ∀ (es : List Edge) (a b : Int), IsRoute g a es b → 0 ≤ route_time es := by
  intro es
  induction es with
  | nil => intro a b _; simp [route_time]
  | cons e rest ih =>
    intro a b h
    obtain ⟨_, he, hr⟩ := h
    have h1 := (hg _ e he).2
    have h2 := ih _ _ hr
    have : route_time (e :: rest) = e.time_cost + route_time rest := by simp [route_time]
    rw [this]
    linarith

/-- A route from a visited node to an unvisited one leaves the visited nodes through some
entry, and the route costs at least what it costs up to the head of that entry. -/
theorem route_crossing {g : List (List Edge)} {N : Int} {st : SD} (hg : SDGraph g N) :
    ∀ (es : List Edge) (a b : Int), IsRoute g a es b → a < N →
      nth st.visited a false = true → nth st.visited b false = false →
      (∀ v : Int, 0 ≤ v → v < N → nth st.visited v false = true →
        ∀ e ∈ nth g v [], nth st.dist e.to_ 0 ≤ nth st.dist v 0 + e.time_cost) →
      ∃ y : Int, 0 ≤ y ∧ y < N ∧ nth st.visited y false = false ∧
        nth st.dist y 0 ≤ nth st.dist a 0 + route_time es ∧
        ∃ (x : Int) (e : Edge), 0 ≤ x ∧ x < N ∧ nth st.visited x false = true ∧
          e ∈ nth g x [] ∧ e.to_ = y := by
  intro es
  induction es with
  | nil =>
    intro a b h _ ha hb _
    unfold IsRoute at h
    subst h
    rw [ha] at hb
    exact absurd hb (by simp)
  | cons e rest ih =>
    intro a b h haN ha hb hrel
    obtain ⟨ha0, he, hr⟩ := h
    obtain ⟨⟨hto0, htoN⟩, hc⟩ := hg _ e he
    have hstep := hrel a ha0 haN ha e he
    have hsum : route_time (e :: rest) = e.time_cost + route_time rest := by simp [route_time]
    have hrest := route_time_nonneg hg rest _ _ hr
    cases hvis : nth st.visited e.to_ false with
    | false =>
      exact ⟨e.to_, hto0, htoN, hvis, by rw [hsum]; linarith, a, e, ha0, haN, ha, he, rfl⟩
    | true =>
      obtain ⟨y, h1, h2, h3, h4, h5⟩ := ih _ _ hr htoN hvis hb hrel
      exact ⟨y, h1, h2, h3, by rw [hsum]; linarith, h5⟩

/-! ## `simple_dijkstra_path`: the relaxation of the entries of a node -/

/-- One relaxation keeps the invariant while the entries of the visited node `u` are being
relaxed; no visited node lies farther than `u`. -/
theorem sd_relax_full {g : List (List Edge)} {s t N u : Int} {st : SD} {e : Edge}
    (hg : SDGraph g N) (hs : 0 ≤ s ∧ s < N) (h : SDFull g s t N u st)
    (hu : 0 ≤ u ∧ u < N) (huv : nth st.visited u false = true)
    (hmax : ∀ v : Int, 0 ≤ v → v < N → nth st.visited v false = true →
      nth st.dist v 0 ≤ nth st.dist u 0)
    (he : e ∈ nth g u []) :
    SDFull g s t N u (sd_relax u st e) ∧
      (sd_relax u st e).visited = st.visited ∧
      nth (sd_relax u st e).dist u 0 = nth st.dist u 0 ∧
      nth (sd_relax u st e).dist e.to_ 0 ≤ nth st.dist u 0 + e.time_cost ∧
      ∀ w : Int, 0 ≤ w → w < N → nth (sd_relax u st e).dist w 0 ≤ nth st.dist w 0 := by
  obtain ⟨⟨hv0, hvN⟩, hc⟩ := hg _ e he
  unfold sd_relax
  simp only
  by_cases hlt : nth st.dist u 0 + e.time_cost < nth st.dist e.to_ 0
  · rw [if_pos hlt]
    have hu_nn := h.nonneg u hu.1 hu.2
    have hvun : nth st.visited e.to_ false = false := by
      cases hx : nth st.visited e.to_ false with
      | false => rfl
      | true =>
        have := hmax _ hv0 hvN hx
        linarith
    have hvs : s ≠ e.to_ := by
      intro heq
      rw [← heq, h.dist_s] at hlt
      linarith
    have hvu : u ≠ e.to_ := by
      intro heq
      rw [← heq, huv] at hvun
      exact absurd hvun (by simp)
    have hld : e.to_.toNat < st.dist.length := by rw [h.len_d]; omega
    have hlp : e.to_.toNat < st.parent.length := by rw [h.len_p]; omega
    have hd : ∀ x : Int, 0 ≤ x → x < N →
        nth (put st.dist e.to_ (nth st.dist u 0 + e.time_cost)) x 0 =
          if e.to_ = x then nth st.dist u 0 + e.time_cost else nth st.dist x 0 := by
      intro x hx0 hxN
      exact nth_put _ _ _ _ _ hv0 hx0 (by rw [h.len_d]; omega)
    have hd1 : ∀ x : Int, 0 ≤ x → x ≠ e.to_ →
        nth (put st.dist e.to_ (nth st.dist u 0 + e.time_cost)) x 0 = nth st.dist x 0 := by
      intro x hx0 hne
      exact nth_put_other _ _ _ _ _ (toNat_ne_of_ne hv0 hx0 (fun h => hne h.symm))
    have hp1 : ∀ x : Int, 0 ≤ x → x ≠ e.to_ →
        nth (put st.parent e.to_ u) x (-1) = nth st.parent x (-1) := by
      intro x hx0 hne
      exact nth_put_other _ _ _ _ _ (toNat_ne_of_ne hv0 hx0 (fun h => hne h.symm))
    have hdv : nth (put st.dist e.to_ (nth st.dist u 0 + e.time_cost)) e.to_ 0 =
        nth st.dist u 0 + e.time_cost := nth_put_same _ _ _ _ hld
    have hpv : nth (put st.parent e.to_ u) e.to_ (-1) = u := nth_put_same _ _ _ _ hlp
    have hkeep : ∀ (es : List Edge) (a b : Int), TreeRoute g st a es b → a ≠ e.to_ →
        b ≠ e.to_ →
        TreeRoute g { st with dist := put st.dist e.to_ (nth st.dist u 0 + e.time_cost),
                              parent := put st.parent e.to_ u } a es b :=
      tree_route_keep hg (fun x hx => hx) hvun hp1 hd1
    refine ⟨?_, rfl, hd1 u hu.1 hvu, le_of_eq hdv, ?_⟩
    · constructor
      · simp only [length_put]; exact h.len_d
      · simp only [length_put]; exact h.len_p
      · exact h.len_v
      · simp only
        rw [hd1 s hs.1 hvs]; exact h.dist_s
      · simp only
        rw [hp1 s hs.1 hvs]; exact h.par_s
      · intro v h0 h1
        simp only
        rw [hd v h0 h1]
        split
        · linarith
        · exact h.nonneg v h0 h1
      · intro v h0 h1 hne
        simp only at hne
        by_cases hv : v = e.to_
        · obtain ⟨R, hR, hnd⟩ := h.tree u hu.1 hu.2 (h.vis_ne u hu.1 hu.2 huv)
          have hR1 := hkeep R s u hR hvs hvu
          have hsn := tree_route_snoc R s u e hR1 hu.1 he huv hpv
            (by
              simp only
              rw [hdv, hd1 u hu.1 hvu])
          refine ⟨R ++ [e], by rw [hv]; exact hsn, ?_⟩
          rw [route_nodes_snoc]
          apply List.Nodup.append hnd (List.nodup_singleton _)
          intro x hx1 hx2
          rw [List.mem_singleton] at hx2
          have := tree_route_visited R s u hR huv x hx1
          rw [hx2, hvun] at this
          exact absurd this (by simp)
        · rw [hd1 v h0 hv] at hne
          obtain ⟨R, hR, hnd⟩ := h.tree v h0 h1 hne
          exact ⟨R, hkeep R s v hR hvs hv, hnd⟩
      · intro v h0 h1 hvis es hes
        simp only at hvis ⊢
        have hv : v ≠ e.to_ := by
          intro heq
          rw [heq, hvun] at hvis
          exact absurd hvis (by simp)
        rw [hd1 v h0 hv]
        exact h.opt v h0 h1 hvis es hes
      · intro v h0 h1 hvis hvx e1 he1
        simp only at hvis ⊢
        have hv : v ≠ e.to_ := by
          intro heq
          rw [heq, hvun] at hvis
          exact absurd hvis (by simp)
        obtain ⟨⟨k0, k1⟩, _⟩ := hg _ e1 he1
        rw [hd1 v h0 hv, hd _ k0 k1]
        have := h.relaxed v h0 h1 hvis hvx e1 he1
        split
        · rename_i heq
          rw [← heq] at this
          linarith
        · exact this
      · intro a b a0 a1 b0 b1 ha hb
        simp only at ha hb ⊢
        have hav : a ≠ e.to_ := by
          intro heq
          rw [heq, hvun] at ha
          exact absurd ha (by simp)
        rw [hd1 a a0 hav, hd b b0 b1]
        split
        · have := hmax a a0 a1 ha
          linarith
        · exact h.order a b a0 a1 b0 b1 ha hb
      · intro v h0 h1 hvis
        simp only at hvis ⊢
        have hv : v ≠ e.to_ := by
          intro heq
          rw [heq, hvun] at hvis
          exact absurd hvis (by simp)
        rw [hd1 v h0 hv]
        exact h.vis_ne v h0 h1 hvis
      · exact h.t_unvisited
    · intro w h0 h1
      simp only
      rw [hd w h0 h1]
      split
      · rename_i heq
        rw [← heq]
        exact le_of_lt hlt
      · exact le_refl _
  · rw [if_neg hlt]
    exact ⟨h, rfl, rfl, not_lt.mp hlt, fun w _ _ => le_refl _⟩

/-- Relaxing the entries `es` of the visited node `u` keeps the invariant and leaves every
one of them relaxed. -/
theorem sd_relax_fold_full {g : List (List Edge)} {s t N u : Int}
    (hg : SDGraph g N) (hs : 0 ≤ s ∧ s < N) (hu : 0 ≤ u ∧ u < N) :
    ∀ (es : List Edge) (st : SD), (∀ e ∈ es, e ∈ nth g u []) → SDFull g s t N u st →
      nth st.visited u false = true →
      (∀ v : Int, 0 ≤ v → v < N → nth st.visited v false = true →
        nth st.dist v 0 ≤ nth st.dist u 0) →
      SDFull g s t N u (es.foldl (sd_relax u) st) ∧
        (es.foldl (sd_relax u) st).visited = st.visited ∧
        nth (es.foldl (sd_relax u) st).dist u 0 = nth st.dist u 0 ∧
        (∀ e ∈ es, nth (es.foldl (sd_relax u) st).dist e.to_ 0 ≤
          nth st.dist u 0 + e.time_cost) ∧
        ∀ w : Int, 0 ≤ w → w < N → nth (es.foldl (sd_relax u) st).dist w 0 ≤ nth st.dist w 0 := by
  intro es
  induction es with
  | nil =>
    intro st _ h _ _
    exact ⟨h, rfl, rfl, by simp, fun w _ _ => le_refl _⟩
  | cons e rest ih =>
    intro st hes h huv hmax
    rw [List.foldl_cons]
    obtain ⟨h1, h2, h3, h4, h5⟩ :=
      sd_relax_full hg hs h hu huv hmax (hes e (List.mem_cons_self _ _))
    obtain ⟨k1, k2, k3, k4, k5⟩ := ih (sd_relax u st e)
      (fun x hx => hes x (List.mem_cons_of_mem _ hx)) h1 (by rw [h2]; exact huv)
      (by
        intro v h0 hN hvis
        rw [h2] at hvis
        rw [h3]
        exact le_trans (h5 v h0 hN) (hmax v h0 hN hvis))
    refine ⟨k1, by rw [k2, h2], by rw [k3, h3], ?_, ?_⟩
    · intro x hx
      rcases List.mem_cons.mp hx with hx | hx
      · subst hx
        obtain ⟨⟨x0, x1⟩, _⟩ := hg _ x (hes x (List.mem_cons_self _ _))
        exact le_trans (k5 _ x0 x1) h4
      · have := k4 x hx
        rw [h3] at this
        exact this
    · intro w h0 hN
      exact le_trans (k5 w h0 hN) (h5 w h0 hN)

/-! ## `simple_dijkstra_path`: the loop -/

theorem visited_put_true (l : List Bool) (u x : Int) (h : nth l x false = true) :
    nth (put l u true) x false = true := by
  unfold nth at h ⊢
  rw [getD_put_gen]
  split
  · rfl
  · exact h

theorem tree_route_mono {g : List (List Edge)} {st st1 : SD}
    (hvis : ∀ x : Int, nth st.visited x false = true → nth st1.visited x false = true)
    (hpar : st1.parent = st.parent) (hdist : st1.dist = st.dist) :
    ∀ (es : List Edge) (a b : Int), TreeRoute g st a es b → TreeRoute g st1 a es b := by
  intro es
  induction es with
  | nil => intro a b h; exact h
  | cons e rest ih =>
    intro a b h
    obtain ⟨h1, h2, h3, h4, h5, h6⟩ := h
    exact ⟨h1, h2, hvis _ h3, by rw [hpar]; exact h4, by rw [hdist]; exact h5, ih _ _ h6⟩

theorem BIG_pos : 0 < BIG := by
  unfold BIG
  norm_num

/-- The distance of a node that has a recorded route is below `1e9`. -/
theorem tree_dist_lt {g : List (List Edge)} {s t N : Int} {x : Int} {st : SD}
    (hbig : PathsBelowBig g) (h : SDFull g s t N x st) {v : Int} (h0 : 0 ≤ v) (h1 : v < N)
    (hne : nth st.dist v 0 ≠ BIG) : nth st.dist v 0 < BIG := by
  obtain ⟨R, hR, hnd⟩ := h.tree v h0 h1 hne
  obtain ⟨k1, k2⟩ := tree_route_is_route R s v hR
  have := hbig s R v k1 hnd
  rw [k2, h.dist_s]
  linarith

/-- Marking the selected node `u` as visited. -/
theorem sd_visit_full {g : List (List Edge)} {s t N u : Int} {st : SD}
    (hg : SDGraph g N) (hs : 0 ≤ s ∧ s < N) (ht : 0 ≤ t) (h : SDFull g s t N (-1) st)
    (hu : 0 ≤ u ∧ u < N) (hun : nth st.visited u false = false)
    (hmin : ∀ v : Int, 0 ≤ v → v < N → nth st.visited v false = false →
      nth st.dist u 0 ≤ nth st.dist v 0)
    (hne : nth st.dist u 0 ≠ BIG) :
    (∀ es, IsRoute g s es u → nth st.dist u 0 ≤ route_time es) ∧
    (u ≠ t → SDFull g s t N u { st with visited := put st.visited u true }) ∧
    (∀ v : Int, 0 ≤ v → v < N → nth (put st.visited u true) v false = true →
      nth st.dist v 0 ≤ nth st.dist u 0) := by
  have hvis1 : ∀ x : Int, 0 ≤ x → x < N →
      nth (put st.visited u true) x false = if u = x then true else nth st.visited x false := by
    intro x h0 h1
    exact nth_put _ _ _ _ _ hu.1 h0 (by rw [h.len_v]; omega)
  have hopt : ∀ es, IsRoute g s es u → nth st.dist u 0 ≤ route_time es := by
    intro es hes
    cases hsv : nth st.visited s false with
    | false =>
      have := hmin s hs.1 hs.2 hsv
      rw [h.dist_s] at this
      exact le_trans this (route_time_nonneg hg es _ _ hes)
    | true =>
      obtain ⟨y, y0, y1, yun, hle, _⟩ := route_crossing hg es s u hes hs.2 hsv hun
        (fun v v0 v1 vv e he => h.relaxed v v0 v1 vv (by omega) e he)
      rw [h.dist_s] at hle
      have := hmin y y0 y1 yun
      linarith
  have hmaxv : ∀ v : Int, 0 ≤ v → v < N → nth (put st.visited u true) v false = true →
      nth st.dist v 0 ≤ nth st.dist u 0 := by
    intro v v0 v1 hv
    rw [hvis1 v v0 v1] at hv
    by_cases huv : u = v
    · rw [huv]
    · rw [if_neg huv] at hv
      exact h.order v u v0 v1 hu.1 hu.2 hv hun
  refine ⟨hopt, ?_, hmaxv⟩
  intro hut
  constructor
  · exact h.len_d
  · exact h.len_p
  · simp only [length_put]; exact h.len_v
  · exact h.dist_s
  · exact h.par_s
  · exact h.nonneg
  · intro v v0 v1 hv
    obtain ⟨R, hR, hnd⟩ := h.tree v v0 v1 hv
    exact ⟨R, @tree_route_mono g st { st with visited := put st.visited u true }
      (fun x hx => visited_put_true _ _ _ hx) rfl rfl R s v hR, hnd⟩
  · intro v v0 v1 hv es hes
    simp only at hv ⊢
    rw [hvis1 v v0 v1] at hv
    by_cases huv : u = v
    · rw [← huv]; exact hopt es (by rw [huv]; exact hes)
    · rw [if_neg huv] at hv
      exact h.opt v v0 v1 hv es hes
  · intro v v0 v1 hv hvu e he
    simp only at hv ⊢
    rw [hvis1 v v0 v1, if_neg (fun hh => hvu hh.symm)] at hv
    exact h.relaxed v v0 v1 hv (by omega) e he
  · intro a b a0 a1 b0 b1 ha hb
    simp only at ha hb ⊢
    rw [hvis1 a a0 a1] at ha
    rw [hvis1 b b0 b1] at hb
    have hub : ¬ u = b := by
      intro heq
      rw [if_pos heq] at hb
      exact absurd hb (by simp)
    rw [if_neg hub] at hb
    by_cases hua : u = a
    · rw [← hua]; exact hmin b b0 b1 hb
    · rw [if_neg hua] at ha
      exact h.order a b a0 a1 b0 b1 ha hb
  · intro v v0 v1 hv
    simp only at hv ⊢
    rw [hvis1 v v0 v1] at hv
    by_cases huv : u = v
    · rw [← huv]; exact hne
    · rw [if_neg huv] at hv
      exact h.vis_ne v v0 v1 hv
  · simp only
    have := h.t_unvisited
    unfold nth at this ⊢
    rw [getD_put_gen]
    split
    · rename_i hc
      exfalso
      apply hut
      have := hc.1
      have ht0 : t.toNat < N.toNat := by rw [← h.len_v]; exact hc.2
      omega
    · exact this

/-- When every unvisited node is at distance `1e9`, the unvisited target cannot be
reached. -/
theorem sd_unreachable {g : List (List Edge)} {s t N : Int} {st : SD}
    (hg : SDGraph g N) (hbig : PathsBelowBig g) (hs : 0 ≤ s ∧ s < N)
    (h : SDFull g s t N (-1) st)
    (hall : ∀ v : Int, 0 ≤ v → v < N → nth st.visited v false = false → BIG ≤ nth st.dist v 0) :
    ¬ Reachable g s t := by
  rintro ⟨es, hes⟩
  have hsv : nth st.visited s false = true := by
    cases hx : nth st.visited s false with
    | true => rfl
    | false =>
      have := hall s hs.1 hs.2 hx
      rw [h.dist_s] at this
      have := BIG_pos
      linarith
  obtain ⟨y, y0, y1, yun, _, x, e, x0, x1, xv, he, hto⟩ :=
    route_crossing hg es s t hes hs.2 hsv h.t_unvisited
      (fun v v0 v1 vv e he => h.relaxed v v0 v1 vv (by omega) e he)
  have hrel := h.relaxed x x0 x1 xv (by omega) e he
  obtain ⟨R, hR, hnd⟩ := h.tree x x0 x1 (h.vis_ne x x0 x1 xv)
  obtain ⟨k1, k2⟩ := tree_route_is_route R s x hR
  have hroute := IsRoute_snoc R s x e k1 x0 he
  have hnd1 : (route_nodes s (R ++ [e])).Nodup := by
    rw [route_nodes_snoc]
    apply List.Nodup.append hnd (List.nodup_singleton _)
    intro z hz1 hz2
    rw [List.mem_singleton] at hz2
    have := tree_route_visited R s x hR xv z hz1
    rw [hz2, hto, yun] at this
    exact absurd this (by simp)
  have hlt := hbig s (R ++ [e]) e.to_ hroute hnd1
  rw [route_time_snoc] at hlt
  have hge := hall y y0 y1 yun
  rw [k2, h.dist_s, hto] at hrel
  linarith

theorem nth_getD_true {l : List Bool} {i : Int} (hi : i.toNat < l.length)
    (h : nth l i false = false) : l.getD i.toNat true = false := by
  unfold nth at h
  rw [List.getD_eq_getElem _ _ hi] at h ⊢
  exact h

/-- What the loop of `simple_dijkstra_path` ends with: the recorded routes, and either the
least cost of a route at the target or a target that cannot be reached. -/
theorem sd_loop_full {g : List (List Edge)} {s t N : Int}
    (hg : SDGraph g N) (hbig : PathsBelowBig g) (hs : 0 ≤ s ∧ s < N) (ht : 0 ≤ t ∧ t < N) :
    ∀ (k : Nat) (st : SD), SDFull g s t N (-1) st → st.visited.count false ≤ k →
      nth (sd_loop g t N k st).parent s (-1) = -1 ∧
      nth (sd_loop g t N k st).dist s 0 = 0 ∧
      (∀ v : Int, 0 ≤ v → v < N → nth (sd_loop g t N k st).dist v 0 ≠ BIG →
        ∃ es, TreeRoute g (sd_loop g t N k st) s es v ∧ (route_nodes s es).Nodup) ∧
      ((nth (sd_loop g t N k st).dist t 0 < BIG ∧
          ∀ es, IsRoute g s es t → nth (sd_loop g t N k st).dist t 0 ≤ route_time es) ∨
        (¬ nth (sd_loop g t N k st).dist t 0 < BIG ∧ ¬ Reachable g s t)) := by
  intro k
  induction k with
  | zero =>
    intro st h hcount
    exfalso
    have := count_false_pos (nth_getD_true (by rw [h.len_v]; omega) h.t_unvisited)
    omega
  | succ k ih =>
    intro st h hcount
    rw [sd_loop]
    simp only
    rcases sd_select_spec N st with ⟨_, hall⟩ | ⟨hu0, huN, hun, hmin⟩
    · exfalso
      have := hall t ht.1 ht.2
      rw [h.t_unvisited] at this
      exact absurd this (by simp)
    · split
      · rename_i hbrk
        simp only [Bool.or_eq_true, beq_iff_eq] at hbrk
        have hub : nth st.dist (sd_select N st) 0 = BIG := by
          rcases hbrk with hb | hb
          · omega
          · exact hb
        refine ⟨h.par_s, h.dist_s, h.tree, Or.inr ⟨?_, ?_⟩⟩
        · have := hmin t ht.1 ht.2 h.t_unvisited
          rw [hub] at this
          exact not_lt.mpr this
        · apply sd_unreachable hg hbig hs h
          intro v v0 v1 hv
          have := hmin v v0 v1 hv
          rw [hub] at this
          exact this
      · rename_i hbrk
        simp only [Bool.or_eq_true, beq_iff_eq, not_or] at hbrk
        obtain ⟨hopt, hfull, hmaxv⟩ := sd_visit_full hg hs ht.1 h ⟨hu0, huN⟩ hun hmin hbrk.2
        split
        · rename_i hut
          simp only [beq_iff_eq] at hut
          refine ⟨h.par_s, h.dist_s, ?_, Or.inl ⟨?_, ?_⟩⟩
          · intro v v0 v1 hv
            obtain ⟨R, hR, hnd⟩ := h.tree v v0 v1 hv
            exact ⟨R, @tree_route_mono g st
              { st with visited := put st.visited (sd_select N st) true }
              (fun x hx => visited_put_true _ _ _ hx) rfl rfl R s v hR, hnd⟩
          · simp only
            rw [← hut]
            exact tree_dist_lt hbig h hu0 huN hbrk.2
          · intro es hes
            simp only
            rw [← hut]
            exact hopt es (by rw [hut]; exact hes)
        · rename_i hut
          simp only [beq_iff_eq] at hut
          have hvis1 : nth (put st.visited (sd_select N st) true) (sd_select N st) false = true :=
            nth_put_same _ _ _ _ (by rw [h.len_v]; omega)
          obtain ⟨k1, k2, k3, k4, _⟩ := sd_relax_fold_full hg hs ⟨hu0, huN⟩
            (nth g (sd_select N st) [])
            { st with visited := put st.visited (sd_select N st) true }
            (fun e he => he) (hfull hut) hvis1 hmaxv
          apply ih
          · constructor
            · exact k1.len_d
            · exact k1.len_p
            · exact k1.len_v
            · exact k1.dist_s
            · exact k1.par_s
            · exact k1.nonneg
            · exact k1.tree
            · exact k1.opt
            · intro v v0 v1 hv _ e he
              by_cases hvu : v = sd_select N st
              · rw [hvu, k3]
                exact k4 e (by rw [← hvu]; exact he)
              · exact k1.relaxed v v0 v1 hv hvu e he
            · exact k1.order
            · exact k1.vis_ne
            · exact k1.t_unvisited
          · rw [k2]
            have := count_set_true st.visited (sd_select N st).toNat
              (nth_getD_true (by rw [h.len_v]; omega) hun)
            simp only [put]
            omega

theorem sd_init_full (g : List (List Edge)) {s t N : Int} (hs : 0 ≤ s ∧ s < N)
    (ht : 0 ≤ t ∧ t < N) :
    SDFull g s t N (-1)
      { dist := put (List.replicate N.toNat BIG) s 0
        parent := List.replicate N.toNat (-1)
        visited := List.replicate N.toNat false } := by
  have hsn : s.toNat < N.toNat := by omega
  have hvis : ∀ v : Int, nth (List.replicate N.toNat false) v false = false := by
    intro v
    simp only [nth, List.getD_eq_getElem?_getD, List.getElem?_replicate]
    split <;> rfl
  have hd : ∀ v : Int, 0 ≤ v → v < N →
      nth (put (List.replicate N.toNat BIG) s 0) v 0 = if s = v then 0 else BIG := by
    intro v v0 v1
    rw [nth_put _ _ _ _ _ hs.1 v0 (by simp; omega)]
    split
    · rfl
    · exact nth_replicate _ _ _ _ (by omega)
  constructor
  · simp [length_put]
  · simp
  · simp
  · simp only
    rw [hd s hs.1 hs.2, if_pos rfl]
  · simp only
    exact nth_replicate _ _ _ _ hsn
  · intro v v0 v1
    simp only
    rw [hd v v0 v1]
    split
    · exact le_refl _
    · exact le_of_lt BIG_pos
  · intro v v0 v1 hne
    simp only at hne
    rw [hd v v0 v1] at hne
    by_cases hsv : s = v
    · subst hsv
      exact ⟨[], rfl, by simp [route_nodes]⟩
    · rw [if_neg hsv] at hne
      exact absurd rfl hne
  · intro v _ _ hv
    simp only at hv
    rw [hvis] at hv
    exact absurd hv (by simp)
  · intro v _ _ hv
    simp only at hv
    rw [hvis] at hv
    exact absurd hv (by simp)
  · intro a b _ _ _ _ ha
    simp only at ha
    rw [hvis] at ha
    exact absurd ha (by simp)
  · intro v _ _ hv
    simp only at hv
    rw [hvis] at hv
    exact absurd hv (by simp)
  · exact hvis t

/-! ## `simple_dijkstra_path` returns a cheapest route -/

theorem nodup_length_le {N : Int} (l : List Int) (hnd : l.Nodup)
    (hr : ∀ x ∈ l, 0 ≤ x ∧ x < N) : l.length ≤ N.toNat := by
  have hmap : (l.map Int.toNat).Nodup := by
    apply List.Nodup.map_on _ hnd
    intro x hx y hy hxy
    have := (hr x hx).1
    have := (hr y hy).1
    omega
  have hsub : (l.map Int.toNat).toFinset ⊆ Finset.range N.toNat := by
    intro k hk
    rw [List.mem_toFinset, List.mem_map] at hk
    obtain ⟨x, hx, hxk⟩ := hk
    have := hr x hx
    rw [Finset.mem_range]
    omega
  have hcard := Finset.card_le_card hsub
  rw [List.toFinset_card_of_nodup hmap, Finset.card_range, List.length_map] at hcard
  exact hcard

theorem route_heads_range {g : List (List Edge)} {N : Int} (hg : SDGraph g N) :
    ∀ (es : List Edge) (a b : Int), IsRoute g a es b →
      ∀ x ∈ es.map (fun e => e.to_), 0 ≤ x ∧ x < N := by
  intro es
  induction es with
  | nil => intro a b _ x hx; simp at hx
  | cons e rest ih =>
    intro a b h x hx
    obtain ⟨_, he, hr⟩ := h
    simp only [List.map_cons, List.mem_cons] at hx
    rcases hx with hx | hx
    · rw [hx]; exact (hg _ e he).1
    · exact ih _ _ hr x hx

/-- Walking the recorded parents back from the end of a recorded route gives the nodes of
the route, last node first. -/
theorem sd_walk_tree {g : List (List Edge)} {N : Int} {st : SD} {s : Int}
    (hg : SDGraph g N) (hs : 0 ≤ s) (hpar : nth st.parent s (-1) = -1) :
    ∀ (es : List Edge) (v : Int) (acc : List Int) (fuel : Nat), TreeRoute g st s es v →
      es.length + 1 ≤ fuel →
      sd_walk st.parent fuel v acc = .ok (acc ++ (route_nodes s es).reverse) := by
  intro es
  induction es using List.reverseRecOn with
  | nil =>
    intro v acc fuel h hf
    unfold TreeRoute at h
    subst h
    obtain ⟨f, rfl⟩ : ∃ f, fuel = f + 1 := ⟨fuel - 1, by simp at hf; omega⟩
    rw [sd_walk, if_pos (by omega), hpar]
    cases f with
    | zero => simp [sd_walk, route_nodes]
    | succ f => simp [sd_walk, route_nodes]
  | append_singleton R e ih =>
    intro v acc fuel h hf
    obtain ⟨m, hR, _, he, hp, hto⟩ := tree_route_unsnoc R s v e h
    have hv0 : 0 ≤ v := by rw [← hto]; exact (hg _ e he).1.1
    obtain ⟨f, rfl⟩ : ∃ f, fuel = f + 1 := ⟨fuel - 1, by simp at hf; omega⟩
    rw [sd_walk, if_pos (by omega), hp, ih m (acc ++ [v]) f hR (by simp at hf; omega),
      route_nodes_snoc, hto]
    simp

theorem mem_row_of_getD {g : List (List Edge)} {k : Nat} {e : Edge} (h : e ∈ g.getD k []) :
    ∃ row ∈ g, e ∈ row := by
  by_cases hk : k < g.length
  · rw [List.getD_eq_getElem _ _ hk] at h
    exact ⟨g[k], List.getElem_mem _, h⟩
  · rw [List.getD_eq_default _ _ (not_lt.mp hk)] at h
    exact absurd h (List.not_mem_nil _)

theorem sd_graph_of_rows {g : List (List Edge)} {N : Int}
    (h : ∀ row ∈ g, ∀ e ∈ row, (0 ≤ e.to_ ∧ e.to_ < N) ∧ 0 ≤ e.time_cost) : SDGraph g N := by
  intro k e he
  obtain ⟨row, hrow, hmem⟩ := mem_row_of_getD he
  exact h row hrow e hmem

/-- When no entry costs more than `C` and `N * C` stays below `1e9`, every path costs less
than `1e9`. -/
theorem paths_below_of_rows {g : List (List Edge)} {N : Int} {C : ℚ}
    (hg : SDGraph g N) (hC : ∀ row ∈ g, ∀ e ∈ row, e.time_cost ≤ C) (hC0 : 0 ≤ C)
    (hlt : (N.toNat : ℚ) * C < BIG) : PathsBelowBig g := by
  intro a es b hes hnd
  have hlen : es.length ≤ N.toNat := by
    have h1 : (es.map (fun e => e.to_)).Nodup := by
      unfold route_nodes at hnd
      exact (List.nodup_cons.mp hnd).2
    have := nodup_length_le _ h1 (route_heads_range hg es a b hes)
    simpa using this
  have hsum : ∀ (l : List Edge) (x y : Int), IsRoute g x l y →
      route_time l ≤ (l.length : ℚ) * C := by
    intro l
    induction l with
    | nil => intro x y _; simp [route_time]
    | cons e rest ih =>
      intro x y h
      obtain ⟨_, he, hr⟩ := h
      obtain ⟨row, hrow, hmem⟩ := mem_row_of_getD he
      have h1 := hC row hrow e hmem
      have h2 := ih _ _ hr
      have : route_time (e :: rest) = e.time_cost + route_time rest := by simp [route_time]
      have hl : (((e :: rest).length : Nat) : ℚ) * C = (rest.length : ℚ) * C + C := by
        simp only [List.length_cons]
        push_cast
        ring
      rw [this, hl]
      linarith
  have h1 := hsum es a b hes
  have h2 : (es.length : ℚ) * C ≤ (N.toNat : ℚ) * C := by
    apply mul_le_mul_of_nonneg_right _ hC0
    exact_mod_cast hlen
  linarith

/-- What `simple_dijkstra_path` returns on a graph of non-negative costs whose paths all cost
less than `1e9`, and what the fallback branch makes of it. -/
theorem simple_dijkstra_path_spec (fuel : Nat) (g : List (List Edge)) (s t N : Int)
    (light : List ℚ) (Lmax : ℚ) (hg : SDGraph g N) (hbig : PathsBelowBig g)
    (hs : 0 ≤ s ∧ s < N) (ht : 0 ≤ t ∧ t < N) (hfuel : N.toNat ≤ fuel) :
    ∃ path, simple_dijkstra_path fuel g s t N = .ok path ∧
      (path = [] ↔ ¬ Reachable g s t) ∧
      (path ≠ [] →
        (∃ es, IsRoute g s es t ∧ path = route_nodes s es ∧
          ∀ es1, IsRoute g s es1 t → route_time es ≤ route_time es1) ∧
        ∃ tt td, fallback fuel g light Lmax s t N =
          .ok [{ name := "fastest", idx := 0, path := path, time := tt, dark := td },
               { name := "best_lit", idx := 0, path := path, time := tt, dark := td },
               { name := "balanced", idx := 0, path := path, time := tt, dark := td }]) := by
  obtain ⟨hpar, hds, htree, hend⟩ := sd_loop_full hg hbig hs ht N.toNat _ (sd_init_full g hs ht)
    (by simp)
  have hdef : ∀ p, simple_dijkstra_path fuel g s t N = .ok p →
      ∃ tt td, p ≠ [] → fallback fuel g light Lmax s t N =
        .ok [{ name := "fastest", idx := 0, path := p, time := tt, dark := td },
             { name := "best_lit", idx := 0, path := p, time := tt, dark := td },
             { name := "balanced", idx := 0, path := p, time := tt, dark := td }] := by
    intro p hp
    refine ⟨(fallback_costs g light Lmax p).1, (fallback_costs g light Lmax p).2, ?_⟩
    intro hne
    unfold fallback
    rw [hp]
    simp only
    rw [if_pos (by simpa using hne)]
    rfl
  rcases hend with ⟨hlt, hopt⟩ | ⟨hnlt, hnr⟩
  · obtain ⟨R, hR, hnd⟩ := htree t ht.1 ht.2 (ne_of_lt hlt)
    obtain ⟨k1, k2⟩ := tree_route_is_route R s t hR
    have hnodes : ∀ x ∈ route_nodes s R, 0 ≤ x ∧ x < N := by
      intro x hx
      simp only [route_nodes, List.mem_cons] at hx
      rcases hx with hx | hx
      · rw [hx]; exact hs
      · exact route_heads_range hg R s t k1 x hx
    have hlen := nodup_length_le _ hnd hnodes
    have hwalk := sd_walk_tree hg hs.1 hpar R t [] fuel hR
      (by simp [route_nodes] at hlen; omega)
    have hres : simple_dijkstra_path fuel g s t N = .ok (route_nodes s R) := by
      unfold simple_dijkstra_path
      simp only
      rw [if_pos hlt, hwalk]
      simp
    have hne : route_nodes s R ≠ [] := by simp [route_nodes]
    refine ⟨route_nodes s R, hres, ?_, ?_⟩
    · constructor
      · intro h; exact absurd h hne
      · intro h; exact absurd ⟨R, k1⟩ h
    · intro _
      refine ⟨⟨R, k1, rfl, ?_⟩, ?_⟩
      · intro es1 hes1
        have := hopt es1 hes1
        rw [k2, hds] at this
        linarith
      · obtain ⟨tt, td, h⟩ := hdef _ hres
        exact ⟨tt, td, h hne⟩
  · have hres : simple_dijkstra_path fuel g s t N = .ok [] := by
      unfold simple_dijkstra_path
      simp only
      rw [if_neg hnlt]
    exact ⟨[], hres, ⟨fun _ => hnr, fun _ => rfl⟩, fun h => absurd rfl h⟩

/-- C14: on an adjacency structure whose entries stay in `[0, N)` and carry non-negative
time costs, and in which every path (a route that visits no node twice) costs less than
`1e9`, `simple_dijkstra_path(g, s, t, N)` returns, for `s` and `t` in range and given `N`
steps for its walk back, the empty sequence iff `t` cannot be reached from `s`; otherwise it
returns the node sequence of a route of `g` from `s` to `t` (so it starts with `s`, ends with
`t` and joins consecutive nodes by entries of `g`) whose total time is least among all routes
from `s` to `t`, and the fallback branch of `solve` returns that same sequence for all three
picks. -/
theorem C14_simple_dijkstra (fuel : Nat) (g : List (List Edge)) (s t N : Int)
    (light : List ℚ) (Lmax : ℚ) (hg : SDGraph g N) (hbig : PathsBelowBig g)
    (hs : 0 ≤ s ∧ s < N) (ht : 0 ≤ t ∧ t < N) (hfuel : N.toNat ≤ fuel) :
    ∃ path, simple_dijkstra_path fuel g s t N = .ok path ∧
      (path = [] ↔ ¬ Reachable g s t) ∧
      (path ≠ [] →
        (∃ es, IsRoute g s es t ∧ path = route_nodes s es ∧
          ∀ es1, IsRoute g s es1 t → route_time es ≤ route_time es1) ∧
        ∃ tt td, fallback fuel g light Lmax s t N =
          .ok [{ name := "fastest", idx := 0, path := path, time := tt, dark := td },
               { name := "best_lit", idx := 0, path := path, time := tt, dark := td },
               { name := "balanced", idx := 0, path := path, time := tt, dark := td }]) :=
  simple_dijkstra_path_spec fuel g s t N light Lmax hg hbig hs ht hfuel

/-- The hypotheses of C14 hold for the graph of the sample scenario, whose entries cost at
most 5, with source 0 and target 4. -/
theorem C14_simple_dijkstra_witness :
    ∃ path, simple_dijkstra_path 6 (build_graph 6 sample_crime sample_input) 0 4 6 = .ok path ∧
      (path = [] ↔ ¬ Reachable (build_graph 6 sample_crime sample_input) 0 4) ∧
      (path ≠ [] →
        (∃ es, IsRoute (build_graph 6 sample_crime sample_input) 0 es 4 ∧
          path = route_nodes 0 es ∧
          ∀ es1, IsRoute (build_graph 6 sample_crime sample_input) 0 es1 4 →
            route_time es ≤ route_time es1) ∧
        ∃ tt td, fallback 6 (build_graph 6 sample_crime sample_input) sample_light 1 0 4 6 =
          .ok [{ name := "fastest", idx := 0, path := path, time := tt, dark := td },
               { name := "best_lit", idx := 0, path := path, time := tt, dark := td },
               { name := "balanced", idx := 0, path := path, time := tt, dark := td }]) :=
  C14_simple_dijkstra 6 (build_graph 6 sample_crime sample_input) 0 4 6 sample_light 1
    (sd_graph_of_rows (N := 6) (by decide!))
    (paths_below_of_rows (N := 6) (C := 5) (sd_graph_of_rows (N := 6) (by decide!))
      (by decide!) (by norm_num) (by decide!))
    (by decide) (by decide) (by decide)

/-! ## C16: the frontier invariant -/

theorem frontier_iff (lv : List Label) : Frontier lv ↔ lv.Pairwise Incomparable := by
  rw [List.pairwise_iff_getElem]
  constructor
  · intro h i j hi hj hij
    have h1 := h i j hi hj (by omega)
    have h2 := h j i hj hi (by omega)
    rw [List.getD_eq_getElem _ _ hi, List.getD_eq_getElem _ _ hj] at h1 h2
    exact ⟨h1, h2⟩
  · intro h i j hi hj hij
    rw [List.getD_eq_getElem _ _ hi, List.getD_eq_getElem _ _ hj]
    rcases Nat.lt_or_gt_of_ne hij with hlt | hlt
    · exact (h i j hi hj hlt).1
    · exact (h j i hj hi hlt).2

theorem frontier_nil : Frontier [] := by
  intro i j hi
  simp at hi

theorem frontier_single (L : Label) : Frontier [L] := by
  intro i j hi hj hij
  simp at hi hj
  omega

/-- Inserting a candidate that no stored label dominates, and removing the labels it
dominates, keeps the frontier. -/
theorem frontier_prune {old : List Label} {cand : Label} (h : Frontier old)
    (hnd : old.any (fun ex => dominates ex cand) = false) :
    Frontier (pareto_prune old cand) := by
  rw [frontier_iff] at h ⊢
  unfold pareto_prune
  rw [List.pairwise_append]
  refine ⟨h.sublist (List.filter_sublist _), List.pairwise_singleton _ _, ?_⟩
  intro a ha b hb
  rw [List.mem_singleton] at hb
  subst hb
  rw [List.mem_filter] at ha
  constructor
  · have := List.any_eq_false.mp hnd a ha.1
    simpa using this
  · simpa using ha.2

theorem incomparable_of_frontier {lv : List Label} (h : Frontier lv) {i j : Nat}
    (hi : i < lv.length) (hj : j < lv.length) (hij : i ≠ j) :
    Incomparable (lv.getD i {}) (lv.getD j {}) :=
  ⟨h i j hi hj hij, h j i hj hi (fun e => hij e.symm)⟩

theorem pairwise_two {R : Label → Label → Prop} {x y : Label} (h : R x y) :
    [x, y].Pairwise R :=
  List.Pairwise.cons (by intro a ha; rw [List.mem_singleton] at ha; rw [ha]; exact h)
    (List.pairwise_singleton _ _)

theorem pairwise_three {R : Label → Label → Prop} {x y z : Label} (h1 : R x y) (h2 : R x z)
    (h3 : R y z) : [x, y, z].Pairwise R :=
  List.Pairwise.cons
    (by
      intro a ha
      simp only [List.mem_cons, List.mem_singleton, List.not_mem_nil, or_false] at ha
      rcases ha with ha | ha
      · rw [ha]; exact h1
      · rw [ha]; exact h2)
    (pairwise_two h3)

/-- The cardinality cap keeps the frontier: it keeps labels from distinct positions. -/
theorem frontier_cap (c : Ctx) (refs : Refs) (v : Int) {lv : List Label} (h : Frontier lv) :
    Frontier (cap c refs v lv).1 := by
  unfold cap
  by_cases hc : v ≠ c.t ∧ (lv.length : Int) > 3
  · rw [if_pos hc]
    simp only
    obtain ⟨a, b, d, hf, ha, hb, hd⟩ := cap_select_range c (init_refs c refs) v lv lv.length
    have hsel : cap_select c (init_refs c refs) v lv = ((a : Int), (b : Int), (d : Int)) := hf
    rw [hsel]
    have hlen : 3 < lv.length := by omega
    have hmax : max lv.length 1 = lv.length := by omega
    rw [hmax] at ha hb hd
    simp only [nth_natCast]
    rw [frontier_iff]
    by_cases hba : (b : Int) = (a : Int)
    · rw [if_neg (not_not.mpr hba)]
      by_cases hda : (d : Int) = (a : Int)
      · rw [if_neg (fun hh => hh.1 hda)]
        exact List.pairwise_singleton _ _
      · have hne : a ≠ d := fun e => hda (by rw [e])
        have hdb : (d : Int) ≠ (b : Int) := by rw [hba]; exact hda
        rw [if_pos ⟨hda, hdb⟩]
        exact pairwise_two (incomparable_of_frontier h ha hd hne)
    · have hne1 : a ≠ b := fun e => hba (by rw [e])
      have h1 := incomparable_of_frontier h ha hb hne1
      rw [if_pos hba]
      by_cases hda : (d : Int) = (a : Int)
      · rw [if_neg (fun hh => hh.1 hda)]
        exact pairwise_two h1
      · by_cases hdb : (d : Int) = (b : Int)
        · rw [if_neg (fun hh => hh.2 hdb)]
          exact pairwise_two h1
        · have hne2 : a ≠ d := fun e => hda (by rw [e])
          have hne3 : b ≠ d := fun e => hdb (by rw [e])
          rw [if_pos ⟨hda, hdb⟩]
          exact pairwise_three h1 (incomparable_of_frontier h ha hd hne2)
            (incomparable_of_frontier h hb hd hne3)
  · rw [if_neg hc]
    exact h

theorem frontier_put {labels : List (List Label)} {v : Int} {row : List Label}
    (h : FrontierOK labels) (hrow : Frontier row) : FrontierOK (put labels v row) := by
  intro w
  unfold nth
  rw [getD_put]
  split
  · exact hrow
  · exact h w

theorem expand_edge_frontier (c : Ctx) (cur : PQItem) (Lcur : Label) (e : Edge) (st : Search)
    (h : FrontierOK st.labels) : FrontierOK (expand_edge c cur Lcur e st).1.labels := by
  unfold expand_edge
  simp only
  split
  · exact h
  · split
    · exact h
    · split
      · exact h
      · rename_i hany
        have hany1 : (nth st.labels e.to_ []).any (fun ex => dominates ex
            { time := Lcur.time + e.time_cost
              dark := Lcur.dark + edge_dark c.light c.Lmax cur.node e.to_
              node := e.to_
              prev_node := cur.node
              prev_label_idx := cur.label_idx }) = false := by
          simpa using hany
        have hrow := frontier_cap c st.refs e.to_ (frontier_prune (h e.to_) hany1)
        have hput := @frontier_put st.labels e.to_ _ h hrow
        split
        · exact hput
        · split
          · exact hput
          · exact hput

theorem expand_edges_frontier (c : Ctx) (cur : PQItem) (Lcur : Label) :
    ∀ (es : List Edge) (st : Search), FrontierOK st.labels →
      FrontierOK (expand_edges c cur Lcur es st).labels := by
  intro es
  induction es with
  | nil => intro st h; exact h
  | cons e rest ih =>
    intro st h
    rw [expand_edges]
    have h1 := expand_edge_frontier c cur Lcur e st h
    cases hx : expand_edge c cur Lcur e st with
    | mk st1 b =>
      rw [hx] at h1
      cases b with
      | true => exact h1
      | false => exact ih st1 h1

theorem search_step_frontier (c : Ctx) (cur : PQItem) (st : Search) (h : FrontierOK st.labels) :
    FrontierOK (search_step c cur st).1.labels := by
  unfold search_step
  simp only
  split
  · exact h
  · split
    · split <;> exact h
    · split
      · exact h
      · split
        · exact h
        · exact expand_edges_frontier c cur _ _ { st with lcur_moved := false } h

theorem search_loop_frontier (c : Ctx) (tie : List PQItem → Nat) :
    ∀ (k : Nat) (st : Search), FrontierOK st.labels →
      FrontierOK (search_loop c tie k st).labels := by
  intro k
  induction k with
  | zero => intro st h; exact h
  | succ k ih =>
    intro st h
    rw [search_loop]
    cases hp : pop_open tie st.opn with
    | none => exact h
    | some p =>
      obtain ⟨cur, rest⟩ := p
      have h1 := search_step_frontier c cur { st with opn := rest } h
      simp only
      cases hx : search_step c cur { st with opn := rest } with
      | mk st1 b =>
        rw [hx] at h1
        cases b with
        | true => exact h1
        | false => exact ih st1 h1

theorem nth_replicate_nil {α : Type} (n : Nat) (i : Int) :
    nth (List.replicate n ([] : List α)) i [] = [] := by
  simp only [nth, List.getD_eq_getElem?_getD, List.getElem?_replicate]
  split <;> rfl

theorem init_search_rows (c : Ctx) (N : Int) (refs : Refs) :
    (init_search c N refs).labels = put (List.replicate N.toNat []) c.s [seed_label c] := by
  unfold init_search
  simp only [nth_replicate_nil, List.nil_append]
  rfl

theorem init_search_frontier (c : Ctx) (N : Int) (refs : Refs) :
    FrontierOK (init_search c N refs).labels := by
  rw [init_search_rows]
  apply frontier_put
  · intro w
    rw [nth_replicate_nil]
    exact frontier_nil
  · exact frontier_single _

/-- C16: the frontier invariant of the backend search.  It holds of the labels the search
starts with; every insertion step (the pass through the body of the edge loop: dominance
check, insert, prune, cap) keeps it; hence it holds after any number of iterations of the
search loop: for every node `v`, no label at one position of `labels[v]` dominates a label
at another position. -/
theorem C16_frontier_invariant (c : Ctx) (tie : List PQItem → Nat) (N : Int) (refs : Refs) :
    FrontierOK (init_search c N refs).labels ∧
      (∀ (cur : PQItem) (Lcur : Label) (e : Edge) (st : Search), FrontierOK st.labels →
        FrontierOK (expand_edge c cur Lcur e st).1.labels) ∧
      ∀ k : Nat, FrontierOK (search_loop c tie k (init_search c N refs)).labels :=
  ⟨init_search_frontier c N refs, expand_edge_frontier c,
    fun k => search_loop_frontier c tie k _ (init_search_frontier c N refs)⟩

/-! ## C20: the cardinality cap -/

/-- The selection loop of the cap ends with the first position of least time and the first
position of least darkness. -/
theorem cap_select_spec (c : Ctx) (r : ℚ × ℚ) (v : Int) (lv : List Label) :
    ∀ n : Nat, ∃ a b d : Nat,
      (List.range n).foldl
        (fun b (k : Nat) =>
          let i : Int := k
          let bt := if (nth lv i {}).time < (nth lv b.1 {}).time then i else b.1
          let bd := if (nth lv i {}).dark < (nth lv b.2.1 {}).dark then i else b.2.1
          let bb := if norm_score c r (nth lv i {}) v < norm_score c r (nth lv b.2.2 {}) v
            then i else b.2.2
          (bt, bd, bb))
        ((0 : Int), (0 : Int), (0 : Int)) = ((a : Int), (b : Int), (d : Int)) ∧
      (a < max n 1 ∧ b < max n 1 ∧ d < max n 1) ∧
      ((∀ j, j < n → (lv.getD a {}).time ≤ (lv.getD j {}).time) ∧
        ∀ j, j < a → (lv.getD a {}).time < (lv.getD j {}).time) ∧
      ((∀ j, j < n → (lv.getD b {}).dark ≤ (lv.getD j {}).dark) ∧
        ∀ j, j < b → (lv.getD b {}).dark < (lv.getD j {}).dark) := by
  intro n
  induction n with
  | zero =>
    exact ⟨0, 0, 0, rfl, by simp, ⟨by intro j hj; omega, by intro j hj; omega⟩,
      ⟨by intro j hj; omega, by intro j hj; omega⟩⟩
  | succ n ih =>
    obtain ⟨a, b, d, hf, ⟨ha, hb, hd⟩, ⟨ht1, ht2⟩, ⟨hd1, hd2⟩⟩ := ih
    rw [List.range_succ, List.foldl_append, hf]
    simp only [List.foldl_cons, List.foldl_nil, nth_natCast]
    refine ⟨if (lv.getD n {}).time < (lv.getD a {}).time then n else a,
      if (lv.getD n {}).dark < (lv.getD b {}).dark then n else b,
      if norm_score c r (lv.getD n {}) v < norm_score c r (lv.getD d {}) v then n else d,
      ?_, ⟨?_, ?_, ?_⟩, ⟨?_, ?_⟩, ⟨?_, ?_⟩⟩
    · congr 1
      · split <;> rfl
      · congr 1
        · split <;> rfl
        · split <;> rfl
    · split <;> omega
    · split <;> omega
    · split <;> omega
    · intro j hj
      by_cases hlt : (lv.getD n {}).time < (lv.getD a {}).time
      · rw [if_pos hlt]
        rcases Nat.lt_succ_iff_lt_or_eq.mp hj with h | h
        · exact le_of_lt (lt_of_lt_of_le hlt (ht1 j h))
        · rw [h]
      · rw [if_neg hlt]
        rcases Nat.lt_succ_iff_lt_or_eq.mp hj with h | h
        · exact ht1 j h
        · rw [h]; exact not_lt.mp hlt
    · intro j hj
      by_cases hlt : (lv.getD n {}).time < (lv.getD a {}).time
      · rw [if_pos hlt] at hj ⊢
        exact lt_of_lt_of_le hlt (ht1 j hj)
      · rw [if_neg hlt] at hj ⊢
        exact ht2 j hj
    · intro j hj
      by_cases hlt : (lv.getD n {}).dark < (lv.getD b {}).dark
      · rw [if_pos hlt]
        rcases Nat.lt_succ_iff_lt_or_eq.mp hj with h | h
        · exact le_of_lt (lt_of_lt_of_le hlt (hd1 j h))
        · rw [h]
      · rw [if_neg hlt]
        rcases Nat.lt_succ_iff_lt_or_eq.mp hj with h | h
        · exact hd1 j h
        · rw [h]; exact not_lt.mp hlt
    · intro j hj
      by_cases hlt : (lv.getD n {}).dark < (lv.getD b {}).dark
      · rw [if_pos hlt] at hj ⊢
        exact lt_of_lt_of_le hlt (hd1 j hj)
      · rw [if_neg hlt] at hj ⊢
        exact hd2 j hj

/-- When the cap fires it leaves at most three labels, all taken from the list, among them
the label at the first position of least time and the label at the first position of least
darkness. -/
theorem cap_fires (c : Ctx) (refs : Refs) (v : Int) (lv : List Label) (hv : v ≠ c.t)
    (hlen : 3 < lv.length) :
    (cap c refs v lv).1.length ≤ 3 ∧ (∀ L ∈ (cap c refs v lv).1, L ∈ lv) ∧
      (∃ i, FirstMin (fun L => L.time) lv i ∧ lv.getD i {} ∈ (cap c refs v lv).1) ∧
      (∃ j, FirstMin (fun L => L.dark) lv j ∧ lv.getD j {} ∈ (cap c refs v lv).1) := by
  refine ⟨?_, cap_subset c refs v lv, ?_⟩
  · unfold cap
    rw [if_pos ⟨hv, by omega⟩]
    simp only [List.length_append, List.length_singleton]
    split <;> split <;> simp
  · obtain ⟨a, b, d, hf, ⟨ha, hb, _⟩, ⟨ht1, ht2⟩, ⟨hd1, hd2⟩⟩ :=
      cap_select_spec c (init_refs c refs) v lv lv.length
    have hsel : cap_select c (init_refs c refs) v lv = ((a : Int), (b : Int), (d : Int)) := hf
    have hmax : max lv.length 1 = lv.length := by omega
    rw [hmax] at ha hb
    have hcap : (cap c refs v lv).1 = [lv.getD a {}]
        ++ (if (b : Int) ≠ (a : Int) then [lv.getD b {}] else [])
        ++ (if (d : Int) ≠ (a : Int) ∧ (d : Int) ≠ (b : Int) then [lv.getD d {}] else []) := by
      unfold cap
      rw [if_pos ⟨hv, by omega⟩]
      simp only [hsel, nth_natCast]
    refine ⟨⟨a, ⟨ha, ht1, ht2⟩, ?_⟩, ⟨b, ⟨hb, hd1, hd2⟩, ?_⟩⟩
    · rw [hcap]
      simp
    · rw [hcap]
      by_cases hba : (b : Int) = (a : Int)
      · have : b = a := by omega
        rw [this]
        simp
      · rw [if_pos hba]
        simp

theorem cap_length (c : Ctx) (refs : Refs) (v : Int) (lv : List Label) (hv : v ≠ c.t) :
    (cap c refs v lv).1.length ≤ 3 := by
  by_cases hlen : 3 < lv.length
  · exact (cap_fires c refs v lv hv hlen).1
  · unfold cap
    rw [if_neg (by omega)]
    simp only
    omega

theorem expand_edge_cap (c : Ctx) (ht : 0 ≤ c.t) (cur : PQItem) (Lcur : Label) (e : Edge)
    (st : Search) (h : CapOK c st.labels) : CapOK c (expand_edge c cur Lcur e st).1.labels := by
  have hput : ∀ row : List Label, (e.to_ ≠ c.t → row.length ≤ 3) →
      CapOK c (put st.labels e.to_ row) := by
    intro row hrow w hw0 hwt
    unfold nth
    rw [getD_put]
    split
    · rename_i hc
      apply hrow
      intro heq
      apply hwt
      have := hc.1
      rw [heq] at this
      omega
    · exact h w hw0 hwt
  unfold expand_edge
  simp only
  split
  · exact h
  · split
    · exact h
    · split
      · exact h
      · have hp := hput (cap c st.refs e.to_ (pareto_prune (nth st.labels e.to_ [])
            { time := Lcur.time + e.time_cost
              dark := Lcur.dark + edge_dark c.light c.Lmax cur.node e.to_
              node := e.to_
              prev_node := cur.node
              prev_label_idx := cur.label_idx })).1 (fun hne => cap_length c _ _ _ hne)
        split
        · exact hp
        · split
          · exact hp
          · exact hp

theorem expand_edges_cap (c : Ctx) (ht : 0 ≤ c.t) (cur : PQItem) (Lcur : Label) :
    ∀ (es : List Edge) (st : Search), CapOK c st.labels →
      CapOK c (expand_edges c cur Lcur es st).labels := by
  intro es
  induction es with
  | nil => intro st h; exact h
  | cons e rest ih =>
    intro st h
    rw [expand_edges]
    have h1 := expand_edge_cap c ht cur Lcur e st h
    cases hx : expand_edge c cur Lcur e st with
    | mk st1 b =>
      rw [hx] at h1
      cases b with
      | true => exact h1
      | false => exact ih st1 h1

theorem search_step_cap (c : Ctx) (ht : 0 ≤ c.t) (cur : PQItem) (st : Search)
    (h : CapOK c st.labels) : CapOK c (search_step c cur st).1.labels := by
  unfold search_step
  simp only
  split
  · exact h
  · split
    · split <;> exact h
    · split
      · exact h
      · split
        · exact h
        · exact expand_edges_cap c ht cur _ _ { st with lcur_moved := false } h

theorem search_loop_cap (c : Ctx) (ht : 0 ≤ c.t) (tie : List PQItem → Nat) :
    ∀ (k : Nat) (st : Search), CapOK c st.labels → CapOK c (search_loop c tie k st).labels := by
  intro k
  induction k with
  | zero => intro st h; exact h
  | succ k ih =>
    intro st h
    rw [search_loop]
    cases hp : pop_open tie st.opn with
    | none => exact h
    | some p =>
      obtain ⟨cur, rest⟩ := p
      have h1 := search_step_cap c ht cur { st with opn := rest } h
      simp only
      cases hx : search_step c cur { st with opn := rest } with
      | mk st1 b =>
        rw [hx] at h1
        cases b with
        | true => exact h1
        | false => exact ih st1 h1

theorem init_search_cap (c : Ctx) (N : Int) (refs : Refs) :
    CapOK c (init_search c N refs).labels := by
  rw [init_search_rows]
  intro w _ _
  unfold nth
  rw [getD_put]
  split
  · simp
  · have := nth_replicate_nil (α := Label) N.toNat w
    unfold nth at this
    rw [this]
    simp

/-- C20: the cardinality cap, for the search context `c` that `solve` sets up on a valid
input.  Every node other than the target holds at most `K = 3` labels when the search starts,
every insertion step keeps that, and so it holds after any number of iterations of the search
loop.  Whenever the cap fires (at a node `v` other than the target holding more than three
labels), the labels kept are at most three labels of the list, and the label at the first
position of least time and the label at the first position of least darkness are among them,
so the least time and the least darkness at `v` are unchanged. -/
theorem C20_cardinality_cap (hyp : ℚ → ℚ → ℚ)
    (fuel : Nat) (tie : List PQItem → Nat) (refs : Refs) (N : Int)
    (light : List ℚ) (crime : List Int) (input : List (List Int)) (s t : Int) (c : Ctx)
    (hv : ValidInput N light crime input s t)
    (hc : mk_ctx hyp fuel N light crime input s t = .ok c) :
    CapOK c (init_search c N refs).labels ∧
      (∀ (cur : PQItem) (Lcur : Label) (e : Edge) (st : Search), CapOK c st.labels →
        CapOK c (expand_edge c cur Lcur e st).1.labels) ∧
      (∀ k : Nat, CapOK c (search_loop c tie k (init_search c N refs)).labels) ∧
      ∀ (refs1 : Refs) (v : Int) (lv : List Label), v ≠ c.t → 3 < lv.length →
        (cap c refs1 v lv).1.length ≤ 3 ∧ (∀ L ∈ (cap c refs1 v lv).1, L ∈ lv) ∧
        (∃ i, FirstMin (fun L => L.time) lv i ∧ lv.getD i {} ∈ (cap c refs1 v lv).1) ∧
        (∃ j, FirstMin (fun L => L.dark) lv j ∧ lv.getD j {} ∈ (cap c refs1 v lv).1) := by
  have ht : 0 ≤ c.t := by
    rw [(mk_ctx_fields hc).2.2.2.2.1]
    exact hv.2.2.2.2.1
  exact ⟨init_search_cap c N refs, expand_edge_cap c ht,
    fun k => search_loop_cap c ht tie k _ (init_search_cap c N refs),
    fun refs1 v lv h1 h2 => cap_fires c refs1 v lv h1 h2⟩

/-- The search context of the sample scenario when `hypot` is `hypot_sq`. -/
theorem mk_ctx_sample :
    mk_ctx hypot_sq 100 6 sample_light sample_crime sample_input 0 4 = .ok sample_ctx := by
  have h1 : reverse_dijkstra_lb 100 (build_graph 6 sample_crime sample_input) 4
      (fun _ _ e => e.time_cost) = .ok [some 5, none, some 1, some 2, some 0, some 1] := by
    decide!
  have hL : compute_Lmax sample_light = 1 := by decide!
  have h2 : reverse_dijkstra_lb 100 (build_graph 6 sample_crime sample_input) 4
      (fun u v _ => edge_dark sample_light 1 u v) =
      .ok [some (1 / 2), none, some 0, some (1 / 4), some 0, some (2 / 5)] := by
    decide!
  unfold mk_ctx
  simp only
  rw [hL, h1, h2]
  rfl

/-- The hypotheses of C20 hold on the sample scenario. -/
theorem C20_cardinality_cap_witness :
    ValidInput 6 sample_light sample_crime sample_input 0 4 ∧
      mk_ctx hypot_sq 100 6 sample_light sample_crime sample_input 0 4 = .ok sample_ctx ∧
      CapOK sample_ctx (init_search sample_ctx 6 none).labels ∧
      (∀ (cur : PQItem) (Lcur : Label) (e : Edge) (st : Search), CapOK sample_ctx st.labels →
        CapOK sample_ctx (expand_edge sample_ctx cur Lcur e st).1.labels) ∧
      (∀ k : Nat, CapOK sample_ctx (search_loop sample_ctx tie0 k
        (init_search sample_ctx 6 none)).labels) ∧
      ∀ (refs1 : Refs) (v : Int) (lv : List Label), v ≠ sample_ctx.t → 3 < lv.length →
        (cap sample_ctx refs1 v lv).1.length ≤ 3 ∧
        (∀ L ∈ (cap sample_ctx refs1 v lv).1, L ∈ lv) ∧
        (∃ i, FirstMin (fun L => L.time) lv i ∧ lv.getD i {} ∈ (cap sample_ctx refs1 v lv).1) ∧
        (∃ j, FirstMin (fun L => L.dark) lv j ∧ lv.getD j {} ∈ (cap sample_ctx refs1 v lv).1) :=
  ⟨by decide, mk_ctx_sample,
    C20_cardinality_cap hypot_sq 100 tie0 none 6 sample_light sample_crime sample_input 0 4
      sample_ctx (by decide) mk_ctx_sample⟩

/-! ## Statements at concrete inputs: statics, predecessor links, open set -/

theorem mk_ctx_mono_add {hyp : ℚ → ℚ → ℚ} {k : Nat} {N : Int} {light : List ℚ}
    {crime : List Int} {input : List (List Int)} {s t : Int} {c : Ctx}
    (h : mk_ctx hyp k N light crime input s t = .ok c) (j : Nat) :
    mk_ctx hyp (j + k) N light crime input s t = .ok c := by
  induction j with
  | zero => simpa using h
  | succ j ih =>
    have := mk_ctx_mono ih
    rwa [Nat.add_right_comm] at this

/-- More fuel does not change the labels the search ends with. -/
theorem search_labels_mono_add {hyp : ℚ → ℚ → ℚ}
    {k : Nat} {tie : List PQItem → Nat} {refs : Refs} {N : Int}
    {light : List ℚ} {crime : List Int} {input : List (List Int)} {s t : Int}
    {labels : List (List Label)}
    (h : search_labels hyp k tie refs N light crime input s t = .ok labels) (j : Nat) :
    search_labels hyp (j + k) tie refs N light crime input s t = .ok labels := by
  unfold search_labels run_search at h ⊢
  cases hc : mk_ctx hyp k N light crime input s t with
  | error f => rw [hc] at h; exact absurd h (by simp)
  | ok c =>
    rw [hc] at h
    rw [mk_ctx_mono_add hc j]
    exact h

/-- C13: a value computed in one call of `solve` changes what a later call returns.  Both
inputs are valid.  The first call, on a fresh process, lets the cardinality cap fire and so
initialises the statics of `norm_score` to `T_ref = 7`, `D_ref = 37/40`.  A fresh process
answers the second input with the route 5, 1, 4, 2, 3 of time 13 and darkness 1 for all three
picks (and initialises the statics to `11` and `1e-9`); after the first call the same
arguments yield the "fastest" route 5, 0, 4, 2, 3 of time 13 and darkness 2.  No run meets a
tie in its open set, so the result holds for every tie-breaking rule; the scores compared
are equal or far apart, so it holds for every library `hypot` with the properties
`HypotSpec`. -/
theorem C13_statics_leak (hyp : ℚ → ℚ → ℚ) (hh : HypotSpec hyp) (fuel : Nat)
    (tie : List PQItem → Nat) :
    ValidInput 6 [1 / 5, 1, 1 / 5, 1, 1 / 2, 3 / 4] [0, 0, 0, 0, 0, 0]
        [[3, 1, 4], [2, 1, 6], [2, 5, 1], [0, 1, 4], [0, 2, 1], [1, 3, 1]] 3 5 ∧
      ValidInput 6 [0, 1, 1, 1, 0, 1] [0, 0, 0, 0, 0, 0]
        [[3, 2, 3], [3, 2, 1], [1, 4, 3], [1, 2, 7], [5, 0, 3], [4, 0, 5], [2, 4, 2],
          [5, 1, 7], [1, 4, 2], [2, 4, 3]] 5 3 ∧
      solve hyp (fuel + 10) tie none 6 6 [1 / 5, 1, 1 / 5, 1, 1 / 2, 3 / 4] [0, 0, 0, 0, 0, 0]
          [[3, 1, 4], [2, 1, 6], [2, 5, 1], [0, 1, 4], [0, 2, 1], [1, 3, 1]] 3 5 =
        .ok ([{ name := "fastest", idx := 0, path := [3, 1, 2, 5], time := 7, dark := 69 / 40 },
              { name := "best_lit", idx := 1, path := [3, 1, 0, 2, 5], time := 8,
                dark := 37 / 40 },
              { name := "balanced", idx := 0, path := [3, 1, 2, 5], time := 7, dark := 69 / 40 }],
          some (7, 37 / 40)) ∧
      solve hyp (fuel + 10) tie none 6 10 [0, 1, 1, 1, 0, 1] [0, 0, 0, 0, 0, 0]
          [[3, 2, 3], [3, 2, 1], [1, 4, 3], [1, 2, 7], [5, 0, 3], [4, 0, 5], [2, 4, 2],
            [5, 1, 7], [1, 4, 2], [2, 4, 3]] 5 3 =
        .ok ([{ name := "fastest", idx := 0, path := [5, 1, 4, 2, 3], time := 13, dark := 1 },
              { name := "best_lit", idx := 0, path := [5, 1, 4, 2, 3], time := 13, dark := 1 },
              { name := "balanced", idx := 0, path := [5, 1, 4, 2, 3], time := 13, dark := 1 }],
          some (11, 1 / 1000000000)) ∧
      solve hyp (fuel + 10) tie (some (7, 37 / 40)) 6 10 [0, 1, 1, 1, 0, 1] [0, 0, 0, 0, 0, 0]
          [[3, 2, 3], [3, 2, 1], [1, 4, 3], [1, 2, 7], [5, 0, 3], [4, 0, 5], [2, 4, 2],
            [5, 1, 7], [1, 4, 2], [2, 4, 3]] 5 3 =
        .ok ([{ name := "fastest", idx := 0, path := [5, 0, 4, 2, 3], time := 13, dark := 2 },
              { name := "best_lit", idx := 1, path := [5, 1, 4, 2, 3], time := 14, dark := 1 },
              { name := "balanced", idx := 0, path := [5, 0, 4, 2, 3], time := 13, dark := 2 }],
          some (7, 37 / 40)) := by
  have ha := agree_settled hypot_spec_sq hh
  refine ⟨by decide, by decide, ?_, ?_, ?_⟩
  · exact solve_of_eval ha (by decide!) (by decide!) (by decide!) (by simp) fuel tie
  · exact solve_of_eval ha (by decide!) (by decide!) (by decide!) (by simp) fuel tie
  · exact solve_of_eval ha (by decide!) (by decide!) (by decide!) (by simp) fuel tie

/-- The hypothesis of C13 holds of `hypot_sq`: the second call after the first. -/
theorem C13_statics_leak_witness :
    HypotSpec hypot_sq ∧
      solve hypot_sq (0 + 10) tie0 (some (7, 37 / 40)) 6 10 [0, 1, 1, 1, 0, 1]
          [0, 0, 0, 0, 0, 0]
          [[3, 2, 3], [3, 2, 1], [1, 4, 3], [1, 2, 7], [5, 0, 3], [4, 0, 5], [2, 4, 2],
            [5, 1, 7], [1, 4, 2], [2, 4, 3]] 5 3 =
        .ok ([{ name := "fastest", idx := 0, path := [5, 0, 4, 2, 3], time := 13, dark := 2 },
              { name := "best_lit", idx := 1, path := [5, 1, 4, 2, 3], time := 14, dark := 1 },
              { name := "balanced", idx := 0, path := [5, 0, 4, 2, 3], time := 13, dark := 2 }],
          some (7, 37 / 40)) :=
  ⟨hypot_spec_sq, (C13_statics_leak hypot_sq hypot_spec_sq 0 tie0).2.2.2.2⟩

/-- C17: predecessor integrity fails at the completion of the search on a valid input (the
one of C1).  The label the search leaves first at the target 3 names the predecessor
`(2, 2)`, created when node 2 held three labels; a later insertion at node 2 made four and
the cardinality cap rebuilt `labels[2]` as two labels, so the index 2 is out of its
bounds.  This holds with every library `hypot` that has the properties `HypotSpec`. -/
theorem C17_stale_predecessor (hyp : ℚ → ℚ → ℚ) (hh : HypotSpec hyp) (fuel : Nat) :
    ValidInput 4 [0, 0, 0, 0] [0, 0, 0, 0]
        [[0, 2, 4], [0, 2, 4], [0, 1, 2], [0, 1, 1], [1, 2, 1], [2, 3, 1]] 0 3 ∧
      search_labels hyp (fuel + 20) tie0 none 4 [0, 0, 0, 0] [0, 0, 0, 0]
          [[0, 2, 4], [0, 2, 4], [0, 1, 2], [0, 1, 1], [1, 2, 1], [2, 3, 1]] 0 3 =
        .ok [[{ time := 0, dark := 1, node := 0, prev_node := -1, prev_label_idx := -1 }],
             [{ time := 1, dark := 2, node := 1, prev_node := 0, prev_label_idx := 0 }],
             [{ time := 2, dark := 3, node := 2, prev_node := 1, prev_label_idx := 0 },
              { time := 4, dark := 2, node := 2, prev_node := 0, prev_label_idx := 0 }],
             [{ time := 3, dark := 4, node := 3, prev_node := 2, prev_label_idx := 2 },
              { time := 3, dark := 4, node := 3, prev_node := 2, prev_label_idx := 0 }]] ∧
      ¬ PredAll (build_graph 4 [0, 0, 0, 0]
            [[0, 2, 4], [0, 2, 4], [0, 1, 2], [0, 1, 1], [1, 2, 1], [2, 3, 1]])
          [0, 0, 0, 0] (compute_Lmax [0, 0, 0, 0])
          [[{ time := 0, dark := 1, node := 0, prev_node := -1, prev_label_idx := -1 }],
           [{ time := 1, dark := 2, node := 1, prev_node := 0, prev_label_idx := 0 }],
           [{ time := 2, dark := 3, node := 2, prev_node := 1, prev_label_idx := 0 },
            { time := 4, dark := 2, node := 2, prev_node := 0, prev_label_idx := 0 }],
           [{ time := 3, dark := 4, node := 3, prev_node := 2, prev_label_idx := 2 },
            { time := 3, dark := 4, node := 3, prev_node := 2, prev_label_idx := 0 }]] := by
  exact ⟨by decide,
    search_labels_mono_add
      ((search_labels_hypot (agree_settled hypot_spec_sq hh) (by decide!)).trans (by decide!))
      fuel,
    by decide!⟩

/-- The hypothesis of C17 holds of `hypot_sq`. -/
theorem C17_stale_predecessor_witness :
    HypotSpec hypot_sq ∧
      ValidInput 4 [0, 0, 0, 0] [0, 0, 0, 0]
        [[0, 2, 4], [0, 2, 4], [0, 1, 2], [0, 1, 1], [1, 2, 1], [2, 3, 1]] 0 3 :=
  ⟨hypot_spec_sq, (C17_stale_predecessor hypot_sq hypot_spec_sq 0).1⟩

/-- C18: on a valid input (the one of C1) the search leaves two labels at the target, and
`reconstruct_path`, started from the target label chosen for the "fastest" pick, does not
produce a node sequence: following the predecessor link `(2, 2)` it reads `labels[2][2]`
outside the two labels of node 2.  This holds with every library `hypot` that has the
properties `HypotSpec`. -/
theorem C18_walk_leaves_labels (hyp : ℚ → ℚ → ℚ) (hh : HypotSpec hyp) :
    ValidInput 4 [0, 0, 0, 0] [0, 0, 0, 0]
        [[0, 2, 4], [0, 2, 4], [0, 1, 2], [0, 1, 1], [1, 2, 1], [2, 3, 1]] 0 3 ∧
      target_labels hyp 20 tie0 none 4 [0, 0, 0, 0] [0, 0, 0, 0]
          [[0, 2, 4], [0, 2, 4], [0, 1, 2], [0, 1, 1], [1, 2, 1], [2, 3, 1]] 0 3 =
        .ok [{ time := 3, dark := 4, node := 3, prev_node := 2, prev_label_idx := 2 },
             { time := 3, dark := 4, node := 3, prev_node := 2, prev_label_idx := 0 }] ∧
      idx_fast [{ time := 3, dark := 4, node := 3, prev_node := 2, prev_label_idx := 2 },
                { time := 3, dark := 4, node := 3, prev_node := 2, prev_label_idx := 0 }] = 0 ∧
      ∀ fuel : Nat, reconstruct_path (fuel + 2) 3 0
          [[{ time := 0, dark := 1, node := 0, prev_node := -1, prev_label_idx := -1 }],
           [{ time := 1, dark := 2, node := 1, prev_node := 0, prev_label_idx := 0 }],
           [{ time := 2, dark := 3, node := 2, prev_node := 1, prev_label_idx := 0 },
            { time := 4, dark := 2, node := 2, prev_node := 0, prev_label_idx := 0 }],
           [{ time := 3, dark := 4, node := 3, prev_node := 2, prev_label_idx := 2 },
            { time := 3, dark := 4, node := 3, prev_node := 2, prev_label_idx := 0 }]] =
        .error .out_of_range := by
  refine ⟨by decide,
    (target_labels_hypot (agree_settled hypot_spec_sq hh) (by decide!)).trans (by decide!),
    by decide!, ?_⟩
  intro fuel
  have h : reconstruct_path 2 3 0
      [[{ time := 0, dark := 1, node := 0, prev_node := -1, prev_label_idx := -1 }],
       [{ time := 1, dark := 2, node := 1, prev_node := 0, prev_label_idx := 0 }],
       [{ time := 2, dark := 3, node := 2, prev_node := 1, prev_label_idx := 0 },
        { time := 4, dark := 2, node := 2, prev_node := 0, prev_label_idx := 0 }],
       [{ time := 3, dark := 4, node := 3, prev_node := 2, prev_label_idx := 2 },
        { time := 3, dark := 4, node := 3, prev_node := 2, prev_label_idx := 0 }]] =
      .error .out_of_range := by decide!
  induction fuel with
  | zero => simpa using h
  | succ k ih =>
    have := reconstruct_path_mono ih (by simp)
    rwa [Nat.add_right_comm] at this

/-- The hypothesis of C18 holds of `hypot_sq`. -/
theorem C18_walk_leaves_labels_witness :
    HypotSpec hypot_sq ∧
      target_labels hypot_sq 20 tie0 none 4 [0, 0, 0, 0] [0, 0, 0, 0]
          [[0, 2, 4], [0, 2, 4], [0, 1, 2], [0, 1, 1], [1, 2, 1], [2, 3, 1]] 0 3 =
        .ok [{ time := 3, dark := 4, node := 3, prev_node := 2, prev_label_idx := 2 },
             { time := 3, dark := 4, node := 3, prev_node := 2, prev_label_idx := 0 }] :=
  ⟨hypot_spec_sq, (C18_walk_leaves_labels hypot_sq hypot_spec_sq).2.1⟩

/-- C19: open-set consistency fails on a valid input after the first pass of the search
loop.  Node 0 has two parallel edges to node 1, of time 2 and of time 1.  The first gives
`labels[1] = [(time 2)]` and the open item `(f_time 3, node 1, index 0)`; the second gives a
label of time 1 that dominates the first, which the in-place pruning removes, so the new
label takes index 0.  The first item is still in the open set, its index 0 is within the
bounds, and it now refers to the label of time 1: `3 ≠ 1 + lb_time[1] = 2`. -/
theorem C19_stale_open_item :
    ValidInput 3 [1, 1, 1] [0, 0, 0] [[0, 1, 2], [0, 1, 1], [1, 2, 1]] 0 2 ∧
      lower_bounds 10 3 [1, 1, 1] [0, 0, 0] [[0, 1, 2], [0, 1, 1], [1, 2, 1]] 0 2 =
        .ok ([2, 1, 0], [0, 0, 0]) ∧
      (∀ hyp : ℚ → ℚ → ℚ,
        search_state hyp 10 tie0 none 3 [1, 1, 1] [0, 0, 0]
            [[0, 1, 2], [0, 1, 1], [1, 2, 1]] 0 2 1 =
          .ok { labels := [[{ time := 0, dark := 0, node := 0, prev_node := -1,
                              prev_label_idx := -1 }],
                           [{ time := 1, dark := 0, node := 1, prev_node := 0,
                              prev_label_idx := 0 }],
                           []]
                opn := [{ f_time := 3, f_dark := 0, node := 1, label_idx := 0 },
                        { f_time := 2, f_dark := 0, node := 1, label_idx := 0 }]
                curr_fastest := [1000000000, 1, 1000000000]
                closed := [true, false, false]
                refs := none }) ∧
      ¬ OpenConsistent [2, 1, 0] [0, 0, 0]
          { labels := [[{ time := 0, dark := 0, node := 0, prev_node := -1,
                          prev_label_idx := -1 }],
                       [{ time := 1, dark := 0, node := 1, prev_node := 0,
                          prev_label_idx := 0 }],
                       []]
            opn := [{ f_time := 3, f_dark := 0, node := 1, label_idx := 0 },
                    { f_time := 2, f_dark := 0, node := 1, label_idx := 0 }]
            curr_fastest := [1000000000, 1, 1000000000]
            closed := [true, false, false]
            refs := none } :=
  ⟨by decide, by decide!,
    fun hyp => (search_state_hypot (agree_never hypot_sq hyp) (by decide!)).trans (by decide!),
    by decide!⟩

/-! ## C15: the time of the "fastest" pick -/

theorem seq_time_cons (g : List (List Edge)) (a : Int) (e : Edge) (es : List Edge) :
    seq_time g (route_nodes a (e :: es)) =
      first_edge_cost (nth g a []) e.to_ + seq_time g (route_nodes e.to_ es) := by
  simp [seq_time, route_nodes]

theorem first_edge_cost_mem {gu : List Edge} {e : Edge} (he : e ∈ gu) :
    ∃ e1 ∈ gu, e1.to_ = e.to_ ∧ first_edge_cost gu e.to_ = e1.time_cost := by
  unfold first_edge_cost
  cases hf : gu.find? (fun x => x.to_ == e.to_) with
  | none =>
    have := List.find?_eq_none.mp hf e he
    simp at this
  | some e1 =>
    have h1 := List.find?_some hf
    have h2 := List.mem_of_find?_eq_some hf
    exact ⟨e1, h2, by simpa using h1, rfl⟩

/-- The sum the fallback forms along the node sequence of a route is the total time of a
route with the same nodes. -/
theorem seq_time_route {g : List (List Edge)} :
    ∀ (es : List Edge) (a b : Int), IsRoute g a es b →
      ∃ es1, IsRoute g a es1 b ∧ seq_time g (route_nodes a es) = route_time es1 := by
  intro es
  induction es with
  | nil =>
    intro a b h
    exact ⟨[], h, by simp [seq_time, route_nodes, route_time]⟩
  | cons e rest ih =>
    intro a b h
    obtain ⟨ha, he, hr⟩ := h
    obtain ⟨es1, h1, h2⟩ := ih _ _ hr
    obtain ⟨e1, hm, hto, hc⟩ := first_edge_cost_mem he
    refine ⟨e1 :: es1, ⟨ha, hm, by rw [hto]; exact h1⟩, ?_⟩
    rw [seq_time_cons, hc, h2]
    simp [route_time]

theorem sd_graph_of_valid {N : Int} {light : List ℚ} {crime : List Int}
    {input : List (List Int)} {s t : Int} (hv : ValidInput N light crime input s t) :
    SDGraph (build_graph N crime input) N := by
  intro k e he
  have := (build_graph_ok hv).2 k e he
  exact ⟨this.1, this.2.2.1⟩

/-- On a valid input whose target can be reached and whose paths all cost less than `1e9`,
the total time of the first Path `solve` returns, the "fastest" pick, is the total time of a
route of the filtered graph from the source to the target. -/
theorem fastest_is_route {hyp : ℚ → ℚ → ℚ}
    {fuel : Nat} {tie : List PQItem → Nat} {refs : Refs} {N M : Int}
    {light : List ℚ} {crime : List Int} {input : List (List Int)} {s t : Int}
    {picks : List Path} {refs1 : Refs}
    (hv : ValidInput N light crime input s t) (hreach : Connected crime input s t)
    (hbig : PathsBelowBig (build_graph N crime input)) (hfuel : N.toNat ≤ fuel)
    (h : solve hyp fuel tie refs N M light crime input s t = .ok (picks, refs1)) :
    ∃ p rest, picks = p :: rest ∧ p.name = "fastest" ∧
      ∃ es, IsRoute (build_graph N crime input) s es t ∧ p.time = route_time es := by
  obtain ⟨c, st, hrun, hfin, _⟩ := solve_eq h
  obtain ⟨hc, _⟩ := run_search_eq hrun
  obtain ⟨hg, hl, _, hs, ht, hLm, _⟩ := mk_ctx_fields hc
  by_cases hne : nth st.labels c.t [] = []
  · unfold finish at hfin
    simp only at hfin
    rw [if_pos (by rw [hne]; rfl), hg, hs, ht] at hfin
    obtain ⟨path, hp, hspec, hroute⟩ := simple_dijkstra_path_spec fuel
      (build_graph N crime input) s t N c.light c.Lmax (sd_graph_of_valid hv) hbig
      hv.2.2.2.1 hv.2.2.2.2 hfuel
    have hpne : path ≠ [] := fun he => (hspec.mp he) (route_of_connected hv hreach)
    obtain ⟨⟨es, hes, hnodes, _⟩, _⟩ := hroute hpne
    rcases fallback_eq hfin with ⟨path1, hp1, _, hpk⟩ | ⟨hp1, _⟩
    · rw [hp] at hp1
      injection hp1 with hp1
      subst hp1
      obtain ⟨es1, k1, k2⟩ := seq_time_route es s t hes
      refine ⟨_, _, hpk, rfl, es1, k1, ?_⟩
      simp only
      rw [fallback_costs_eq, hnodes]
      exact k2
    · rw [hp] at hp1
      injection hp1 with hp1
      exact absurd hp1 hpne
  · obtain ⟨p1, p2, p3, hpk, h1, _, _⟩ := finish_search_eq hne hfin
    obtain ⟨_, hname, _, htime, _⟩ := pick_eq h1
    obtain ⟨m, hm, hlt, _⟩ := idx_fast_spec (nth st.labels c.t []) hne
    have hmem : nth (nth st.labels c.t []) (idx_fast (nth st.labels c.t [])) {} ∈
        st.labels.getD c.t.toNat [] := by
      rw [hm, nth_natCast]
      have : st.labels.getD c.t.toNat [] = nth st.labels c.t [] := rfl
      rw [this, List.getD_eq_getElem _ _ hlt]
      exact List.getElem_mem _
    have hroutes := run_search_routes hv hrun c.t.toNat _ hmem
    rw [Int.toNat_of_nonneg (by rw [ht]; exact hv.2.2.2.2.1)] at hroutes
    obtain ⟨es, hes, htm, _⟩ := hroutes
    rw [hg, hs, ht] at hes
    exact ⟨p1, [p2, p3], hpk, hname, es, hes, by rw [htime, htm]⟩

/-- C15 fails in both directions.  On the triangle with the edge 0 - 1 of time 10
and the detour 0 - 2 - 1 of time 2, the search expands the source, stores the label of time
10 at the target 1 and leaves the edge loop (`break`), so the edge 0 - 2 is never followed:
the "fastest" pick has the total time 10.  And on the single edge 0 - 1 of time 2000000000,
a cost the search and the fallback both read as out of reach, `solve` returns the placeholder
of total time 1000 although no route from 0 to 1 costs less than 2000000000. -/
theorem C15_counterexample :
    (ValidInput 3 [1, 1, 1] [0, 0, 0] [[0, 1, 10], [0, 2, 1], [2, 1, 1]] 0 1 ∧
      (∀ hyp : ℚ → ℚ → ℚ,
        solve hyp 10 tie0 none 3 3 [1, 1, 1] [0, 0, 0] [[0, 1, 10], [0, 2, 1], [2, 1, 1]] 0 1 =
          .ok ([{ name := "fastest", idx := 0, path := [0, 1], time := 10, dark := 0 },
                { name := "best_lit", idx := 0, path := [0, 1], time := 10, dark := 0 },
                { name := "balanced", idx := 0, path := [0, 1], time := 10, dark := 0 }],
            none)) ∧
      IsRoute (build_graph 3 [0, 0, 0] [[0, 1, 10], [0, 2, 1], [2, 1, 1]]) 0
        [{ to_ := 2, time_cost := 1 }, { to_ := 1, time_cost := 1 }] 1 ∧
      route_time [{ to_ := 2, time_cost := 1 }, { to_ := 1, time_cost := 1 }] = 2) ∧
    (ValidInput 2 [1, 1] [0, 0] [[0, 1, 2000000000]] 0 1 ∧
      Connected [0, 0] [[0, 1, 2000000000]] 0 1 ∧
      (∀ hyp : ℚ → ℚ → ℚ,
        solve hyp 10 tie0 none 2 1 [1, 1] [0, 0] [[0, 1, 2000000000]] 0 1 =
          .ok ([{ name := "fastest", idx := 0, path := [0, 1], time := 1000, dark := 500 },
                { name := "best_lit", idx := 0, path := [0, 1], time := 1000, dark := 500 },
                { name := "balanced", idx := 0, path := [0, 1], time := 1000, dark := 500 }],
            none)) ∧
      ∀ es, IsRoute (build_graph 2 [0, 0] [[0, 1, 2000000000]]) 0 es 1 →
        2000000000 ≤ route_time es) := by
  refine ⟨⟨by decide,
      fun hyp => (solve_hypot (agree_never hypot_sq hyp) (by decide!) 3).trans (by decide!),
      by decide!, by decide!⟩,
    ⟨by decide, Relation.ReflTransGen.single (by decide),
      fun hyp => (solve_hypot (agree_never hypot_sq hyp) (by decide!) 1).trans (by decide!),
      ?_⟩⟩
  intro es hes
  have hcost : ∀ (k : Nat) (e : Edge),
      e ∈ (build_graph 2 [0, 0] [[0, 1, 2000000000]]).getD k [] →
      e.time_cost = 2000000000 := by
    intro k e he
    obtain ⟨row, hrow, hmem⟩ := mem_row_of_getD he
    have hall : ∀ row ∈ build_graph 2 [0, 0] [[0, 1, 2000000000]], ∀ e ∈ row,
        e.time_cost = 2000000000 := by decide!
    exact hall row hrow e hmem
  have hg : SDGraph (build_graph 2 [0, 0] [[0, 1, 2000000000]]) 2 :=
    sd_graph_of_rows (by decide!)
  cases es with
  | nil =>
    unfold IsRoute at hes
    exact absurd hes (by decide)
  | cons e rest =>
    obtain ⟨_, he, hr⟩ := hes
    have h1 := hcost _ e he
    have h2 := route_time_nonneg hg rest _ _ hr
    have : route_time (e :: rest) = e.time_cost + route_time rest := by simp [route_time]
    rw [this, h1]
    linarith

/-- C15, amended: for every valid input in which `t` is reachable from `s` in the filtered
graph and every path of the filtered graph costs less than `1e9`, the total time of the
"fastest" Path that `solve` returns is the total time of some route of the filtered graph
from `s` to `t`; so it is at least the minimum total time over the paths from `s` to `t`
(it need not be that minimum). -/
theorem C15_fastest_is_a_route (hyp : ℚ → ℚ → ℚ)
    (fuel : Nat) (tie : List PQItem → Nat) (refs : Refs)
    (N M : Int) (light : List ℚ) (crime : List Int) (input : List (List Int)) (s t : Int)
    (picks : List Path) (refs1 : Refs)
    (hv : ValidInput N light crime input s t) (hreach : Connected crime input s t)
    (hbig : PathsBelowBig (build_graph N crime input)) (hfuel : N.toNat ≤ fuel)
    (h : solve hyp fuel tie refs N M light crime input s t = .ok (picks, refs1)) :
    ∃ p rest, picks = p :: rest ∧ p.name = "fastest" ∧
      ∃ es, IsRoute (build_graph N crime input) s es t ∧ p.time = route_time es :=
  fastest_is_route hv hreach hbig hfuel h

/-- The hypotheses of C15 hold on the sample scenario: the target 4 is reached from the
source 0 through the nodes 3 and 5, and no entry costs more than 5. -/
theorem C15_fastest_is_a_route_witness :
    ∃ p rest, same_picks [0, 3, 5, 4] 5 (13 / 10) = p :: rest ∧ p.name = "fastest" ∧
      ∃ es, IsRoute (build_graph 6 sample_crime sample_input) 0 es 4 ∧ p.time = route_time es :=
  C15_fastest_is_a_route hypot_sq 100 tie0 none 6 6 sample_light sample_crime sample_input 0 4
    (same_picks [0, 3, 5, 4] 5 (13 / 10)) none (by decide)
    (Relation.ReflTransGen.head (by decide : Linked sample_crime sample_input 0 3)
      (Relation.ReflTransGen.head (by decide : Linked sample_crime sample_input 3 5)
        (Relation.ReflTransGen.single (by decide : Linked sample_crime sample_input 5 4))))
    (paths_below_of_rows (N := 6) (C := 5) (sd_graph_of_rows (N := 6) (by decide!))
      (by decide!) (by norm_num) (by decide!))
    (by decide) (by decide!)

/-! ## The node sequences that `reconstruct_path` does return -/

theorem link_step_ok (c : Ctx)
    (hgraph : ∀ (k : Nat) (e : Edge), e ∈ c.g.getD k [] → 0 ≤ e.to_) : StepOK c (LinkLP c) := by
  constructor
  · exact hgraph
  · intro u Lcur e idx hu hi _ he _
    exact Or.inr ⟨hu, hi, e, he, rfl⟩

/-- When every label is a seed label at the source or names a predecessor with an entry
leading to its node, a walk of `reconstruct_path` that returns has collected, last node
first, the nodes of a route from the source to the node it started from. -/
theorem reconstruct_walk_route {c : Ctx} {labels : List (List Label)}
    (hlab : LabelsOK (LinkLP c) labels) :
    ∀ (fuel : Nat) (node idx : Int) (acc path : List Int), 0 ≤ node → 0 ≤ idx →
      reconstruct_walk labels fuel node idx acc = .ok path →
      ∃ es, IsRoute c.g c.s es node ∧ path = acc ++ (route_nodes c.s es).reverse := by
  intro fuel
  induction fuel with
  | zero =>
    intro node idx acc path hn hi h
    rw [reconstruct_walk, if_pos ⟨by omega, by omega⟩] at h
    exact absurd h (by simp)
  | succ fuel ih =>
    intro node idx acc path hn hi h
    rw [reconstruct_walk, if_pos ⟨by omega, by omega⟩] at h
    cases hr : read2 labels node idx with
    | none => rw [hr] at h; exact absurd h (by simp)
    | some L =>
      rw [hr] at h
      simp only at h
      have hLP := hlab node.toNat L (read2_mem hr)
      rw [Int.toNat_of_nonneg hn] at hLP
      rcases hLP with ⟨h1, h2, h3⟩ | ⟨h1, h2, e, he, hto⟩
      · rw [h1, h2] at h
        have hend : reconstruct_walk labels fuel (-1) (-1) (acc ++ [node]) =
            .ok (acc ++ [node]) := by
          cases fuel with
          | zero => simp [reconstruct_walk]
          | succ k => simp [reconstruct_walk]
        rw [hend] at h
        injection h with h
        refine ⟨[], h3.symm, ?_⟩
        rw [← h, h3]
        simp [route_nodes]
      · obtain ⟨es, hes, hp⟩ := ih _ _ _ _ h1 h2 h
        refine ⟨es ++ [e], by rw [← hto]; exact IsRoute_snoc es _ _ e hes h1 he, ?_⟩
        rw [hp, route_nodes_snoc, hto]
        simp

/-- On a valid input on which the search leaves a label at the target, every node sequence
`solve` returns, when it returns, is the node sequence of a route of the filtered graph from
the source to the target. -/
theorem solve_paths_are_routes {hyp : ℚ → ℚ → ℚ}
    {fuel : Nat} {tie : List PQItem → Nat} {refs : Refs}
    {N M : Int} {light : List ℚ} {crime : List Int} {input : List (List Int)} {s t : Int}
    {picks : List Path} {refs1 : Refs} {c : Ctx} {st : Search}
    (hv : ValidInput N light crime input s t)
    (hrun : run_search hyp fuel tie refs N light crime input s t = .ok (c, st))
    (hne : nth st.labels t [] ≠ [])
    (h : solve hyp fuel tie refs N M light crime input s t = .ok (picks, refs1)) :
    ∀ p ∈ picks, ∃ es, IsRoute (build_graph N crime input) s es t ∧
      p.path = route_nodes s es := by
  obtain ⟨c1, st1, hrun1, hfin, _⟩ := solve_eq h
  rw [hrun] at hrun1
  injection hrun1 with hrun1
  injection hrun1 with e1 e2
  subst e1
  subst e2
  obtain ⟨hc, _⟩ := run_search_eq hrun
  obtain ⟨hg, _, _, hs, ht, _⟩ := mk_ctx_fields hc
  obtain ⟨_, hedges⟩ := ctx_graph_ok hv hc
  have hlab : LabelsOK (LinkLP c) st.labels :=
    run_search_labels_ok hv hrun (link_step_ok c (fun k e he => (hedges k e he).1.1))
      (Or.inl ⟨rfl, rfl, rfl⟩)
  have hne1 : nth st.labels c.t [] ≠ [] := by rw [ht]; exact hne
  obtain ⟨p1, p2, p3, hpk, h1, h2, h3⟩ := finish_search_eq hne1 hfin
  have ht0 : 0 ≤ c.t := by rw [ht]; exact hv.2.2.2.2.1
  have hwalk : ∀ (name : String) (idx : Int) (p : Path), 0 ≤ idx →
      pick fuel name idx c.t st.labels = .ok p →
      ∃ es, IsRoute (build_graph N crime input) s es t ∧ p.path = route_nodes s es := by
    intro name idx p hi hp
    have hrec := (pick_eq hp).1
    unfold reconstruct_path at hrec
    split at hrec
    · exact absurd hrec (by simp)
    · rename_i w hw
      injection hrec with hrec
      obtain ⟨es, hes, hpath⟩ := reconstruct_walk_route hlab fuel c.t idx [] w ht0 hi hw
      rw [hg, hs, ht] at hes
      refine ⟨es, hes, ?_⟩
      rw [← hrec, hpath, hs]
      simp
  obtain ⟨m1, hm1, _⟩ := idx_fast_spec (nth st.labels c.t []) hne1
  obtain ⟨m2, hm2, _⟩ := idx_bright_spec (nth st.labels c.t []) hne1
  obtain ⟨m3, hm3, _⟩ := idx_bal_spec c.hypot (nth st.labels c.t []) hne1
  intro p hp
  rw [hpk] at hp
  simp only [List.mem_cons, List.mem_singleton, List.not_mem_nil, or_false] at hp
  rcases hp with hp | hp | hp
  · subst hp
    exact hwalk _ _ _ (by rw [hm1]; exact Int.natCast_nonneg _) h1
  · subst hp
    exact hwalk _ _ _ (by rw [hm2]; exact Int.natCast_nonneg _) h2
  · subst hp
    exact hwalk _ _ _ (by rw [hm3]; exact Int.natCast_nonneg _) h3

/-! ## Dominance, the target in the open set, coinciding source and target -/

theorem dominates_spec (a b : Label) :
    dominates a b = true ↔
      (a.time ≤ b.time + EPS ∧ a.dark ≤ b.dark + EPS ∧
        (a.time + EPS < b.time ∨ a.dark + EPS < b.dark)) := by
  unfold dominates
  simp only [Bool.and_eq_true, Bool.or_eq_true, decide_eq_true_eq, and_assoc]

/-- C21: `dominates a b` holds iff `a.time <= b.time + eps`, `a.dark <= b.dark + eps` and
(`a.time + eps < b.time` or `a.dark + eps < b.dark`), with `eps = 1e-12`; the relation is
irreflexive and asymmetric.  The function has the same text in
`src/backend/algorithm/multi-objective-astar.cpp` and in
`src/algorithm/multi-objective-astar.cpp`. -/
theorem C21_dominates_strict_order :
    (∀ a b : Label, dominates a b = true ↔
      (a.time ≤ b.time + 1 / 1000000000000 ∧ a.dark ≤ b.dark + 1 / 1000000000000 ∧
        (a.time + 1 / 1000000000000 < b.time ∨ a.dark + 1 / 1000000000000 < b.dark))) ∧
      (∀ a : Label, dominates a a = false) ∧
      ∀ a b : Label, dominates a b = true → dominates b a = false := by
  refine ⟨fun a b => dominates_spec a b, ?_, ?_⟩
  · intro a
    rw [← Bool.not_eq_true, dominates_spec]
    rintro ⟨_, _, h | h⟩ <;> unfold EPS at h <;> linarith
  · intro a b hab
    rw [← Bool.not_eq_true, dominates_spec]
    rw [dominates_spec] at hab
    obtain ⟨h1, h2, h3⟩ := hab
    rintro ⟨k1, k2, _⟩
    rcases h3 with h | h <;> linarith

/-! ## Items of the open set whose node is the target -/

theorem expand_edge_pushed (c : Ctx) (cur : PQItem) (Lcur : Label) (e : Edge) (st : Search) :
    ∃ pushed, (expand_edge c cur Lcur e st).1.opn = st.opn ++ pushed ∧
      ∀ it ∈ pushed, it.node ≠ c.t := by
  unfold expand_edge
  simp only
  split
  · exact ⟨[], by simp, by simp⟩
  · split
    · exact ⟨[], by simp, by simp⟩
    · split
      · exact ⟨[], by simp, by simp⟩
      · split
        · exact ⟨[], by simp, by simp⟩
        · split
          · rename_i hv
            refine ⟨[_], rfl, ?_⟩
            intro it hit
            rw [List.mem_singleton] at hit
            rw [hit]
            exact hv
          · exact ⟨[], by simp, by simp⟩

theorem expand_edges_pushed (c : Ctx) (cur : PQItem) (Lcur : Label) :
    ∀ (es : List Edge) (st : Search),
      ∃ pushed, (expand_edges c cur Lcur es st).opn = st.opn ++ pushed ∧
        ∀ it ∈ pushed, it.node ≠ c.t := by
  intro es
  induction es with
  | nil => intro st; exact ⟨[], by simp [expand_edges], by simp⟩
  | cons e es ih =>
    intro st
    obtain ⟨p1, h1, h2⟩ := expand_edge_pushed c cur Lcur e st
    unfold expand_edges
    cases hx : expand_edge c cur Lcur e st with
    | mk st1 b =>
      rw [hx] at h1
      cases b with
      | true => exact ⟨p1, h1, h2⟩
      | false =>
        obtain ⟨p2, h3, h4⟩ := ih st1
        refine ⟨p1 ++ p2, ?_, ?_⟩
        · simp only
          rw [h3, h1, List.append_assoc]
        · intro it hit
          rcases List.mem_append.mp hit with h | h
          · exact h2 it h
          · exact h4 it h

theorem search_step_target (c : Ctx) (cur : PQItem) (st0 : Search) (h : cur.node = c.t) :
    (search_step c cur st0).1 = st0 := by
  unfold search_step
  split
  · rfl
  · split <;> rfl

theorem search_step_pushed (c : Ctx) (cur : PQItem) (st0 : Search) :
    ∃ pushed, (search_step c cur st0).1.opn = st0.opn ++ pushed ∧
      ∀ it ∈ pushed, it.node ≠ c.t := by
  unfold search_step
  split
  · exact ⟨[], by simp, by simp⟩
  · split
    · split <;> exact ⟨[], by simp, by simp⟩
    · simp only
      split
      · exact ⟨[], by simp, by simp⟩
      · split
        · exact ⟨[], by simp, by simp⟩
        · exact expand_edges_pushed c cur _ _ { st0 with lcur_moved := false }

theorem search_loop_target_items (c : Ctx) (tie : List PQItem → Nat) (P : PQItem → Prop) :
    ∀ (k : Nat) (st : Search), (∀ it ∈ st.opn, it.node = c.t → P it) →
      ∀ it ∈ (search_loop c tie k st).opn, it.node = c.t → P it := by
  intro k
  induction k with
  | zero => intro st h; exact h
  | succ k ih =>
    intro st h
    unfold search_loop
    cases hp : pop_open tie st.opn with
    | none => exact h
    | some x =>
      obtain ⟨cur, rest⟩ := x
      simp only
      obtain ⟨pushed, h1, h2⟩ := search_step_pushed c cur { st with opn := rest }
      have hrest := (pop_open_mem hp).2
      have hinv : ∀ it ∈ (search_step c cur { st with opn := rest }).1.opn,
          it.node = c.t → P it := by
        intro it hit ht
        rw [h1] at hit
        rcases List.mem_append.mp hit with h3 | h3
        · exact h it (hrest it h3) ht
        · exact absurd ht (h2 it h3)
      cases hx : search_step c cur { st with opn := rest } with
      | mk st1 b =>
        rw [hx] at hinv
        cases b with
        | true => exact hinv
        | false => exact ih st1 hinv

theorem init_search_opn (c : Ctx) (N : Int) (refs : Refs) (hs : 0 ≤ c.s ∧ c.s < N) :
    (init_search c N refs).opn = [seed_item c] :=
  (init_search_labels c N refs hs).2

/-- C22 fails when source and target coincide: on two nodes joined by one edge, with
`s = t = 0`, the open set of the search starts with the item of the seed label, whose node
is the target. -/
theorem C22_counterexample :
    ValidInput 2 [1, 1] [0, 0] [[0, 1, 1]] 0 0 ∧
      ∀ hyp : ℚ → ℚ → ℚ, ∃ c, mk_ctx hyp 10 2 [1, 1] [0, 0] [[0, 1, 1]] 0 0 = .ok c ∧
        c.t = 0 ∧
        (init_search c 2 none).opn =
          [{ f_time := 0, f_dark := 0, node := 0, label_idx := 0 }] := by
  refine ⟨by decide, fun hyp => ?_⟩
  have h1 : reverse_dijkstra_lb 10 (build_graph 2 [0, 0] [[0, 1, 1]]) 0
      (fun _ _ e => e.time_cost) = .ok [some 0, some 1] := by decide!
  have hL : compute_Lmax [1, 1] = 1 := by decide!
  have h2 : reverse_dijkstra_lb 10 (build_graph 2 [0, 0] [[0, 1, 1]]) 0
      (fun u v _ => edge_dark [1, 1] 1 u v) = .ok [some 0, some 0] := by decide!
  refine ⟨{ g := build_graph 2 [0, 0] [[0, 1, 1]], light := [1, 1], crime := [0, 0], s := 0,
            t := 0, Lmax := 1, lb_time := [0, 1], lb_dark := [0, 0], hypot := hyp },
    ?_, rfl, ?_⟩
  · unfold mk_ctx
    simp only
    rw [hL, h1, h2]
    rfl
  · rw [init_search_opn _ _ _ (show (0 : Int) ≤ 0 ∧ (0 : Int) < 2 from by decide)]
    simp [seed_item, seed_label, nth]

/-- C22, amended: on every valid input the set-up of `solve` returns (once the fuel reaches
`rd_fuel`); the open set starts as the single item of the seed label, whose node is `s`;
expanding an edge only appends items whose node is not the target `t`; so an item whose
node is `t` is in the open set only when `s = t`, and it is then the seed item; and the
pass of the loop for a popped item whose node is `t` leaves the search state as it is: no
label at the target is ever expanded. -/
theorem C22_target_pushed_only_as_seed (hyp : ℚ → ℚ → ℚ)
    (fuel : Nat) (tie : List PQItem → Nat) (refs : Refs)
    (N : Int) (light : List ℚ) (crime : List Int) (input : List (List Int)) (s t : Int)
    (hv : ValidInput N light crime input s t)
    (hfuel : rd_fuel (build_graph N crime input) ≤ fuel) :
    ∃ c, mk_ctx hyp fuel N light crime input s t = .ok c ∧
      ((init_search c N refs).opn = [seed_item c] ∧ (seed_item c).node = s) ∧
      (∀ (cur : PQItem) (Lcur : Label) (e : Edge) (st : Search),
        ∃ pushed, (expand_edge c cur Lcur e st).1.opn = st.opn ++ pushed ∧
          ∀ it ∈ pushed, it.node ≠ t) ∧
      (∀ (k : Nat), ∀ it ∈ (search_loop c tie k (init_search c N refs)).opn,
        it.node = t → s = t ∧ it = seed_item c) ∧
      ∀ (cur : PQItem) (st0 : Search), cur.node = t → (search_step c cur st0).1 = st0 := by
  obtain ⟨c, hc⟩ := mk_ctx_ok hv hfuel
  obtain ⟨_, _, _, hs, ht, _⟩ := mk_ctx_fields hc
  have hsN : 0 ≤ c.s ∧ c.s < N := by rw [hs]; exact hv.2.2.2.1
  have hinit := init_search_opn c N refs hsN
  refine ⟨c, hc, ⟨hinit, hs⟩, ?_, ?_, ?_⟩
  · intro cur Lcur e st
    have := expand_edge_pushed c cur Lcur e st
    rw [ht] at this
    exact this
  · intro k it hit hnode
    have := search_loop_target_items c tie (fun it => s = t ∧ it = seed_item c) k
      (init_search c N refs)
      (by
        intro it hit hnode
        rw [hinit, List.mem_singleton] at hit
        subst hit
        refine ⟨?_, rfl⟩
        rw [← hs, ← ht]
        exact hnode)
      it hit (by rw [ht]; exact hnode)
    exact this
  · intro cur st0 hnode
    exact search_step_target c cur st0 (by rw [ht]; exact hnode)

/-- The hypotheses of the amended C22 hold on the sample scenario. -/
theorem C22_target_pushed_only_as_seed_witness :
    ValidInput 6 sample_light sample_crime sample_input 0 4 ∧
      ∃ c, mk_ctx hypot_sq 100 6 sample_light sample_crime sample_input 0 4 = .ok c ∧
        ((init_search c 6 none).opn = [seed_item c] ∧ (seed_item c).node = 0) ∧
        (∀ (cur : PQItem) (Lcur : Label) (e : Edge) (st : Search),
          ∃ pushed, (expand_edge c cur Lcur e st).1.opn = st.opn ++ pushed ∧
            ∀ it ∈ pushed, it.node ≠ 4) ∧
        (∀ (k : Nat), ∀ it ∈ (search_loop c tie0 k (init_search c 6 none)).opn,
          it.node = 4 → (0 : Int) = 4 ∧ it = seed_item c) ∧
        ∀ (cur : PQItem) (st0 : Search), cur.node = 4 → (search_step c cur st0).1 = st0 :=
  ⟨by decide,
    C22_target_pushed_only_as_seed hypot_sq 100 tie0 none 6 sample_light sample_crime
      sample_input 0 4 (by decide) (by decide!)⟩

/-! ## Coinciding source and target -/

theorem foldl_max_ge (light : List ℚ) : ∀ acc : ℚ,
    acc ≤ light.foldl (fun a L => max a L) acc ∧
      (∀ x ∈ light, x ≤ light.foldl (fun a L => max a L) acc) ∧
      (light.foldl (fun a L => max a L) acc = acc ∨
        light.foldl (fun a L => max a L) acc ∈ light) := by
  induction light with
  | nil => intro acc; exact ⟨le_refl _, by simp, Or.inl rfl⟩
  | cons y rest ih =>
    intro acc
    obtain ⟨h1, h2, h3⟩ := ih (max acc y)
    simp only [List.foldl_cons]
    refine ⟨le_trans (le_max_left _ _) h1, ?_, ?_⟩
    · intro x hx
      rcases List.mem_cons.mp hx with h | h
      · rw [h]; exact le_trans (le_max_right _ _) h1
      · exact h2 x h
    · rcases h3 with h | h
      · rw [h]
        rcases max_choice acc y with hm | hm
        · exact Or.inl hm
        · exact Or.inr (by rw [hm]; exact List.mem_cons_self _ _)
      · exact Or.inr (List.mem_cons_of_mem _ h)

theorem compute_Lmax_spec (light : List ℚ) :
    ((∃ x ∈ light, 0 < x) →
      compute_Lmax light ∈ light ∧ ∀ x ∈ light, x ≤ compute_Lmax light) ∧
      ((∀ x ∈ light, x ≤ 0) → compute_Lmax light = 1) := by
  obtain ⟨h1, h2, h3⟩ := foldl_max_ge light 0
  constructor
  · rintro ⟨x, hx, hpos⟩
    have hm : ¬ light.foldl (fun a L => max a L) 0 ≤ 0 :=
      not_le.mpr (lt_of_lt_of_le hpos (h2 x hx))
    unfold compute_Lmax
    simp only
    rw [if_neg hm]
    refine ⟨?_, h2⟩
    rcases h3 with h | h
    · exact absurd (le_of_eq h) hm
    · exact h
  · intro hall
    have hm : light.foldl (fun a L => max a L) 0 ≤ 0 := by
      rcases h3 with h | h
      · exact le_of_eq h
      · exact hall _ h
    unfold compute_Lmax
    simp only
    rw [if_pos hm]

theorem init_search_target_labels (c : Ctx) (N : Int) (refs : Refs)
    (hs : 0 ≤ c.s ∧ c.s < N) :
    nth (init_search c N refs).labels c.s [] = [seed_label c] := by
  rw [init_search_rows]
  exact nth_put_same _ _ _ _ (by rw [List.length_replicate]; omega)

theorem search_step_seed (c : Ctx) (N : Int) (refs : Refs) (hs : 0 ≤ c.s ∧ c.s < N)
    (hst : c.s = c.t) :
    search_step c (seed_item c) { init_search c N refs with opn := [] } =
      ({ init_search c N refs with opn := [] }, false) := by
  have hlab : nth (init_search c N refs).labels c.s [] = [seed_label c] :=
    init_search_target_labels c N refs hs
  have hlab1 : nth (init_search c N refs).labels c.t [] = [seed_label c] := by
    rw [← hst]; exact hlab
  unfold search_step
  have h1 : ¬ (seed_item c).label_idx ≥
      ((nth ({ init_search c N refs with opn := [] } : Search).labels
        (seed_item c).node []).length : Int) := by
    show ¬ (0 : Int) ≥ ((nth (init_search c N refs).labels c.s []).length : Int)
    rw [hlab]
    simp
  rw [if_neg h1, if_pos (show (seed_item c).node = c.t from hst)]
  have h2 : ¬ (nth ({ init_search c N refs with opn := [] } : Search).labels c.t []).length ≥ 3 := by
    show ¬ (nth (init_search c N refs).labels c.t []).length ≥ 3
    rw [hlab1]
    simp
  rw [if_neg h2]

theorem search_loop_seed (c : Ctx) (tie : List PQItem → Nat) (N : Int) (refs : Refs)
    (hs : 0 ≤ c.s ∧ c.s < N) (hst : c.s = c.t) (k : Nat) :
    search_loop c tie (k + 2) (init_search c N refs) =
      { init_search c N refs with opn := [] } := by
  have hpop : pop_open tie (init_search c N refs).opn = some (seed_item c, []) := by
    rw [init_search_opn c N refs hs]
    exact pop_open_single tie _
  rw [search_loop, hpop]
  simp only
  rw [search_step_seed c N refs hs hst]
  simp only
  rw [search_loop]
  rfl

theorem reconstruct_path_seed {labels : List (List Label)} {t : Int} {L : Label}
    (ht : 0 ≤ t) (hrow : nth labels t [] = [L]) (h1 : L.prev_node = -1) (fuel : Nat) :
    reconstruct_path (fuel + 1) t 0 labels = .ok [t] := by
  have hread : read2 labels t 0 = some L := by
    unfold read2
    rw [if_pos ⟨ht, le_refl _⟩]
    unfold nth at hrow
    rw [List.getD_eq_getElem?_getD] at hrow
    cases hx : labels[t.toNat]? with
    | none => rw [hx] at hrow; exact absurd hrow (by simp)
    | some row =>
      rw [hx] at hrow
      simp only [Option.getD_some] at hrow
      rw [hrow]
      rfl
  have hwalk : reconstruct_walk labels fuel L.prev_node L.prev_label_idx ([] ++ [t]) =
      .ok [t] := by
    rw [h1]
    cases fuel with
    | zero => simp [reconstruct_walk]
    | succ f => simp [reconstruct_walk]
  unfold reconstruct_path
  rw [reconstruct_walk, if_pos ⟨by omega, by decide⟩, hread]
  simp only
  rw [hwalk]
  rfl

theorem idx_fast_single (L : Label) : idx_fast [L] = 0 := rfl

theorem idx_bright_single (L : Label) : idx_bright [L] = 0 := rfl

theorem idx_bal_single (hyp : ℚ → ℚ → ℚ) (L : Label) : idx_bal hyp [L] = 0 := by
  unfold idx_bal
  simp [List.range_succ, inf_gt]

theorem finish_seed (c : Ctx) (N : Int) (labels : List (List Label)) (ht : 0 ≤ c.t)
    (hrow : nth labels c.t [] = [seed_label c]) (fuel : Nat) :
    finish (fuel + 1) c N labels =
      .ok [{ name := "fastest", idx := 0, path := [c.t], time := 0,
             dark := max 0 (c.Lmax - nth c.light c.s 0) },
           { name := "best_lit", idx := 0, path := [c.t], time := 0,
             dark := max 0 (c.Lmax - nth c.light c.s 0) },
           { name := "balanced", idx := 0, path := [c.t], time := 0,
             dark := max 0 (c.Lmax - nth c.light c.s 0) }] := by
  have hp := reconstruct_path_seed ht hrow rfl fuel
  unfold finish
  simp only
  rw [hrow, if_neg (by simp), idx_fast_single, idx_bright_single, idx_bal_single]
  unfold pick
  rw [hp, hrow]
  rfl

/-- C23: on every valid input with `s = t`, whatever the edges and flags, `solve` returns
(once the fuel reaches `rd_fuel`) three Paths that each have the node sequence `[s]`,
`total_time = 0`, `total_dark = max(0, Lmax - light[s])` and label index 0, and leaves the
statics as they were, whatever the library `hypot`; `Lmax` is the maximum light value when
some light value is positive and 1 otherwise.  The open set starts as the seed item, the
first pass pops it and leaves the labels as they are, the loop ends on the empty open set,
and the seed label is the only label at the target, so the picks are read from it and not
from the fallback. -/
theorem C23_source_is_target (hyp : ℚ → ℚ → ℚ) (fuel : Nat) (tie : List PQItem → Nat)
    (refs : Refs) (N M : Int) (light : List ℚ) (crime : List Int) (input : List (List Int))
    (s : Int) (hv : ValidInput N light crime input s s)
    (hfuel : rd_fuel (build_graph N crime input) ≤ fuel) :
    solve hyp fuel tie refs N M light crime input s s =
        .ok ([{ name := "fastest", idx := 0, path := [s], time := 0,
                dark := max 0 (compute_Lmax light - nth light s 0) },
              { name := "best_lit", idx := 0, path := [s], time := 0,
                dark := max 0 (compute_Lmax light - nth light s 0) },
              { name := "balanced", idx := 0, path := [s], time := 0,
                dark := max 0 (compute_Lmax light - nth light s 0) }], refs) ∧
      ((∃ x ∈ light, 0 < x) →
        compute_Lmax light ∈ light ∧ ∀ x ∈ light, x ≤ compute_Lmax light) ∧
      ((∀ x ∈ light, x ≤ 0) → compute_Lmax light = 1) ∧
      ∃ c, mk_ctx hyp fuel N light crime input s s = .ok c ∧
        pop_open tie (init_search c N refs).opn = some (seed_item c, []) ∧
        search_step c (seed_item c) { init_search c N refs with opn := [] } =
          ({ init_search c N refs with opn := [] }, false) ∧
        run_search hyp fuel tie refs N light crime input s s =
          .ok (c, { init_search c N refs with opn := [] }) ∧
        nth (init_search c N refs).labels s [] = [seed_label c] := by
  obtain ⟨c, hc⟩ := mk_ctx_ok hv hfuel
  obtain ⟨_, hl, _, hs, ht, hLm, _⟩ := mk_ctx_fields hc
  have hsN : 0 ≤ c.s ∧ c.s < N := by rw [hs]; exact hv.2.2.2.1
  have hst : c.s = c.t := by rw [hs, ht]
  have hrow := init_search_target_labels c N refs hsN
  have hrun : run_search hyp fuel tie refs N light crime input s s =
      .ok (c, { init_search c N refs with opn := [] }) := by
    unfold run_search
    rw [hc]
    simp only
    rw [show MAX_ITERATIONS = 999998 + 2 from rfl, search_loop_seed c tie N refs hsN hst]
  have hfpos : ∃ f, fuel = f + 1 := by
    unfold rd_fuel at hfuel
    exact ⟨fuel - 1, by omega⟩
  obtain ⟨f, hf⟩ := hfpos
  have hfin := finish_seed c N ({ init_search c N refs with opn := [] } : Search).labels
    (by rw [← hst]; exact hsN.1) (by rw [← hst]; exact hrow) f
  refine ⟨?_, (compute_Lmax_spec light).1, (compute_Lmax_spec light).2, c, hc, ?_,
    search_step_seed c N refs hsN hst, hrun, by rw [← hs]; exact hrow⟩
  · rw [solve_of_run hrun rfl M, hf, hfin, ht, hs, hLm, hl]
    rfl
  · rw [init_search_opn c N refs hsN]
    exact pop_open_single tie _

/-- The hypotheses of C23 hold on the sample scenario with source and target both 3, where
the light value is 1/2 and `Lmax` is 1. -/
theorem C23_source_is_target_witness :
    ValidInput 6 sample_light sample_crime sample_input 3 3 ∧
      solve hypot_sq 100 tie0 none 6 6 sample_light sample_crime sample_input 3 3 =
        .ok ([{ name := "fastest", idx := 0, path := [3], time := 0, dark := 1 / 2 },
              { name := "best_lit", idx := 0, path := [3], time := 0, dark := 1 / 2 },
              { name := "balanced", idx := 0, path := [3], time := 0, dark := 1 / 2 }], none) :=
  ⟨by decide,
    (show max (0 : ℚ) (compute_Lmax sample_light - nth sample_light 3 0) = 1 / 2 from
        by decide!) ▸
      (C23_source_is_target hypot_sq 100 tie0 none 6 6 sample_light sample_crime
        sample_input 3 (by decide) (by decide!)).1⟩

end MOAStar
